import Mathlib

/-!
The read-only accessors of libfdt (`fdt.c`, `fdt_ro.c`): a shallow embedding.

The blob is a list of bytes; a pointer into the blob is the byte index it
designates, counted from the start of the blob, and `none` is the null
pointer.  Every C integer is an `Int`; the places where C computes in a
32-bit or 64-bit type apply `u32`, `i32` or `u64` explicitly (two's
complement, `int` = 32 bits, `size_t` = 64 bits).  Loops that the C code
bounds only through the contents of the blob take a `fuel` argument and
return `none` when it runs out.
-/

namespace Libfdt

/-! ## Machine integers -/

/-- Conversion to `uint32_t` / `unsigned`. -/
def u32 (x : Int) : Int := x % 4294967296

/-- Conversion to `int`. -/
def i32 (x : Int) : Int := (x + 2147483648) % 4294967296 - 2147483648

/-- Conversion to `size_t`. -/
def u64 (x : Int) : Int := x % 18446744073709551616

def INT_MAX : Int := 2147483647

/-! ## The blob and its header -/

abbrev Blob := List UInt8

/-- The byte at index `p` of the blob, as `unsigned char`; an index outside
the list reads as 0. -/
def rd8 (fdt : Blob) (p : Int) : Int :=
  if p < 0 then 0 else ((fdt.getD p.toNat 0).toNat : Int)

/-- Big-endian 32-bit load (`fdt32_ld`, `fdt32_to_cpu(*p)`). -/
def fdt32_ld (fdt : Blob) (p : Int) : Int :=
  rd8 fdt p * 16777216 + rd8 fdt (p + 1) * 65536 + rd8 fdt (p + 2) * 256 + rd8 fdt (p + 3)

/-- Big-endian 64-bit load (`fdt64_ld`). -/
def fdt64_ld (fdt : Blob) (p : Int) : Int :=
  fdt32_ld fdt p * 4294967296 + fdt32_ld fdt (p + 4)

/-- Modelled from the spec: the magic word of `fdt.h`, which is not among the
sources (spec §3, §6: `0xd00dfeed`; the comment at `fdt.c:68` agrees). -/
def FDT_MAGIC : Int := 0xd00dfeed

/-- Modelled from the spec: the sequential-write magic, the bitwise complement
of `FDT_MAGIC` (spec §4.1, §6; comment at `fdt.c:79`). -/
def FDT_SW_MAGIC : Int := 4294967295 - FDT_MAGIC

/-- Modelled from the spec: size of a tag word (spec §3: 32-bit tags; comment
at `fdt.c:243`). -/
def FDT_TAGSIZE : Int := 4

/-- Modelled from the spec: the tag values of `fdt.h` (spec §3, §6). -/
def FDT_BEGIN_NODE : Int := 1
/-- Modelled from the spec: the tag values of `fdt.h` (spec §3, §6). -/
def FDT_END_NODE : Int := 2
/-- Modelled from the spec: the tag values of `fdt.h` (spec §3, §6). -/
def FDT_PROP : Int := 3
/-- Modelled from the spec: the tag values of `fdt.h` (spec §3, §6). -/
def FDT_NOP : Int := 4
/-- Modelled from the spec: the tag values of `fdt.h` (spec §3, §6). -/
def FDT_END : Int := 9

/-- The value the comment at `fdt.c:72` gives for this constant of `libfdt.h`
(`FDT_FIRST_SUPPORTED_VERSION = 0x02`). -/
def FDT_FIRST_SUPPORTED_VERSION : Int := 0x02

/-- The value the comment at `fdt.c:75` gives for this constant of `libfdt.h`
(`FDT_LAST_SUPPORTED_VERSION = 0x11`). -/
def FDT_LAST_SUPPORTED_VERSION : Int := 0x11

/-! Modelled from the spec: the error codes of `libfdt.h`, which is not among
the sources.  Spec §7 names them and says they are returned negated; the
numbers are those of libfdt's public header.  The development uses only
that they are positive and pairwise distinct. -/

def FDT_ERR_NOTFOUND : Int := 1
def FDT_ERR_EXISTS : Int := 2
def FDT_ERR_NOSPACE : Int := 3
def FDT_ERR_BADOFFSET : Int := 4
def FDT_ERR_BADPATH : Int := 5
def FDT_ERR_BADPHANDLE : Int := 6
def FDT_ERR_BADSTATE : Int := 7
def FDT_ERR_TRUNCATED : Int := 8
def FDT_ERR_BADMAGIC : Int := 9
def FDT_ERR_BADVERSION : Int := 10
def FDT_ERR_BADSTRUCTURE : Int := 11
def FDT_ERR_BADLAYOUT : Int := 12
def FDT_ERR_INTERNAL : Int := 13
def FDT_ERR_BADNCELLS : Int := 14
def FDT_ERR_BADVALUE : Int := 15

/-! Modelled from the spec: the header field accessors of `libfdt.h`
(`fdt_get_header`), which is not among the sources.  Spec §3 lists the fields
in order, all big-endian 32-bit words, so field `k` is at byte `4 * k`. -/

def fdt_magic (fdt : Blob) : Int := fdt32_ld fdt 0
def fdt_totalsize (fdt : Blob) : Int := fdt32_ld fdt 4
def fdt_off_dt_struct (fdt : Blob) : Int := fdt32_ld fdt 8
def fdt_off_dt_strings (fdt : Blob) : Int := fdt32_ld fdt 12
def fdt_off_mem_rsvmap (fdt : Blob) : Int := fdt32_ld fdt 16
def fdt_version (fdt : Blob) : Int := fdt32_ld fdt 20
def fdt_last_comp_version (fdt : Blob) : Int := fdt32_ld fdt 24
def fdt_boot_cpuid_phys (fdt : Blob) : Int := fdt32_ld fdt 28
def fdt_size_dt_strings (fdt : Blob) : Int := fdt32_ld fdt 32
def fdt_size_dt_struct (fdt : Blob) : Int := fdt32_ld fdt 36

/-- The header-size constants `FDT_V1_SIZE` ... `FDT_V17_SIZE` of `fdt.h`,
which is not among the sources: they are a parameter of the functions that
use them. -/
structure HdrSizes where
  v1 : Int
  v2 : Int
  v3 : Int
  v16 : Int
  v17 : Int

/-- Modelled from the spec: the header sizes of the table in spec §3
(V1: 28, V2: 32, V3: 36, V16: 40, V17: 44). -/
def specSizes : HdrSizes := ⟨28, 32, 36, 40, 44⟩

/-! ## fdt.c -/

/-- `fdt_ro_probe_` (fdt.c:66). -/
def fdt_ro_probe_ (fdt : Blob) : Int :=
  if fdt_magic fdt = FDT_MAGIC then
    if fdt_version fdt < FDT_FIRST_SUPPORTED_VERSION then -FDT_ERR_BADVERSION
    else if fdt_last_comp_version fdt > FDT_LAST_SUPPORTED_VERSION then -FDT_ERR_BADVERSION
    else 0
  else if fdt_magic fdt = FDT_SW_MAGIC then
    if fdt_size_dt_struct fdt = 0 then -FDT_ERR_BADSTATE else 0
  else -FDT_ERR_BADMAGIC

/-- `check_off_` (fdt.c:98); the arguments are `uint32_t`. -/
def check_off_ (hdrsize totalsize off : Int) : Bool :=
  decide (off ≥ hdrsize) && decide (off ≤ totalsize)

/-- `check_block_` (fdt.c:106); the arguments are `uint32_t`. -/
def check_block_ (hdrsize totalsize base size : Int) : Bool :=
  if !check_off_ hdrsize totalsize base then false
  else if u32 (base + size) < base then false
  else if !check_off_ hdrsize totalsize (u32 (base + size)) then false
  else true

/-- `fdt_header_size_` (fdt.c:126). -/
def fdt_header_size_ (sz : HdrSizes) (version : Int) : Int :=
  if version ≤ 1 then sz.v1
  else if version ≤ 2 then sz.v2
  else if version ≤ 3 then sz.v3
  else if version ≤ 16 then sz.v16
  else sz.v17

/-- Modelled from the spec: `fdt_header_size` of `libfdt_internal.h`, the
header size of the blob's own version (spec §4.1). -/
def fdt_header_size (sz : HdrSizes) (fdt : Blob) : Int :=
  fdt_header_size_ sz (fdt_version fdt)

/-- `fdt_check_header` (fdt.c:146).  `hdrsize` is a `size_t` and is passed to
`check_off_` and `check_block_` as a `uint32_t`. -/
def fdt_check_header (sz : HdrSizes) (fdt : Blob) : Int :=
  if fdt_magic fdt ≠ FDT_MAGIC then -FDT_ERR_BADMAGIC
  else
    let hdrsize := fdt_header_size sz fdt
    if fdt_version fdt < FDT_FIRST_SUPPORTED_VERSION
        ∨ fdt_last_comp_version fdt > FDT_LAST_SUPPORTED_VERSION then -FDT_ERR_BADVERSION
    else if fdt_version fdt < fdt_last_comp_version fdt then -FDT_ERR_BADVERSION
    else if fdt_totalsize fdt < hdrsize ∨ fdt_totalsize fdt > INT_MAX then -FDT_ERR_TRUNCATED
    else if !check_off_ (u32 hdrsize) (fdt_totalsize fdt) (fdt_off_mem_rsvmap fdt) then
      -FDT_ERR_TRUNCATED
    else if (if fdt_version fdt < 17 then
          !check_off_ (u32 hdrsize) (fdt_totalsize fdt) (fdt_off_dt_struct fdt)
        else
          !check_block_ (u32 hdrsize) (fdt_totalsize fdt) (fdt_off_dt_struct fdt)
            (fdt_size_dt_struct fdt)) then
      -FDT_ERR_TRUNCATED
    else if !check_block_ (u32 hdrsize) (fdt_totalsize fdt) (fdt_off_dt_strings fdt)
        (fdt_size_dt_strings fdt) then
      -FDT_ERR_TRUNCATED
    else 0

/-- Modelled from the spec: `fdt_offset_ptr_` of `libfdt_internal.h`, the
unchecked pointer `blob + off_dt_struct + off` (spec §4.2). -/
def fdt_offset_ptr_ (fdt : Blob) (offset : Int) : Int :=
  fdt_off_dt_struct fdt + offset

/-- `fdt_offset_ptr` (fdt.c:197): `offset` is an `int`, `len` an `unsigned`;
the comparisons of `absoffset` with `offset` and of `offset + len` with
`offset` are made in `unsigned`. -/
def fdt_offset_ptr (fdt : Blob) (offset len : Int) : Option Int :=
  let absoffset := u32 (offset + fdt_off_dt_struct fdt)
  if absoffset < u32 offset
      ∨ u32 (absoffset + len) < absoffset
      ∨ u32 (absoffset + len) > fdt_totalsize fdt then none
  else if fdt_version fdt ≥ 0x11
      ∧ (u32 (offset + len) < u32 offset ∨ u32 (offset + len) > fdt_size_dt_struct fdt) then none
  else some (fdt_offset_ptr_ fdt offset)

/-- Modelled from the spec: `FDT_TAGALIGN` of `libfdt_internal.h`,
`(x + 3) & ~3` in `int`: rounding up to 4-byte alignment (spec §4.2). -/
def FDT_TAGALIGN (x : Int) : Int := i32 (x + 3) - i32 (x + 3) % 4

/-- The name loop of `fdt_next_tag` (fdt.c:256):
`do { p = fdt_offset_ptr(fdt, offset++, 1); } while (p && (*p != '\0'));`
The result is the value of `offset` after the loop, or `none` when `p` ended
null.  The loop runs at most `fdt_totalsize fdt + 1` times
(`skip_name_fuel`); `fuel` bounds it. -/
def skip_name (fdt : Blob) : Nat → Int → Option Int
  | 0, _ => none
  | fuel + 1, offset =>
    match fdt_offset_ptr fdt offset 1 with
    | none => none
    | some p =>
      if rd8 fdt p ≠ 0 then skip_name fdt fuel (i32 (offset + 1))
      else some (i32 (offset + 1))

/-- The `switch (tag)` of `fdt_next_tag` (fdt.c:250), entered with `offset`
just after the tag word: the value of `offset` after the payload, or `none`
where the C code returns `FDT_END` from inside the switch.  The sum
`sizeof(struct fdt_property) - FDT_TAGSIZE + len` is a `size_t` and is
converted back to `int` by `offset +=`. -/
def next_tag_payload (fdt : Blob) (tag offset : Int) : Option Int :=
  if tag = FDT_BEGIN_NODE then
    skip_name fdt ((fdt_totalsize fdt).toNat + 1) offset
  else if tag = FDT_PROP then
    match fdt_offset_ptr fdt offset 4 with
    | none => none
    | some lenp =>
      let len := fdt32_ld fdt lenp
      let offset := i32 (u64 (u64 offset + u64 (12 - FDT_TAGSIZE) + len))
      if fdt_version fdt < 0x10 ∧ len ≥ 8 ∧ u32 (offset - len) % 8 ≠ 0 then
        some (i32 (offset + 4))
      else some offset
  else if tag = FDT_END ∨ tag = FDT_END_NODE ∨ tag = FDT_NOP then some offset
  else none

/-- `fdt_next_tag` (fdt.c:226): the result is `(tag, *nextoffset)`. -/
def fdt_next_tag (fdt : Blob) (startoffset : Int) : Int × Int :=
  match fdt_offset_ptr fdt startoffset FDT_TAGSIZE with
  | none => (FDT_END, -FDT_ERR_TRUNCATED)
  | some tagp =>
    let tag := fdt32_ld fdt tagp
    match next_tag_payload fdt tag (i32 (startoffset + FDT_TAGSIZE)) with
    | none => (FDT_END, -FDT_ERR_BADSTRUCTURE)
    | some offset =>
      match fdt_offset_ptr fdt startoffset (u32 (offset - startoffset)) with
      | none => (FDT_END, -FDT_ERR_BADSTRUCTURE)
      | some _ => (tag, FDT_TAGALIGN offset)

/-- `fdt_check_node_offset_` (fdt.c:313). -/
def fdt_check_node_offset_ (fdt : Blob) (offset : Int) : Int :=
  if offset < 0 ∨ offset % FDT_TAGSIZE ≠ 0 then -FDT_ERR_BADOFFSET
  else if (fdt_next_tag fdt offset).1 ≠ FDT_BEGIN_NODE then -FDT_ERR_BADOFFSET
  else (fdt_next_tag fdt offset).2

/-- `fdt_check_prop_offset_` (fdt.c:326). -/
def fdt_check_prop_offset_ (fdt : Blob) (offset : Int) : Int :=
  if offset < 0 ∨ offset % FDT_TAGSIZE ≠ 0 then -FDT_ERR_BADOFFSET
  else if (fdt_next_tag fdt offset).1 ≠ FDT_PROP then -FDT_ERR_BADOFFSET
  else (fdt_next_tag fdt offset).2

/-- The `do ... while (tag != FDT_BEGIN_NODE)` loop of `fdt_next_node`
(fdt.c:350), entered with `nextoffset`; `depth` is `none` for a null `depth`
pointer.  The result is the returned value and the final `*depth`. -/
def fdt_next_node_loop (fdt : Blob) : Nat → Int → Option Int → Option (Int × Option Int)
  | 0, _, _ => none
  | fuel + 1, nextoffset, depth =>
    let offset := nextoffset
    let tag := (fdt_next_tag fdt offset).1
    let nextoffset := (fdt_next_tag fdt offset).2
    if tag = FDT_PROP ∨ tag = FDT_NOP then fdt_next_node_loop fdt fuel nextoffset depth
    else if tag = FDT_BEGIN_NODE then some (offset, depth.map fun d => i32 (d + 1))
    else if tag = FDT_END_NODE then
      match depth with
      | some d =>
        if i32 (d - 1) < 0 then some (nextoffset, some (i32 (d - 1)))
        else fdt_next_node_loop fdt fuel nextoffset (some (i32 (d - 1)))
      | none => fdt_next_node_loop fdt fuel nextoffset none
    else if tag = FDT_END then
      if nextoffset ≥ 0 ∨ (nextoffset = -FDT_ERR_TRUNCATED ∧ depth = none) then
        some (-FDT_ERR_NOTFOUND, depth)
      else some (nextoffset, depth)
    else fdt_next_node_loop fdt fuel nextoffset depth

/-- `fdt_next_node` (fdt.c:339). -/
def fdt_next_node (fuel : Nat) (fdt : Blob) (offset : Int) (depth : Option Int) :
    Option (Int × Option Int) :=
  if offset ≥ 0 then
    if fdt_check_node_offset_ fdt offset < 0 then
      some (fdt_check_node_offset_ fdt offset, depth)
    else fdt_next_node_loop fdt fuel (fdt_check_node_offset_ fdt offset) depth
  else fdt_next_node_loop fdt fuel 0 depth

/-- `fdt_first_subnode` (fdt.c:398). -/
def fdt_first_subnode (fuel : Nat) (fdt : Blob) (offset : Int) : Option Int :=
  (fdt_next_node fuel fdt offset (some 0)).map fun r =>
    if r.1 < 0 ∨ r.2 ≠ some 1 then -FDT_ERR_NOTFOUND else r.1

/-- The `do ... while (depth > 1)` loop of `fdt_next_subnode` (fdt.c:427);
`fuel0` is the fuel of each `fdt_next_node` call. -/
def fdt_next_subnode_loop (fuel0 : Nat) (fdt : Blob) : Nat → Int → Int → Option Int
  | 0, _, _ => none
  | fuel + 1, offset, depth =>
    match fdt_next_node fuel0 fdt offset (some depth) with
    | none => none
    | some (offset, depth) =>
      if offset < 0 ∨ depth.getD 0 < 1 then some (-FDT_ERR_NOTFOUND)
      else if depth.getD 0 > 1 then fdt_next_subnode_loop fuel0 fdt fuel offset (depth.getD 0)
      else some offset

/-- `fdt_next_subnode` (fdt.c:415). -/
def fdt_next_subnode (fuel : Nat) (fdt : Blob) (offset : Int) : Option Int :=
  fdt_next_subnode_loop fuel fdt fuel offset 1

/-! ## fdt_ro.c -/

/-- Modelled from the spec: the `FDT_RO_PROBE` macro of `libfdt_internal.h`
is `if ((err = fdt_ro_probe_(fdt)) != 0) return err;` (spec §2: every query
passes through the probe first).  The functions below write it out. -/
def FDT_RO_PROBE (fdt : Blob) : Option Int :=
  if fdt_ro_probe_ fdt ≠ 0 then some (fdt_ro_probe_ fdt) else none

/-- `memchr(s, c, n)` over the bytes `rd s`, `rd (s + 1)`, ...: the index of
the first one equal to `c` among the first `n`, if any. -/
def memchr (rd : Int → Int) (c : Int) : Nat → Int → Option Int
  | 0, _ => none
  | n + 1, s => if rd s = c then some s else memchr rd c n (s + 1)

/-- `memcmp(p, s, n) == 0` for the bytes `rp p ...` and `rs s ...`. -/
def memeq (rp rs : Int → Int) (p s : Int) (n : Nat) : Bool :=
  (List.range n).all fun i => decide (rp (p + i) = rs (s + i))

/-- The C string that starts at byte `p` of `mem`: the bytes before the first
NUL. -/
def cstr (mem : List UInt8) (p : Int) : List UInt8 :=
  (mem.drop p.toNat).takeWhile fun b => b ≠ 0

/-- `strlen(mem + p)`, a `size_t`; the callers below store it in an `int`. -/
def strlen (mem : List UInt8) (p : Int) : Int := (cstr mem p).length

/-- `fdt_get_string` (fdt_ro.c:97): the result is the returned pointer and the
value written to `*lenp`.  `len` is a `size_t`; `stroffset` is an `int`. -/
def fdt_get_string (fdt : Blob) (stroffset : Int) : Option Int × Int :=
  let absoffset := u32 (stroffset + fdt_off_dt_strings fdt)
  if fdt_ro_probe_ fdt ≠ 0 then (none, fdt_ro_probe_ fdt)
  else if absoffset ≥ fdt_totalsize fdt then (none, -FDT_ERR_BADOFFSET)
  else
    let len := u32 (fdt_totalsize fdt - absoffset)
    let lenOpt : Option Int :=
      if fdt_magic fdt = FDT_MAGIC then
        if stroffset < 0 then none
        else if fdt_version fdt ≥ 17 then
          if u32 stroffset ≥ fdt_size_dt_strings fdt then none
          else if u32 (fdt_size_dt_strings fdt - stroffset) < len then
            some (u32 (fdt_size_dt_strings fdt - stroffset))
          else some len
        else some len
      else if fdt_magic fdt = FDT_SW_MAGIC then
        if stroffset ≥ 0 ∨ u32 stroffset < u32 (-fdt_size_dt_strings fdt) then none
        else if u64 (i32 (-stroffset)) < len then some (u64 (i32 (-stroffset)))
        else some len
      else none
    match lenOpt with
    | none =>
      if fdt_magic fdt = FDT_MAGIC ∨ fdt_magic fdt = FDT_SW_MAGIC then (none, -FDT_ERR_BADOFFSET)
      else (none, -FDT_ERR_INTERNAL)
    | some len =>
      let s := absoffset
      match memchr (rd8 fdt) 0 len.toNat s with
      | none => (none, -FDT_ERR_TRUNCATED)
      | some n => (some s, i32 (n - s))

/-- `fdt_string` (fdt_ro.c:173). -/
def fdt_string (fdt : Blob) (stroffset : Int) : Option Int :=
  (fdt_get_string fdt stroffset).1

/-- `fdt_string_eq_` (fdt_ro.c:182): `s` is the caller's memory, `len` an
`int`. -/
def fdt_string_eq_ (fdt : Blob) (stroffset : Int) (s : List UInt8) (len : Int) : Bool :=
  match fdt_get_string fdt stroffset with
  | (none, _) => false
  | (some p, slen) => decide (slen = len) && memeq (rd8 fdt) (rd8 s) p 0 len.toNat

/-- `fdt_mem_rsv` (fdt_ro.c:231).  `n * sizeof(struct fdt_reserve_entry)` is a
`size_t` stored in an `int`; the first comparison is made in `unsigned`, the
second in `size_t`.  The result is the pointer `fdt_mem_rsv_(fdt, n)`. -/
def fdt_mem_rsv (fdt : Blob) (n : Int) : Option Int :=
  let offset := i32 (u64 (u64 n * 16))
  let absoffset := i32 (u32 (fdt_off_mem_rsvmap fdt + offset))
  if u32 absoffset < fdt_off_mem_rsvmap fdt then none
  else if u64 absoffset > u64 (fdt_totalsize fdt - 16) then none
  else some (fdt_off_mem_rsvmap fdt + 16 * n)

/-- The `for` loop of `fdt_num_mem_rsv` (fdt_ro.c:284), entered with `i`. -/
def fdt_num_mem_rsv_loop (fdt : Blob) : Nat → Int → Option Int
  | 0, _ => none
  | fuel + 1, i =>
    match fdt_mem_rsv fdt i with
    | none => some (-FDT_ERR_TRUNCATED)
    | some re =>
      if fdt64_ld fdt (re + 8) = 0 then some i
      else fdt_num_mem_rsv_loop fdt fuel (i32 (i + 1))

/-- `fdt_num_mem_rsv` (fdt_ro.c:277). -/
def fdt_num_mem_rsv (fuel : Nat) (fdt : Blob) : Option Int :=
  fdt_num_mem_rsv_loop fdt fuel 0

/-- `nextprop_` (fdt_ro.c:294). -/
def nextprop_ (fdt : Blob) : Nat → Int → Option Int
  | 0, _ => none
  | fuel + 1, offset =>
    let tag := (fdt_next_tag fdt offset).1
    let nextoffset := (fdt_next_tag fdt offset).2
    if tag = FDT_END then
      if nextoffset ≥ 0 then some (-FDT_ERR_BADSTRUCTURE) else some nextoffset
    else if tag = FDT_PROP then some offset
    else if tag = FDT_NOP then nextprop_ fdt fuel nextoffset
    else some (-FDT_ERR_NOTFOUND)

/-- `fdt_first_property_offset` (fdt_ro.c:506). -/
def fdt_first_property_offset (fuel : Nat) (fdt : Blob) (nodeoffset : Int) : Option Int :=
  if fdt_check_node_offset_ fdt nodeoffset < 0 then some (fdt_check_node_offset_ fdt nodeoffset)
  else nextprop_ fdt fuel (fdt_check_node_offset_ fdt nodeoffset)

/-- `fdt_next_property_offset` (fdt_ro.c:521). -/
def fdt_next_property_offset (fuel : Nat) (fdt : Blob) (offset : Int) : Option Int :=
  if fdt_check_prop_offset_ fdt offset < 0 then some (fdt_check_prop_offset_ fdt offset)
  else nextprop_ fdt fuel (fdt_check_prop_offset_ fdt offset)

/-- `fdt_get_property_by_offset_` (fdt_ro.c:535): the returned property
pointer and the value written to `*lenp` (the `uint32_t` length stored in an
`int`). -/
def fdt_get_property_by_offset_ (fdt : Blob) (offset : Int) : Option Int × Int :=
  if fdt_check_prop_offset_ fdt offset < 0 then (none, fdt_check_prop_offset_ fdt offset)
  else (some (fdt_offset_ptr_ fdt offset), i32 (fdt32_ld fdt (fdt_offset_ptr_ fdt offset + 4)))

/-- `fdt_get_property_by_offset` (fdt_ro.c:566). -/
def fdt_get_property_by_offset (fdt : Blob) (offset : Int) : Option Int × Int :=
  if fdt_version fdt < 0x10 then (none, -FDT_ERR_BADVERSION)
  else fdt_get_property_by_offset_ fdt offset

/-- The `for` loop of `fdt_get_property_namelen_` (fdt_ro.c:598), entered with
`offset`; `fuel0` is the fuel of each `fdt_next_property_offset` call.  The
result is the property pointer with `*poffset`, or null, and `*lenp`.  The
stored `uint32_t` name offset is passed to the `int stroffset` of
`fdt_string_eq_` (fdt_ro.c:610). -/
def fdt_get_property_namelen_loop (fuel0 : Nat) (fdt : Blob) (name : List UInt8)
    (namelen : Int) : Nat → Int → Option (Option (Int × Int) × Int)
  | 0, _ => none
  | fuel + 1, offset =>
    if offset ≥ 0 then
      match fdt_get_property_by_offset_ fdt offset with
      | (none, _) => some (none, -FDT_ERR_INTERNAL)
      | (some prop, len) =>
        if fdt_string_eq_ fdt (i32 (fdt32_ld fdt (prop + 8))) name namelen then
          some (some (prop, offset), len)
        else
          match fdt_next_property_offset fuel0 fdt offset with
          | none => none
          | some offset => fdt_get_property_namelen_loop fuel0 fdt name namelen fuel offset
    else some (none, offset)

/-- `fdt_get_property_namelen_` (fdt_ro.c:589). -/
def fdt_get_property_namelen_ (fuel : Nat) (fdt : Blob) (offset : Int) (name : List UInt8)
    (namelen : Int) : Option (Option (Int × Int) × Int) :=
  match fdt_first_property_offset fuel fdt offset with
  | none => none
  | some offset => fdt_get_property_namelen_loop fuel fdt name namelen fuel offset

/-- `fdt_get_property_namelen` (fdt_ro.c:631). -/
def fdt_get_property_namelen (fuel : Nat) (fdt : Blob) (offset : Int) (name : List UInt8)
    (namelen : Int) : Option (Option Int × Int) :=
  if fdt_version fdt < 0x10 then some (none, -FDT_ERR_BADVERSION)
  else (fdt_get_property_namelen_ fuel fdt offset name namelen).map fun r =>
    (r.1.map fun q => q.1, r.2)

/-- `fdt_get_property` (fdt_ro.c:654). -/
def fdt_get_property (fuel : Nat) (fdt : Blob) (nodeoffset : Int) (name : List UInt8) :
    Option (Option Int × Int) :=
  fdt_get_property_namelen fuel fdt nodeoffset name (i32 (strlen name 0))

/-- The realignment of `fdt_getprop_namelen` and `fdt_getprop_by_offset`
(fdt_ro.c:684, 714): the value pointer of the property `prop` found at
`offset`; `offset + sizeof(*prop)` is a `size_t`. -/
def prop_data (fdt : Blob) (prop offset : Int) : Int :=
  if fdt_version fdt < 0x10 ∧ u64 (u64 offset + 12) % 8 ≠ 0 ∧ fdt32_ld fdt (prop + 4) ≥ 8 then
    prop + 12 + 4
  else prop + 12

/-- `fdt_getprop_namelen` (fdt_ro.c:667): the value pointer and `*lenp`. -/
def fdt_getprop_namelen (fuel : Nat) (fdt : Blob) (nodeoffset : Int) (name : List UInt8)
    (namelen : Int) : Option (Option Int × Int) :=
  (fdt_get_property_namelen_ fuel fdt nodeoffset name namelen).map fun r =>
    match r.1 with
    | none => (none, r.2)
    | some (prop, poffset) => (some (prop_data fdt prop poffset), r.2)

/-- `fdt_getprop_by_offset` (fdt_ro.c:692): the value pointer, the name
written to `*namep`, and `*lenp`; `wantName` says that `namep` is not
null.  The stored `uint32_t` name offset is passed to the `int stroffset` of
`fdt_get_string` (fdt_ro.c:703). -/
def fdt_getprop_by_offset (fdt : Blob) (offset : Int) (wantName : Bool) :
    Option Int × Option Int × Int :=
  match fdt_get_property_by_offset_ fdt offset with
  | (none, len) => (none, none, len)
  | (some prop, len) =>
    if wantName then
      match fdt_get_string fdt (i32 (fdt32_ld fdt (prop + 8))) with
      | (none, namelen) => (none, none, namelen)
      | (some name, _) => (some (prop_data fdt prop offset), some name, len)
    else (some (prop_data fdt prop offset), none, len)

/-- `fdt_getprop` (fdt_ro.c:720). -/
def fdt_getprop (fuel : Nat) (fdt : Blob) (nodeoffset : Int) (name : List UInt8) :
    Option (Option Int × Int) :=
  fdt_getprop_namelen fuel fdt nodeoffset name (i32 (strlen name 0))

/-- The string literal `"phandle"`. -/
def str_phandle : List UInt8 := [0x70, 0x68, 0x61, 0x6e, 0x64, 0x6c, 0x65]

/-- The string literal `"linux,phandle"`. -/
def str_linux_phandle : List UInt8 :=
  [0x6c, 0x69, 0x6e, 0x75, 0x78, 0x2c, 0x70, 0x68, 0x61, 0x6e, 0x64, 0x6c, 0x65]

/-- `fdt_get_phandle` (fdt_ro.c:726); `sizeof(*php)` is 4. -/
def fdt_get_phandle (fuel : Nat) (fdt : Blob) (nodeoffset : Int) : Option Int :=
  match fdt_getprop fuel fdt nodeoffset str_phandle with
  | none => none
  | some (php, len) =>
    if php.isNone ∨ len ≠ 4 then
      match fdt_getprop fuel fdt nodeoffset str_linux_phandle with
      | none => none
      | some (php, len) =>
        if php.isNone ∨ len ≠ 4 then some 0 else some (fdt32_ld fdt (php.getD 0))
    else some (fdt32_ld fdt (php.getD 0))

/-- `strrchr(mem + p, '/')`: the index of the last `'/'` of the C string at
`p`, if any. -/
def strrchr_slash (mem : List UInt8) (p : Int) : Option Int :=
  ((List.range (cstr mem p).length).reverse.find? fun i => (cstr mem p).getD i 0 = 0x2f).map
    fun i => p + i

/-- `fdt_get_name` (fdt_ro.c:452): the name pointer and `*len`. -/
def fdt_get_name (fdt : Blob) (nodeoffset : Int) : Option Int × Int :=
  let nh := fdt_offset_ptr_ fdt nodeoffset
  if fdt_ro_probe_ fdt ≠ 0 then (none, fdt_ro_probe_ fdt)
  else if fdt_check_node_offset_ fdt nodeoffset < 0 then
    (none, fdt_check_node_offset_ fdt nodeoffset)
  else
    let nameptr := nh + 4
    if fdt_version fdt < 0x10 then
      match strrchr_slash fdt nameptr with
      | none => (none, -FDT_ERR_BADSTRUCTURE)
      | some leaf => (some (leaf + 1), i32 (strlen fdt (leaf + 1)))
    else (some nameptr, i32 (strlen fdt nameptr))

/-- `fdt_nodename_eq_` (fdt_ro.c:63); `s` is the caller's memory.  The stray
quote after `return 1;` at fdt_ro.c:84 is left out. -/
def fdt_nodename_eq_ (fdt : Blob) (offset : Int) (s : List UInt8) (len : Int) : Bool :=
  match fdt_get_name fdt offset with
  | (none, _) => false
  | (some p, olen) =>
    if olen < len then false
    else if !memeq (rd8 fdt) (rd8 s) p 0 len.toNat then false
    else if rd8 fdt (p + len) = 0 then true
    else if (memchr (rd8 s) 0x40 len.toNat 0).isNone ∧ rd8 fdt (p + len) = 0x40 then true
    else false

/-- The `for` loop of `fdt_subnode_offset_namelen` (fdt_ro.c:345), entered
with `offset` and `depth`; `fuel0` is the fuel of each `fdt_next_node`
call. -/
def fdt_subnode_offset_namelen_loop (fuel0 : Nat) (fdt : Blob) (name : List UInt8)
    (namelen : Int) : Nat → Int → Int → Option Int
  | 0, _, _ => none
  | fuel + 1, offset, depth =>
    if offset ≥ 0 ∧ depth ≥ 0 then
      if depth = 1 ∧ fdt_nodename_eq_ fdt offset name namelen then some offset
      else
        match fdt_next_node fuel0 fdt offset (some depth) with
        | none => none
        | some (offset, depth) =>
          fdt_subnode_offset_namelen_loop fuel0 fdt name namelen fuel offset (depth.getD 0)
    else if depth < 0 then some (-FDT_ERR_NOTFOUND)
    else some offset

/-- `fdt_subnode_offset_namelen` (fdt_ro.c:333). -/
def fdt_subnode_offset_namelen (fuel : Nat) (fdt : Blob) (offset : Int) (name : List UInt8)
    (namelen : Int) : Option Int :=
  if fdt_ro_probe_ fdt ≠ 0 then some (fdt_ro_probe_ fdt)
  else fdt_subnode_offset_namelen_loop fuel fdt name namelen fuel offset 0

/-- `fdt_subnode_offset` (fdt_ro.c:366). -/
def fdt_subnode_offset (fuel : Nat) (fdt : Blob) (parentoffset : Int) (name : List UInt8) :
    Option Int :=
  fdt_subnode_offset_namelen fuel fdt parentoffset name (i32 (strlen name 0))

/-- The inner loop `while (*p == '/') { p++; if (p == end) return offset; }`
of `fdt_path_offset_namelen` (fdt_ro.c:415): `some p` is the position where
it stops, `none` says that it returned `offset`. -/
def skip_slashes (path : List UInt8) (end_ : Int) : Nat → Int → Option Int
  | 0, p => some p
  | n + 1, p =>
    if rd8 path p = 0x2f then
      if p + 1 = end_ then none else skip_slashes path end_ n (p + 1)
    else some p

/-- The loop `while (p < end)` of `fdt_path_offset_namelen` (fdt_ro.c:411),
entered with `p` and `offset`; `fuel0` is the fuel of each
`fdt_subnode_offset_namelen` call.  `p` and `end_` are indices into `path`. -/
def fdt_path_offset_namelen_loop (fuel0 : Nat) (fdt : Blob) (path : List UInt8) (end_ : Int) :
    Nat → Int → Int → Option Int
  | 0, _, _ => none
  | fuel + 1, p, offset =>
    if p < end_ then
      match skip_slashes path end_ (end_ - p).toNat p with
      | none => some offset
      | some p =>
        let q := (memchr (rd8 path) 0x2f (end_ - p).toNat p).getD end_
        match fdt_subnode_offset_namelen fuel0 fdt offset (path.drop p.toNat) (q - p) with
        | none => none
        | some offset =>
          if offset < 0 then some offset
          else fdt_path_offset_namelen_loop fuel0 fdt path end_ fuel q offset
    else some offset

/-- The string literal `"/aliases"`. -/
def str_aliases : List UInt8 := [0x2f, 0x61, 0x6c, 0x69, 0x61, 0x73, 0x65, 0x73]

/-- `fdt_path_offset_namelen` (fdt_ro.c:375) together with
`fdt_get_alias_namelen` (fdt_ro.c:743) and `fdt_path_offset`
(fdt_ro.c:444), which it calls and which call it back: `path` is the memory
at the C pointer `path`, and each level of the recursion through an alias
uses one unit of `fuel`.  The alias value is a pointer into the blob, so the
recursive call reads its path from the blob. -/
def fdt_path_offset_namelen : Nat → Blob → List UInt8 → Int → Option Int
  | 0, _, _, _ => none
  | fuel + 1, fdt, path, namelen =>
    let end_ := namelen
    if fdt_ro_probe_ fdt ≠ 0 then some (fdt_ro_probe_ fdt)
    else if rd8 path 0 ≠ 0x2f then
      let q := (memchr (rd8 path) 0x2f end_.toNat 0).getD end_
      -- fdt_get_alias_namelen(fdt, p, q - p)
      match fdt_path_offset_namelen fuel fdt str_aliases (i32 (strlen str_aliases 0)) with
      | none => none
      | some aliasoffset =>
        if aliasoffset < 0 then some (-FDT_ERR_BADPATH)
        else
          match fdt_getprop_namelen (fuel + 1) fdt aliasoffset path q with
          | none => none
          | some (none, _) => some (-FDT_ERR_BADPATH)
          | some (some p, _) =>
            -- fdt_path_offset(fdt, p)
            match fdt_path_offset_namelen fuel fdt (fdt.drop p.toNat)
                (i32 (strlen (fdt.drop p.toNat) 0)) with
            | none => none
            | some offset =>
              fdt_path_offset_namelen_loop (fuel + 1) fdt path end_ (fuel + 1) q offset
    else fdt_path_offset_namelen_loop (fuel + 1) fdt path end_ (fuel + 1) 0 0

/-- `fdt_path_offset` (fdt_ro.c:444). -/
def fdt_path_offset (fuel : Nat) (fdt : Blob) (path : List UInt8) : Option Int :=
  fdt_path_offset_namelen fuel fdt path (i32 (strlen path 0))

/-- `fdt_get_alias_namelen` (fdt_ro.c:743). -/
def fdt_get_alias_namelen (fuel : Nat) (fdt : Blob) (name : List UInt8) (namelen : Int) :
    Option (Option Int) :=
  match fdt_path_offset fuel fdt str_aliases with
  | none => none
  | some aliasoffset =>
    if aliasoffset < 0 then some none
    else (fdt_getprop_namelen fuel fdt aliasoffset name namelen).map fun r => r.1

/-- The loop `for (offset = fdt_next_node(fdt, -1, NULL); offset >= 0; ...)`
of `fdt_node_offset_by_phandle` (fdt_ro.c:914), entered with `offset`. -/
def fdt_node_offset_by_phandle_loop (fuel0 : Nat) (fdt : Blob) (phandle : Int) :
    Nat → Int → Option Int
  | 0, _ => none
  | fuel + 1, offset =>
    if offset ≥ 0 then
      match fdt_get_phandle fuel0 fdt offset with
      | none => none
      | some ph =>
        if ph = phandle then some offset
        else
          match fdt_next_node fuel0 fdt offset none with
          | none => none
          | some r => fdt_node_offset_by_phandle_loop fuel0 fdt phandle fuel r.1
    else some offset

/-- `fdt_node_offset_by_phandle` (fdt_ro.c:899); `phandle` is a `uint32_t`,
and `phandle == -1` compares it with `0xffffffff`. -/
def fdt_node_offset_by_phandle (fuel : Nat) (fdt : Blob) (phandle : Int) : Option Int :=
  if phandle = 0 ∨ phandle = u32 (-1) then some (-FDT_ERR_BADPHANDLE)
  else if fdt_ro_probe_ fdt ≠ 0 then some (fdt_ro_probe_ fdt)
  else
    match fdt_next_node fuel fdt (-1) none with
    | none => none
    | some r => fdt_node_offset_by_phandle_loop fuel fdt phandle fuel r.1

/-- The loop `while (1)` of `fdt_check_full` (fdt_ro.c:1101), entered with
`nextoffset` and the `unsigned` `depth`. -/
def fdt_check_full_loop (fdt : Blob) : Nat → Int → Int → Option Int
  | 0, _, _ => none
  | fuel + 1, nextoffset, depth =>
    let offset := nextoffset
    let tag := (fdt_next_tag fdt offset).1
    let nextoffset := (fdt_next_tag fdt offset).2
    if nextoffset < 0 then some nextoffset
    else if tag = FDT_NOP then fdt_check_full_loop fdt fuel nextoffset depth
    else if tag = FDT_END then
      if depth ≠ 0 then some (-FDT_ERR_BADSTRUCTURE) else some 0
    else if tag = FDT_BEGIN_NODE then
      if u32 (depth + 1) > INT_MAX then some (-FDT_ERR_BADSTRUCTURE)
      else fdt_check_full_loop fdt fuel nextoffset (u32 (depth + 1))
    else if tag = FDT_END_NODE then
      if depth = 0 then some (-FDT_ERR_BADSTRUCTURE)
      else fdt_check_full_loop fdt fuel nextoffset (u32 (depth - 1))
    else if tag = FDT_PROP then
      match fdt_getprop_by_offset fdt offset true with
      | (none, _, err) => some err
      | (some _, _, _) => fdt_check_full_loop fdt fuel nextoffset depth
    else some (-FDT_ERR_INTERNAL)

/-- `fdt_check_full` (fdt_ro.c:1079); `bufsize` is a `size_t`. -/
def fdt_check_full (sz : HdrSizes) (fuel : Nat) (fdt : Blob) (bufsize : Int) : Option Int :=
  if bufsize < sz.v1 then some (-FDT_ERR_TRUNCATED)
  else if fdt_check_header sz fdt ≠ 0 then some (fdt_check_header sz fdt)
  else if bufsize < fdt_totalsize fdt then some (-FDT_ERR_TRUNCATED)
  else
    match fdt_num_mem_rsv fuel fdt with
    | none => none
    | some num_memrsv =>
      if num_memrsv < 0 then some num_memrsv
      else fdt_check_full_loop fdt fuel 0 0

/-! ## Auxiliary definitions for the properties -/

/-- The header-size constants are values of `size_t` that fit 32 bits. -/
def HdrSizes.ok (sz : HdrSizes) : Prop :=
  (0 ≤ sz.v1 ∧ sz.v1 < 4294967296) ∧ (0 ≤ sz.v2 ∧ sz.v2 < 4294967296) ∧
  (0 ≤ sz.v3 ∧ sz.v3 < 4294967296) ∧ (0 ≤ sz.v16 ∧ sz.v16 < 4294967296) ∧
  (0 ≤ sz.v17 ∧ sz.v17 < 4294967296)

/-- The version checks of `fdt_check_header` (fdt.c:159-163). -/
def header_version_ok (fdt : Blob) : Prop :=
  fdt_version fdt ≥ FDT_FIRST_SUPPORTED_VERSION ∧ fdt_last_comp_version fdt ≤ 17 ∧
  fdt_version fdt ≥ fdt_last_comp_version fdt

/-- The bounds checks of `fdt_check_header` (fdt.c:166-189), as exact integer
inequalities. -/
def header_bounds_ok (sz : HdrSizes) (fdt : Blob) : Prop :=
  fdt_header_size sz fdt ≤ fdt_totalsize fdt ∧ fdt_totalsize fdt ≤ INT_MAX ∧
  fdt_header_size sz fdt ≤ fdt_off_mem_rsvmap fdt ∧ fdt_off_mem_rsvmap fdt ≤ fdt_totalsize fdt ∧
  fdt_header_size sz fdt ≤ fdt_off_dt_struct fdt ∧ fdt_off_dt_struct fdt ≤ fdt_totalsize fdt ∧
  (fdt_version fdt ≥ 17 → fdt_off_dt_struct fdt + fdt_size_dt_struct fdt ≤ fdt_totalsize fdt) ∧
  fdt_header_size sz fdt ≤ fdt_off_dt_strings fdt ∧
  fdt_off_dt_strings fdt + fdt_size_dt_strings fdt ≤ fdt_totalsize fdt

/-- A version-17 blob of 80 bytes: an empty reservation map at byte 48, the
structure block `BEGIN_NODE "" END_NODE END` at byte 64, no strings. -/
def blobMin : Blob :=
  [0xd0, 0x0d, 0xfe, 0xed,  0, 0, 0, 0x50,  0, 0, 0, 0x40,  0, 0, 0, 0x50,
   0, 0, 0, 0x30,  0, 0, 0, 0x11,  0, 0, 0, 0x10,  0, 0, 0, 0,
   0, 0, 0, 0,  0, 0, 0, 0x10,  0, 0, 0, 0,  0, 0, 0, 0,
   0, 0, 0, 0,  0, 0, 0, 0,  0, 0, 0, 0,  0, 0, 0, 0,
   0, 0, 0, 1,  0, 0, 0, 0,  0, 0, 0, 2,  0, 0, 0, 9]

/-- The blob `blobMin` with version 3 and last compatible version 2 in its
header. -/
def blobV3 : Blob :=
  [0xd0, 0x0d, 0xfe, 0xed,  0, 0, 0, 0x50,  0, 0, 0, 0x40,  0, 0, 0, 0x50,
   0, 0, 0, 0x30,  0, 0, 0, 0x03,  0, 0, 0, 0x02,  0, 0, 0, 0,
   0, 0, 0, 0,  0, 0, 0, 0,  0, 0, 0, 0,  0, 0, 0, 0,
   0, 0, 0, 0,  0, 0, 0, 0,  0, 0, 0, 0,  0, 0, 0, 0,
   0, 0, 0, 1,  0, 0, 0, 0,  0, 0, 0, 2,  0, 0, 0, 9]

/-- A version-16 blob like `blobMin` whose strings block has size 0 and
starts where the structure block starts (byte 64). -/
def blobV16 : Blob :=
  [0xd0, 0x0d, 0xfe, 0xed,  0, 0, 0, 0x50,  0, 0, 0, 0x40,  0, 0, 0, 0x40,
   0, 0, 0, 0x30,  0, 0, 0, 0x10,  0, 0, 0, 0x10,  0, 0, 0, 0,
   0, 0, 0, 0,  0, 0, 0, 0,  0, 0, 0, 0,  0, 0, 0, 0,
   0, 0, 0, 0,  0, 0, 0, 0,  0, 0, 0, 0,  0, 0, 0, 0,
   0, 0, 0, 1,  0, 0, 0, 0,  0, 0, 0, 2,  0, 0, 0, 9]

/-- The test "the `name_off` of the property at `offset` resolves through the
string table to a string equal to `name`" of C9 (spec §8.4): the property is
read through `fdt_getprop_by_offset`, which resolves `name_off` with
`fdt_get_string` and hands the name back through `*namep`. -/
def prop_name_is (fdt : Blob) (offset : Int) (name : List UInt8) : Prop :=
  (fdt_getprop_by_offset fdt offset true).1.isSome ∧
  (fdt_getprop_by_offset fdt offset true).2.1.isSome ∧
  cstr fdt ((fdt_getprop_by_offset fdt offset true).2.1.getD 0) = cstr name 0

instance (fdt : Blob) (offset : Int) (name : List UInt8) :
    Decidable (prop_name_is fdt offset name) := by
  unfold prop_name_is; infer_instance

/-- The enumeration that C9 compares `fdt_getprop` with, written from the
spec's words (spec §8.4): the offsets given by `fdt_first_property_offset` and
then `fdt_next_property_offset`, up to the first one whose name is `name`.
This is the loop, entered with `offset`; `fuel0` is the fuel of each
`fdt_next_property_offset` call.  The result is `some o` for the first
matching offset `o`, or `none` when the enumeration ends without a match. -/
def first_prop_named_loop (fuel0 : Nat) (fdt : Blob) (name : List UInt8) :
    Nat → Int → Option (Option Int)
  | 0, _ => none
  | fuel + 1, offset =>
    if offset ≥ 0 then
      if prop_name_is fdt offset name then some (some offset)
      else
        match fdt_next_property_offset fuel0 fdt offset with
        | none => none
        | some offset => first_prop_named_loop fuel0 fdt name fuel offset
    else some none

/-- The enumeration of C9 (spec §8.4), started at the first property of the
node `nodeoffset`. -/
def first_prop_named (fuel : Nat) (fdt : Blob) (nodeoffset : Int) (name : List UInt8) :
    Option (Option Int) :=
  match fdt_first_property_offset fuel fdt nodeoffset with
  | none => none
  | some offset => first_prop_named_loop fuel fdt name fuel offset

/-- The relation between the outcome `x` of the enumeration of C9 and the
outcome `(q, len)` of the loop of `fdt_get_property_namelen_`. -/
def lookup_agree (fdt : Blob) (name : List UInt8) (x : Option Int)
    (q : Option (Int × Int)) (len : Int) : Prop :=
  match x with
  | some m => q = some (fdt_offset_ptr_ fdt m, m) ∧
      len = i32 (fdt32_ld fdt (fdt_offset_ptr_ fdt m + 4)) ∧ prop_name_is fdt m name
  | none => q = none

/-- A version-17 blob of 144 bytes.  Structure block (byte 64, 72 bytes): the
root `""` at offset 0 with `phandle = <1>` at offset 8; its child `"a"` at
offset 24 with `phandle = <2>` at offset 32; its child `"b"` at offset 52
without properties; `END` at offset 68.  Strings block (byte 136):
`"phandle"`. -/
def blobTree : Blob :=
  [0xd0, 0x0d, 0xfe, 0xed,  0, 0, 0, 0x90,  0, 0, 0, 0x40,  0, 0, 0, 0x88,
   0, 0, 0, 0x30,  0, 0, 0, 0x11,  0, 0, 0, 0x10,  0, 0, 0, 0,
   0, 0, 0, 8,  0, 0, 0, 0x48,  0, 0, 0, 0,  0, 0, 0, 0,
   0, 0, 0, 0,  0, 0, 0, 0,  0, 0, 0, 0,  0, 0, 0, 0,
   0, 0, 0, 1,  0, 0, 0, 0,
   0, 0, 0, 3,  0, 0, 0, 4,  0, 0, 0, 0,  0, 0, 0, 1,
   0, 0, 0, 1,  0x61, 0, 0, 0,
   0, 0, 0, 3,  0, 0, 0, 4,  0, 0, 0, 0,  0, 0, 0, 2,
   0, 0, 0, 2,
   0, 0, 0, 1,  0x62, 0, 0, 0,
   0, 0, 0, 2,
   0, 0, 0, 2,
   0, 0, 0, 9,
   0x70, 0x68, 0x61, 0x6e, 0x64, 0x6c, 0x65, 0]

/-- The records of the structure block as `fdt_next_tag` reads them one after
the other from `off`: `(offset, tag, next offset)`, up to and including the
first `FDT_END`. -/
def tag_walk (fdt : Blob) : Nat → Int → List (Int × Int × Int)
  | 0, _ => []
  | fuel + 1, off =>
    (off, (fdt_next_tag fdt off).1, (fdt_next_tag fdt off).2) ::
      (if (fdt_next_tag fdt off).1 = FDT_END then []
       else tag_walk fdt fuel (fdt_next_tag fdt off).2)

/-- The offsets of the `FDT_BEGIN_NODE` tags among the records read from
`off`. -/
def begin_offsets (fdt : Blob) (fuel : Nat) (off : Int) : List Int :=
  ((tag_walk fdt fuel off).filter fun t => decide (t.2.1 = FDT_BEGIN_NODE)).map fun t => t.1

/-- Repeated calls of `fdt_next_node`, each with the offset and the depth
counter the previous one left, starting with `offset` and `depth`, until a
call returns a negative value: the list of the non-negative offsets returned
with the depth counter after each, then the final return value and depth
counter.  `fuel0` is the fuel of each call. -/
def node_walk (fuel0 : Nat) (fdt : Blob) :
    Nat → Int → Option Int → Option (List (Int × Option Int) × Int × Option Int)
  | 0, _, _ => none
  | fuel + 1, offset, depth =>
    match fdt_next_node fuel0 fdt offset depth with
    | none => none
    | some r =>
      if r.1 < 0 then some ([], r.1, r.2)
      else (node_walk fuel0 fdt fuel r.1 r.2).map fun w => (r :: w.1, w.2)

/-- The walk `node_walk` entered inside a call of `fdt_next_node`, at the loop
of that call (fuel `fuel1`) standing at `nextoffset`. -/
def node_walk_from (fuel1 fuel0 : Nat) (fdt : Blob) (fuel : Nat) (nextoffset : Int)
    (depth : Option Int) : Option (List (Int × Option Int) × Int × Option Int) :=
  match fdt_next_node_loop fdt fuel1 nextoffset depth with
  | none => none
  | some r =>
    if r.1 < 0 then some ([], r.1, r.2)
    else (node_walk fuel0 fdt fuel r.1 r.2).map fun w => (r :: w.1, w.2)

/-- A position of the structure block from which the loop of `fdt_check_full`
succeeds: the loop, entered at the offset `off` with depth `d` and fuel `f`,
returns 0, and `off` is a non-negative multiple of 4. -/
def Reach (fdt : Blob) (f : Nat) (off d : Int) : Prop :=
  fdt_check_full_loop fdt f off d = some 0 ∧ (0 ≤ off ∧ off ≤ INT_MAX) ∧ off % 4 = 0 ∧
    0 ≤ d ∧ d ≤ INT_MAX

/-- The loop of `fdt_node_offset_by_phandle` entered inside a call of
`fdt_next_node`, at the loop of that call (fuel `fuel1`) standing at
`nextoffset`. -/
def by_phandle_from (fuel1 fuel0 : Nat) (fdt : Blob) (phandle : Int) (fuel : Nat)
    (nextoffset : Int) : Option Int :=
  match fdt_next_node_loop fdt fuel1 nextoffset none with
  | none => none
  | some r => fdt_node_offset_by_phandle_loop fuel0 fdt phandle fuel r.1

/-- `memcpy(buf + p, src, n)` for a destination range inside `buf`: the bytes
`src` replace the bytes of `buf` from index `p` on. -/
def memcpy_at (buf : List UInt8) (p : Int) (src : List UInt8) : List UInt8 :=
  buf.take p.toNat ++ src ++ buf.drop (p.toNat + src.length)

/-- The `n` bytes of the blob from index `s` on, as `memcpy` reads them. -/
def bytes_at (fdt : Blob) (s : Int) (n : Nat) : List UInt8 :=
  (List.range n).map fun i => fdt.getD (s.toNat + i) 0

/-- The loop `do { p--; } while (buf[p-1] != '/');` of `fdt_get_path`
(fdt_ro.c:778): the value of `p` after it, or `none` when it reads `buf[-1]`,
which is outside the buffer. -/
def pop_component (buf : List UInt8) : Nat → Int → Option Int
  | 0, _ => none
  | k + 1, p =>
    if p - 1 - 1 < 0 then none
    else if rd8 buf (p - 1 - 1) ≠ 0x2f then pop_component buf k (p - 1)
    else some (p - 1)

/-- The loop `while (pdepth > depth)` of `fdt_get_path` (fdt_ro.c:777), which
runs `pdepth - depth` times: `pdepth` and `p` after it. -/
def pop_to (buf : List UInt8) (depth : Int) : Nat → Int → Int → Option (Int × Int)
  | 0, pdepth, p => some (pdepth, p)
  | k + 1, pdepth, p =>
    if pdepth > depth then
      match pop_component buf (p.toNat + 1) p with
      | none => none
      | some p => pop_to buf depth k (pdepth - 1) p
    else some (pdepth, p)

/-- The statement `if (pdepth >= depth) { ... }` of `fdt_get_path`
(fdt_ro.c:784), where the name of the node is appended when it fits: the error
returned when `fdt_get_name` gives no name, or `pdepth`, `p` and the buffer
after the statement. -/
def get_path_push (fdt : Blob) (offset depth buflen pdepth p : Int) (buf : List UInt8) :
    Int ⊕ (Int × Int × List UInt8) :=
  if pdepth ≥ depth then
    match fdt_get_name fdt offset with
    | (none, namelen) => Sum.inl namelen
    | (some name, namelen) =>
      if i32 (p + namelen + 1) ≤ buflen then
        Sum.inr (i32 (pdepth + 1), i32 (i32 (p + namelen) + 1),
          (memcpy_at buf p (bytes_at fdt name namelen.toNat)).set
            (i32 (p + namelen)).toNat 0x2f)
      else Sum.inr (pdepth, p, buf)
  else Sum.inr (pdepth, p, buf)

/-- The `for` loop of `fdt_get_path` (fdt_ro.c:774), entered with `offset`,
`depth`, `pdepth`, `p` and the buffer; `fuel0` is the fuel of each
`fdt_next_node` call.  The result is the returned value and the buffer. -/
def fdt_get_path_loop (fuel0 : Nat) (fdt : Blob) (nodeoffset buflen : Int) :
    Nat → Int → Int → Int → Int → List UInt8 → Option (Int × List UInt8)
  | 0, _, _, _, _, _ => none
  | fuel + 1, offset, depth, pdepth, p, buf =>
    if offset ≥ 0 ∧ offset ≤ nodeoffset then
      match pop_to buf depth (pdepth - depth).toNat pdepth p with
      | none => none
      | some (pdepth, p) =>
        match get_path_push fdt offset depth buflen pdepth p buf with
        | Sum.inl err => some (err, buf)
        | Sum.inr (pdepth, p, buf) =>
          if offset = nodeoffset then
            if pdepth < i32 (depth + 1) then some (-FDT_ERR_NOSPACE, buf)
            else
              let p := if p > 1 then p - 1 else p
              some (0, buf.set p.toNat 0)
          else
            match fdt_next_node fuel0 fdt offset (some depth) with
            | none => none
            | some r =>
              fdt_get_path_loop fuel0 fdt nodeoffset buflen fuel r.1 (r.2.getD 0) pdepth p buf
    else if offset = -FDT_ERR_NOTFOUND ∨ offset ≥ 0 then some (-FDT_ERR_BADOFFSET, buf)
    else if offset = -FDT_ERR_BADOFFSET then some (-FDT_ERR_BADSTRUCTURE, buf)
    else some (offset, buf)

/-- `fdt_get_path` (fdt_ro.c:763): `buf` is the memory at the pointer `buf`;
the result is the returned value and the memory after the call. -/
def fdt_get_path (fuel : Nat) (fdt : Blob) (nodeoffset : Int) (buf : List UInt8)
    (buflen : Int) : Option (Int × List UInt8) :=
  if fdt_ro_probe_ fdt ≠ 0 then some (fdt_ro_probe_ fdt, buf)
  else if buflen < 2 then some (-FDT_ERR_NOSPACE, buf)
  else fdt_get_path_loop fuel fdt nodeoffset buflen fuel 0 0 0 0 buf

/-- A version-17 blob of 104 bytes whose root has two children that are both
named `"a"`, at offsets 8 and 20 of the structure block (byte 64, 40
bytes). -/
def blobDup : Blob :=
  [0xd0, 0x0d, 0xfe, 0xed,  0, 0, 0, 0x68,  0, 0, 0, 0x40,  0, 0, 0, 0x68,
   0, 0, 0, 0x30,  0, 0, 0, 0x11,  0, 0, 0, 0x10,  0, 0, 0, 0,
   0, 0, 0, 0,  0, 0, 0, 0x28,  0, 0, 0, 0,  0, 0, 0, 0,
   0, 0, 0, 0,  0, 0, 0, 0,  0, 0, 0, 0,  0, 0, 0, 0,
   0, 0, 0, 1,  0, 0, 0, 0,
   0, 0, 0, 1,  0x61, 0, 0, 0,
   0, 0, 0, 2,
   0, 0, 0, 1,  0x61, 0, 0, 0,
   0, 0, 0, 2,
   0, 0, 0, 2,
   0, 0, 0, 9]

/-- The nodes among a list of structure-block records, each with its depth
(the root has depth 1): `d` is the number of nodes open before the first
record. -/
def depth_walk : List (Int × Int × Int) → Int → List (Int × Int)
  | [], _ => []
  | t :: rest, d =>
    if t.2.1 = FDT_BEGIN_NODE then (t.1, d + 1) :: depth_walk rest (d + 1)
    else if t.2.1 = FDT_END_NODE then depth_walk rest (d - 1)
    else depth_walk rest d

/-- The nodes, with their depths, that the tag walk meets from `off` on, where
`D` nodes are open. -/
def nodes_from (fdt : Blob) (f : Nat) (off D : Int) : List (Int × Int) :=
  depth_walk (tag_walk fdt f off) D

/-- The node at offset `o` has depth `A` and is followed, in the order of the
structure block, by the nodes `post`; `B` bounds the fuel that the walk from
`o` needs. -/
def NodeAt (fdt : Blob) (B : Nat) (o A : Int) (post : List (Int × Int)) : Prop :=
  ∃ f, f + 1 ≤ B ∧ Reach fdt (f + 1) o (A - 1) ∧
    (fdt_next_tag fdt o).1 = FDT_BEGIN_NODE ∧
    nodes_from fdt f (fdt_next_tag fdt o).2 A = post

/-- The search of `fdt_subnode_offset_namelen` on the list of the nodes that
follow a node of depth `level`: the first node of depth `level + 1` that
`nameeq` accepts, met before any node of depth `level` or less, with the nodes
that follow it. -/
def find_child (nameeq : Int → Bool) (level : Int) :
    List (Int × Int) → Option (Int × List (Int × Int))
  | [] => none
  | x :: rest =>
    if x.2 ≤ level then none
    else if x.2 = level + 1 ∧ nameeq x.1 = true then some (x.1, rest)
    else find_child nameeq level rest

/-- The name of the node at `o` as `fdt_get_name` gives it: the C string at
the pointer it returns, and the empty string when it returns null. -/
def node_name (fdt : Blob) (o : Int) : List UInt8 :=
  match (fdt_get_name fdt o).1 with
  | some p => cstr fdt p
  | none => []

/-- The ancestors of a node, from the root down to the node itself, each with
its depth and the nodes that follow it in the structure block; `chain_step`
gives the chain of the node `y`, followed by `post`, from the chain `ch` of
the node before it: the entries above the depth of `y` are dropped and `y` is
added. -/
def chain_step (ch : List (Int × Int × List (Int × Int))) (y : Int × Int)
    (post : List (Int × Int)) : List (Int × Int × List (Int × Int)) :=
  ch.take (y.2 - 1).toNat ++ [(y.1, y.2, post)]

/-- The chain of ancestors of the node at offset `target`, found by going
through the nodes in the order of the structure block. -/
def chain_scan (target : Int) :
    List (Int × Int) → List (Int × Int × List (Int × Int)) →
      Option (List (Int × Int × List (Int × Int)))
  | [], _ => none
  | y :: post, ch =>
    if y.1 = target then some (chain_step ch y post)
    else chain_scan target post (chain_step ch y post)

/-- The components `name/` of a path, one after the other. -/
def render_comps (names : List (List UInt8)) : List UInt8 :=
  names.flatMap fun c => c ++ [0x2f]

/-- The segments `/name` of a path, one after the other. -/
def render_segs (names : List (List UInt8)) : List UInt8 :=
  names.flatMap fun c => 0x2f :: c

/-- The walk down from the node `offset` along the names `segs`, one
`fdt_subnode_offset_namelen` call for each, as the loop of
`fdt_path_offset_namelen` makes it. -/
def resolve_segs (fuel0 : Nat) (fdt : Blob) : Int → List (List UInt8) → Option Int
  | offset, [] => some offset
  | offset, c :: cs =>
    match fdt_subnode_offset_namelen fuel0 fdt offset c c.length with
    | none => none
    | some o => if o < 0 then some o else resolve_segs fuel0 fdt o cs

/-- The names of the nodes of a chain. -/
def chain_names (fdt : Blob) (ch : List (Int × Int × List (Int × Int))) : List (List UInt8) :=
  ch.map fun e => node_name fdt e.1

/-- The chain `ch` is a chain of ancestors inside the node list `L`, of which
`cur` is what remains after the last node of the chain: the entry of index
`j` has depth `j + 1`, it stands in `L` followed by its list, between it and
`cur` all nodes are deeper than it, and between two successive entries all
nodes are at least as deep as the second. -/
def ChainInv (L cur : List (Int × Int)) (ch : List (Int × Int × List (Int × Int))) : Prop :=
  (∃ pre, L = pre ++ cur) ∧ (ch = [] → cur = L) ∧
  (∀ (j : Nat) e, ch[j]? = some e →
      e.2.1 = (j : Int) + 1 ∧ (∃ pre, L = pre ++ (e.1, e.2.1) :: e.2.2) ∧
      (∃ seg, e.2.2 = seg ++ cur ∧ ∀ u ∈ seg, (j : Int) + 1 < u.2) ∧ (j = 0 → e.1 = 0) ∧
      (j + 1 = ch.length → e.2.2 = cur)) ∧
  (∀ (j : Nat) e e', ch[j]? = some e → ch[j + 1]? = some e' →
      ∃ seg, e.2.2 = seg ++ (e'.1, e'.2.1) :: e'.2.2 ∧ ∀ u ∈ seg, e'.2.1 ≤ u.2)

/-- A version-3 blob of 108 bytes.  Structure block (byte 64): the root `""`
at offset 0 with one property at offset 8, of length 8 and name `"p"`, whose
value follows 4 bytes of padding (offsets 24 to 31); `END_NODE` at offset 32
and `END` at offset 36.  Strings block (byte 104): `"p"`. -/
def blobOld : Blob :=
  [0xd0, 0x0d, 0xfe, 0xed,  0, 0, 0, 0x6c,  0, 0, 0, 0x40,  0, 0, 0, 0x68,
   0, 0, 0, 0x30,  0, 0, 0, 0x03,  0, 0, 0, 0x02,  0, 0, 0, 0,
   0, 0, 0, 4,  0, 0, 0, 0x28,  0, 0, 0, 0,  0, 0, 0, 0,
   0, 0, 0, 0,  0, 0, 0, 0,  0, 0, 0, 0,  0, 0, 0, 0,
   0, 0, 0, 1,  0, 0, 0, 0,
   0, 0, 0, 3,  0, 0, 0, 8,  0, 0, 0, 0,  0, 0, 0, 0,
   0x11, 0x12, 0x13, 0x14,  0x15, 0x16, 0x17, 0x18,
   0, 0, 0, 2,
   0, 0, 0, 9,
   0x70, 0, 0, 0]

/-- The direct children of a node of depth `level`, among the nodes `post`
that follow it in the structure block: the offsets of the nodes of depth
`level + 1` met before the first node of depth `level` or less (where the
subtree of the node ends). -/
def direct_children (level : Int) : List (Int × Int) → List Int
  | [] => []
  | x :: rest =>
    if x.2 ≤ level then []
    else if x.2 = level + 1 then x.1 :: direct_children level rest
    else direct_children level rest

/-- The body of a node without child nodes, read from `off`: `k` tags that
are `FDT_PROP` or `FDT_NOP`, then `FDT_END_NODE`. -/
def leaf_body (fdt : Blob) : Nat → Int → Bool
  | 0, off => decide ((fdt_next_tag fdt off).1 = FDT_END_NODE)
  | k + 1, off =>
    (decide ((fdt_next_tag fdt off).1 = FDT_PROP) || decide ((fdt_next_tag fdt off).1 = FDT_NOP))
      && leaf_body fdt k (fdt_next_tag fdt off).2

/-- The loop of `fdt_stringlist_contains` (fdt_ro.c:929), entered with the
pointer `strlist` (an index into the caller's memory `mem`) and `listlen`;
`len` is `strlen(str)`.  `memcmp` compares `len + 1` bytes. -/
def fdt_stringlist_contains_loop (mem str : List UInt8) (len : Int) : Nat → Int → Int → Option Int
  | 0, _, _ => none
  | fuel + 1, strlist, listlen =>
    if listlen ≥ len then
      if memeq (rd8 str) (rd8 mem) 0 strlist (u64 (i32 (len + 1))).toNat then some 1
      else
        match memchr (rd8 mem) 0 (u64 listlen).toNat strlist with
        | none => some 0
        | some p =>
          fdt_stringlist_contains_loop mem str len fuel (p + 1) (i32 (listlen - ((p - strlist) + 1)))
    else some 0

/-- `fdt_stringlist_contains` (fdt_ro.c:924): `mem` is the memory at the
pointer `strlist`. -/
def fdt_stringlist_contains (fuel : Nat) (mem : List UInt8) (listlen : Int) (str : List UInt8) :
    Option Int :=
  fdt_stringlist_contains_loop mem str (i32 (strlen str 0)) fuel 0 listlen

/-- `strnlen(mem + s, maxlen)`; `maxlen` is a `size_t`. -/
def strnlen (mem : List UInt8) (s maxlen : Int) : Int :=
  match memchr (rd8 mem) 0 maxlen.toNat s with
  | none => maxlen
  | some p => p - s

/-- The loop of `fdt_stringlist_count` (fdt_ro.c:952), entered with `list` and
`count`; pointers are indices into the blob. -/
def fdt_stringlist_count_loop (fdt : Blob) (end_ : Int) : Nat → Int → Int → Option Int
  | 0, _, _ => none
  | fuel + 1, list, count =>
    if list < end_ then
      let length := i32 (u64 (strnlen fdt list (u64 (end_ - list)) + 1))
      if list + length > end_ then some (-FDT_ERR_BADVALUE)
      else fdt_stringlist_count_loop fdt end_ fuel (list + length) (i32 (count + 1))
    else some count

/-- `fdt_stringlist_count` (fdt_ro.c:941). -/
def fdt_stringlist_count (fuel : Nat) (fdt : Blob) (nodeoffset : Int) (property : List UInt8) :
    Option Int :=
  match fdt_getprop fuel fdt nodeoffset property with
  | none => none
  | some (none, length) => some length
  | some (some list, length) => fdt_stringlist_count_loop fdt (list + length) fuel list 0

/-- The loop of `fdt_stringlist_search` (fdt_ro.c:980), entered with `list`
and `idx`; `len` is `strlen(string) + 1`. -/
def fdt_stringlist_search_loop (fdt : Blob) (string : List UInt8) (len end_ : Int) :
    Nat → Int → Int → Option Int
  | 0, _, _ => none
  | fuel + 1, list, idx =>
    if list < end_ then
      let length := i32 (u64 (strnlen fdt list (u64 (end_ - list)) + 1))
      if list + length > end_ then some (-FDT_ERR_BADVALUE)
      else if length = len ∧ memeq (rd8 fdt) (rd8 string) list 0 (u64 length).toNat then some idx
      else fdt_stringlist_search_loop fdt string len end_ fuel (list + length) (i32 (idx + 1))
    else some (-FDT_ERR_NOTFOUND)

/-- `fdt_stringlist_search` (fdt_ro.c:966). -/
def fdt_stringlist_search (fuel : Nat) (fdt : Blob) (nodeoffset : Int)
    (property string : List UInt8) : Option Int :=
  match fdt_getprop fuel fdt nodeoffset property with
  | none => none
  | some (none, length) => some length
  | some (some list, length) =>
    fdt_stringlist_search_loop fdt string (i32 (u64 (strlen string 0 + 1))) (list + length)
      fuel list 0

/-- The loop of `fdt_stringlist_get` (fdt_ro.c:1014), entered with `list` and
`idx`: the returned pointer and `*lenp`. -/
def fdt_stringlist_get_loop (fdt : Blob) (end_ : Int) : Nat → Int → Int → Option (Option Int × Int)
  | 0, _, _ => none
  | fuel + 1, list, idx =>
    if list < end_ then
      let length := i32 (u64 (strnlen fdt list (u64 (end_ - list)) + 1))
      if list + length > end_ then some (none, -FDT_ERR_BADVALUE)
      else if idx = 0 then some (some list, i32 (length - 1))
      else fdt_stringlist_get_loop fdt end_ fuel (list + length) (i32 (idx - 1))
    else some (none, -FDT_ERR_NOTFOUND)

/-- `fdt_stringlist_get` (fdt_ro.c:996): the returned pointer and `*lenp`. -/
def fdt_stringlist_get (fuel : Nat) (fdt : Blob) (nodeoffset : Int) (property : List UInt8)
    (idx : Int) : Option (Option Int × Int) :=
  match fdt_getprop fuel fdt nodeoffset property with
  | none => none
  | some (none, length) => some (none, length)
  | some (some list, length) => fdt_stringlist_get_loop fdt (list + length) fuel list idx

/-- The string literal `"compatible"`. -/
def str_compatible : List UInt8 :=
  [0x63, 0x6f, 0x6d, 0x70, 0x61, 0x74, 0x69, 0x62, 0x6c, 0x65]

/-- `fdt_node_check_compatible` (fdt_ro.c:1041); the list is read from the
blob at the pointer that `fdt_getprop` returns. -/
def fdt_node_check_compatible (fuel : Nat) (fdt : Blob) (nodeoffset : Int)
    (compatible : List UInt8) : Option Int :=
  match fdt_getprop fuel fdt nodeoffset str_compatible with
  | none => none
  | some (none, len) => some len
  | some (some prop, len) =>
    (fdt_stringlist_contains fuel (fdt.drop prop.toNat) len compatible).map fun r =>
      if r ≠ 0 then 0 else 1

/-- A version-17 blob of 132 bytes.  Structure block (byte 64, 52 bytes): the
root `""` with the property `l` at offset 8, whose value is the 6 bytes
`a\0b\0c\0`, and the property `compatible` at offset 28, whose value is the 3
bytes `abc` without a NUL, followed by one byte of padding; `END_NODE` at
offset 44, `END` at offset 48.  Strings block (byte 116): `"l"` at 0 and
`"compatible"` at 2. -/
def blobStr : Blob :=
  [0xd0, 0x0d, 0xfe, 0xed,  0, 0, 0, 0x84,  0, 0, 0, 0x40,  0, 0, 0, 0x74,
   0, 0, 0, 0x30,  0, 0, 0, 0x11,  0, 0, 0, 0x10,  0, 0, 0, 0,
   0, 0, 0, 0x10,  0, 0, 0, 0x34,  0, 0, 0, 0,  0, 0, 0, 0,
   0, 0, 0, 0,  0, 0, 0, 0,  0, 0, 0, 0,  0, 0, 0, 0,
   0, 0, 0, 1,  0, 0, 0, 0,
   0, 0, 0, 3,  0, 0, 0, 6,  0, 0, 0, 0,  0x61, 0, 0x62, 0,  0x63, 0, 0, 0,
   0, 0, 0, 3,  0, 0, 0, 3,  0, 0, 0, 2,  0x61, 0x62, 0x63, 0,
   0, 0, 0, 2,
   0, 0, 0, 9,
   0x6c, 0, 0x63, 0x6f,  0x6d, 0x70, 0x61, 0x74,  0x69, 0x62, 0x6c, 0x65,  0, 0, 0, 0]

/-- The elements of a string list: the strings that a NUL ends, in order;
bytes after the last NUL belong to no element.  `acc` holds the bytes of the
element being read. -/
def elems_aux : List UInt8 → List UInt8 → List (List UInt8)
  | [], _ => []
  | b :: rest, acc => if b = 0 then acc :: elems_aux rest [] else elems_aux rest (acc ++ [b])

/-- The elements of the string list `v`. -/
def stringlist_elems (v : List UInt8) : List (List UInt8) := elems_aux v []

/-- The list `v` is properly terminated: it is empty or its last byte is
NUL. -/
def stringlist_terminated (v : List UInt8) : Prop := v = [] ∨ v.getLast? = some 0

instance (v : List UInt8) : Decidable (stringlist_terminated v) := by
  unfold stringlist_terminated; infer_instance

/-- The names of a path, in order: the maximal runs of bytes other than `/`.
`acc` holds the bytes of the name being read. -/
def segs_aux : List UInt8 → List UInt8 → List (List UInt8)
  | [], acc => if acc = [] then [] else [acc]
  | b :: rest, acc =>
    if b = 0x2f then (if acc = [] then segs_aux rest [] else acc :: segs_aux rest [])
    else segs_aux rest (acc ++ [b])

/-- The names of the path `path`. -/
def path_segs (path : List UInt8) : List (List UInt8) := segs_aux path []

/-- A version-17 blob of 174 bytes.  Structure block (byte 64, 104 bytes): the
root at offset 0; its child `"aliases"` at offset 8 with the properties
`n = "/x"` (offset 20), `"" = "/x"` (offset 36, the empty name) and
`"n/m" = "/x"` (offset 52); its child `"x"` at offset 72, which has the child
`"y"` at offset 80; `END` at offset 100.  Strings block (byte 168): `"n"` at
0, `""` at 1, `"n/m"` at 2. -/
def blobAlias : Blob :=
  [0xd0, 0x0d, 0xfe, 0xed,  0, 0, 0, 0xae,  0, 0, 0, 0x40,  0, 0, 0, 0xa8,
   0, 0, 0, 0x30,  0, 0, 0, 0x11,  0, 0, 0, 0x10,  0, 0, 0, 0,
   0, 0, 0, 6,  0, 0, 0, 0x68,  0, 0, 0, 0,  0, 0, 0, 0,
   0, 0, 0, 0,  0, 0, 0, 0,  0, 0, 0, 0,  0, 0, 0, 0,
   0, 0, 0, 1,  0, 0, 0, 0,
   0, 0, 0, 1,  0x61, 0x6c, 0x69, 0x61,  0x73, 0x65, 0x73, 0,
   0, 0, 0, 3,  0, 0, 0, 3,  0, 0, 0, 0,  0x2f, 0x78, 0, 0,
   0, 0, 0, 3,  0, 0, 0, 3,  0, 0, 0, 1,  0x2f, 0x78, 0, 0,
   0, 0, 0, 3,  0, 0, 0, 3,  0, 0, 0, 2,  0x2f, 0x78, 0, 0,
   0, 0, 0, 2,
   0, 0, 0, 1,  0x78, 0, 0, 0,
   0, 0, 0, 1,  0x79, 0, 0, 0,
   0, 0, 0, 2,
   0, 0, 0, 2,
   0, 0, 0, 2,
   0, 0, 0, 9,
   0x6e, 0, 0x6e, 0x2f, 0x6d, 0]

/-- `fdt_move` (fdt.c:463): the returned value and the destination buffer
after the call.  `fdt_totalsize(fdt) > bufsize` compares a `uint32_t` with the
`int` `bufsize`, which C converts to `unsigned`.  `memmove` writes the
`totalsize` bytes at the start of `buf`, also when `buf` is shorter. -/
def fdt_move (fdt : Blob) (buf : List UInt8) (bufsize : Int) : Int × List UInt8 :=
  if fdt_ro_probe_ fdt ≠ 0 then (fdt_ro_probe_ fdt, buf)
  else if fdt_totalsize fdt > u32 bufsize then (-FDT_ERR_NOSPACE, buf)
  else (0, memcpy_at buf 0 (bytes_at fdt 0 (fdt_totalsize fdt).toNat))

/-- A sequential-write blob of 80 bytes (magic `~0xd00dfeed`): the structure
block at byte 64 has 16 bytes, the strings block is empty
(`size_dt_strings = 0`) and ends where the blob ends
(`off_dt_strings = totalsize = 80`). -/
def blobSW : Blob :=
  [0x2f, 0xf2, 0x01, 0x12,  0, 0, 0, 0x50,  0, 0, 0, 0x40,  0, 0, 0, 0x50,
   0, 0, 0, 0x30,  0, 0, 0, 0x11,  0, 0, 0, 0x10,  0, 0, 0, 0,
   0, 0, 0, 0,  0, 0, 0, 0x10,  0, 0, 0, 0,  0, 0, 0, 0,
   0, 0, 0, 0,  0, 0, 0, 0,  0, 0, 0, 0,  0, 0, 0, 0,
   0, 0, 0, 1,  0, 0, 0, 0,  0, 0, 0, 2,  0, 0, 0, 9]

/-- A version-17 blob of 72 bytes whose structure block (byte 64) has 8
bytes: a `BEGIN_NODE` tag and the name bytes `abcd`, without a NUL. -/
def blobCut : Blob :=
  [0xd0, 0x0d, 0xfe, 0xed,  0, 0, 0, 0x48,  0, 0, 0, 0x40,  0, 0, 0, 0x48,
   0, 0, 0, 0x30,  0, 0, 0, 0x11,  0, 0, 0, 0x10,  0, 0, 0, 0,
   0, 0, 0, 0,  0, 0, 0, 8,  0, 0, 0, 0,  0, 0, 0, 0,
   0, 0, 0, 0,  0, 0, 0, 0,  0, 0, 0, 0,  0, 0, 0, 0,
   0, 0, 0, 1,  0x61, 0x62, 0x63, 0x64]

/-- A version-17 blob of 94 bytes.  Structure block (byte 64, 28 bytes): the
root at offset 0, a property at offset 8 whose length field holds
`0xfffffff4` (name offset 0), `END_NODE` at offset 20, `END` at offset 24.
Strings block (byte 92): `"p"`. -/
def blobLoop : Blob :=
  [0xd0, 0x0d, 0xfe, 0xed,  0, 0, 0, 0x5e,  0, 0, 0, 0x40,  0, 0, 0, 0x5c,
   0, 0, 0, 0x30,  0, 0, 0, 0x11,  0, 0, 0, 0x10,  0, 0, 0, 0,
   0, 0, 0, 2,  0, 0, 0, 0x1c,  0, 0, 0, 0,  0, 0, 0, 0,
   0, 0, 0, 0,  0, 0, 0, 0,  0, 0, 0, 0,  0, 0, 0, 0,
   0, 0, 0, 1,  0, 0, 0, 0,
   0, 0, 0, 3,  0xff, 0xff, 0xff, 0xf4,  0, 0, 0, 0,
   0, 0, 0, 2,
   0, 0, 0, 9,
   0x70, 0]

/-- The offset at which `fdt_next_node` (fdt.c:339) enters its loop: the
value of `nextoffset` after the check of a non-negative `offset`, and 0 for a
negative one. -/
def next_node_start (fdt : Blob) (offset : Int) : Int :=
  if offset ≥ 0 then fdt_check_node_offset_ fdt offset else 0

/-- The state of the loop of `fdt_next_node` (fdt.c:350), entered with
`nextoffset` and `depth`, after `n` iterations none of which returned: the
offset of the next tag to read and the depth counter.  The result is `none`
when one of these iterations returns. -/
def next_node_at (fdt : Blob) : Nat → Int → Option Int → Option (Int × Option Int)
  | 0, nextoffset, depth => some (nextoffset, depth)
  | n + 1, nextoffset, depth =>
    let tag := (fdt_next_tag fdt nextoffset).1
    let next := (fdt_next_tag fdt nextoffset).2
    if tag = FDT_PROP ∨ tag = FDT_NOP then next_node_at fdt n next depth
    else if tag = FDT_BEGIN_NODE then none
    else if tag = FDT_END_NODE then
      match depth with
      | some d =>
        if i32 (d - 1) < 0 then none else next_node_at fdt n next (some (i32 (d - 1)))
      | none => next_node_at fdt n next none
    else if tag = FDT_END then none
    else next_node_at fdt n next depth

/-- A version-17 blob like `blobMin` whose structure block has 12 bytes,
`BEGIN_NODE "" END_NODE`, and no `END` tag. -/
def blobNoEnd : Blob :=
  [0xd0, 0x0d, 0xfe, 0xed,  0, 0, 0, 0x50,  0, 0, 0, 0x40,  0, 0, 0, 0x50,
   0, 0, 0, 0x30,  0, 0, 0, 0x11,  0, 0, 0, 0x10,  0, 0, 0, 0,
   0, 0, 0, 0,  0, 0, 0, 0x0c,  0, 0, 0, 0,  0, 0, 0, 0,
   0, 0, 0, 0,  0, 0, 0, 0,  0, 0, 0, 0,  0, 0, 0, 0,
   0, 0, 0, 1,  0, 0, 0, 0,  0, 0, 0, 2,  0, 0, 0, 9]

/-- The number of nodes that a sequence of tags leaves open: its `BEGIN_NODE`
tags minus its `END_NODE` tags. -/
def tag_depth (tags : List Int) : Int :=
  (tags.count FDT_BEGIN_NODE : Int) - (tags.count FDT_END_NODE : Int)

/-- A sequence of tags is balanced: every prefix contains at least as many
`BEGIN_NODE` as `END_NODE` tags, and the whole sequence equally many. -/
def tags_balanced (tags : List Int) : Prop :=
  (∀ k : Nat, k < tags.length + 1 → 0 ≤ tag_depth (tags.take k)) ∧ tag_depth tags = 0

instance (tags : List Int) : Decidable (tags_balanced tags) := by
  unfold tags_balanced; infer_instance

/-- A version-17 blob like `blobMin` whose structure block is
`BEGIN_NODE "" END`: the root is not closed. -/
def blobOpen : Blob :=
  [0xd0, 0x0d, 0xfe, 0xed,  0, 0, 0, 0x50,  0, 0, 0, 0x40,  0, 0, 0, 0x50,
   0, 0, 0, 0x30,  0, 0, 0, 0x11,  0, 0, 0, 0x10,  0, 0, 0, 0,
   0, 0, 0, 0,  0, 0, 0, 0x10,  0, 0, 0, 0,  0, 0, 0, 0,
   0, 0, 0, 0,  0, 0, 0, 0,  0, 0, 0, 0,  0, 0, 0, 0,
   0, 0, 0, 1,  0, 0, 0, 0,  0, 0, 0, 9,  0, 0, 0, 9]

/-- Modelled from the spec: the rows of the header-size table of spec §3, as
pairs of a version and the header size listed for it (V1, V2, V3, V16; the
last row, V17, is the default of `spec_header_size`). -/
def spec_header_size_rows (sz : HdrSizes) : List (Int × Int) :=
  [(1, sz.v1), (2, sz.v2), (3, sz.v3), (16, sz.v16)]

/-- Modelled from the spec: `header_size(version)` of spec §4.1, "piecewise
constant table above": a version has the size of the first row of the table
whose version it does not exceed, and a version above every row the size of
the last row, V17. -/
def spec_header_size (sz : HdrSizes) (version : Int) : Int :=
  match (spec_header_size_rows sz).find? (fun r => decide (version ≤ r.1)) with
  | some r => r.2
  | none => sz.v17

/-- Modelled from the spec: the bounds conditions of `check_header` (claim C2),
written with `header_size(version)` of the spec's table: `header_size(version)
<= totalsize <= INT_MAX`; `header_size <= off_mem_rsvmap <= totalsize`;
`header_size <= off_dt_struct <= totalsize` and, from version 17, the whole
structure block up to `totalsize`; `header_size <= off_dt_strings` and the
whole strings block up to `totalsize`; the sums are exact, not 32-bit. -/
def spec_header_bounds_ok (sz : HdrSizes) (fdt : Blob) : Prop :=
  spec_header_size sz (fdt_version fdt) ≤ fdt_totalsize fdt ∧ fdt_totalsize fdt ≤ 2147483647 ∧
  spec_header_size sz (fdt_version fdt) ≤ fdt_off_mem_rsvmap fdt ∧
  fdt_off_mem_rsvmap fdt ≤ fdt_totalsize fdt ∧
  spec_header_size sz (fdt_version fdt) ≤ fdt_off_dt_struct fdt ∧
  fdt_off_dt_struct fdt ≤ fdt_totalsize fdt ∧
  (fdt_version fdt ≥ 17 → fdt_off_dt_struct fdt + fdt_size_dt_struct fdt ≤ fdt_totalsize fdt) ∧
  spec_header_size sz (fdt_version fdt) ≤ fdt_off_dt_strings fdt ∧
  fdt_off_dt_strings fdt + fdt_size_dt_strings fdt ≤ fdt_totalsize fdt

/-- The blob `blobMin` followed by 16 unused bytes that its totalsize (96)
counts: the strings block (empty, at byte 80) and the structure block (16
bytes at byte 64) both end before the end of the blob. -/
def blobSlack : Blob :=
  [0xd0, 0x0d, 0xfe, 0xed,  0, 0, 0, 0x60,  0, 0, 0, 0x40,  0, 0, 0, 0x50,
   0, 0, 0, 0x30,  0, 0, 0, 0x11,  0, 0, 0, 0x10,  0, 0, 0, 0,
   0, 0, 0, 0,  0, 0, 0, 0x10,  0, 0, 0, 0,  0, 0, 0, 0,
   0, 0, 0, 0,  0, 0, 0, 0,  0, 0, 0, 0,  0, 0, 0, 0,
   0, 0, 0, 1,  0, 0, 0, 0,  0, 0, 0, 2,  0, 0, 0, 9,
   0, 0, 0, 0,  0, 0, 0, 0,  0, 0, 0, 0,  0, 0, 0, 0]

/-- A version-16 blob of 94 bytes, accepted by `fdt_check_header`: the root
node has one property, at structure offset 8, with an empty value and the
stored name offset `0xfffffffe`, which is -2 as an `int`; the strings block
is at byte 92, and byte 90, inside the `END` tag, is NUL. -/
def blobNeg : Blob :=
  [0xd0, 0x0d, 0xfe, 0xed,  0, 0, 0, 0x5e,  0, 0, 0, 0x40,  0, 0, 0, 0x5c,
   0, 0, 0, 0x30,  0, 0, 0, 0x10,  0, 0, 0, 0x10,  0, 0, 0, 0,
   0, 0, 0, 2,  0, 0, 0, 0,  0, 0, 0, 0,  0, 0, 0, 0,
   0, 0, 0, 0,  0, 0, 0, 0,  0, 0, 0, 0,  0, 0, 0, 0,
   0, 0, 0, 1,  0, 0, 0, 0,  0, 0, 0, 3,  0, 0, 0, 0,
   0xff, 0xff, 0xff, 0xfe,  0, 0, 0, 2,  0, 0, 0, 9,  0x70, 0]

/-! ## Properties -/

theorem rd8_bounds (fdt : Blob) (p : Int) : 0 ≤ rd8 fdt p ∧ rd8 fdt p < 256 := by
  unfold rd8
  split
  · omega
  · have := (fdt.getD p.toNat 0).val.isLt
    simp only [UInt8.toNat, UInt8.size] at *
    omega

theorem fdt32_ld_bounds (fdt : Blob) (p : Int) :
    0 ≤ fdt32_ld fdt p ∧ fdt32_ld fdt p < 4294967296 := by
  unfold fdt32_ld
  have h0 := rd8_bounds fdt p
  have h1 := rd8_bounds fdt (p+1)
  have h2 := rd8_bounds fdt (p+2)
  have h3 := rd8_bounds fdt (p+3)
  omega

theorem fdt_header_size_bounds (sz : HdrSizes) (h : sz.ok) (fdt : Blob) :
    0 ≤ fdt_header_size sz fdt ∧ fdt_header_size sz fdt < 4294967296 := by
  obtain ⟨h1, h2, h3, h4, h5⟩ := h
  unfold fdt_header_size fdt_header_size_
  split_ifs <;> assumption

theorem check_off_iff (h t o : Int) : check_off_ h t o = true ↔ h ≤ o ∧ o ≤ t := by
  simp [check_off_]

theorem check_block_iff (h t b s : Int) (hb : 0 ≤ b) (hb2 : b < 4294967296)
    (hs : 0 ≤ s) (hs2 : s < 4294967296) (ht : t < 4294967296) :
    check_block_ h t b s = true ↔ h ≤ b ∧ b + s ≤ t := by
  unfold check_block_ check_off_ u32
  by_cases c1 : h ≤ b <;> by_cases c2 : b ≤ t <;> by_cases c3 : (b + s) % 4294967296 < b <;>
    by_cases c4 : h ≤ (b + s) % 4294967296 <;> by_cases c5 : (b + s) % 4294967296 ≤ t <;>
    simp [c1, c2, c3, c4, c5] <;> omega

theorem fdt_check_header_cases (sz : HdrSizes) (hsz : sz.ok) (fdt : Blob) :
    (fdt_magic fdt ≠ FDT_MAGIC ∧ fdt_check_header sz fdt = -FDT_ERR_BADMAGIC) ∨
    (fdt_magic fdt = FDT_MAGIC ∧ ¬ header_version_ok fdt ∧
      fdt_check_header sz fdt = -FDT_ERR_BADVERSION) ∨
    (fdt_magic fdt = FDT_MAGIC ∧ header_version_ok fdt ∧ ¬ header_bounds_ok sz fdt ∧
      fdt_check_header sz fdt = -FDT_ERR_TRUNCATED) ∨
    (fdt_magic fdt = FDT_MAGIC ∧ header_version_ok fdt ∧ header_bounds_ok sz fdt ∧
      fdt_check_header sz fdt = 0) := by
  have hh := fdt_header_size_bounds sz hsz fdt
  have b1 : 0 ≤ fdt_totalsize fdt ∧ fdt_totalsize fdt < 4294967296 := fdt32_ld_bounds fdt 4
  have b2 : 0 ≤ fdt_off_dt_struct fdt ∧ fdt_off_dt_struct fdt < 4294967296 :=
    fdt32_ld_bounds fdt 8
  have b3 : 0 ≤ fdt_off_dt_strings fdt ∧ fdt_off_dt_strings fdt < 4294967296 :=
    fdt32_ld_bounds fdt 12
  have b5 : 0 ≤ fdt_size_dt_strings fdt ∧ fdt_size_dt_strings fdt < 4294967296 :=
    fdt32_ld_bounds fdt 32
  have b6 : 0 ≤ fdt_size_dt_struct fdt ∧ fdt_size_dt_struct fdt < 4294967296 :=
    fdt32_ld_bounds fdt 36
  have hu : u32 (fdt_header_size sz fdt) = fdt_header_size sz fdt := by
    unfold u32; omega
  have nb : ∀ b : Bool, ((!b) = true) ↔ ¬ (b = true) := by intro b; cases b <;> simp
  have cb1 := (nb _).trans (check_block_iff (fdt_header_size sz fdt) (fdt_totalsize fdt)
    (fdt_off_dt_struct fdt) (fdt_size_dt_struct fdt) b2.1 b2.2 b6.1 b6.2 b1.2).not
  have cb2 := (nb _).trans (check_block_iff (fdt_header_size sz fdt) (fdt_totalsize fdt)
    (fdt_off_dt_strings fdt) (fdt_size_dt_strings fdt) b3.1 b3.2 b5.1 b5.2 b1.2).not
  have co1 := (nb _).trans
    (check_off_iff (fdt_header_size sz fdt) (fdt_totalsize fdt) (fdt_off_mem_rsvmap fdt)).not
  have co2 := (nb _).trans
    (check_off_iff (fdt_header_size sz fdt) (fdt_totalsize fdt) (fdt_off_dt_struct fdt)).not
  unfold fdt_check_header header_version_ok header_bounds_ok
  simp only [hu, FDT_LAST_SUPPORTED_VERSION, INT_MAX]
  by_cases hm : fdt_magic fdt = FDT_MAGIC
  swap
  · left; exact ⟨hm, by simp [hm]⟩
  right
  simp only [hm, ne_eq, not_true_eq_false, if_false, true_and]
  by_cases h1 : fdt_version fdt < FDT_FIRST_SUPPORTED_VERSION ∨ fdt_last_comp_version fdt > 17
  · left; rw [if_pos h1]; exact ⟨by omega, rfl⟩
  rw [if_neg h1]
  by_cases h2 : fdt_version fdt < fdt_last_comp_version fdt
  · left; rw [if_pos h2]; exact ⟨by omega, rfl⟩
  rw [if_neg h2]
  right
  have hv : fdt_version fdt ≥ FDT_FIRST_SUPPORTED_VERSION ∧ fdt_last_comp_version fdt ≤ 17 ∧
      fdt_version fdt ≥ fdt_last_comp_version fdt := by omega
  simp only [hv, and_self, true_and, not_true_eq_false, false_and, false_or]
  by_cases h3 : fdt_totalsize fdt < fdt_header_size sz fdt ∨ fdt_totalsize fdt > 2147483647
  · left; rw [if_pos h3]; exact ⟨by omega, rfl⟩
  rw [if_neg h3]
  by_cases h4 : fdt_header_size sz fdt ≤ fdt_off_mem_rsvmap fdt ∧
      fdt_off_mem_rsvmap fdt ≤ fdt_totalsize fdt
  swap
  · left; rw [if_pos (co1.mpr h4)]; exact ⟨by omega, rfl⟩
  rw [if_neg (co1.not.mpr (not_not.mpr h4))]
  by_cases hv17 : fdt_version fdt < 17
  · simp only [hv17, if_true]
    by_cases h5 : fdt_header_size sz fdt ≤ fdt_off_dt_struct fdt ∧
        fdt_off_dt_struct fdt ≤ fdt_totalsize fdt
    swap
    · left; rw [if_pos (co2.mpr h5)]; exact ⟨by omega, rfl⟩
    rw [if_neg (co2.not.mpr (not_not.mpr h5))]
    by_cases h6 : fdt_header_size sz fdt ≤ fdt_off_dt_strings fdt ∧
        fdt_off_dt_strings fdt + fdt_size_dt_strings fdt ≤ fdt_totalsize fdt
    swap
    · left; rw [if_pos (cb2.mpr h6)]; exact ⟨by omega, rfl⟩
    rw [if_neg (cb2.not.mpr (not_not.mpr h6))]
    right
    refine ⟨⟨by omega, by omega, by omega, by omega, by omega, by omega, ?_, by omega, by omega⟩, rfl⟩
    intro hc; omega
  · simp only [hv17, if_false]
    by_cases h5 : fdt_header_size sz fdt ≤ fdt_off_dt_struct fdt ∧
        fdt_off_dt_struct fdt + fdt_size_dt_struct fdt ≤ fdt_totalsize fdt
    swap
    · left; rw [if_pos (cb1.mpr h5)]
      refine ⟨?_, rfl⟩
      intro hc
      have := hc.2.2.2.2.2.2.1 (by omega)
      omega
    rw [if_neg (cb1.not.mpr (not_not.mpr h5))]
    by_cases h6 : fdt_header_size sz fdt ≤ fdt_off_dt_strings fdt ∧
        fdt_off_dt_strings fdt + fdt_size_dt_strings fdt ≤ fdt_totalsize fdt
    swap
    · left; rw [if_pos (cb2.mpr h6)]; exact ⟨by omega, rfl⟩
    rw [if_neg (cb2.not.mpr (not_not.mpr h6))]
    right
    refine ⟨⟨by omega, by omega, by omega, by omega, by omega, by omega, ?_, by omega, by omega⟩, rfl⟩
    intro hc; omega

/-- C1: for `off >= 0` and an unsigned 32-bit `len`, `fdt_offset_ptr` is non-null
exactly when `off_dt_struct + off + len <= totalsize` (as integers) and, for
version >= 17, `off + len <= size_dt_struct`; a non-null result designates
blob byte `off_dt_struct + off`. -/
theorem C1_fdt_offset_ptr (fdt : Blob) (off len : Int)
    (hoff : 0 ≤ off) (hoff2 : off ≤ INT_MAX) (hlen : 0 ≤ len) (hlen2 : len < 4294967296) :
    ((fdt_offset_ptr fdt off len ≠ none) ↔
      (fdt_off_dt_struct fdt + off + len ≤ fdt_totalsize fdt ∧
        (fdt_version fdt ≥ 17 → off + len ≤ fdt_size_dt_struct fdt))) ∧
    (∀ p, fdt_offset_ptr fdt off len = some p → p = fdt_off_dt_struct fdt + off) := by
  have h1 := fdt32_ld_bounds fdt 8
  have h2 := fdt32_ld_bounds fdt 4
  have h3 := fdt32_ld_bounds fdt 36
  unfold fdt_offset_ptr fdt_offset_ptr_ fdt_off_dt_struct fdt_totalsize fdt_size_dt_struct u32
  unfold INT_MAX at hoff2
  constructor
  · simp only []
    split_ifs with ha hb
    · simp; omega
    · simp; omega
    · simp
      constructor
      · omega
      · intro hv; omega
  · intro p
    simp only []
    split_ifs with ha hb
    · simp
    · simp
    · simp; intro h; omega

theorem C1_fdt_offset_ptr_witness :
    (fdt_offset_ptr blobMin 8 4 ≠ none ↔
      (fdt_off_dt_struct blobMin + 8 + 4 ≤ fdt_totalsize blobMin ∧
        (fdt_version blobMin ≥ 17 → 8 + 4 ≤ fdt_size_dt_struct blobMin))) ∧
    (∀ p, fdt_offset_ptr blobMin 8 4 = some p → p = fdt_off_dt_struct blobMin + 8) :=
  C1_fdt_offset_ptr blobMin 8 4 (by decide) (by decide) (by decide) (by decide)

theorem fdt_header_size_spec (sz : HdrSizes) (version : Int) :
    fdt_header_size_ sz version = spec_header_size sz version := by
  unfold fdt_header_size_ spec_header_size spec_header_size_rows
  by_cases h1 : version ≤ 1
  · simp [List.find?, h1]
  by_cases h2 : version ≤ 2
  · simp [List.find?, h1, h2]
  by_cases h3 : version ≤ 3
  · simp [List.find?, h1, h2, h3]
  by_cases h4 : version ≤ 16
  · simp [List.find?, h1, h2, h3, h4]
  simp [List.find?, h1, h2, h3, h4]

theorem header_bounds_ok_spec (sz : HdrSizes) (fdt : Blob) :
    header_bounds_ok sz fdt ↔ spec_header_bounds_ok sz fdt := by
  unfold header_bounds_ok spec_header_bounds_ok fdt_header_size INT_MAX
  rw [fdt_header_size_spec]

/-- C2: `fdt_check_header` returns 0 exactly when the magic is `0xd00dfeed`, the
version checks hold and every bounds check holds as an exact (wrap-free)
inequality against `header_size(version)` of the spec's table; otherwise the
first failing group decides the code: `-BADMAGIC`, then `-BADVERSION`, then
`-TRUNCATED`. -/
theorem C2_fdt_check_header_iff (sz : HdrSizes) (hsz : sz.ok) (fdt : Blob) :
    (fdt_check_header sz fdt = 0 ↔
      (fdt_magic fdt = 0xd00dfeed ∧ header_version_ok fdt ∧ spec_header_bounds_ok sz fdt)) ∧
    (fdt_magic fdt ≠ 0xd00dfeed → fdt_check_header sz fdt = -FDT_ERR_BADMAGIC) ∧
    (fdt_magic fdt = 0xd00dfeed → ¬ header_version_ok fdt →
      fdt_check_header sz fdt = -FDT_ERR_BADVERSION) ∧
    (fdt_magic fdt = 0xd00dfeed → header_version_ok fdt → ¬ spec_header_bounds_ok sz fdt →
      fdt_check_header sz fdt = -FDT_ERR_TRUNCATED) := by
  rw [← header_bounds_ok_spec]
  change (fdt_check_header sz fdt = 0 ↔
      (fdt_magic fdt = FDT_MAGIC ∧ header_version_ok fdt ∧ header_bounds_ok sz fdt)) ∧
    (fdt_magic fdt ≠ FDT_MAGIC → fdt_check_header sz fdt = -FDT_ERR_BADMAGIC) ∧
    (fdt_magic fdt = FDT_MAGIC → ¬ header_version_ok fdt →
      fdt_check_header sz fdt = -FDT_ERR_BADVERSION) ∧
    (fdt_magic fdt = FDT_MAGIC → header_version_ok fdt → ¬ header_bounds_ok sz fdt →
      fdt_check_header sz fdt = -FDT_ERR_TRUNCATED)
  rcases fdt_check_header_cases sz hsz fdt with h | h | h | h
  · refine ⟨⟨fun h0 => ?_, fun h0 => absurd h0.1 h.1⟩, fun _ => h.2, fun h0 => absurd h0 h.1,
      fun h0 => absurd h0 h.1⟩
    rw [h.2] at h0; simp [FDT_ERR_BADMAGIC] at h0
  · refine ⟨⟨fun h0 => ?_, fun h0 => absurd h0.2.1 h.2.1⟩, fun h0 => absurd h.1 h0, fun _ _ => h.2.2,
      fun _ h0 => absurd h0 h.2.1⟩
    rw [h.2.2] at h0; simp [FDT_ERR_BADVERSION] at h0
  · refine ⟨⟨fun h0 => ?_, fun h0 => absurd h0.2.2 h.2.2.1⟩, fun h0 => absurd h.1 h0,
      fun _ h0 => absurd h.2.1 h0, fun _ _ _ => h.2.2.2⟩
    rw [h.2.2.2] at h0; simp [FDT_ERR_TRUNCATED] at h0
  · exact ⟨⟨fun _ => ⟨h.1, h.2.1, h.2.2.1⟩, fun _ => h.2.2.2⟩, fun h0 => absurd h.1 h0,
      fun _ h0 => absurd h.2.1 h0, fun _ _ h0 => absurd h.2.2.1 h0⟩

theorem specSizes_ok : specSizes.ok := by
  unfold HdrSizes.ok specSizes; decide

theorem C2_fdt_check_header_iff_witness :
    specSizes.ok ∧ spec_header_size specSizes (fdt_version blobMin) = 44 ∧
    ((fdt_check_header specSizes blobMin = 0 ↔
      (fdt_magic blobMin = 0xd00dfeed ∧ header_version_ok blobMin ∧
        spec_header_bounds_ok specSizes blobMin)) ∧
    (fdt_magic blobMin ≠ 0xd00dfeed → fdt_check_header specSizes blobMin = -FDT_ERR_BADMAGIC) ∧
    (fdt_magic blobMin = 0xd00dfeed → ¬ header_version_ok blobMin →
      fdt_check_header specSizes blobMin = -FDT_ERR_BADVERSION) ∧
    (fdt_magic blobMin = 0xd00dfeed → header_version_ok blobMin →
      ¬ spec_header_bounds_ok specSizes blobMin →
      fdt_check_header specSizes blobMin = -FDT_ERR_TRUNCATED)) :=
  ⟨specSizes_ok, by decide, C2_fdt_check_header_iff specSizes specSizes_ok blobMin⟩

theorem fdt_check_header_le_zero (sz : HdrSizes) (fdt : Blob) : fdt_check_header sz fdt ≤ 0 := by
  unfold fdt_check_header
  simp only [FDT_ERR_BADMAGIC, FDT_ERR_BADVERSION, FDT_ERR_TRUNCATED]
  split_ifs <;> omega

theorem fdt_check_full_header (sz : HdrSizes) (fuel : Nat) (fdt : Blob) (bufsize : Int)
    (h : fdt_check_full sz fuel fdt bufsize = some 0) :
    fdt_check_header sz fdt = 0 ∧ sz.v1 ≤ bufsize ∧ fdt_totalsize fdt ≤ bufsize := by
  unfold fdt_check_full at h
  split_ifs at h with h1 h2 h3
  · simp [FDT_ERR_TRUNCATED] at h
  · simp at h; exact absurd h h2
  · simp [FDT_ERR_TRUNCATED] at h
  · exact ⟨not_not.mp h2, by omega, by omega⟩

theorem fdt_check_full_short (sz : HdrSizes) (fuel : Nat) (fdt : Blob) (bufsize : Int)
    (hh : fdt_check_header sz fdt = 0) (hb : bufsize < fdt_totalsize fdt) :
    fdt_check_full sz fuel fdt bufsize = some (-FDT_ERR_TRUNCATED) := by
  unfold fdt_check_full
  by_cases h1 : bufsize < sz.v1
  · rw [if_pos h1]
  · rw [if_neg h1, if_neg (by simp [hh]), if_pos hb]

/-- C3: if `fdt_check_full` accepts a blob with `bufsize = totalsize`, then with
any `bufsize` below `totalsize`, those of `[0, totalsize)` among them, it
returns `-TRUNCATED` (so never 0, and one of `-TRUNCATED`, `-BAD_STRUCTURE`);
in particular a header claiming `totalsize = 0x100` checked with
`bufsize = 0x40` yields `-TRUNCATED`. -/
theorem C3_fdt_check_full_truncated (sz : HdrSizes) (fdt : Blob) (fuel0 : Nat)
    (hfull : fdt_check_full sz fuel0 fdt (fdt_totalsize fdt) = some 0)
    (bufsize : Int) (hb : bufsize < fdt_totalsize fdt) (fuel : Nat) :
    fdt_check_full sz fuel fdt bufsize = some (-FDT_ERR_TRUNCATED) ∧
    (fdt_totalsize fdt = 0x100 →
      fdt_check_full sz fuel fdt 0x40 = some (-FDT_ERR_TRUNCATED)) := by
  have hh := (fdt_check_full_header sz fuel0 fdt _ hfull).1
  refine ⟨fdt_check_full_short sz fuel fdt bufsize hh hb, fun ht => ?_⟩
  exact fdt_check_full_short sz fuel fdt 0x40 hh (by omega)

theorem C3_fdt_check_full_truncated_witness :
    fdt_check_full specSizes 0 blobMin 0x40 = some (-FDT_ERR_TRUNCATED) ∧
    (fdt_totalsize blobMin = 0x100 →
      fdt_check_full specSizes 0 blobMin 0x40 = some (-FDT_ERR_TRUNCATED)) :=
  C3_fdt_check_full_truncated specSizes blobMin 5 (by decide) 0x40 (by decide) 0

/-- C5, as stated, fails: a blob with the magic, version 3 and last compatible
version 2 is accepted by `fdt_ro_probe_` and by `fdt_check_header`. -/
theorem C5_counterexample :
    fdt_magic blobV3 = 0xd00dfeed ∧ fdt_ro_probe_ blobV3 = 0 ∧
    fdt_check_header specSizes blobV3 = 0 ∧ ¬ (fdt_version blobV3 ≥ 16) := by decide

/-- C5 (amended): a blob with magic `0xd00dfeed` that `fdt_ro_probe_` or
`fdt_check_header` accepts has version >= 2 (`FDT_FIRST_SUPPORTED_VERSION`) and
last compatible version <= 17; with version < 2 or last compatible version
> 17 both return `-BADVERSION`. -/
theorem C5_probe_version (sz : HdrSizes) (fdt : Blob) (hm : fdt_magic fdt = 0xd00dfeed) :
    (fdt_ro_probe_ fdt = 0 → fdt_version fdt ≥ 2 ∧ fdt_last_comp_version fdt ≤ 17) ∧
    (fdt_check_header sz fdt = 0 → fdt_version fdt ≥ 2 ∧ fdt_last_comp_version fdt ≤ 17) ∧
    (fdt_version fdt < 2 ∨ fdt_last_comp_version fdt > 17 →
      fdt_ro_probe_ fdt = -FDT_ERR_BADVERSION ∧
      fdt_check_header sz fdt = -FDT_ERR_BADVERSION) := by
  have hm' : fdt_magic fdt = FDT_MAGIC := hm
  unfold fdt_ro_probe_ fdt_check_header
  simp only [hm', ne_eq, not_true_eq_false, if_false, if_true, FDT_FIRST_SUPPORTED_VERSION,
    FDT_LAST_SUPPORTED_VERSION, FDT_ERR_BADVERSION, FDT_ERR_TRUNCATED]
  refine ⟨?_, ?_, ?_⟩
  · split_ifs <;> (try simp) <;> omega
  · split_ifs <;> (try simp) <;> omega
  · intro h
    split_ifs <;> (try simp) <;> omega

theorem C5_probe_version_witness :
    (fdt_ro_probe_ blobMin = 0 → fdt_version blobMin ≥ 2 ∧ fdt_last_comp_version blobMin ≤ 17) ∧
    (fdt_check_header specSizes blobMin = 0 →
      fdt_version blobMin ≥ 2 ∧ fdt_last_comp_version blobMin ≤ 17) ∧
    (fdt_version blobMin < 2 ∨ fdt_last_comp_version blobMin > 17 →
      fdt_ro_probe_ blobMin = -FDT_ERR_BADVERSION ∧
      fdt_check_header specSizes blobMin = -FDT_ERR_BADVERSION) :=
  C5_probe_version specSizes blobMin (by decide)

theorem memchr_some (rd : Int → Int) (c : Int) (n : Nat) (s k : Int)
    (h : memchr rd c n s = some k) :
    s ≤ k ∧ k < s + n ∧ rd k = c ∧ ∀ j, s ≤ j → j < k → rd j ≠ c := by
  induction n generalizing s with
  | zero => simp [memchr] at h
  | succ n ih =>
    unfold memchr at h
    split_ifs at h with hc
    · simp at h; subst h
      refine ⟨le_refl _, by push_cast; omega, hc, fun j h1 h2 => by omega⟩
    · obtain ⟨a, b, c', d⟩ := ih (s + 1) h
      refine ⟨by omega, by push_cast; omega, c', fun j h1 h2 => ?_⟩
      by_cases hj : j = s
      · subst hj; exact hc
      · exact d j (by omega) h2

/-- C6, as stated, fails: in a version-16 blob that `fdt_check_header` and
`fdt_check_full` accept, `fdt_get_string` returns a string whose bytes lie
outside the strings block. -/
theorem C6_counterexample :
    fdt_magic blobV16 = 0xd00dfeed ∧ fdt_check_header specSizes blobV16 = 0 ∧
    fdt_check_full specSizes 5 blobV16 0x50 = some 0 ∧
    fdt_get_string blobV16 0 = (some 0x40, 0) ∧
    ¬ (0x40 + 0 < fdt_off_dt_strings blobV16 + fdt_size_dt_strings blobV16) := by decide

/-- C6 (amended): for a blob with magic `0xd00dfeed` accepted by
`fdt_check_header`, a non-null result of `fdt_get_string` is the pointer
`off_dt_strings + stroff` with `stroff >= 0`, the length written is the
distance to the first NUL byte, the string with its NUL lies below
`totalsize`, and for version >= 17 it lies inside the strings block. -/
theorem C6_get_string_bounds (sz : HdrSizes) (hsz : sz.ok) (fdt : Blob)
    (hh : fdt_check_header sz fdt = 0) (stroff p len : Int)
    (hs : -2147483648 ≤ stroff ∧ stroff ≤ INT_MAX)
    (hg : fdt_get_string fdt stroff = (some p, len)) :
    p = fdt_off_dt_strings fdt + stroff ∧ 0 ≤ stroff ∧ 0 ≤ len ∧
    rd8 fdt (p + len) = 0 ∧ (∀ i, 0 ≤ i → i < len → rd8 fdt (p + i) ≠ 0) ∧
    p + len < fdt_totalsize fdt ∧
    (fdt_version fdt ≥ 17 → p + len < fdt_off_dt_strings fdt + fdt_size_dt_strings fdt) := by
  have hc := fdt_check_header_cases sz hsz fdt
  have hne1 : (-FDT_ERR_BADMAGIC : Int) ≠ 0 := by decide
  have hne2 : (-FDT_ERR_BADVERSION : Int) ≠ 0 := by decide
  have hne3 : (-FDT_ERR_TRUNCATED : Int) ≠ 0 := by decide
  have hok : fdt_magic fdt = FDT_MAGIC ∧ header_version_ok fdt ∧ header_bounds_ok sz fdt := by
    rcases hc with h | h | h | h
    · rw [h.2] at hh; exact absurd hh hne1
    · rw [h.2.2] at hh; exact absurd hh hne2
    · rw [h.2.2.2] at hh; exact absurd hh hne3
    · exact ⟨h.1, h.2.1, h.2.2.1⟩
  obtain ⟨hm, hv, hb⟩ := hok
  unfold header_version_ok at hv
  unfold header_bounds_ok at hb
  have hp : fdt_ro_probe_ fdt = 0 := by
    unfold fdt_ro_probe_
    rw [if_pos hm, if_neg (by omega), if_neg (by unfold FDT_LAST_SUPPORTED_VERSION; omega)]
  have b3 : 0 ≤ fdt_off_dt_strings fdt ∧ fdt_off_dt_strings fdt < 4294967296 :=
    fdt32_ld_bounds fdt 12
  have b5 : 0 ≤ fdt_size_dt_strings fdt ∧ fdt_size_dt_strings fdt < 4294967296 :=
    fdt32_ld_bounds fdt 32
  unfold INT_MAX at hs hb
  unfold fdt_get_string at hg
  simp only [hp, ne_eq, not_true_eq_false, if_false, hm, if_true] at hg
  by_cases hs0 : stroff < 0
  · have ha : u32 (stroff + fdt_off_dt_strings fdt) ≥ fdt_totalsize fdt ∨
        ¬ u32 (stroff + fdt_off_dt_strings fdt) ≥ fdt_totalsize fdt := by omega
    rcases ha with ha | ha
    · rw [if_pos ha] at hg; simp at hg
    · rw [if_neg ha] at hg; simp [hs0] at hg
  have habs : u32 (stroff + fdt_off_dt_strings fdt) = fdt_off_dt_strings fdt + stroff := by
    unfold u32; omega
  have hus : u32 stroff = stroff := by unfold u32; omega
  rw [habs, hus] at hg
  simp only [hs0, if_false] at hg
  by_cases ha : fdt_off_dt_strings fdt + stroff ≥ fdt_totalsize fdt
  · rw [if_pos ha] at hg; simp at hg
  rw [if_neg ha] at hg
  have hlen : u32 (fdt_totalsize fdt - (fdt_off_dt_strings fdt + stroff)) =
      fdt_totalsize fdt - (fdt_off_dt_strings fdt + stroff) := by unfold u32; omega
  rw [hlen] at hg
  -- the bound on the search and what follows from a successful search
  have key : ∀ L : Int, 0 ≤ L → L ≤ fdt_totalsize fdt - (fdt_off_dt_strings fdt + stroff) →
      (match memchr (rd8 fdt) 0 L.toNat (fdt_off_dt_strings fdt + stroff) with
        | none => ((none : Option Int), -FDT_ERR_TRUNCATED)
        | some n => (some (fdt_off_dt_strings fdt + stroff),
            i32 (n - (fdt_off_dt_strings fdt + stroff)))) = (some p, len) →
      p = fdt_off_dt_strings fdt + stroff ∧ 0 ≤ len ∧ rd8 fdt (p + len) = 0 ∧
      (∀ i, 0 ≤ i → i < len → rd8 fdt (p + i) ≠ 0) ∧ len < L := by
    intro L hL0 hL1 hmatch
    cases hmc : memchr (rd8 fdt) 0 L.toNat (fdt_off_dt_strings fdt + stroff) with
    | none => rw [hmc] at hmatch; simp at hmatch
    | some n =>
      rw [hmc] at hmatch
      simp only [Prod.mk.injEq, Option.some.injEq] at hmatch
      obtain ⟨h1, h2, h3, h4⟩ := memchr_some _ _ _ _ _ hmc
      have hi : i32 (n - (fdt_off_dt_strings fdt + stroff)) =
          n - (fdt_off_dt_strings fdt + stroff) := by unfold i32; omega
      rw [hi] at hmatch
      obtain ⟨e1, e2⟩ := hmatch
      subst e1 e2
      refine ⟨rfl, by omega, ?_, fun i hi0 hi1 => h4 _ (by omega) (by omega), by omega⟩
      have : fdt_off_dt_strings fdt + stroff + (n - (fdt_off_dt_strings fdt + stroff)) = n := by
        omega
      rw [this]; exact h3
  by_cases hv17 : fdt_version fdt ≥ 17
  · simp only [hv17, if_true] at hg
    by_cases hs1 : stroff ≥ fdt_size_dt_strings fdt
    · simp [hs1] at hg
    simp only [hs1, if_false] at hg
    have hu2 : u32 (fdt_size_dt_strings fdt - stroff) = fdt_size_dt_strings fdt - stroff := by
      unfold u32; omega
    rw [hu2] at hg
    by_cases hs2 : fdt_size_dt_strings fdt - stroff <
        fdt_totalsize fdt - (fdt_off_dt_strings fdt + stroff)
    · simp only [hs2, if_true] at hg
      obtain ⟨k1, k2, k3, k4, k5⟩ := key _ (by omega) (by omega) hg
      exact ⟨k1, by omega, k2, k3, k4, by omega, fun _ => by omega⟩
    · simp only [hs2, if_false] at hg
      obtain ⟨k1, k2, k3, k4, k5⟩ := key _ (by omega) (by omega) hg
      exact ⟨k1, by omega, k2, k3, k4, by omega, fun _ => by omega⟩
  · simp only [hv17, if_false] at hg
    obtain ⟨k1, k2, k3, k4, k5⟩ := key _ (by omega) (by omega) hg
    exact ⟨k1, by omega, k2, k3, k4, by omega, fun h => absurd h hv17⟩

theorem C6_get_string_bounds_witness :
    fdt_get_string blobTree 0 = (some 136, 7) ∧
    ((136 : Int) = fdt_off_dt_strings blobTree + 0 ∧ (0 : Int) ≤ 0 ∧ (0 : Int) ≤ 7 ∧
      rd8 blobTree (136 + 7) = 0 ∧ (∀ i, 0 ≤ i → i < 7 → rd8 blobTree (136 + i) ≠ 0) ∧
      136 + 7 < fdt_totalsize blobTree ∧
      (fdt_version blobTree ≥ 17 →
        136 + 7 < fdt_off_dt_strings blobTree + fdt_size_dt_strings blobTree)) :=
  ⟨by decide,
    C6_get_string_bounds specSizes specSizes_ok blobTree (by decide) 0 136 7 (by decide)
      (by decide)⟩

theorem rd8_set_ne (fdt : Blob) (i : Nat) (v : UInt8) (p : Int) (h : p ≠ (i : Int)) :
    rd8 (fdt.set i v) p = rd8 fdt p := by
  unfold rd8
  split
  · rfl
  · rename_i hp
    have : p.toNat ≠ i := by omega
    simp [List.getD_eq_getElem?_getD, List.getElem?_set, this.symm]

theorem rd8_set_eq (fdt : Blob) (i : Nat) (v : UInt8) (hi : i < fdt.length) :
    rd8 (fdt.set i v) (i : Int) = (v.toNat : Int) := by
  unfold rd8
  simp [List.getD_eq_getElem?_getD, List.getElem?_set, hi]

theorem rd8_eq_getD (fdt : Blob) (i : Nat) : rd8 fdt (i : Int) = ((fdt.getD i 0).toNat : Int) := by
  unfold rd8; simp

theorem UInt8_toNat_inj (a b : UInt8) (h : a.toNat = b.toNat) : a = b := by
  cases a with | mk a => cases b with | mk b =>
  simp only [UInt8.toNat] at h
  exact congrArg _ (BitVec.eq_of_toNat_eq h)

theorem fdt32_ld_set_ne (fdt : Blob) (i : Nat) (v : UInt8) (hi : i < fdt.length)
    (hv : fdt.getD i 0 ≠ v) (p : Nat) (h1 : p ≤ i) (h2 : i < p + 4) :
    fdt32_ld (fdt.set i v) (p : Int) ≠ fdt32_ld fdt (p : Int) := by
  have hne : rd8 (fdt.set i v) (i : Int) ≠ rd8 fdt (i : Int) := by
    rw [rd8_set_eq fdt i v hi, rd8_eq_getD]
    intro h
    exact hv (UInt8_toNat_inj _ _ (by exact_mod_cast h)).symm
  have b0 := rd8_bounds fdt p
  have b1 := rd8_bounds fdt (p + 1)
  have b2 := rd8_bounds fdt (p + 2)
  have b3 := rd8_bounds fdt (p + 3)
  have c0 := rd8_bounds (fdt.set i v) p
  have c1 := rd8_bounds (fdt.set i v) (p + 1)
  have c2 := rd8_bounds (fdt.set i v) (p + 2)
  have c3 := rd8_bounds (fdt.set i v) (p + 3)
  unfold fdt32_ld
  have hcase : i = p ∨ i = p + 1 ∨ i = p + 2 ∨ i = p + 3 := by omega
  rcases hcase with h | h | h | h
  · subst h
    push_cast at hne
    rw [rd8_set_ne _ _ _ (↑i + 1) (by omega), rd8_set_ne _ _ _ (↑i + 2) (by omega),
      rd8_set_ne _ _ _ (↑i + 3) (by omega)]
    omega
  · subst h
    push_cast at hne
    rw [rd8_set_ne _ _ _ (↑p) (by omega), rd8_set_ne _ _ _ (↑p + 2) (by push_cast; omega),
      rd8_set_ne _ _ _ (↑p + 3) (by push_cast; omega)]
    omega
  · subst h
    push_cast at hne
    rw [rd8_set_ne _ _ _ (↑p) (by omega), rd8_set_ne _ _ _ (↑p + 1) (by push_cast; omega),
      rd8_set_ne _ _ _ (↑p + 3) (by push_cast; omega)]
    omega
  · subst h
    push_cast at hne
    rw [rd8_set_ne _ _ _ (↑p) (by omega), rd8_set_ne _ _ _ (↑p + 1) (by push_cast; omega),
      rd8_set_ne _ _ _ (↑p + 2) (by push_cast; omega)]
    omega

theorem fdt_check_full_neg_of_small (sz : HdrSizes) (fuel : Nat) (fdt : Blob) (bufsize : Int)
    (hb : bufsize < fdt_totalsize fdt) :
    ∃ e, e < 0 ∧ fdt_check_full sz fuel fdt bufsize = some e := by
  unfold fdt_check_full
  by_cases h1 : bufsize < sz.v1
  · rw [if_pos h1]; exact ⟨_, by decide, rfl⟩
  rw [if_neg h1]
  by_cases h2 : fdt_check_header sz fdt ≠ 0
  · rw [if_pos h2]
    exact ⟨_, lt_of_le_of_ne (fdt_check_header_le_zero sz fdt) h2, rfl⟩
  rw [if_neg h2, if_pos hb]; exact ⟨_, by decide, rfl⟩

/-- C4, as stated, fails: changing one byte of the version field of an accepted
blob (17 becomes 273), of its size_dt_strings field (0 becomes 4), of its
size_dt_struct field (16 becomes 20), or of its totalsize field so that
totalsize drops (96 becomes 80), gives a blob that `fdt_check_header` and
`fdt_check_full` still accept. -/
theorem C4_counterexample :
    fdt_check_full specSizes 5 blobMin (fdt_totalsize blobMin) = some 0 ∧
    (20 ≤ 22 ∧ 22 < 24 ∧ blobMin.getD 22 0 ≠ 1) ∧
    fdt_check_header specSizes (blobMin.set 22 1) = 0 ∧
    fdt_check_full specSizes 5 (blobMin.set 22 1) (fdt_totalsize blobMin) = some 0 ∧
    fdt_check_full specSizes 5 blobSlack (fdt_totalsize blobSlack) = some 0 ∧
    (32 ≤ 35 ∧ 35 < 36 ∧ blobSlack.getD 35 0 ≠ 4 ∧
      fdt_check_header specSizes (blobSlack.set 35 4) = 0 ∧
      fdt_check_full specSizes 5 (blobSlack.set 35 4) (fdt_totalsize blobSlack) = some 0) ∧
    (36 ≤ 39 ∧ 39 < 40 ∧ blobSlack.getD 39 0 ≠ 0x14 ∧
      fdt_check_header specSizes (blobSlack.set 39 0x14) = 0 ∧
      fdt_check_full specSizes 5 (blobSlack.set 39 0x14) (fdt_totalsize blobSlack) = some 0) ∧
    (4 ≤ 7 ∧ 7 < 8 ∧ blobSlack.getD 7 0 ≠ 0x50 ∧
      fdt_totalsize (blobSlack.set 7 0x50) < fdt_totalsize blobSlack ∧
      fdt_check_header specSizes (blobSlack.set 7 0x50) = 0 ∧
      fdt_check_full specSizes 5 (blobSlack.set 7 0x50) (fdt_totalsize blobSlack) = some 0) := by
  decide

/-- C4 (amended): for a blob accepted by `fdt_check_full` at
`bufsize = totalsize`, changing one byte of the magic field makes
`fdt_check_header` and `fdt_check_full` return `-BADMAGIC`, and changing one
byte of the totalsize field so that totalsize grows makes
`fdt_check_full(B', totalsize(B))` return a negative code. -/
theorem C4_mutation_detected (sz : HdrSizes) (fdt : Blob) (fuel0 : Nat)
    (hfull : fdt_check_full sz fuel0 fdt (fdt_totalsize fdt) = some 0)
    (i : Nat) (v : UInt8) (hi : i < fdt.length) (hv : fdt.getD i 0 ≠ v) :
    (i < 4 → fdt_check_header sz (fdt.set i v) = -FDT_ERR_BADMAGIC ∧
      ∀ fuel, fdt_check_full sz fuel (fdt.set i v) (fdt_totalsize fdt) =
        some (-FDT_ERR_BADMAGIC)) ∧
    (4 ≤ i → i < 8 → fdt_totalsize fdt < fdt_totalsize (fdt.set i v) →
      ∀ fuel, ∃ e, e < 0 ∧
        fdt_check_full sz fuel (fdt.set i v) (fdt_totalsize fdt) = some e) := by
  obtain ⟨hh, hv1, _⟩ := fdt_check_full_header sz fuel0 fdt _ hfull
  have hmag : fdt_magic fdt = FDT_MAGIC := by
    by_contra hne
    unfold fdt_check_header at hh
    rw [if_pos hne] at hh
    exact absurd hh (by decide)
  refine ⟨fun h4 => ?_, fun _ _ hlt fuel => fdt_check_full_neg_of_small sz fuel _ _ hlt⟩
  have hne : fdt_magic (fdt.set i v) ≠ FDT_MAGIC := by
    rw [← hmag]
    exact fdt32_ld_set_ne fdt i v hi hv 0 (by omega) (by omega)
  have hbad : fdt_check_header sz (fdt.set i v) = -FDT_ERR_BADMAGIC := by
    unfold fdt_check_header
    rw [if_pos hne]
  refine ⟨hbad, fun fuel => ?_⟩
  unfold fdt_check_full
  rw [if_neg (by omega), hbad, if_pos (by decide)]

theorem C4_mutation_detected_witness :
    (0 < 4 ∧ fdt_check_header specSizes (blobMin.set 0 0) = -FDT_ERR_BADMAGIC ∧
      ∀ fuel, fdt_check_full specSizes fuel (blobMin.set 0 0) (fdt_totalsize blobMin) =
        some (-FDT_ERR_BADMAGIC)) ∧
    (4 ≤ 7 ∧ 7 < 8 ∧ fdt_totalsize blobMin < fdt_totalsize (blobMin.set 7 0x60) ∧
      ∀ fuel, ∃ e, e < 0 ∧
        fdt_check_full specSizes fuel (blobMin.set 7 0x60) (fdt_totalsize blobMin) = some e) :=
  ⟨⟨by decide,
    (C4_mutation_detected specSizes blobMin 5 (by decide) 0 0 (by decide) (by decide)).1
      (by decide)⟩,
   by decide, by decide, by decide,
    (C4_mutation_detected specSizes blobMin 5 (by decide) 7 0x60 (by decide) (by decide)).2
      (by decide) (by decide) (by decide)⟩

theorem rd8_nonneg_eq (mem : List UInt8) (p : Int) (hp : 0 ≤ p) :
    rd8 mem p = ((mem.getD p.toNat 0).toNat : Int) := by
  unfold rd8; rw [if_neg (by omega)]

theorem rd8_drop (mem : List UInt8) (p : Int) (hp : 0 ≤ p) (i : Int) (hi : 0 ≤ i) :
    rd8 (mem.drop p.toNat) i = rd8 mem (p + i) := by
  rw [rd8_nonneg_eq _ _ hi, rd8_nonneg_eq _ _ (by omega)]
  have : (p + i).toNat = p.toNat + i.toNat := by omega
  rw [this]
  simp [List.getD_eq_getElem?_getD, List.getElem?_drop]

/-- takeWhile facts: the bytes of the prefix are those of the list and are not 0, the byte
after it is 0. -/
theorem takeWhile_nz (l : List UInt8) :
    (∀ i : Nat, i < (l.takeWhile fun b => b ≠ 0).length →
      rd8 l i = rd8 (l.takeWhile fun b => b ≠ 0) i ∧ rd8 l i ≠ 0) ∧
    rd8 l ((l.takeWhile fun b => b ≠ 0).length : Nat) = 0 := by
  induction l with
  | nil => simp [rd8]
  | cons a l ih =>
    by_cases ha : a = 0
    · subst ha
      simp [List.takeWhile, rd8]
    · have hnz : (a.toNat : Int) ≠ 0 := by
        intro h
        apply ha
        apply UInt8_toNat_inj
        simpa using h
      have htw : (List.takeWhile (fun b => decide (b ≠ 0)) (a :: l)) =
          a :: List.takeWhile (fun b => decide (b ≠ 0)) l := by
        simp [List.takeWhile, ha]
      rw [htw]
      constructor
      · intro i hi
        cases i with
        | zero => simp [rd8, hnz]
        | succ i =>
          have := ih.1 i (by simpa using hi)
          have e1 : ∀ (m : List UInt8), rd8 (a :: m) ((i + 1 : Nat) : Int) = rd8 m (i : Int) := by
            intro m
            rw [rd8_nonneg_eq _ _ (by omega), rd8_nonneg_eq _ _ (by omega)]
            simp
          rw [e1, e1]; exact this
      · have e1 : ∀ (m : List UInt8) (i : Nat),
            rd8 (a :: m) ((i + 1 : Nat) : Int) = rd8 m (i : Int) := by
          intro m i
          rw [rd8_nonneg_eq _ _ (by omega), rd8_nonneg_eq _ _ (by omega)]
          simp
        simp only [List.length_cons]
        rw [e1]; exact ih.2

theorem cstr_spec (mem : List UInt8) (p : Int) (hp : 0 ≤ p) :
    (∀ i : Nat, i < (cstr mem p).length →
      rd8 mem (p + i) = rd8 (cstr mem p) i ∧ rd8 mem (p + i) ≠ 0) ∧
    rd8 mem (p + (cstr mem p).length) = 0 := by
  have h := takeWhile_nz (mem.drop p.toNat)
  unfold cstr
  constructor
  · intro i hi
    have := h.1 i hi
    rw [rd8_drop mem p hp i (by omega)] at this
    exact this
  · have := h.2
    rw [rd8_drop mem p hp _ (by omega)] at this
    exact this

theorem cstr_length_unique (mem : List UInt8) (p : Int) (hp : 0 ≤ p) (L : Nat)
    (hz : rd8 mem (p + L) = 0) (hnz : ∀ i : Nat, i < L → rd8 mem (p + i) ≠ 0) :
    (cstr mem p).length = L := by
  obtain ⟨h1, h2⟩ := cstr_spec mem p hp
  rcases Nat.lt_trichotomy (cstr mem p).length L with h | h | h
  · exact absurd h2 (hnz _ h)
  · exact h
  · exact absurd hz (h1 L h).2

theorem list_ext_rd8 (a b : List UInt8) (hl : a.length = b.length)
    (h : ∀ i : Nat, i < a.length → rd8 a i = rd8 b i) : a = b := by
  apply List.ext_getElem hl
  intro i h1 h2
  have := h i h1
  rw [rd8_nonneg_eq _ _ (by omega), rd8_nonneg_eq _ _ (by omega)] at this
  simp [List.getD_eq_getElem?_getD, List.getElem?_eq_getElem h1,
    List.getElem?_eq_getElem h2] at this
  exact UInt8_toNat_inj _ _ this

theorem cstr_eq_iff (mem name : List UInt8) (p : Int) (hp : 0 ≤ p) (L : Nat)
    (hz : rd8 mem (p + L) = 0) (hnz : ∀ i : Nat, i < L → rd8 mem (p + i) ≠ 0) :
    cstr mem p = cstr name 0 ↔
      ((cstr name 0).length = L ∧ ∀ i : Nat, i < L → rd8 mem (p + i) = rd8 name i) := by
  have hL := cstr_length_unique mem p hp L hz hnz
  obtain ⟨m1, m2⟩ := cstr_spec mem p hp
  obtain ⟨n1, n2⟩ := cstr_spec name 0 (le_refl _)
  constructor
  · intro h
    refine ⟨by rw [← h]; exact hL, fun i hi => ?_⟩
    have a := (m1 i (by omega)).1
    have b := (n1 i (by rw [← h]; omega)).1
    rw [a, h, ← b]; simp
  · intro ⟨h1, h2⟩
    apply list_ext_rd8 _ _ (by omega)
    intro i hi
    have a := (m1 i hi).1
    have b := (n1 i (by omega)).1
    rw [← a, ← b, h2 i (by omega)]; simp

theorem memeq_iff (rp rs : Int → Int) (p s : Int) (n : Nat) :
    memeq rp rs p s n = true ↔ ∀ i : Nat, i < n → rp (p + i) = rs (s + i) := by
  unfold memeq
  simp [List.all_eq_true]

theorem get_string_tail (fdt : Blob) (s L : Int) (hs : 0 ≤ s) (hL : L < 4294967296)
    (p len : Int)
    (h : (match memchr (rd8 fdt) 0 L.toNat s with
        | none => ((none : Option Int), -FDT_ERR_TRUNCATED)
        | some n => (some s, i32 (n - s))) = (some p, len)) :
    ∃ k : Nat, (k : Int) < 4294967296 ∧ len = i32 k ∧ 0 ≤ p ∧ rd8 fdt (p + k) = 0 ∧
      ∀ i : Nat, i < k → rd8 fdt (p + i) ≠ 0 := by
  cases hmc : memchr (rd8 fdt) 0 L.toNat s with
  | none => rw [hmc] at h; simp at h
  | some n =>
    rw [hmc] at h
    simp only [Prod.mk.injEq, Option.some.injEq] at h
    obtain ⟨h1, h2, h3, h4⟩ := memchr_some _ _ _ _ _ hmc
    obtain ⟨e1, e2⟩ := h
    subst e1
    refine ⟨(n - s).toNat, by omega, ?_, hs, ?_, fun i hi => h4 _ (by omega) (by omega)⟩
    · rw [← e2]; congr 1; omega
    · have : s + ((n - s).toNat : Int) = n := by omega
      rw [this]; exact h3

theorem get_string_some (fdt : Blob) (stroff p len : Int)
    (h : fdt_get_string fdt stroff = (some p, len)) :
    ∃ k : Nat, (k : Int) < 4294967296 ∧ len = i32 k ∧ 0 ≤ p ∧ rd8 fdt (p + k) = 0 ∧
      ∀ i : Nat, i < k → rd8 fdt (p + i) ≠ 0 := by
  have hu : ∀ x : Int, 0 ≤ u32 x ∧ u32 x < 4294967296 := by intro x; unfold u32; omega
  unfold fdt_get_string at h
  simp only [] at h
  split_ifs at h
  all_goals first
    | (simp at h; done)
    | exact get_string_tail fdt _ _ (hu _).1 (hu _).2 p len h
    | exact get_string_tail fdt _ _ (hu _).1 (by have := (hu (fdt_totalsize fdt - u32 (stroff + fdt_off_dt_strings fdt))).2; omega) p len h

theorem string_eq_iff (fdt name : List UInt8) (stroff : Int)
    (hn : ((cstr name 0).length : Int) ≤ INT_MAX) :
    fdt_string_eq_ fdt stroff name (i32 (strlen name 0)) = true ↔
      ((fdt_get_string fdt stroff).1.isSome ∧
        cstr fdt ((fdt_get_string fdt stroff).1.getD 0) = cstr name 0) := by
  unfold fdt_string_eq_
  rcases hg : fdt_get_string fdt stroff with ⟨_ | p, slen⟩
  · simp
  · obtain ⟨k, hk, hlen, hp, hz, hnz⟩ := get_string_some fdt stroff p slen hg
    have hiff := cstr_eq_iff fdt name p hp k hz hnz
    unfold INT_MAX at hn
    have hL : i32 (strlen name 0) = ((cstr name 0).length : Int) := by
      unfold strlen i32; omega
    simp only [Option.isSome_some, Option.getD_some, true_and, Bool.and_eq_true,
      decide_eq_true_eq, memeq_iff, hL, Int.toNat_ofNat]
    rw [hiff]
    constructor
    · intro ⟨h1, h2⟩
      have hk' : (cstr name 0).length = k := by
        rw [hlen] at h1; unfold i32 at h1; omega
      refine ⟨hk', fun i hi => ?_⟩
      have := h2 i (by omega)
      simpa using this
    · intro ⟨h1, h2⟩
      refine ⟨?_, fun i hi => ?_⟩
      · rw [hlen, ← h1]; unfold i32; omega
      · have := h2 i (by omega)
        simpa using this

theorem nextprop_mono (fdt : Blob) (f : Nat) (o r : Int) (h : nextprop_ fdt f o = some r) :
    nextprop_ fdt (f + 1) o = some r := by
  induction f generalizing o with
  | zero => simp [nextprop_] at h
  | succ f ih =>
    rw [nextprop_] at h
    rw [nextprop_]
    split_ifs at h ⊢ with h1 h2 h3 h4
    · exact h
    · exact h
    · exact h
    · exact ih _ h
    · exact h

theorem next_property_offset_mono (fdt : Blob) (f : Nat) (o r : Int)
    (h : fdt_next_property_offset f fdt o = some r) :
    fdt_next_property_offset (f + 1) fdt o = some r := by
  unfold fdt_next_property_offset at h ⊢
  split_ifs at h ⊢
  · exact h
  · exact nextprop_mono _ _ _ _ h

theorem first_property_offset_mono (fdt : Blob) (f : Nat) (o r : Int)
    (h : fdt_first_property_offset f fdt o = some r) :
    fdt_first_property_offset (f + 1) fdt o = some r := by
  unfold fdt_first_property_offset at h ⊢
  split_ifs at h ⊢
  · exact h
  · exact nextprop_mono _ _ _ _ h

/-- What one property offset decides in both lookups. -/
theorem prop_name_is_iff (fdt name : List UInt8) (o : Int)
    (hn : ((cstr name 0).length : Int) ≤ INT_MAX) :
    prop_name_is fdt o name ↔
      (¬ fdt_check_prop_offset_ fdt o < 0 ∧
        fdt_string_eq_ fdt (i32 (fdt32_ld fdt (fdt_offset_ptr_ fdt o + 8))) name
          (i32 (strlen name 0)) = true) := by
  unfold prop_name_is fdt_getprop_by_offset fdt_get_property_by_offset_
  rw [string_eq_iff fdt name _ hn]
  by_cases hc : fdt_check_prop_offset_ fdt o < 0
  · simp [hc]
  · simp only [hc, if_false, not_false_eq_true, true_and, if_true]
    rcases hg : fdt_get_string fdt (i32 (fdt32_ld fdt (fdt_offset_ptr_ fdt o + 8))) with ⟨_ | nm, sl⟩
    · simp
    · simp

theorem getprop_by_offset_of_name (fdt name : List UInt8) (o : Int)
    (h : prop_name_is fdt o name) (w : Bool) :
    (fdt_getprop_by_offset fdt o w).1 =
        some (prop_data fdt (fdt_offset_ptr_ fdt o) o) ∧
    (fdt_getprop_by_offset fdt o w).2.2 =
        i32 (fdt32_ld fdt (fdt_offset_ptr_ fdt o + 4)) := by
  unfold prop_name_is fdt_getprop_by_offset fdt_get_property_by_offset_ at h
  unfold fdt_getprop_by_offset fdt_get_property_by_offset_
  by_cases hc : fdt_check_prop_offset_ fdt o < 0
  · simp [hc] at h
  · simp only [hc, if_false, if_true] at h ⊢
    rcases hg : fdt_get_string fdt (i32 (fdt32_ld fdt (fdt_offset_ptr_ fdt o + 8))) with ⟨_ | nm, sl⟩
    · rw [hg] at h; simp at h
    · cases w <;> simp

theorem iteration_to_source (F : Nat) (fdt name : List UInt8)
    (hn : ((cstr name 0).length : Int) ≤ INT_MAX) (f : Nat) (o : Int) (x : Option Int)
    (h : first_prop_named_loop F fdt name f o = some x) :
    ∃ q len, fdt_get_property_namelen_loop F fdt name (i32 (strlen name 0)) f o = some (q, len) ∧
      lookup_agree fdt name x q len := by
  induction f generalizing o x with
  | zero => simp [first_prop_named_loop] at h
  | succ f ih =>
    rw [first_prop_named_loop] at h
    rw [fdt_get_property_namelen_loop]
    by_cases ho : o ≥ 0
    swap
    · rw [if_neg ho] at h ⊢
      simp only [Option.some.injEq] at h
      subst h
      exact ⟨none, o, rfl, rfl⟩
    rw [if_pos ho] at h ⊢
    have hiff := prop_name_is_iff fdt name o hn
    by_cases hc : fdt_check_prop_offset_ fdt o < 0
    · -- the source stops with -INTERNAL; the enumeration ends at its next step
      have hnot : ¬ prop_name_is fdt o name := fun hp => (hiff.mp hp).1 hc
      rw [if_neg hnot] at h
      have hs : fdt_get_property_by_offset_ fdt o = (none, fdt_check_prop_offset_ fdt o) := by
        unfold fdt_get_property_by_offset_; rw [if_pos hc]
      rw [hs]
      have hnx : fdt_next_property_offset F fdt o = some (fdt_check_prop_offset_ fdt o) := by
        unfold fdt_next_property_offset; rw [if_pos hc]
      rw [hnx] at h
      simp only [] at h
      cases f with
      | zero => simp [first_prop_named_loop] at h
      | succ f =>
        rw [first_prop_named_loop, if_neg (by omega)] at h
        simp only [Option.some.injEq] at h
        subst h
        exact ⟨none, _, rfl, rfl⟩
    · have hs : fdt_get_property_by_offset_ fdt o =
          (some (fdt_offset_ptr_ fdt o), i32 (fdt32_ld fdt (fdt_offset_ptr_ fdt o + 4))) := by
        unfold fdt_get_property_by_offset_; rw [if_neg hc]
      rw [hs]
      simp only []
      by_cases hp : prop_name_is fdt o name
      · rw [if_pos hp] at h
        simp only [Option.some.injEq] at h
        subst h
        rw [if_pos (hiff.mp hp).2]
        exact ⟨_, _, rfl, rfl, rfl, hp⟩
      · rw [if_neg hp] at h
        have hse : ¬ fdt_string_eq_ fdt (i32 (fdt32_ld fdt (fdt_offset_ptr_ fdt o + 8))) name
            (i32 (strlen name 0)) = true := fun hh => hp (hiff.mpr ⟨hc, hh⟩)
        rw [if_neg hse]
        cases hnx : fdt_next_property_offset F fdt o with
        | none => rw [hnx] at h; simp at h
        | some o' =>
          rw [hnx] at h
          exact ih o' x h

theorem source_to_iteration (F : Nat) (fdt name : List UInt8)
    (hn : ((cstr name 0).length : Int) ≤ INT_MAX) (f : Nat) (o : Int)
    (q : Option (Int × Int)) (len : Int)
    (h : fdt_get_property_namelen_loop F fdt name (i32 (strlen name 0)) f o = some (q, len)) :
    ∃ x, first_prop_named_loop (F + 1) fdt name (f + 1) o = some x ∧
      lookup_agree fdt name x q len := by
  induction f generalizing o with
  | zero => simp [fdt_get_property_namelen_loop] at h
  | succ f ih =>
    rw [fdt_get_property_namelen_loop] at h
    rw [first_prop_named_loop]
    by_cases ho : o ≥ 0
    swap
    · rw [if_neg ho] at h ⊢
      simp only [Option.some.injEq, Prod.mk.injEq] at h
      obtain ⟨h1, h2⟩ := h
      subst h1
      exact ⟨none, rfl, rfl⟩
    rw [if_pos ho] at h ⊢
    have hiff := prop_name_is_iff fdt name o hn
    by_cases hc : fdt_check_prop_offset_ fdt o < 0
    · have hnot : ¬ prop_name_is fdt o name := fun hp => (hiff.mp hp).1 hc
      rw [if_neg hnot]
      have hs : fdt_get_property_by_offset_ fdt o = (none, fdt_check_prop_offset_ fdt o) := by
        unfold fdt_get_property_by_offset_; rw [if_pos hc]
      rw [hs] at h
      simp only [Option.some.injEq, Prod.mk.injEq] at h
      obtain ⟨h1, h2⟩ := h
      subst h1
      have hnx : fdt_next_property_offset (F + 1) fdt o = some (fdt_check_prop_offset_ fdt o) := by
        unfold fdt_next_property_offset; rw [if_pos hc]
      rw [hnx]
      simp only []
      rw [first_prop_named_loop, if_neg (by omega)]
      exact ⟨none, rfl, rfl⟩
    · have hs : fdt_get_property_by_offset_ fdt o =
          (some (fdt_offset_ptr_ fdt o), i32 (fdt32_ld fdt (fdt_offset_ptr_ fdt o + 4))) := by
        unfold fdt_get_property_by_offset_; rw [if_neg hc]
      rw [hs] at h
      simp only [] at h
      by_cases hp : prop_name_is fdt o name
      · rw [if_pos hp]
        rw [if_pos (hiff.mp hp).2] at h
        simp only [Option.some.injEq, Prod.mk.injEq] at h
        obtain ⟨h1, h2⟩ := h
        subst h1 h2
        exact ⟨some o, rfl, rfl, rfl, hp⟩
      · rw [if_neg hp]
        have hse : ¬ fdt_string_eq_ fdt (i32 (fdt32_ld fdt (fdt_offset_ptr_ fdt o + 8))) name
            (i32 (strlen name 0)) = true := fun hh => hp (hiff.mpr ⟨hc, hh⟩)
        rw [if_neg hse] at h
        cases hnx : fdt_next_property_offset F fdt o with
        | none => rw [hnx] at h; simp at h
        | some o' =>
          rw [hnx] at h
          rw [next_property_offset_mono _ _ _ _ hnx]
          exact ih o' h

/-- C9: for every blob, node offset and name (a C string whose length fits an
`int`), `fdt_getprop` returns the value pointer and the length that
`fdt_getprop_by_offset` returns at the first offset, in the order of
`fdt_first_property_offset` / `fdt_next_property_offset`, whose name resolved
through the string table equals the name; it returns null exactly when the
enumeration ends without such an offset; and either lookup returns when the
other does. -/
theorem C9_getprop_eq_iteration (fdt : Blob) (n : Int) (name : List UInt8)
    (hn : strlen name 0 ≤ INT_MAX) :
    (∀ fuel o, first_prop_named fuel fdt n name = some (some o) →
      ∃ r, fdt_getprop fuel fdt n name = some r ∧ r.1 ≠ none ∧
        ∀ w, r.1 = (fdt_getprop_by_offset fdt o w).1 ∧
          r.2 = (fdt_getprop_by_offset fdt o w).2.2) ∧
    (∀ fuel, first_prop_named fuel fdt n name = some none →
      ∃ r, fdt_getprop fuel fdt n name = some r ∧ r.1 = none) ∧
    (∀ fuel r, fdt_getprop fuel fdt n name = some r →
      ∃ x, first_prop_named (fuel + 1) fdt n name = some x ∧
        match x with
        | none => r.1 = none
        | some o => r.1 ≠ none ∧
            ∀ w, r.1 = (fdt_getprop_by_offset fdt o w).1 ∧
              r.2 = (fdt_getprop_by_offset fdt o w).2.2) := by
  have hn' : ((cstr name 0).length : Int) ≤ INT_MAX := hn
  have fwd : ∀ fuel x, first_prop_named fuel fdt n name = some x →
      ∃ q len, fdt_get_property_namelen_ fuel fdt n name (i32 (strlen name 0)) = some (q, len) ∧
        lookup_agree fdt name x q len := by
    intro fuel x h
    unfold first_prop_named at h
    unfold fdt_get_property_namelen_
    cases hf : fdt_first_property_offset fuel fdt n with
    | none => rw [hf] at h; simp at h
    | some o =>
      rw [hf] at h
      exact iteration_to_source fuel fdt name hn' fuel o x h
  refine ⟨fun fuel o h => ?_, fun fuel h => ?_, fun fuel r h => ?_⟩
  · obtain ⟨q, len, h1, h2, h3, h4⟩ := fwd fuel _ h
    refine ⟨(some (prop_data fdt (fdt_offset_ptr_ fdt o) o), len), ?_, by simp, fun w => ?_⟩
    · unfold fdt_getprop fdt_getprop_namelen
      rw [h1, h2]; rfl
    · obtain ⟨g1, g2⟩ := getprop_by_offset_of_name fdt name o h4 w
      exact ⟨g1.symm, by rw [g2]; exact h3⟩
  · obtain ⟨q, len, h1, h2⟩ := fwd fuel _ h
    refine ⟨(none, len), ?_, rfl⟩
    unfold fdt_getprop fdt_getprop_namelen
    have : q = none := h2
    rw [h1, this]; rfl
  · unfold fdt_getprop fdt_getprop_namelen at h
    cases hs : fdt_get_property_namelen_ fuel fdt n name (i32 (strlen name 0)) with
    | none => rw [hs] at h; simp at h
    | some ql =>
      obtain ⟨q, len⟩ := ql
      rw [hs] at h
      simp only [Option.map_some', Option.some.injEq] at h
      unfold fdt_get_property_namelen_ at hs
      cases hf : fdt_first_property_offset fuel fdt n with
      | none => rw [hf] at hs; simp at hs
      | some o =>
        rw [hf] at hs
        obtain ⟨x, hx, hag⟩ := source_to_iteration fuel fdt name hn' fuel o q len hs
        refine ⟨x, ?_, ?_⟩
        · unfold first_prop_named
          rw [first_property_offset_mono _ _ _ _ hf]
          exact hx
        · cases x with
          | none =>
            have : q = none := hag
            subst this; subst h; rfl
          | some m =>
            obtain ⟨a1, a2, a3⟩ := hag
            subst a1; subst h
            refine ⟨by simp, fun w => ?_⟩
            obtain ⟨g1, g2⟩ := getprop_by_offset_of_name fdt name m a3 w
            exact ⟨g1.symm, by rw [g2]; exact a2⟩

theorem C9_getprop_eq_iteration_witness :
    first_prop_named 5 blobTree 24 str_phandle = some (some 32) ∧
    fdt_getprop 5 blobTree 24 str_phandle = some (some 108, 4) ∧
    ∃ r, fdt_getprop 5 blobTree 24 str_phandle = some r ∧ r.1 ≠ none ∧
      ∀ w, r.1 = (fdt_getprop_by_offset blobTree 32 w).1 ∧
        r.2 = (fdt_getprop_by_offset blobTree 32 w).2.2 :=
  ⟨by decide, by decide,
    (C9_getprop_eq_iteration blobTree 24 str_phandle (by decide)).1 5 32 (by decide)⟩

theorem hdr_bounds (fdt : Blob) :
    (0 ≤ fdt_totalsize fdt ∧ fdt_totalsize fdt < 4294967296) ∧
    (0 ≤ fdt_off_dt_struct fdt ∧ fdt_off_dt_struct fdt < 4294967296) ∧
    (0 ≤ fdt_size_dt_struct fdt ∧ fdt_size_dt_struct fdt < 4294967296) :=
  ⟨fdt32_ld_bounds fdt 4, fdt32_ld_bounds fdt 8, fdt32_ld_bounds fdt 36⟩

/-- What a non-null `fdt_offset_ptr` says when `totalsize <= INT_MAX`: the
offset is not negative and the range ends below `totalsize`. -/
theorem offset_ptr_some (fdt : Blob) (off len p : Int) (ht : fdt_totalsize fdt ≤ INT_MAX)
    (hoff : -2147483648 ≤ off ∧ off ≤ INT_MAX) (hlen : 0 ≤ len ∧ len < 4294967296)
    (h : fdt_offset_ptr fdt off len = some p) :
    0 ≤ off ∧ fdt_off_dt_struct fdt + off + len ≤ fdt_totalsize fdt ∧
      p = fdt_off_dt_struct fdt + off := by
  obtain ⟨b1, b2, b3⟩ := hdr_bounds fdt
  unfold INT_MAX at ht hoff
  unfold fdt_offset_ptr fdt_offset_ptr_ u32 at h
  simp only [] at h
  split_ifs at h with ha hb
  simp only [Option.some.injEq] at h
  omega

theorem i32_bounds (x : Int) : -2147483648 ≤ i32 x ∧ i32 x ≤ INT_MAX := by
  unfold i32 INT_MAX; omega

theorem skip_name_gt (fdt : Blob) (ht : fdt_totalsize fdt ≤ INT_MAX) (fuel : Nat) (o r : Int)
    (ho : -2147483648 ≤ o ∧ o ≤ INT_MAX) (h : skip_name fdt fuel o = some r) :
    0 ≤ o ∧ o < r ∧ r ≤ INT_MAX := by
  induction fuel generalizing o with
  | zero => simp [skip_name] at h
  | succ fuel ih =>
    rw [skip_name] at h
    cases hp : fdt_offset_ptr fdt o 1 with
    | none => rw [hp] at h; simp at h
    | some p =>
      rw [hp] at h
      simp only [] at h
      obtain ⟨h0, h1, _⟩ := offset_ptr_some fdt o 1 p ht ho (by omega) hp
      obtain ⟨b1, b2, b3⟩ := hdr_bounds fdt
      have hi : i32 (o + 1) = o + 1 := by unfold i32; unfold INT_MAX at ht; omega
      rw [hi] at h
      unfold INT_MAX at ht ho ⊢
      split_ifs at h
      · have := ih (o + 1) (by unfold INT_MAX; omega) h
        unfold INT_MAX at this
        omega
      · simp only [Option.some.injEq] at h; omega

theorem tagalign_facts (x : Int) (hx : 0 ≤ x ∧ x ≤ INT_MAX) :
    FDT_TAGALIGN x % 4 = 0 ∧ (0 ≤ FDT_TAGALIGN x → x ≤ FDT_TAGALIGN x ∧ FDT_TAGALIGN x < x + 4) := by
  unfold FDT_TAGALIGN i32; unfold INT_MAX at hx; omega

theorem next_tag_payload_range (fdt : Blob) (ht : fdt_totalsize fdt ≤ INT_MAX) (tag off r : Int)
    (ho : 0 ≤ off ∧ off ≤ INT_MAX) (h : next_tag_payload fdt tag off = some r) :
    -2147483648 ≤ r ∧ r ≤ INT_MAX ∧ (tag ≠ FDT_PROP → off ≤ r) ∧
      (tag = FDT_BEGIN_NODE → off < r) := by
  unfold next_tag_payload at h
  split_ifs at h with c1 c2 c3
  · have := skip_name_gt fdt ht _ _ _ (by unfold INT_MAX at *; omega) h
    unfold INT_MAX at *; omega
  · cases hl : fdt_offset_ptr fdt off 4 with
    | none => rw [hl] at h; simp at h
    | some lenp =>
      rw [hl] at h
      simp only [] at h
      split_ifs at h
      · simp only [Option.some.injEq] at h
        have := i32_bounds (i32 (u64 (u64 off + u64 (12 - FDT_TAGSIZE) + fdt32_ld fdt lenp)) + 4)
        rw [h] at this
        refine ⟨this.1, this.2, fun hc => absurd c2 hc, fun hc => ?_⟩
        rw [hc] at c2; exact absurd c2 (by decide)
      · simp only [Option.some.injEq] at h
        have := i32_bounds (u64 (u64 off + u64 (12 - FDT_TAGSIZE) + fdt32_ld fdt lenp))
        rw [h] at this
        refine ⟨this.1, this.2, fun hc => absurd c2 hc, fun hc => ?_⟩
        rw [hc] at c2; exact absurd c2 (by decide)
  · simp only [Option.some.injEq] at h
    refine ⟨?_, ?_, ?_, fun hc => absurd hc c1⟩ <;> (unfold INT_MAX at *; omega)

/-- The step of the tag walker under `totalsize <= INT_MAX`: a non-negative next
offset is 4-aligned and not before the start, and after a `BEGIN_NODE` it is
strictly after the start. -/
theorem next_tag_step (fdt : Blob) (ht : fdt_totalsize fdt ≤ INT_MAX) (off : Int)
    (ho : 0 ≤ off ∧ off ≤ INT_MAX) (hn : 0 ≤ (fdt_next_tag fdt off).2) :
    (fdt_next_tag fdt off).2 % 4 = 0 ∧ off ≤ (fdt_next_tag fdt off).2 ∧
    (fdt_next_tag fdt off).2 ≤ INT_MAX ∧
    ((fdt_next_tag fdt off).1 = FDT_BEGIN_NODE → off < (fdt_next_tag fdt off).2) := by
  obtain ⟨b1, b2, b3⟩ := hdr_bounds fdt
  unfold fdt_next_tag at hn ⊢
  cases hp : fdt_offset_ptr fdt off FDT_TAGSIZE with
  | none => rw [hp] at hn; simp [FDT_ERR_TRUNCATED] at hn
  | some tagp =>
    rw [hp] at hn
    simp only [] at hn ⊢
    obtain ⟨_, p1, _⟩ := offset_ptr_some fdt off 4 tagp ht (by unfold INT_MAX at *; omega)
      (by omega) hp
    have hi4 : i32 (off + FDT_TAGSIZE) = off + 4 := by
      unfold i32 FDT_TAGSIZE; unfold INT_MAX at ht; omega
    rw [hi4] at hn ⊢
    cases hbody : next_tag_payload fdt (fdt32_ld fdt tagp) (off + 4) with
    | none => rw [hbody] at hn; simp [FDT_ERR_BADSTRUCTURE] at hn
    | some offset =>
      rw [hbody] at hn
      simp only [] at hn ⊢
      cases hq : fdt_offset_ptr fdt off (u32 (offset - off)) with
      | none => rw [hq] at hn; simp [FDT_ERR_BADSTRUCTURE] at hn
      | some q =>
        rw [hq] at hn
        simp only [] at hn ⊢
        have hu : 0 ≤ u32 (offset - off) ∧ u32 (offset - off) < 4294967296 := by
          unfold u32; omega
        obtain ⟨_, q1, _⟩ := offset_ptr_some fdt off _ q ht (by unfold INT_MAX at *; omega) hu hq
        obtain ⟨r1, r2, r3, r4⟩ := next_tag_payload_range fdt ht _ _ _
          (by unfold INT_MAX at *; omega) hbody
        have hoff : offset = off + u32 (offset - off) := by
          unfold u32 at *; unfold INT_MAX at *; omega
        have hx : 0 ≤ offset ∧ offset ≤ INT_MAX := by unfold INT_MAX at *; omega
        obtain ⟨t1, t2⟩ := tagalign_facts offset hx
        have t3 := t2 hn
        have t4 : FDT_TAGALIGN offset ≤ INT_MAX := by
          unfold FDT_TAGALIGN i32 INT_MAX; omega
        exact ⟨t1, by omega, t4, fun hc => by have := r4 hc; omega⟩

theorem node_walk_begin (fuel0 : Nat) (fdt : Blob) (F : Nat) (off : Int) (depth : Option Int)
    (ho : 0 ≤ off) (ha : off % 4 = 0) (hb : (fdt_next_tag fdt off).1 = FDT_BEGIN_NODE)
    (hn : 0 ≤ (fdt_next_tag fdt off).2) :
    node_walk fuel0 fdt (F + 1) off depth =
      node_walk_from fuel0 fuel0 fdt F (fdt_next_tag fdt off).2 depth := by
  have hc : fdt_check_node_offset_ fdt off = (fdt_next_tag fdt off).2 := by
    unfold fdt_check_node_offset_
    rw [if_neg (by unfold FDT_TAGSIZE; omega), if_neg (by simp [hb])]
  rw [node_walk, node_walk_from, fdt_next_node, if_pos ho, hc, if_neg (by omega)]

theorem node_walk_start (fuel0 : Nat) (fdt : Blob) (F : Nat) (depth : Option Int) :
    node_walk fuel0 fdt (F + 1) (-1) depth = node_walk_from fuel0 fuel0 fdt F 0 depth := by
  rw [node_walk, node_walk_from, fdt_next_node, if_neg (by omega)]

theorem tags_distinct : FDT_BEGIN_NODE ≠ FDT_END_NODE ∧ FDT_BEGIN_NODE ≠ FDT_PROP ∧
    FDT_BEGIN_NODE ≠ FDT_NOP ∧ FDT_BEGIN_NODE ≠ FDT_END ∧ FDT_END_NODE ≠ FDT_PROP ∧
    FDT_END_NODE ≠ FDT_NOP ∧ FDT_END_NODE ≠ FDT_END ∧ FDT_PROP ≠ FDT_NOP ∧
    FDT_PROP ≠ FDT_END ∧ FDT_NOP ≠ FDT_END := by decide

theorem ro_probe_le_zero (fdt : Blob) : fdt_ro_probe_ fdt ≤ 0 := by
  unfold fdt_ro_probe_
  split_ifs <;> decide

theorem get_string_tail_none (fdt : Blob) (s e : Int) (n : Nat)
    (h : (match memchr (rd8 fdt) 0 n s with
        | none => ((none : Option Int), -FDT_ERR_TRUNCATED)
        | some n => (some s, i32 (n - s))) = (none, e)) : e < 0 := by
  cases hm : memchr (rd8 fdt) 0 n s with
  | none => rw [hm] at h; simp only [Prod.mk.injEq, true_and] at h; subst h; decide
  | some n => rw [hm] at h; simp at h

theorem get_string_none_neg (fdt : Blob) (stroff e : Int)
    (h : fdt_get_string fdt stroff = (none, e)) : e < 0 := by
  have hp := ro_probe_le_zero fdt
  unfold fdt_get_string at h
  simp only [] at h
  split_ifs at h
  all_goals first
    | exact get_string_tail_none fdt _ _ _ h
    | (simp only [Prod.mk.injEq, true_and] at h; subst h; first | decide | omega)

/-- The five cases of one round of the loop of `fdt_check_full` that does not
fail. -/
theorem check_full_loop_step (fdt : Blob) (f : Nat) (off d : Int)
    (h : fdt_check_full_loop fdt (f + 1) off d = some 0) :
    0 ≤ (fdt_next_tag fdt off).2 ∧
    (((fdt_next_tag fdt off).1 = FDT_NOP ∧
        fdt_check_full_loop fdt f (fdt_next_tag fdt off).2 d = some 0) ∨
     ((fdt_next_tag fdt off).1 = FDT_END ∧ d = 0) ∨
     ((fdt_next_tag fdt off).1 = FDT_BEGIN_NODE ∧ u32 (d + 1) ≤ INT_MAX ∧
        fdt_check_full_loop fdt f (fdt_next_tag fdt off).2 (u32 (d + 1)) = some 0) ∨
     ((fdt_next_tag fdt off).1 = FDT_END_NODE ∧ d ≠ 0 ∧
        fdt_check_full_loop fdt f (fdt_next_tag fdt off).2 (u32 (d - 1)) = some 0) ∨
     ((fdt_next_tag fdt off).1 = FDT_PROP ∧
        (fdt_getprop_by_offset fdt off true).1.isSome ∧
        fdt_check_full_loop fdt f (fdt_next_tag fdt off).2 d = some 0)) := by
  obtain ⟨t1, t2, t3, t4, t5, t6, t7, t8, t9, t10⟩ := tags_distinct
  rw [fdt_check_full_loop] at h
  by_cases hn : (fdt_next_tag fdt off).2 < 0
  · rw [if_pos hn] at h; simp only [Option.some.injEq] at h; omega
  rw [if_neg hn] at h
  refine ⟨by omega, ?_⟩
  by_cases c1 : (fdt_next_tag fdt off).1 = FDT_NOP
  · rw [if_pos c1] at h; exact Or.inl ⟨c1, h⟩
  rw [if_neg c1] at h
  by_cases c2 : (fdt_next_tag fdt off).1 = FDT_END
  · rw [if_pos c2] at h
    right; left
    refine ⟨c2, ?_⟩
    by_contra hd
    rw [if_pos hd] at h
    exact absurd h (by decide)
  rw [if_neg c2] at h
  by_cases c3 : (fdt_next_tag fdt off).1 = FDT_BEGIN_NODE
  · rw [if_pos c3] at h
    right; right; left
    by_cases hd : u32 (d + 1) > INT_MAX
    · rw [if_pos hd] at h; exact absurd h (by decide)
    · rw [if_neg hd] at h; exact ⟨c3, by omega, h⟩
  rw [if_neg c3] at h
  by_cases c4 : (fdt_next_tag fdt off).1 = FDT_END_NODE
  · rw [if_pos c4] at h
    right; right; right; left
    by_cases hd : d = 0
    · rw [if_pos hd] at h; exact absurd h (by decide)
    · rw [if_neg hd] at h; exact ⟨c4, hd, h⟩
  rw [if_neg c4] at h
  by_cases c5 : (fdt_next_tag fdt off).1 = FDT_PROP
  · rw [if_pos c5] at h
    right; right; right; right
    rcases hg : fdt_getprop_by_offset fdt off true with ⟨_ | v, nm, e⟩
    · rw [hg] at h
      simp only [Option.some.injEq] at h
      -- a null result carries a negative code
      exfalso
      unfold fdt_getprop_by_offset fdt_get_property_by_offset_ at hg
      by_cases hc : fdt_check_prop_offset_ fdt off < 0
      · rw [if_pos hc] at hg
        simp only [Prod.mk.injEq, true_and] at hg
        omega
      · rw [if_neg hc] at hg
        simp only [if_true] at hg
        rcases hs : fdt_get_string fdt (i32 (fdt32_ld fdt (fdt_offset_ptr_ fdt off + 8))) with ⟨_ | q, sl⟩
        · rw [hs] at hg
          simp only [Prod.mk.injEq, true_and] at hg
          have := get_string_none_neg fdt _ _ hs
          omega
        · rw [hs] at hg; simp at hg
    · rw [hg] at h
      exact ⟨c5, by simp, h⟩
  rw [if_neg c5] at h
  exact absurd h (by decide)

theorem next_node_loop_skip (fdt : Blob) (F : Nat) (off : Int) (depth : Option Int)
    (h : (fdt_next_tag fdt off).1 = FDT_PROP ∨ (fdt_next_tag fdt off).1 = FDT_NOP) :
    fdt_next_node_loop fdt (F + 1) off depth =
      fdt_next_node_loop fdt F (fdt_next_tag fdt off).2 depth := by
  conv => lhs; unfold fdt_next_node_loop
  simp only []; rw [if_pos h]

theorem next_node_loop_begin (fdt : Blob) (F : Nat) (off : Int) (depth : Option Int)
    (h : (fdt_next_tag fdt off).1 = FDT_BEGIN_NODE) :
    fdt_next_node_loop fdt (F + 1) off depth = some (off, depth.map fun d => i32 (d + 1)) := by
  obtain ⟨t1, t2, t3, t4, t5, t6, t7, t8, t9, t10⟩ := tags_distinct
  conv => lhs; unfold fdt_next_node_loop
  simp only []
  rw [if_neg (by rw [h]; simp [t2, t3]), if_pos h]

theorem next_node_loop_end_node (fdt : Blob) (F : Nat) (off d : Int)
    (h : (fdt_next_tag fdt off).1 = FDT_END_NODE) (hd : 0 ≤ i32 (d - 1)) :
    fdt_next_node_loop fdt (F + 1) off (some d) =
      fdt_next_node_loop fdt F (fdt_next_tag fdt off).2 (some (i32 (d - 1))) := by
  obtain ⟨t1, t2, t3, t4, t5, t6, t7, t8, t9, t10⟩ := tags_distinct
  conv => lhs; unfold fdt_next_node_loop
  simp only []
  rw [if_neg (by rw [h]; simp [t5, t6]), if_neg (by rw [h]; exact t1.symm), if_pos h,
    if_neg (by omega)]

theorem next_node_loop_end (fdt : Blob) (F : Nat) (off : Int) (depth : Option Int)
    (h : (fdt_next_tag fdt off).1 = FDT_END) (hn : 0 ≤ (fdt_next_tag fdt off).2) :
    fdt_next_node_loop fdt (F + 1) off depth = some (-FDT_ERR_NOTFOUND, depth) := by
  obtain ⟨t1, t2, t3, t4, t5, t6, t7, t8, t9, t10⟩ := tags_distinct
  conv => lhs; unfold fdt_next_node_loop
  simp only []
  rw [if_neg (by rw [h]; simp [t9.symm, t10.symm]), if_neg (by rw [h]; exact t4.symm),
    if_neg (by rw [h]; exact t7.symm), if_pos h, if_pos (Or.inl hn)]

theorem tag_walk_succ (fdt : Blob) (f : Nat) (off : Int) :
    tag_walk fdt (f + 1) off =
      (off, (fdt_next_tag fdt off).1, (fdt_next_tag fdt off).2) ::
        (if (fdt_next_tag fdt off).1 = FDT_END then []
         else tag_walk fdt f (fdt_next_tag fdt off).2) := by
  rw [tag_walk]

theorem begin_offsets_skip (fdt : Blob) (f : Nat) (off : Int)
    (h1 : (fdt_next_tag fdt off).1 ≠ FDT_BEGIN_NODE) (h2 : (fdt_next_tag fdt off).1 ≠ FDT_END) :
    begin_offsets fdt (f + 1) off = begin_offsets fdt f (fdt_next_tag fdt off).2 := by
  unfold begin_offsets
  rw [tag_walk_succ, if_neg h2, List.filter_cons_of_neg (by simpa using h1)]

theorem begin_offsets_begin (fdt : Blob) (f : Nat) (off : Int)
    (h1 : (fdt_next_tag fdt off).1 = FDT_BEGIN_NODE) :
    begin_offsets fdt (f + 1) off = off :: begin_offsets fdt f (fdt_next_tag fdt off).2 := by
  obtain ⟨t1, t2, t3, t4, t5, t6, t7, t8, t9, t10⟩ := tags_distinct
  unfold begin_offsets
  rw [tag_walk_succ, if_neg (by rw [h1]; exact t4), List.filter_cons_of_pos (by simpa using h1)]
  rfl

theorem begin_offsets_end (fdt : Blob) (f : Nat) (off : Int)
    (h1 : (fdt_next_tag fdt off).1 = FDT_END) :
    begin_offsets fdt (f + 1) off = [] := by
  obtain ⟨t1, t2, t3, t4, t5, t6, t7, t8, t9, t10⟩ := tags_distinct
  unfold begin_offsets
  rw [tag_walk_succ, if_pos h1, List.filter_cons_of_neg (by simp [h1, t4.symm])]
  rfl

/-- The walk of `fdt_next_node` over the part of the structure block that the
loop of `fdt_check_full` accepts from `off` at depth `d`. -/
theorem walk_of_check_full (fdt : Blob) (ht : fdt_totalsize fdt ≤ INT_MAX) (f : Nat) :
    ∀ (off d : Int), 0 ≤ off → off ≤ INT_MAX → off % 4 = 0 → 0 ≤ d → d ≤ INT_MAX →
      fdt_check_full_loop fdt f off d = some 0 →
      ∃ nodes : List (Int × Option Int),
        (∀ F1 F0 F, f ≤ F1 → f ≤ F0 → f ≤ F →
          node_walk_from F1 F0 fdt F off (some d) = some (nodes, -FDT_ERR_NOTFOUND, some 0)) ∧
        nodes.map (fun x => x.1) = begin_offsets fdt f off ∧
        (∀ x ∈ nodes, off ≤ x.1 ∧ ∃ d', x.2 = some d' ∧ 1 ≤ d') ∧
        (nodes.map (fun x => x.1)).Pairwise (fun a b => a < b) := by
  induction f with
  | zero => intro off d _ _ _ _ _ h; simp [fdt_check_full_loop] at h
  | succ f ih =>
    intro off d ho ho2 ha hd hd2 h
    obtain ⟨t1, t2, t3, t4, t5, t6, t7, t8, t9, t10⟩ := tags_distinct
    obtain ⟨hn, hcase⟩ := check_full_loop_step fdt f off d h
    obtain ⟨s1, s2, s3, s4⟩ := next_tag_step fdt ht off ⟨ho, ho2⟩ hn
    have mono : ∀ nodes : List (Int × Option Int),
        (∀ x ∈ nodes, (fdt_next_tag fdt off).2 ≤ x.1 ∧ ∃ d', x.2 = some d' ∧ 1 ≤ d') →
        (∀ x ∈ nodes, off ≤ x.1 ∧ ∃ d', x.2 = some d' ∧ 1 ≤ d') := by
      intro nodes hx x hm
      obtain ⟨a, b⟩ := hx x hm
      exact ⟨by omega, b⟩
    rcases hcase with ⟨c, h'⟩ | ⟨c, h'⟩ | ⟨c, hd3, h'⟩ | ⟨c, hd3, h'⟩ | ⟨c, _, h'⟩
    · -- NOP
      obtain ⟨nodes, w1, w2, w3, w4⟩ := ih _ d hn s3 s1 hd hd2 h'
      refine ⟨nodes, fun F1 F0 F g1 g2 g3 => ?_, ?_, mono nodes w3, w4⟩
      · obtain ⟨F1', rfl⟩ : ∃ k, F1 = k + 1 := ⟨F1 - 1, by omega⟩
        have := w1 F1' F0 F (by omega) (by omega) (by omega)
        unfold node_walk_from at this ⊢
        rw [next_node_loop_skip fdt F1' off _ (Or.inr c)]
        exact this
      · rw [begin_offsets_skip fdt f off (by rw [c]; exact t3.symm) (by rw [c]; exact t10)]
        exact w2
    · -- END
      subst h'
      refine ⟨[], fun F1 F0 F g1 g2 g3 => ?_, ?_, by simp, by simp⟩
      · obtain ⟨F1', rfl⟩ : ∃ k, F1 = k + 1 := ⟨F1 - 1, by omega⟩
        unfold node_walk_from
        rw [next_node_loop_end fdt F1' off _ c hn]
        simp [FDT_ERR_NOTFOUND]
      · rw [begin_offsets_end fdt f off c]; rfl
    · -- BEGIN_NODE
      have hu : u32 (d + 1) = d + 1 := by unfold u32; unfold INT_MAX at *; omega
      rw [hu] at h' hd3
      obtain ⟨nodes, w1, w2, w3, w4⟩ := ih _ (d + 1) hn s3 s1 (by omega) hd3 h'
      have hlt := s4 c
      refine ⟨(off, some (d + 1)) :: nodes, fun F1 F0 F g1 g2 g3 => ?_, ?_, ?_, ?_⟩
      · obtain ⟨F1', rfl⟩ : ∃ k, F1 = k + 1 := ⟨F1 - 1, by omega⟩
        obtain ⟨F', rfl⟩ : ∃ k, F = k + 1 := ⟨F - 1, by omega⟩
        have := w1 F0 F0 F' (by omega) (by omega) (by omega)
        unfold node_walk_from
        rw [next_node_loop_begin fdt F1' off _ c]
        have hi : i32 (d + 1) = d + 1 := by unfold i32; unfold INT_MAX at *; omega
        simp only [Option.map_some', hi]
        rw [if_neg (by omega), node_walk_begin F0 fdt F' off _ ho ha c hn, this]
        rfl
      · rw [begin_offsets_begin fdt f off c, List.map_cons, w2]
      · intro x hx
        rcases List.mem_cons.mp hx with rfl | hx
        · exact ⟨le_refl _, d + 1, rfl, by omega⟩
        · exact mono nodes w3 x hx
      · rw [List.map_cons, List.pairwise_cons]
        refine ⟨fun a hmem => ?_, w4⟩
        obtain ⟨x, hx, rfl⟩ := List.mem_map.mp hmem
        have := (w3 x hx).1
        omega
    · -- END_NODE
      have hu : u32 (d - 1) = d - 1 := by unfold u32; unfold INT_MAX at *; omega
      rw [hu] at h'
      obtain ⟨nodes, w1, w2, w3, w4⟩ := ih _ (d - 1) hn s3 s1 (by omega) (by omega) h'
      refine ⟨nodes, fun F1 F0 F g1 g2 g3 => ?_, ?_, mono nodes w3, w4⟩
      · obtain ⟨F1', rfl⟩ : ∃ k, F1 = k + 1 := ⟨F1 - 1, by omega⟩
        have := w1 F1' F0 F (by omega) (by omega) (by omega)
        have hi : i32 (d - 1) = d - 1 := by unfold i32; unfold INT_MAX at *; omega
        unfold node_walk_from at this ⊢
        rw [next_node_loop_end_node fdt F1' off d c (by omega), hi]
        exact this
      · rw [begin_offsets_skip fdt f off (by rw [c]; exact t1.symm) (by rw [c]; exact t7)]
        exact w2
    · -- PROP
      obtain ⟨nodes, w1, w2, w3, w4⟩ := ih _ d hn s3 s1 hd hd2 h'
      refine ⟨nodes, fun F1 F0 F g1 g2 g3 => ?_, ?_, mono nodes w3, w4⟩
      · obtain ⟨F1', rfl⟩ : ∃ k, F1 = k + 1 := ⟨F1 - 1, by omega⟩
        have := w1 F1' F0 F (by omega) (by omega) (by omega)
        unfold node_walk_from at this ⊢
        rw [next_node_loop_skip fdt F1' off _ (Or.inl c)]
        exact this
      · rw [begin_offsets_skip fdt f off (by rw [c]; exact t2.symm) (by rw [c]; exact t9)]
        exact w2

theorem check_full_zero (sz : HdrSizes) (fuel : Nat) (fdt : Blob) (bufsize : Int)
    (h : fdt_check_full sz fuel fdt bufsize = some 0) :
    fdt_check_header sz fdt = 0 ∧ fdt_totalsize fdt ≤ INT_MAX ∧
      fdt_check_full_loop fdt fuel 0 0 = some 0 := by
  have hh := (fdt_check_full_header sz fuel fdt bufsize h).1
  have ht : fdt_totalsize fdt ≤ INT_MAX := by
    unfold fdt_check_header at hh
    simp only [] at hh
    split_ifs at hh with c1 c2 c3 c4
    all_goals first
      | exact absurd hh (by decide)
      | omega
  refine ⟨hh, ht, ?_⟩
  unfold fdt_check_full at h
  by_cases c1 : bufsize < sz.v1
  · rw [if_pos c1] at h; exact absurd h (by decide)
  rw [if_neg c1, if_neg (by simp [hh])] at h
  by_cases c3 : bufsize < fdt_totalsize fdt
  · rw [if_pos c3] at h; exact absurd h (by decide)
  rw [if_neg c3] at h
  cases hm : fdt_num_mem_rsv fuel fdt with
  | none => rw [hm] at h; simp at h
  | some n =>
    rw [hm] at h
    simp only [] at h
    by_cases c4 : n < 0
    · rw [if_pos c4] at h; simp only [Option.some.injEq] at h; omega
    · rw [if_neg c4] at h; exact h

theorem tag_walk_complete (fdt : Blob) (f : Nat) :
    ∀ (off d : Int), fdt_check_full_loop fdt f off d = some 0 →
      ∃ t, (tag_walk fdt f off).getLast? = some t ∧ t.2.1 = FDT_END := by
  induction f with
  | zero => intro off d h; simp [fdt_check_full_loop] at h
  | succ f ih =>
    intro off d h
    obtain ⟨t1, t2, t3, t4, t5, t6, t7, t8, t9, t10⟩ := tags_distinct
    obtain ⟨hn, hcase⟩ := check_full_loop_step fdt f off d h
    rw [tag_walk_succ]
    have key : ∀ d', (fdt_next_tag fdt off).1 ≠ FDT_END →
        fdt_check_full_loop fdt f (fdt_next_tag fdt off).2 d' = some 0 →
        ∃ t, ((off, (fdt_next_tag fdt off).1, (fdt_next_tag fdt off).2) ::
          (if (fdt_next_tag fdt off).1 = FDT_END then []
           else tag_walk fdt f (fdt_next_tag fdt off).2)).getLast? = some t ∧
          t.2.1 = FDT_END := by
      intro d' hne h'
      obtain ⟨t, ht1, ht2⟩ := ih _ d' h'
      rw [if_neg hne]
      refine ⟨t, ?_, ht2⟩
      rw [List.getLast?_cons, ht1]; rfl
    rcases hcase with ⟨c, h'⟩ | ⟨c, h'⟩ | ⟨c, hd3, h'⟩ | ⟨c, hd3, h'⟩ | ⟨c, _, h'⟩
    · exact key d (by rw [c]; exact t10) h'
    · rw [if_pos c]; exact ⟨_, rfl, c⟩
    · exact key _ (by rw [c]; exact t4) h'
    · exact key _ (by rw [c]; exact t7) h'
    · exact key d (by rw [c]; exact t9) h'

/-- C7: for every blob that `fdt_check_full` accepts (the well-formed blobs of
the claim among them), calling `fdt_next_node` repeatedly from offset -1 with
the depth counter at 0 ends after finitely many calls with `-NOTFOUND`; the
non-negative offsets returned are exactly the offsets of the `BEGIN_NODE`
tags that `fdt_next_tag` reads from offset 0 up to `END`, in strictly
increasing order; the depth counter is never negative and is 0 at the end. -/
theorem C7_next_node_walk (sz : HdrSizes) (fdt : Blob) (fuel0 : Nat)
    (hfull : fdt_check_full sz fuel0 fdt (fdt_totalsize fdt) = some 0) :
    ∃ nodes : List (Int × Option Int),
      (∀ fuel, fuel0 < fuel →
        node_walk fuel fdt fuel (-1) (some 0) = some (nodes, -FDT_ERR_NOTFOUND, some 0)) ∧
      nodes.map (fun x => x.1) = begin_offsets fdt fuel0 0 ∧
      (∃ t, (tag_walk fdt fuel0 0).getLast? = some t ∧ t.2.1 = FDT_END) ∧
      (nodes.map (fun x => x.1)).Pairwise (fun a b => a < b) ∧
      (∀ x ∈ nodes, ∃ d, x.2 = some d ∧ 0 ≤ d) := by
  obtain ⟨hh, ht, hl⟩ := check_full_zero sz fuel0 fdt _ hfull
  obtain ⟨nodes, w1, w2, w3, w4⟩ := walk_of_check_full fdt ht fuel0 0 0 (le_refl _) (by decide)
    (by decide) (le_refl _) (by decide) hl
  refine ⟨nodes, fun fuel hf => ?_, w2, tag_walk_complete fdt fuel0 0 0 hl, w4, fun x hx => ?_⟩
  · obtain ⟨F, rfl⟩ : ∃ k, fuel = k + 1 := ⟨fuel - 1, by omega⟩
    rw [node_walk_start]
    exact w1 (F + 1) (F + 1) F (by omega) (by omega) (by omega)
  · obtain ⟨_, d, hd, hd1⟩ := w3 x hx
    exact ⟨d, hd, by omega⟩

theorem C7_next_node_walk_witness :
    node_walk 10 blobTree 10 (-1) (some 0) =
      some ([(0, some 1), (24, some 2), (52, some 2)], -FDT_ERR_NOTFOUND, some 0) ∧
    begin_offsets blobTree 9 0 = [0, 24, 52] ∧
    ∃ nodes : List (Int × Option Int),
      (∀ fuel, 9 < fuel →
        node_walk fuel blobTree fuel (-1) (some 0) = some (nodes, -FDT_ERR_NOTFOUND, some 0)) ∧
      nodes.map (fun x => x.1) = begin_offsets blobTree 9 0 ∧
      (∃ t, (tag_walk blobTree 9 0).getLast? = some t ∧ t.2.1 = FDT_END) ∧
      (nodes.map (fun x => x.1)).Pairwise (fun a b => a < b) ∧
      (∀ x ∈ nodes, ∃ d, x.2 = some d ∧ 0 ≤ d) :=
  ⟨by decide, by decide, C7_next_node_walk specSizes blobTree 9 (by decide)⟩

theorem reach_step (fdt : Blob) (ht : fdt_totalsize fdt ≤ INT_MAX) (f : Nat) (off d : Int)
    (h : Reach fdt (f + 1) off d) :
    0 ≤ (fdt_next_tag fdt off).2 ∧
    (((fdt_next_tag fdt off).1 = FDT_NOP ∧ Reach fdt f (fdt_next_tag fdt off).2 d) ∨
     ((fdt_next_tag fdt off).1 = FDT_END ∧ d = 0) ∨
     ((fdt_next_tag fdt off).1 = FDT_BEGIN_NODE ∧ Reach fdt f (fdt_next_tag fdt off).2 (d + 1)) ∨
     ((fdt_next_tag fdt off).1 = FDT_END_NODE ∧ Reach fdt f (fdt_next_tag fdt off).2 (d - 1)) ∨
     ((fdt_next_tag fdt off).1 = FDT_PROP ∧ Reach fdt f (fdt_next_tag fdt off).2 d)) := by
  obtain ⟨hl, ho, ha, hd, hd2⟩ := h
  obtain ⟨hn, hcase⟩ := check_full_loop_step fdt f off d hl
  obtain ⟨s1, s2, s3, s4⟩ := next_tag_step fdt ht off ho hn
  refine ⟨hn, ?_⟩
  rcases hcase with ⟨c, h'⟩ | ⟨c, h'⟩ | ⟨c, hd3, h'⟩ | ⟨c, hd3, h'⟩ | ⟨c, _, h'⟩
  · exact Or.inl ⟨c, h', ⟨hn, s3⟩, s1, hd, hd2⟩
  · exact Or.inr (Or.inl ⟨c, h'⟩)
  · have hu : u32 (d + 1) = d + 1 := by unfold u32; unfold INT_MAX at *; omega
    rw [hu] at h' hd3
    exact Or.inr (Or.inr (Or.inl ⟨c, h', ⟨hn, s3⟩, s1, by omega, hd3⟩))
  · have hu : u32 (d - 1) = d - 1 := by unfold u32; unfold INT_MAX at *; omega
    rw [hu] at h'
    exact Or.inr (Or.inr (Or.inr (Or.inl ⟨c, h', ⟨hn, s3⟩, s1, by omega, by omega⟩)))
  · exact Or.inr (Or.inr (Or.inr (Or.inr ⟨c, h', ⟨hn, s3⟩, s1, hd, hd2⟩)))

theorem reach_pos (fdt : Blob) (f : Nat) (off d : Int) (h : Reach fdt f off d) : 1 ≤ f := by
  cases f with
  | zero => simp [Reach, fdt_check_full_loop] at h
  | succ f => omega

/-- From a position that `fdt_check_full` accepts, `nextprop_` returns: an
error, or the offset of a `PROP` tag that is such a position too. -/
theorem reach_nextprop (fdt : Blob) (ht : fdt_totalsize fdt ≤ INT_MAX) (f : Nat) :
    ∀ (off d : Int), Reach fdt f off d → ∀ F, f ≤ F →
      ∃ r, nextprop_ fdt F off = some r ∧
        (r < 0 ∨ ((fdt_next_tag fdt r).1 = FDT_PROP ∧ ∃ g, g ≤ f ∧ Reach fdt g r d)) := by
  induction f with
  | zero => intro off d h; exact absurd (reach_pos fdt 0 off d h) (by omega)
  | succ f ih =>
    intro off d h F hF
    obtain ⟨t1, t2, t3, t4, t5, t6, t7, t8, t9, t10⟩ := tags_distinct
    obtain ⟨F', rfl⟩ : ∃ k, F = k + 1 := ⟨F - 1, by omega⟩
    obtain ⟨hn, hcase⟩ := reach_step fdt ht f off d h
    rw [nextprop_]
    rcases hcase with ⟨c, h'⟩ | ⟨c, h'⟩ | ⟨c, h'⟩ | ⟨c, h'⟩ | ⟨c, h'⟩
    · rw [if_neg (by rw [c]; exact t10), if_neg (by rw [c]; exact t8.symm), if_pos c]
      obtain ⟨r, hr, hr2⟩ := ih _ d h' F' (by omega)
      refine ⟨r, hr, ?_⟩
      rcases hr2 with hr2 | ⟨a, g, hg, b⟩
      · exact Or.inl hr2
      · exact Or.inr ⟨a, g, by omega, b⟩
    · rw [if_pos c, if_pos hn]
      exact ⟨_, rfl, Or.inl (by decide)⟩
    · rw [if_neg (by rw [c]; exact t4), if_neg (by rw [c]; exact t2),
        if_neg (by rw [c]; exact t3)]
      exact ⟨_, rfl, Or.inl (by decide)⟩
    · rw [if_neg (by rw [c]; exact t7), if_neg (by rw [c]; exact t5),
        if_neg (by rw [c]; exact t6)]
      exact ⟨_, rfl, Or.inl (by decide)⟩
    · rw [if_neg (by rw [c]; exact t9), if_pos c]
      exact ⟨off, rfl, Or.inr ⟨c, f + 1, le_refl _, h⟩⟩

/-- From a `PROP` position that `fdt_check_full` accepts, the loop of
`fdt_get_property_namelen_` returns. -/
theorem reach_prop_loop (fdt : Blob) (ht : fdt_totalsize fdt ≤ INT_MAX) (name : List UInt8)
    (nl : Int) (F0 : Nat) (f : Nat) :
    ∀ (off d : Int) (g : Nat), g ≤ f → Reach fdt g off d → (fdt_next_tag fdt off).1 = FDT_PROP →
      g ≤ F0 → ∀ F, g ≤ F →
      ∃ res, fdt_get_property_namelen_loop F0 fdt name nl F off = some res := by
  induction f with
  | zero => intro off d g hg h; exact absurd (reach_pos fdt g off d h) (by omega)
  | succ f ih =>
    intro off d g hg h hp hF0 F hF
    obtain ⟨t1, t2, t3, t4, t5, t6, t7, t8, t9, t10⟩ := tags_distinct
    have hg1 := reach_pos fdt g off d h
    obtain ⟨g', rfl⟩ : ∃ k, g = k + 1 := ⟨g - 1, by omega⟩
    obtain ⟨F', rfl⟩ : ∃ k, F = k + 1 := ⟨F - 1, by omega⟩
    obtain ⟨hn, hcase⟩ := reach_step fdt ht g' off d h
    have h' : Reach fdt g' (fdt_next_tag fdt off).2 d := by
      rcases hcase with ⟨c, h'⟩ | ⟨c, h'⟩ | ⟨c, h'⟩ | ⟨c, h'⟩ | ⟨c, h'⟩
      · rw [hp] at c; exact absurd c t8
      · rw [hp] at c; exact absurd c t9
      · rw [hp] at c; exact absurd c t2.symm
      · rw [hp] at c; exact absurd c t5.symm
      · exact h'
    obtain ⟨_, ho, ha, _, _⟩ := h
    have hc : fdt_check_prop_offset_ fdt off = (fdt_next_tag fdt off).2 := by
      unfold fdt_check_prop_offset_
      rw [if_neg (by unfold FDT_TAGSIZE; omega), if_neg (by simp [hp])]
    rw [fdt_get_property_namelen_loop, if_pos ho.1]
    unfold fdt_get_property_by_offset_
    rw [hc, if_neg (by omega)]
    simp only []
    split_ifs with hs
    · exact ⟨_, rfl⟩
    · unfold fdt_next_property_offset
      rw [hc, if_neg (by omega)]
      obtain ⟨r, hr, hr2⟩ := reach_nextprop fdt ht g' _ d h' F0 (by omega)
      rw [hr]
      simp only []
      have hg'1 := reach_pos fdt g' _ d h'
      rcases hr2 with hr2 | ⟨a, k, hk, b⟩
      · obtain ⟨F'', rfl⟩ : ∃ k, F' = k + 1 := ⟨F' - 1, by omega⟩
        rw [fdt_get_property_namelen_loop, if_neg (by omega)]
        exact ⟨_, rfl⟩
      · exact ih r d k (by omega) b a (by omega) F' (by omega)

theorem reach_getprop (fdt : Blob) (ht : fdt_totalsize fdt ≤ INT_MAX) (name : List UInt8)
    (f : Nat) (off d : Int) (h : Reach fdt f off d)
    (hb : (fdt_next_tag fdt off).1 = FDT_BEGIN_NODE) (F : Nat) (hF : f ≤ F) :
    ∃ res, fdt_getprop F fdt off name = some res := by
  obtain ⟨t1, t2, t3, t4, t5, t6, t7, t8, t9, t10⟩ := tags_distinct
  have hf1 := reach_pos fdt f off d h
  obtain ⟨f', rfl⟩ : ∃ k, f = k + 1 := ⟨f - 1, by omega⟩
  obtain ⟨hn, hcase⟩ := reach_step fdt ht f' off d h
  have h' : Reach fdt f' (fdt_next_tag fdt off).2 (d + 1) := by
    rcases hcase with ⟨c, h'⟩ | ⟨c, h'⟩ | ⟨c, h'⟩ | ⟨c, h'⟩ | ⟨c, h'⟩
    · rw [hb] at c; exact absurd c t3
    · rw [hb] at c; exact absurd c t4
    · exact h'
    · rw [hb] at c; exact absurd c t1
    · rw [hb] at c; exact absurd c t2
  obtain ⟨_, ho, ha, _, _⟩ := h
  have hc : fdt_check_node_offset_ fdt off = (fdt_next_tag fdt off).2 := by
    unfold fdt_check_node_offset_
    rw [if_neg (by unfold FDT_TAGSIZE; omega), if_neg (by simp [hb])]
  obtain ⟨r, hr, hr2⟩ := reach_nextprop fdt ht f' _ _ h' F (by omega)
  have hloop : ∃ res, fdt_get_property_namelen_ F fdt off name (i32 (strlen name 0)) =
      some res := by
    unfold fdt_get_property_namelen_ fdt_first_property_offset
    rw [hc, if_neg (by omega), hr]
    simp only []
    rcases hr2 with hr2 | ⟨a, k, hk, b⟩
    · obtain ⟨F', rfl⟩ : ∃ k, F = k + 1 := ⟨F - 1, by omega⟩
      rw [fdt_get_property_namelen_loop, if_neg (by omega)]
      exact ⟨_, rfl⟩
    · exact reach_prop_loop fdt ht name _ F k r _ k (le_refl _) b a (by omega) F (by omega)
  obtain ⟨res, hres⟩ := hloop
  unfold fdt_getprop fdt_getprop_namelen
  rw [hres]
  exact ⟨_, rfl⟩

theorem reach_get_phandle (fdt : Blob) (ht : fdt_totalsize fdt ≤ INT_MAX)
    (f : Nat) (off d : Int) (h : Reach fdt f off d)
    (hb : (fdt_next_tag fdt off).1 = FDT_BEGIN_NODE) (F : Nat) (hF : f ≤ F) :
    ∃ ph, fdt_get_phandle F fdt off = some ph := by
  obtain ⟨r1, h1⟩ := reach_getprop fdt ht str_phandle f off d h hb F hF
  obtain ⟨r2, h2⟩ := reach_getprop fdt ht str_linux_phandle f off d h hb F hF
  unfold fdt_get_phandle
  rw [h1, h2]
  simp only []
  split_ifs <;> exact ⟨_, rfl⟩

theorem next_node_loop_end_node_none (fdt : Blob) (F : Nat) (off : Int)
    (h : (fdt_next_tag fdt off).1 = FDT_END_NODE) :
    fdt_next_node_loop fdt (F + 1) off none =
      fdt_next_node_loop fdt F (fdt_next_tag fdt off).2 none := by
  obtain ⟨t1, t2, t3, t4, t5, t6, t7, t8, t9, t10⟩ := tags_distinct
  conv => lhs; unfold fdt_next_node_loop
  simp only []
  rw [if_neg (by rw [h]; simp [t5, t6]), if_neg (by rw [h]; exact t1.symm), if_pos h]

theorem ro_probe_of_check_header (sz : HdrSizes) (fdt : Blob)
    (h : fdt_check_header sz fdt = 0) : fdt_ro_probe_ fdt = 0 := by
  unfold fdt_check_header at h
  unfold fdt_ro_probe_
  by_cases c1 : fdt_magic fdt = FDT_MAGIC
  swap
  · rw [if_pos c1] at h; exact absurd h (by decide)
  rw [if_neg (by simp [c1])] at h
  simp only [] at h
  by_cases c2 : fdt_version fdt < FDT_FIRST_SUPPORTED_VERSION ∨
      fdt_last_comp_version fdt > FDT_LAST_SUPPORTED_VERSION
  · rw [if_pos c2] at h; exact absurd h (by decide)
  rw [if_pos c1, if_neg (by omega), if_neg (by omega)]

/-- The loop of `fdt_node_offset_by_phandle` over the part of the structure
block that `fdt_check_full` accepts from `off`: it returns the node `n` of that
part whose phandle is `v`, when no other node of that part has phandle `v`. -/
theorem by_phandle_of_reach (fdt : Blob) (ht : fdt_totalsize fdt ≤ INT_MAX) (v : Int)
    (F0 : Nat) (n : Int) (hv : fdt_get_phandle F0 fdt n = some v) (f : Nat) :
    ∀ (off d : Int), Reach fdt f off d → f ≤ F0 → n ∈ begin_offsets fdt f off →
      (∀ m ∈ begin_offsets fdt f off, fdt_get_phandle F0 fdt m = some v → m = n) →
      ∀ F1 F, f ≤ F1 → f ≤ F → by_phandle_from F1 F0 fdt v F off = some n := by
  induction f with
  | zero => intro off d h; exact absurd (reach_pos fdt 0 off d h) (by omega)
  | succ f ih =>
    intro off d h hF0 hmem huniq F1 F hF1 hF
    obtain ⟨t1, t2, t3, t4, t5, t6, t7, t8, t9, t10⟩ := tags_distinct
    obtain ⟨F1', rfl⟩ : ∃ k, F1 = k + 1 := ⟨F1 - 1, by omega⟩
    obtain ⟨hn, hcase⟩ := reach_step fdt ht f off d h
    have skip : ∀ d', (fdt_next_tag fdt off).1 ≠ FDT_BEGIN_NODE →
        (fdt_next_tag fdt off).1 ≠ FDT_END → Reach fdt f (fdt_next_tag fdt off).2 d' →
        fdt_next_node_loop fdt (F1' + 1) off none =
          fdt_next_node_loop fdt F1' (fdt_next_tag fdt off).2 none →
        by_phandle_from (F1' + 1) F0 fdt v F off = some n := by
      intro d' c1 c2 h' hl
      have e := begin_offsets_skip fdt f off c1 c2
      rw [e] at hmem huniq
      have := ih _ d' h' (by omega) hmem huniq F1' F (by omega) (by omega)
      unfold by_phandle_from at this ⊢
      rw [hl]; exact this
    rcases hcase with ⟨c, h'⟩ | ⟨c, h'⟩ | ⟨c, h'⟩ | ⟨c, h'⟩ | ⟨c, h'⟩
    · exact skip d (by rw [c]; exact t3.symm) (by rw [c]; exact t10) h'
        (next_node_loop_skip fdt F1' off _ (Or.inr c))
    · rw [begin_offsets_end fdt f off c] at hmem
      simp at hmem
    · obtain ⟨F', rfl⟩ : ∃ k, F = k + 1 := ⟨F - 1, by omega⟩
      obtain ⟨_, ho, ha, _, _⟩ := h
      have e := begin_offsets_begin fdt f off c
      rw [e] at hmem huniq
      obtain ⟨ph, hph⟩ := reach_get_phandle fdt ht (f + 1) off d
        ⟨by assumption, ho, ha, by assumption, by assumption⟩ c F0 hF0
      unfold by_phandle_from
      rw [next_node_loop_begin fdt F1' off _ c]
      simp only [Option.map_none']
      rw [fdt_node_offset_by_phandle_loop, if_pos ho.1, hph]
      simp only []
      by_cases hpv : ph = v
      · rw [if_pos hpv]
        rw [hpv] at hph
        rw [huniq off (List.mem_cons_self _ _) hph]
      · rw [if_neg hpv]
        have hne : n ≠ off := by
          intro hc; rw [hc, hph] at hv
          exact hpv (by simpa using hv)
        have hmem' : n ∈ begin_offsets fdt f (fdt_next_tag fdt off).2 := by
          rcases List.mem_cons.mp hmem with hm | hm
          · exact absurd hm hne
          · exact hm
        have := ih _ (d + 1) h' (by omega) hmem'
          (fun m hm => huniq m (List.mem_cons_of_mem _ hm)) F0 F' (by omega) (by omega)
        have hc : fdt_check_node_offset_ fdt off = (fdt_next_tag fdt off).2 := by
          unfold fdt_check_node_offset_
          rw [if_neg (by unfold FDT_TAGSIZE; omega), if_neg (by simp [c])]
        unfold by_phandle_from at this
        unfold fdt_next_node
        rw [if_pos ho.1, hc, if_neg (by omega)]
        exact this
    · exact skip (d - 1) (by rw [c]; exact t1.symm) (by rw [c]; exact t7) h'
        (next_node_loop_end_node_none fdt F1' off c)
    · exact skip d (by rw [c]; exact t2.symm) (by rw [c]; exact t9) h'
        (next_node_loop_skip fdt F1' off _ (Or.inl c))

/-- C10: for every blob that `fdt_check_full` accepts in which no two nodes
have the same valid phandle, and every node offset `n` (the offset of a
`BEGIN_NODE` tag of the structure block) whose `fdt_get_phandle` is a valid
phandle `v` (neither 0 nor 0xFFFFFFFF), `fdt_node_offset_by_phandle(v)`
returns `n`, with any fuel above the one `fdt_check_full` needed. -/
theorem C10_node_offset_by_phandle (sz : HdrSizes) (fdt : Blob) (fuel0 : Nat)
    (hfull : fdt_check_full sz fuel0 fdt (fdt_totalsize fdt) = some 0)
    (fuel : Nat) (hf : fuel0 < fuel)
    (huniq : ∀ m ∈ begin_offsets fdt fuel0 0, ∀ m' ∈ begin_offsets fdt fuel0 0, ∀ ph,
      fdt_get_phandle fuel fdt m = some ph → fdt_get_phandle fuel fdt m' = some ph →
      ph ≠ 0 → ph ≠ 0xFFFFFFFF → m = m')
    (n : Int) (hn : n ∈ begin_offsets fdt fuel0 0) (v : Int)
    (hv : fdt_get_phandle fuel fdt n = some v) (hv0 : v ≠ 0) (hv1 : v ≠ 0xFFFFFFFF) :
    fdt_node_offset_by_phandle fuel fdt v = some n := by
  obtain ⟨hh, ht, hl⟩ := check_full_zero sz fuel0 fdt _ hfull
  have hr : Reach fdt fuel0 0 0 := ⟨hl, ⟨le_refl _, by decide⟩, by decide, le_refl _, by decide⟩
  have key := by_phandle_of_reach fdt ht v fuel n hv fuel0 0 0 hr (by omega) hn
    (fun m hm hmv => huniq m hm n hn v hmv hv hv0 hv1) fuel fuel (by omega) (by omega)
  unfold fdt_node_offset_by_phandle
  rw [if_neg (by unfold u32; omega), if_neg (by simp [ro_probe_of_check_header sz fdt hh])]
  unfold fdt_next_node
  rw [if_neg (by omega)]
  unfold by_phandle_from at key
  exact key

theorem C10_node_offset_by_phandle_witness :
    fdt_get_phandle 10 blobTree 24 = some 2 ∧
    fdt_node_offset_by_phandle 10 blobTree 2 = some 24 :=
  ⟨by decide, C10_node_offset_by_phandle specSizes blobTree 9 (by decide) 10 (by decide)
    (by decide) 24 (by decide) 2 (by decide) (by decide) (by decide)⟩

theorem nodes_from_skip (fdt : Blob) (f : Nat) (off D : Int)
    (h1 : (fdt_next_tag fdt off).1 ≠ FDT_BEGIN_NODE) (h2 : (fdt_next_tag fdt off).1 ≠ FDT_END)
    (h3 : (fdt_next_tag fdt off).1 ≠ FDT_END_NODE) :
    nodes_from fdt (f + 1) off D = nodes_from fdt f (fdt_next_tag fdt off).2 D := by
  unfold nodes_from
  rw [tag_walk_succ, if_neg h2, depth_walk]
  simp only []
  rw [if_neg h1, if_neg h3]

theorem nodes_from_end_node (fdt : Blob) (f : Nat) (off D : Int)
    (h : (fdt_next_tag fdt off).1 = FDT_END_NODE) :
    nodes_from fdt (f + 1) off D = nodes_from fdt f (fdt_next_tag fdt off).2 (D - 1) := by
  obtain ⟨t1, t2, t3, t4, t5, t6, t7, t8, t9, t10⟩ := tags_distinct
  unfold nodes_from
  rw [tag_walk_succ, if_neg (by rw [h]; exact t7), depth_walk]
  simp only []
  rw [if_neg (by rw [h]; exact t1.symm), if_pos h]

theorem nodes_from_begin (fdt : Blob) (f : Nat) (off D : Int)
    (h : (fdt_next_tag fdt off).1 = FDT_BEGIN_NODE) :
    nodes_from fdt (f + 1) off D =
      (off, D + 1) :: nodes_from fdt f (fdt_next_tag fdt off).2 (D + 1) := by
  obtain ⟨t1, t2, t3, t4, t5, t6, t7, t8, t9, t10⟩ := tags_distinct
  unfold nodes_from
  rw [tag_walk_succ, if_neg (by rw [h]; exact t4), depth_walk]
  simp only []
  rw [if_pos h]

theorem nodes_from_end (fdt : Blob) (f : Nat) (off D : Int)
    (h : (fdt_next_tag fdt off).1 = FDT_END) :
    nodes_from fdt (f + 1) off D = [] := by
  obtain ⟨t1, t2, t3, t4, t5, t6, t7, t8, t9, t10⟩ := tags_distinct
  unfold nodes_from
  rw [tag_walk_succ, if_pos h, depth_walk]
  simp only []
  rw [if_neg (by rw [h]; exact t4.symm), if_neg (by rw [h]; exact t7.symm)]
  rfl

/-- The depths met from a position: the first is at most one more than the
number of open nodes, every one is at least 1, and there are fewer nodes than
fuel. -/
theorem nodes_from_facts (fdt : Blob) (ht : fdt_totalsize fdt ≤ INT_MAX) (f : Nat) :
    ∀ (off D : Int), Reach fdt f off D →
      (∀ o A rest, nodes_from fdt f off D = (o, A) :: rest → A ≤ D + 1 ∧ off ≤ o) ∧
      (∀ x ∈ nodes_from fdt f off D, 1 ≤ x.2) ∧
      (nodes_from fdt f off D).length + 1 ≤ f := by
  induction f with
  | zero => intro off D h; exact absurd (reach_pos fdt 0 off D h) (by omega)
  | succ f ih =>
    intro off D h
    obtain ⟨t1, t2, t3, t4, t5, t6, t7, t8, t9, t10⟩ := tags_distinct
    obtain ⟨hn, hcase⟩ := reach_step fdt ht f off D h
    obtain ⟨s1, s2, s3, s4⟩ := next_tag_step fdt ht off h.2.1 hn
    have hD := h.2.2.2.1
    rcases hcase with ⟨c, h'⟩ | ⟨c, h'⟩ | ⟨c, h'⟩ | ⟨c, h'⟩ | ⟨c, h'⟩
    · rw [nodes_from_skip fdt f off D (by rw [c]; exact t3.symm) (by rw [c]; exact t10)
        (by rw [c]; exact t6.symm)]
      obtain ⟨a, b, c'⟩ := ih _ _ h'
      exact ⟨fun o A rest e => ⟨(a o A rest e).1, by have := (a o A rest e).2; omega⟩, b, by omega⟩
    · rw [nodes_from_end fdt f off D c]
      refine ⟨fun o A rest e => by simp at e, by simp, ?_⟩
      simp
    · rw [nodes_from_begin fdt f off D c]
      obtain ⟨a, b, c'⟩ := ih _ _ h'
      refine ⟨fun o A rest e => ?_, fun x hx => ?_, by simp; omega⟩
      · simp only [List.cons.injEq, Prod.mk.injEq] at e
        omega
      · rcases List.mem_cons.mp hx with rfl | hx
        · simp; omega
        · exact b x hx
    · rw [nodes_from_end_node fdt f off D c]
      obtain ⟨a, b, c'⟩ := ih _ _ h'
      exact ⟨fun o A rest e => ⟨by have := (a o A rest e).1; omega,
        by have := (a o A rest e).2; omega⟩, b, by omega⟩
    · rw [nodes_from_skip fdt f off D (by rw [c]; exact t2.symm) (by rw [c]; exact t9)
        (by rw [c]; exact t5.symm)]
      obtain ⟨a, b, c'⟩ := ih _ _ h'
      exact ⟨fun o A rest e => ⟨(a o A rest e).1, by have := (a o A rest e).2; omega⟩, b, by omega⟩

/-- The loop of `fdt_next_node`, entered with any depth counter `d` at a
position where `D` nodes are open: it stops at the next node when the counter
does not fall below zero on the way, and with the counter at -1 otherwise. -/
theorem next_node_loop_of_reach (fdt : Blob) (ht : fdt_totalsize fdt ≤ INT_MAX) (f : Nat) :
    ∀ (off D : Int), Reach fdt f off D → ∀ d, 0 ≤ d → d ≤ D → ∀ F, f ≤ F →
      ∃ r, fdt_next_node_loop fdt F off (some d) = some r ∧
        (∀ o A rest, nodes_from fdt f off D = (o, A) :: rest →
          (D - A + 1 ≤ d → r = (o, some (d + A - D))) ∧
          (d < D - A + 1 → r.2 = some (-1))) ∧
        (nodes_from fdt f off D = [] → d < D → r.2 = some (-1)) := by
  induction f with
  | zero => intro off D h; exact absurd (reach_pos fdt 0 off D h) (by omega)
  | succ f ih =>
    intro off D h d hd0 hdD F hF
    obtain ⟨t1, t2, t3, t4, t5, t6, t7, t8, t9, t10⟩ := tags_distinct
    obtain ⟨F', rfl⟩ : ∃ k, F = k + 1 := ⟨F - 1, by omega⟩
    obtain ⟨hn, hcase⟩ := reach_step fdt ht f off D h
    have hD2 := h.2.2.2.2
    rcases hcase with ⟨c, h'⟩ | ⟨c, h'⟩ | ⟨c, h'⟩ | ⟨c, h'⟩ | ⟨c, h'⟩
    · rw [next_node_loop_skip fdt F' off _ (Or.inr c),
        nodes_from_skip fdt f off D (by rw [c]; exact t3.symm) (by rw [c]; exact t10)
          (by rw [c]; exact t6.symm)]
      exact ih _ _ h' d hd0 hdD F' (by omega)
    · rw [next_node_loop_end fdt F' off _ c hn, nodes_from_end fdt f off D c]
      exact ⟨_, rfl, fun o A rest e => by simp at e, fun _ hc => by omega⟩
    · rw [next_node_loop_begin fdt F' off _ c, nodes_from_begin fdt f off D c]
      have hi : i32 (d + 1) = d + 1 := by
        have := h'.2.2.2.2; unfold i32; unfold INT_MAX at *; omega
      refine ⟨_, rfl, fun o A rest e => ?_, fun e => by simp at e⟩
      simp only [List.cons.injEq, Prod.mk.injEq] at e
      obtain ⟨⟨e1, e2⟩, _⟩ := e
      subst e1 e2
      simp only [Option.map_some', hi]
      refine ⟨fun _ => ?_, fun hc => by omega⟩
      congr 2; omega
    · rw [nodes_from_end_node fdt f off D c]
      obtain ⟨fa, fb, fc⟩ := nodes_from_facts fdt ht f _ _ h'
      have hD1 : 1 ≤ D := by have := h'.2.2.2.1; omega
      by_cases hd : d = 0
      · subst hd
        refine ⟨((fdt_next_tag fdt off).2, some (-1)), ?_, fun o A rest e => ?_,
          fun _ _ => rfl⟩
        · conv => lhs; unfold fdt_next_node_loop
          simp only []
          rw [if_neg (by rw [c]; simp [t5, t6]), if_neg (by rw [c]; exact t1.symm), if_pos c]
          rw [if_pos (by unfold i32; omega)]
          congr 2
        · have := (fa o A rest e).1
          exact ⟨fun hc => by omega, fun _ => rfl⟩
      · have hi : i32 (d - 1) = d - 1 := by unfold i32; unfold INT_MAX at *; omega
        rw [next_node_loop_end_node fdt F' off d c (by omega), hi]
        obtain ⟨r, hr, ra, rb⟩ := ih _ _ h' (d - 1) (by omega) (by omega) F' (by omega)
        refine ⟨r, hr, fun o A rest e => ?_, fun e hc => rb e (by omega)⟩
        obtain ⟨ra1, ra2⟩ := ra o A rest e
        refine ⟨fun hc => ?_, fun hc => ra2 (by omega)⟩
        rw [ra1 (by omega)]
        congr 2; omega
    · rw [next_node_loop_skip fdt F' off _ (Or.inl c),
        nodes_from_skip fdt f off D (by rw [c]; exact t2.symm) (by rw [c]; exact t9)
          (by rw [c]; exact t5.symm)]
      exact ih _ _ h' d hd0 hdD F' (by omega)

theorem node_at_of_suffix (fdt : Blob) (ht : fdt_totalsize fdt ≤ INT_MAX) (B f : Nat) :
    ∀ (off D : Int), Reach fdt f off D → f ≤ B → ∀ pre o A post,
      nodes_from fdt f off D = pre ++ (o, A) :: post → NodeAt fdt B o A post := by
  induction f with
  | zero => intro off D h; exact absurd (reach_pos fdt 0 off D h) (by omega)
  | succ f ih =>
    intro off D h hB pre o A post e
    obtain ⟨t1, t2, t3, t4, t5, t6, t7, t8, t9, t10⟩ := tags_distinct
    obtain ⟨hn, hcase⟩ := reach_step fdt ht f off D h
    rcases hcase with ⟨c, h'⟩ | ⟨c, h'⟩ | ⟨c, h'⟩ | ⟨c, h'⟩ | ⟨c, h'⟩
    · rw [nodes_from_skip fdt f off D (by rw [c]; exact t3.symm) (by rw [c]; exact t10)
        (by rw [c]; exact t6.symm)] at e
      exact ih _ _ h' (by omega) pre o A post e
    · rw [nodes_from_end fdt f off D c] at e
      simp at e
    · rw [nodes_from_begin fdt f off D c] at e
      cases pre with
      | nil =>
        simp only [List.nil_append, List.cons.injEq, Prod.mk.injEq] at e
        obtain ⟨⟨e1, e2⟩, e3⟩ := e
        subst e1 e2
        refine ⟨f, by omega, ?_, c, e3⟩
        have : D + 1 - 1 = D := by omega
        rw [this]; exact h
      | cons x pre' =>
        simp only [List.cons_append, List.cons.injEq] at e
        exact ih _ _ h' (by omega) pre' o A post e.2
    · rw [nodes_from_end_node fdt f off D c] at e
      exact ih _ _ h' (by omega) pre o A post e
    · rw [nodes_from_skip fdt f off D (by rw [c]; exact t2.symm) (by rw [c]; exact t9)
        (by rw [c]; exact t5.symm)] at e
      exact ih _ _ h' (by omega) pre o A post e

/-- What `NodeAt` unfolds to at the node itself. -/
theorem node_at_facts (fdt : Blob) (ht : fdt_totalsize fdt ≤ INT_MAX) (B : Nat) (o A : Int)
    (post : List (Int × Int)) (h : NodeAt fdt B o A post) :
    ∃ f, f + 1 ≤ B ∧ Reach fdt f (fdt_next_tag fdt o).2 A ∧
      nodes_from fdt f (fdt_next_tag fdt o).2 A = post ∧
      (0 ≤ o ∧ o ≤ INT_MAX) ∧ o % 4 = 0 ∧ (fdt_next_tag fdt o).1 = FDT_BEGIN_NODE ∧
      0 ≤ (fdt_next_tag fdt o).2 ∧ o < (fdt_next_tag fdt o).2 ∧ 1 ≤ A ∧ A ≤ INT_MAX ∧
      fdt_check_node_offset_ fdt o = (fdt_next_tag fdt o).2 := by
  obtain ⟨f, hB, hr, hb, hp⟩ := h
  obtain ⟨t1, t2, t3, t4, t5, t6, t7, t8, t9, t10⟩ := tags_distinct
  obtain ⟨hn, hcase⟩ := reach_step fdt ht f o _ hr
  obtain ⟨s1, s2, s3, s4⟩ := next_tag_step fdt ht o hr.2.1 hn
  have h' : Reach fdt f (fdt_next_tag fdt o).2 A := by
    rcases hcase with ⟨c, h'⟩ | ⟨c, h'⟩ | ⟨c, h'⟩ | ⟨c, h'⟩ | ⟨c, h'⟩
    · rw [hb] at c; exact absurd c t3
    · rw [hb] at c; exact absurd c t4
    · have : A - 1 + 1 = A := by omega
      rw [this] at h'; exact h'
    · rw [hb] at c; exact absurd c t1
    · rw [hb] at c; exact absurd c t2
  have hc : fdt_check_node_offset_ fdt o = (fdt_next_tag fdt o).2 := by
    unfold fdt_check_node_offset_
    rw [if_neg (by unfold FDT_TAGSIZE; have := hr.2.1; have := hr.2.2.1; omega),
      if_neg (by simp [hb])]
  exact ⟨f, hB, h', hp, hr.2.1, hr.2.2.1, hb, hn, s4 hb, by have := hr.2.2.2.1; omega,
    h'.2.2.2.2, hc⟩

theorem node_at_next (fdt : Blob) (ht : fdt_totalsize fdt ≤ INT_MAX) (B : Nat) (o A o' A' : Int)
    (post : List (Int × Int)) (h : NodeAt fdt B o A ((o', A') :: post)) :
    NodeAt fdt B o' A' post ∧ A' ≤ A + 1 ∧ o < o' := by
  obtain ⟨f, hB, hr, hp, _, _, _, _, hlt, _, _, _⟩ := node_at_facts fdt ht B o A _ h
  obtain ⟨fa, _, _⟩ := nodes_from_facts fdt ht f _ _ hr
  have := fa o' A' post hp
  exact ⟨node_at_of_suffix fdt ht B f _ _ hr (by omega) [] o' A' post hp, this.1, by omega⟩

/-- The call `fdt_next_node(fdt, o, &depth)` at a node `o` of depth `A`, with
the counter at `d`. -/
theorem node_at_next_node (fdt : Blob) (ht : fdt_totalsize fdt ≤ INT_MAX) (B : Nat) (o A : Int)
    (post : List (Int × Int)) (h : NodeAt fdt B o A post) (d : Int) (hd0 : 0 ≤ d) (hdA : d ≤ A)
    (F : Nat) (hF : B ≤ F) :
    ∃ r, fdt_next_node F fdt o (some d) = some r ∧
      (∀ o' A' rest, post = (o', A') :: rest →
        (A - A' + 1 ≤ d → r = (o', some (d + A' - A))) ∧
        (d < A - A' + 1 → r.2 = some (-1))) ∧
      (post = [] → d < A → r.2 = some (-1)) := by
  obtain ⟨f, hB, hr, hp, ho, _, _, hn, _, _, _, hc⟩ := node_at_facts fdt ht B o A _ h
  obtain ⟨r, h1, h2, h3⟩ := next_node_loop_of_reach fdt ht f _ _ hr d hd0 hdA F (by omega)
  refine ⟨r, ?_, fun o' A' rest e => h2 o' A' rest (by rw [hp, e]), fun e => h3 (by rw [hp, e])⟩
  unfold fdt_next_node
  rw [if_pos ho.1, hc, if_neg (by omega)]
  exact h1

theorem subnode_loop_exit (F0 : Nat) (fdt : Blob) (key : List UInt8) (keylen : Int) (F : Nat)
    (o : Int) : fdt_subnode_offset_namelen_loop F0 fdt key keylen (F + 1) o (-1) =
      some (-FDT_ERR_NOTFOUND) := by
  rw [fdt_subnode_offset_namelen_loop, if_neg (by omega), if_pos (by omega)]

/-- The loop of `fdt_subnode_offset_namelen`, standing at a node `x` of the
subtree of a node of depth `A`, is the search `find_child` among the nodes
that follow `x`. -/
theorem subnode_loop_find (fdt : Blob) (ht : fdt_totalsize fdt ≤ INT_MAX) (B F0 : Nat)
    (hF0 : B ≤ F0) (key : List UInt8) (keylen : Int) (A : Int) (hA : 1 ≤ A) :
    ∀ (post : List (Int × Int)) (x Ax : Int), NodeAt fdt B x Ax post → A ≤ Ax →
      ∀ F, post.length + 2 ≤ F →
      fdt_subnode_offset_namelen_loop F0 fdt key keylen F x (Ax - A) =
        some (if Ax - A = 1 ∧ fdt_nodename_eq_ fdt x key keylen = true then x
          else match find_child (fun y => fdt_nodename_eq_ fdt y key keylen) A post with
            | some c => c.1
            | none => -FDT_ERR_NOTFOUND) := by
  intro post
  induction post with
  | nil =>
    intro x Ax h hle F hF
    obtain ⟨F', rfl⟩ : ∃ k, F = k + 1 := ⟨F - 1, by omega⟩
    obtain ⟨F'', rfl⟩ : ∃ k, F' = k + 1 := ⟨F' - 1, by simp at hF; omega⟩
    obtain ⟨f, _, _, _, ho, _, _, _, _, hA1, hA2, _⟩ := node_at_facts fdt ht B x Ax _ h
    obtain ⟨r, h1, h2, h3⟩ := node_at_next_node fdt ht B x Ax _ h (Ax - A) (by omega) (by omega)
      F0 hF0
    rw [fdt_subnode_offset_namelen_loop, if_pos ⟨ho.1, by omega⟩]
    by_cases hc : Ax - A = 1 ∧ fdt_nodename_eq_ fdt x key keylen = true
    · rw [if_pos hc, if_pos hc]
    · rw [if_neg hc, if_neg hc, h1]
      simp only [find_child]
      have := h3 rfl (by omega)
      rw [this]
      simp only [Option.getD_some]
      exact subnode_loop_exit F0 fdt key keylen F'' r.1
  | cons y rest ih =>
    intro x Ax h hle F hF
    obtain ⟨y, Ay⟩ := y
    obtain ⟨F', rfl⟩ : ∃ k, F = k + 1 := ⟨F - 1, by omega⟩
    obtain ⟨f, _, _, _, ho, _, _, _, _, hA1, hA2, _⟩ := node_at_facts fdt ht B x Ax _ h
    obtain ⟨r, h1, h2, h3⟩ := node_at_next_node fdt ht B x Ax _ h (Ax - A) (by omega) (by omega)
      F0 hF0
    obtain ⟨hy, hyA, _⟩ := node_at_next fdt ht B x Ax y Ay rest h
    rw [fdt_subnode_offset_namelen_loop, if_pos ⟨ho.1, by omega⟩]
    by_cases hc : Ax - A = 1 ∧ fdt_nodename_eq_ fdt x key keylen = true
    · rw [if_pos hc, if_pos hc]
    · rw [if_neg hc, if_neg hc, h1]
      obtain ⟨g1, g2⟩ := h2 y Ay rest rfl
      simp only [find_child]
      by_cases hlev : Ay ≤ A
      · rw [if_pos hlev]
        rw [g2 (by omega)]
        simp only [Option.getD_some]
        obtain ⟨F'', rfl⟩ : ∃ k, F' = k + 1 := ⟨F' - 1, by simp at hF; omega⟩
        exact subnode_loop_exit F0 fdt key keylen F'' r.1
      · rw [if_neg hlev, g1 (by omega)]
        simp only [Option.getD_some]
        have e : Ax - A + Ay - Ax = Ay - A := by omega
        rw [e, ih y Ay hy (by omega) F' (by simp at hF ⊢; omega)]
        congr 1
        by_cases hm : Ay - A = 1 ∧ fdt_nodename_eq_ fdt y key keylen = true
        · rw [if_pos hm, if_pos ⟨by omega, hm.2⟩]
        · rw [if_neg hm, if_neg (fun hh => hm ⟨by omega, hh.2⟩)]

theorem subnode_offset_find (fdt : Blob) (ht : fdt_totalsize fdt ≤ INT_MAX)
    (hp : fdt_ro_probe_ fdt = 0) (B : Nat) (key : List UInt8) (keylen : Int)
    (x Ax : Int) (post : List (Int × Int)) (h : NodeAt fdt B x Ax post) (F : Nat) (hF : B ≤ F) :
    fdt_subnode_offset_namelen F fdt x key keylen =
      some (match find_child (fun y => fdt_nodename_eq_ fdt y key keylen) Ax post with
        | some c => c.1
        | none => -FDT_ERR_NOTFOUND) := by
  obtain ⟨f, hfB, hr, hpost, _, _, _, _, _, hA1, _, _⟩ := node_at_facts fdt ht B x Ax _ h
  obtain ⟨_, _, hlen⟩ := nodes_from_facts fdt ht f _ _ hr
  rw [hpost] at hlen
  have := subnode_loop_find fdt ht B F hF key keylen Ax hA1 post x Ax h (le_refl _) F (by omega)
  unfold fdt_subnode_offset_namelen
  rw [if_neg (by simp [hp])]
  have e : Ax - Ax = 0 := by omega
  rw [e] at this
  rw [this, if_neg (by omega)]

theorem skip_name_nul (fdt : Blob) (ht : fdt_totalsize fdt ≤ INT_MAX) (fuel : Nat) (o r : Int)
    (ho : -2147483648 ≤ o ∧ o ≤ INT_MAX) (h : skip_name fdt fuel o = some r) :
    rd8 fdt (fdt_off_dt_struct fdt + r - 1) = 0 := by
  induction fuel generalizing o with
  | zero => simp [skip_name] at h
  | succ fuel ih =>
    rw [skip_name] at h
    cases hp : fdt_offset_ptr fdt o 1 with
    | none => rw [hp] at h; simp at h
    | some p =>
      rw [hp] at h
      simp only [] at h
      obtain ⟨h0, h1, h2⟩ := offset_ptr_some fdt o 1 p ht ho (by omega) hp
      obtain ⟨b1, b2, b3⟩ := hdr_bounds fdt
      have hi : i32 (o + 1) = o + 1 := by unfold i32; unfold INT_MAX at ht; omega
      rw [hi] at h
      split_ifs at h with hz
      · exact ih (o + 1) (by unfold INT_MAX at *; omega) h
      · simp only [Option.some.injEq] at h
        subst h
        have : fdt_off_dt_struct fdt + (o + 1) - 1 = p := by omega
        rw [this]
        exact not_not.mp hz

theorem cstr_len_le (mem : List UInt8) (p : Int) (hp : 0 ≤ p) (L : Nat)
    (hz : rd8 mem (p + L) = 0) : (cstr mem p).length ≤ L := by
  obtain ⟨h1, _⟩ := cstr_spec mem p hp
  by_contra hc
  exact (h1 L (by omega)).2 hz

/-- The name that `fdt_get_name` returns at a node: the pointer is inside the
blob and the length written is the length of the C string there. -/
theorem get_name_some (fdt : Blob) (ht : fdt_totalsize fdt ≤ INT_MAX) (o : Int)
    (ho : 0 ≤ o ∧ o ≤ INT_MAX) (hb : (fdt_next_tag fdt o).1 = FDT_BEGIN_NODE)
    (hn : 0 ≤ (fdt_next_tag fdt o).2) (q len : Int)
    (h : fdt_get_name fdt o = (some q, len)) :
    0 ≤ q ∧ len = ((cstr fdt q).length : Int) := by
  obtain ⟨b1, b2, b3⟩ := hdr_bounds fdt
  obtain ⟨t1, t2, t3, t4, t5, t6, t7, t8, t9, t10⟩ := tags_distinct
  -- the NUL that ends the name
  have hnul : ∃ L : Nat, rd8 fdt (fdt_offset_ptr_ fdt o + 4 + L) = 0 ∧ (L : Int) ≤ INT_MAX := by
    unfold fdt_next_tag at hb hn
    cases hp : fdt_offset_ptr fdt o FDT_TAGSIZE with
    | none => rw [hp] at hb; exact absurd hb t4.symm
    | some tagp =>
      rw [hp] at hb hn
      simp only [] at hb hn
      obtain ⟨_, p1, _⟩ := offset_ptr_some fdt o 4 tagp ht (by unfold INT_MAX at *; omega)
        (by omega) hp
      have hi4 : i32 (o + FDT_TAGSIZE) = o + 4 := by
        unfold i32 FDT_TAGSIZE; unfold INT_MAX at ht; omega
      rw [hi4] at hb hn
      cases hbody : next_tag_payload fdt (fdt32_ld fdt tagp) (o + 4) with
      | none => rw [hbody] at hb; exact absurd hb t4.symm
      | some r =>
        rw [hbody] at hb hn
        simp only [] at hb hn
        cases hq : fdt_offset_ptr fdt o (u32 (r - o)) with
        | none => rw [hq] at hb; exact absurd hb t4.symm
        | some q' =>
          rw [hq] at hb
          simp only [] at hb
          unfold next_tag_payload at hbody
          rw [if_pos hb] at hbody
          have hz := skip_name_nul fdt ht _ _ _ (by unfold INT_MAX at *; omega) hbody
          have hg := skip_name_gt fdt ht _ _ _ (by unfold INT_MAX at *; omega) hbody
          refine ⟨(r - 1 - (o + 4)).toNat, ?_, by unfold INT_MAX at *; omega⟩
          have : fdt_offset_ptr_ fdt o + 4 + ((r - 1 - (o + 4)).toNat : Int) =
              fdt_off_dt_struct fdt + r - 1 := by unfold fdt_offset_ptr_; omega
          rw [this]; exact hz
  obtain ⟨L, hL, hL2⟩ := hnul
  have hnp : 0 ≤ fdt_offset_ptr_ fdt o + 4 := by unfold fdt_offset_ptr_; omega
  have hcl := cstr_len_le fdt _ hnp L hL
  unfold fdt_get_name at h
  simp only [] at h
  split_ifs at h with c1 c2 c3
  · simp at h
  · simp at h
  · -- version < 16: the leaf after the last '/'
    cases hs : strrchr_slash fdt (fdt_offset_ptr_ fdt o + 4) with
    | none => rw [hs] at h; simp at h
    | some leaf =>
      rw [hs] at h
      simp only [Prod.mk.injEq, Option.some.injEq] at h
      obtain ⟨e1, e2⟩ := h
      unfold strrchr_slash at hs
      cases hi : List.find? (fun i => decide ((cstr fdt (fdt_offset_ptr_ fdt o + 4)).getD i 0 = 0x2f))
          (List.range (cstr fdt (fdt_offset_ptr_ fdt o + 4)).length).reverse with
      | none => rw [hi] at hs; simp at hs
      | some i =>
      rw [hi] at hs
      have hleaf : fdt_offset_ptr_ fdt o + 4 + (i : Int) = leaf := by simpa using hs
      have hir := List.mem_of_find?_eq_some hi
      simp only [List.mem_reverse, List.mem_range] at hir
      obtain ⟨_, m2⟩ := cstr_spec fdt _ hnp
      have hq : q = fdt_offset_ptr_ fdt o + 4 + i + 1 := by omega
      have hz2 : rd8 fdt (q + (((cstr fdt (fdt_offset_ptr_ fdt o + 4)).length - i - 1 : Nat) : Int))
          = 0 := by
        have : q + (((cstr fdt (fdt_offset_ptr_ fdt o + 4)).length - i - 1 : Nat) : Int) =
            fdt_offset_ptr_ fdt o + 4 + ((cstr fdt (fdt_offset_ptr_ fdt o + 4)).length : Int) := by
          omega
        rw [this]; exact m2
      have hcl2 := cstr_len_le fdt q (by omega) _ hz2
      refine ⟨by omega, ?_⟩
      rw [← e2, ← e1]
      unfold strlen i32
      rw [e1]
      unfold INT_MAX at *
      omega
  · simp only [Prod.mk.injEq, Option.some.injEq] at h
    obtain ⟨e1, e2⟩ := h
    subst e1
    refine ⟨hnp, ?_⟩
    rw [← e2]
    unfold strlen i32
    unfold INT_MAX at *
    omega

theorem memchr_congr (rd rd' : Int → Int) (c : Int) (n : Nat) (s : Int)
    (h : ∀ i : Nat, i < n → rd (s + i) = rd' (s + i)) :
    memchr rd c n s = memchr rd' c n s := by
  induction n generalizing s with
  | zero => simp [memchr]
  | succ n ih =>
    rw [memchr, memchr]
    have h0 := h 0 (by omega)
    simp only [Nat.cast_zero, add_zero] at h0
    rw [h0]
    split_ifs
    · rfl
    · apply ih
      intro i hi
      have := h (i + 1) (by omega)
      push_cast at this
      have e : s + 1 + (i : Int) = s + ((i : Int) + 1) := by omega
      rw [e]; exact this

theorem memeq_congr (rp rs rs' : Int → Int) (p s : Int) (n : Nat)
    (h : ∀ i : Nat, i < n → rs (s + i) = rs' (s + i)) :
    memeq rp rs p s n = memeq rp rs' p s n := by
  have a := memeq_iff rp rs p s n
  have b := memeq_iff rp rs' p s n
  have : (memeq rp rs p s n = true) ↔ (memeq rp rs' p s n = true) := by
    rw [a, b]
    constructor
    · intro hh i hi; rw [hh i hi, h i hi]
    · intro hh i hi; rw [hh i hi, h i hi]
  cases h1 : memeq rp rs p s n <;> cases h2 : memeq rp rs' p s n <;> simp_all

/-- The node-name comparison reads only the first `len` bytes of the key. -/
theorem nodename_eq_congr (fdt : Blob) (o : Int) (s s' : List UInt8) (len : Int)
    (h : ∀ i : Nat, i < len.toNat → rd8 s i = rd8 s' i) :
    fdt_nodename_eq_ fdt o s len = fdt_nodename_eq_ fdt o s' len := by
  unfold fdt_nodename_eq_
  rcases fdt_get_name fdt o with ⟨_ | p, olen⟩
  · rfl
  · simp only []
    rw [memeq_congr (rd8 fdt) (rd8 s) (rd8 s') p 0 len.toNat (by simpa using h),
      memchr_congr (rd8 s) (rd8 s') 0x40 len.toNat 0 (by simpa using h)]

/-- A node's own name, used as the key, matches the node. -/
theorem nodename_eq_self (fdt : Blob) (o q len : Int) (hg : fdt_get_name fdt o = (some q, len))
    (hq : 0 ≤ q) (hlen : len = ((cstr fdt q).length : Int)) :
    fdt_nodename_eq_ fdt o (cstr fdt q) (cstr fdt q).length = true := by
  obtain ⟨m1, m2⟩ := cstr_spec fdt q hq
  unfold fdt_nodename_eq_
  rw [hg]
  simp only []
  rw [if_neg (by omega)]
  have hm : memeq (rd8 fdt) (rd8 (cstr fdt q)) q 0 (((cstr fdt q).length : Int)).toNat = true := by
    rw [memeq_iff]
    intro i hi
    have := (m1 i (by simpa using hi)).1
    simpa using this
  rw [hm]
  simp only [Bool.not_true, Bool.false_eq_true, if_false]
  rw [if_pos m2]

theorem memchr_first (rd : Int → Int) (c : Int) (n : Nat) (s : Int) (k : Nat) (hk : k < n)
    (hc : rd (s + k) = c) (hnc : ∀ j : Nat, j < k → rd (s + j) ≠ c) :
    memchr rd c n s = some (s + k) := by
  induction n generalizing s k with
  | zero => omega
  | succ n ih =>
    rw [memchr]
    cases k with
    | zero => simp at hc; rw [if_pos hc]; simp
    | succ k =>
      have h0 := hnc 0 (by omega)
      simp only [Nat.cast_zero, add_zero] at h0
      rw [if_neg h0]
      have := ih (s + 1) k (by omega) (by push_cast at hc; rw [← hc]; congr 1; omega)
        (fun j hj => by
          have := hnc (j + 1) (by omega)
          push_cast at this
          have e : s + 1 + (j : Int) = s + ((j : Int) + 1) := by omega
          rw [e]; exact this)
      rw [this]
      congr 1; push_cast; omega

theorem memchr_none (rd : Int → Int) (c : Int) (n : Nat) (s : Int)
    (hnc : ∀ j : Nat, j < n → rd (s + j) ≠ c) : memchr rd c n s = none := by
  induction n generalizing s with
  | zero => simp [memchr]
  | succ n ih =>
    rw [memchr]
    have h0 := hnc 0 (by omega)
    simp only [Nat.cast_zero, add_zero] at h0
    rw [if_neg h0]
    apply ih
    intro j hj
    have := hnc (j + 1) (by omega)
    push_cast at this
    have e : s + 1 + (j : Int) = s + ((j : Int) + 1) := by omega
    rw [e]; exact this

theorem rd8_cons_zero (a : UInt8) (l : List UInt8) : rd8 (a :: l) 0 = (a.toNat : Int) := by
  simp [rd8]

theorem rd8_cons_succ (a : UInt8) (l : List UInt8) (i : Int) (hi : 0 ≤ i) :
    rd8 (a :: l) (i + 1) = rd8 l i := by
  rw [rd8_nonneg_eq _ _ (by omega), rd8_nonneg_eq _ _ hi]
  have : (i + 1).toNat = i.toNat + 1 := by omega
  rw [this]; simp

theorem rd8_append_left (a b : List UInt8) (i : Nat) (hi : i < a.length) :
    rd8 (a ++ b) i = rd8 a i := by
  rw [rd8_nonneg_eq _ _ (by omega), rd8_nonneg_eq _ _ (by omega)]
  simp [List.getD_eq_getElem?_getD, List.getElem?_append_left hi]

theorem rd8_append_right (a b : List UInt8) (i : Nat) :
    rd8 (a ++ b) ((a.length + i : Nat) : Int) = rd8 b i := by
  rw [rd8_nonneg_eq _ _ (by omega), rd8_nonneg_eq _ _ (by omega)]
  have e1 : ((a.length + i : Nat) : Int).toNat = a.length + i := Int.toNat_ofNat _
  have e2 : ((i : Nat) : Int).toNat = i := Int.toNat_ofNat _
  rw [e1, e2]
  simp [List.getD_eq_getElem?_getD, List.getElem?_append_right]

theorem rd8_mem_ne (c : List UInt8) (v : UInt8) (hv : v ∉ c) (i : Nat) (hi : i < c.length) :
    rd8 c i ≠ (v.toNat : Int) := by
  rw [rd8_nonneg_eq _ _ (by omega)]
  intro h
  apply hv
  have e : c.getD ((i : Int).toNat) 0 = v := UInt8_toNat_inj _ _ (by exact_mod_cast h)
  simp only [Int.toNat_ofNat, List.getD_eq_getElem?_getD, List.getElem?_eq_getElem hi,
    Option.getD_some] at e
  rw [← e]
  exact List.getElem_mem hi

theorem subnode_loop_congr (F0 : Nat) (fdt : Blob) (s s' : List UInt8) (len : Int)
    (h : ∀ i : Nat, i < len.toNat → rd8 s i = rd8 s' i) (F : Nat) :
    ∀ o d, fdt_subnode_offset_namelen_loop F0 fdt s len F o d =
      fdt_subnode_offset_namelen_loop F0 fdt s' len F o d := by
  induction F with
  | zero => intro o d; rfl
  | succ F ih =>
    intro o d
    rw [fdt_subnode_offset_namelen_loop, fdt_subnode_offset_namelen_loop,
      nodename_eq_congr fdt o s s' len h]
    split_ifs
    · rfl
    · cases fdt_next_node F0 fdt o (some d) with
      | none => rfl
      | some r => exact ih _ _
    · rfl
    · rfl

theorem subnode_offset_congr (F : Nat) (fdt : Blob) (o : Int) (s s' : List UInt8) (len : Int)
    (h : ∀ i : Nat, i < len.toNat → rd8 s i = rd8 s' i) :
    fdt_subnode_offset_namelen F fdt o s len = fdt_subnode_offset_namelen F fdt o s' len := by
  unfold fdt_subnode_offset_namelen
  rw [subnode_loop_congr F fdt s s' len h F]


theorem render_segs_cons (c : List UInt8) (cs : List (List UInt8)) :
    render_segs (c :: cs) = (0x2f :: c) ++ render_segs cs := by
  simp [render_segs]

theorem drop_of_drop (l : List UInt8) (a b : Nat) (x y : List UInt8) (h : l.drop a = x ++ y)
    (hb : b = x.length) : l.drop (a + b) = y := by
  rw [← List.drop_drop, h, hb]
  simp

/-- The loop of `fdt_path_offset_namelen` on a path made of the segments
`/name`: one lookup among the children for each segment. -/
theorem path_loop_segs (fdt : Blob) (F0 : Nat) (path : List UInt8) (end_ : Int) :
    ∀ (segs : List (List UInt8)) (p offset : Int) (tail : List UInt8) (F : Nat),
      0 ≤ p → path.drop p.toNat = render_segs segs ++ tail →
      end_ = p + (render_segs segs).length →
      (∀ c ∈ segs, c ≠ [] ∧ (0x2f : UInt8) ∉ c) → segs.length + 1 ≤ F →
      fdt_path_offset_namelen_loop F0 fdt path end_ F p offset =
        resolve_segs F0 fdt offset segs := by
  intro segs
  induction segs with
  | nil =>
    intro p offset tail F hp hd he hs hF
    obtain ⟨F', rfl⟩ : ∃ k, F = k + 1 := ⟨F - 1, by omega⟩
    rw [fdt_path_offset_namelen_loop, if_neg (by simp [render_segs] at he; omega)]
    rfl
  | cons c cs ih =>
    intro p offset tail F hp hd he hs hF
    obtain ⟨F', rfl⟩ : ∃ k, F = k + 1 := ⟨F - 1, by omega⟩
    obtain ⟨hcne, hcs⟩ := hs c (List.mem_cons_self _ _)
    have hclen : 1 ≤ c.length := by
      cases c with
      | nil => exact absurd rfl hcne
      | cons a l => simp
    rw [render_segs_cons] at hd he
    simp only [List.length_append, List.length_cons] at he
    -- the bytes of the path at `p`
    have hrd : ∀ i : Int, 0 ≤ i → rd8 path (p + i) =
        rd8 (0x2f :: c ++ render_segs cs ++ tail) i := by
      intro i hi
      rw [← rd8_drop path p hp i hi, hd]
    have hb0 : rd8 path p = 0x2f := by
      have := hrd 0 (le_refl _)
      simp only [add_zero] at this
      rw [this]
      simp [rd8]
    have hbc : ∀ j : Nat, j < c.length → rd8 path (p + 1 + j) = rd8 c j := by
      intro j hj
      have := hrd (j + 1) (by omega)
      have e : p + ((j : Int) + 1) = p + 1 + j := by omega
      rw [e] at this
      rw [this, List.cons_append, List.cons_append, rd8_cons_succ _ _ _ (by omega),
        List.append_assoc, rd8_append_left _ _ _ hj]
    have hbn : ∀ j : Nat, j < c.length → rd8 path (p + 1 + j) ≠ 0x2f := by
      intro j hj
      rw [hbc j hj]
      exact rd8_mem_ne c 0x2f hcs j hj
    rw [fdt_path_offset_namelen_loop, if_pos (by omega)]
    -- skipping the slash
    have hskip : skip_slashes path end_ (end_ - p).toNat p = some (p + 1) := by
      obtain ⟨k, hk⟩ : ∃ k, (end_ - p).toNat = k + 2 := ⟨(end_ - p).toNat - 2, by omega⟩
      rw [hk, skip_slashes, if_pos hb0, if_neg (by omega), skip_slashes]
      have := hbn 0 (by omega)
      simp only [Nat.cast_zero, add_zero] at this
      rw [if_neg this]
    rw [hskip]
    simp only []
    -- the end of the segment
    have hq : (memchr (rd8 path) 0x2f (end_ - (p + 1)).toNat (p + 1)).getD end_ =
        p + 1 + c.length := by
      cases cs with
      | nil =>
        simp only [render_segs, List.flatMap_nil, List.length_nil, Nat.cast_zero, add_zero] at he
        rw [memchr_none _ _ _ _ (fun j hj => hbn j (by omega))]
        simp only [Option.getD_none]
        omega
      | cons c2 cs2 =>
        have hsl : rd8 path (p + 1 + c.length) = 0x2f := by
          have := hrd (c.length + 1) (by omega)
          have e : p + ((c.length : Int) + 1) = p + 1 + c.length := by omega
          rw [e] at this
          rw [this, List.cons_append, List.cons_append, rd8_cons_succ _ _ _ (by omega),
            List.append_assoc]
          have := rd8_append_right c (render_segs (c2 :: cs2) ++ tail) 0
          simp only [Nat.add_zero, Nat.cast_zero] at this
          rw [this, render_segs_cons]
          simp [rd8]
        rw [memchr_first _ _ _ _ c.length (by
          rw [render_segs_cons] at he
          simp only [List.length_append, List.length_cons] at he
          omega) hsl hbn]
        rfl
    rw [hq]
    have hkey : fdt_subnode_offset_namelen F0 fdt offset (path.drop (p + 1).toNat)
        (p + 1 + c.length - (p + 1)) = fdt_subnode_offset_namelen F0 fdt offset c c.length := by
      have e : p + 1 + (c.length : Int) - (p + 1) = c.length := by omega
      rw [e]
      apply subnode_offset_congr
      intro i hi
      rw [rd8_drop path (p + 1) (by omega) i (by omega)]
      exact hbc i (by simpa using hi)
    rw [hkey, resolve_segs]
    cases fdt_subnode_offset_namelen F0 fdt offset c c.length with
    | none => rfl
    | some o =>
      simp only []
      split_ifs with ho
      · rfl
      · apply ih (p + 1 + c.length) o tail F' (by omega)
        · have e : (p + 1 + (c.length : Int)).toNat = p.toNat + (1 + c.length) := by omega
          rw [e]
          apply drop_of_drop path p.toNat (1 + c.length) (0x2f :: c) (render_segs cs ++ tail)
          · rw [hd]; simp
          · simp; omega
        · omega
        · intro c' hc'; exact hs c' (List.mem_cons_of_mem _ hc')
        · simp at hF ⊢; omega

theorem render_comps_append (a b : List (List UInt8)) :
    render_comps (a ++ b) = render_comps a ++ render_comps b := by
  simp [render_comps, List.flatMap_append]

theorem render_comps_snoc (a : List (List UInt8)) (c : List UInt8) :
    render_comps (a ++ [c]) = render_comps a ++ (c ++ [0x2f]) := by
  rw [render_comps_append]
  simp [render_comps]

theorem render_comps_cons (c : List UInt8) (names : List (List UInt8)) :
    render_comps (c :: names) = c ++ render_segs names ++ [0x2f] := by
  induction names generalizing c with
  | nil => simp [render_comps, render_segs]
  | cons n ns ih =>
    have e : render_comps (c :: n :: ns) = c ++ [0x2f] ++ render_comps (n :: ns) := by
      simp [render_comps]
    rw [e, ih n, render_segs_cons]
    simp

theorem render_comps_last (comps : List (List UInt8)) (hne : comps ≠ []) (junk : List UInt8) :
    1 ≤ (render_comps comps).length ∧
      rd8 (render_comps comps ++ junk) (((render_comps comps).length : Int) - 1) = 0x2f := by
  obtain ⟨a, c, rfl⟩ : ∃ a c, comps = a ++ [c] :=
    ⟨comps.dropLast, comps.getLast hne, (List.dropLast_append_getLast hne).symm⟩
  rw [render_comps_snoc]
  constructor
  · simp; omega
  · have e : render_comps a ++ (c ++ [0x2f]) ++ junk = (render_comps a ++ c) ++ (0x2f :: junk) := by
      simp
    have e2 : (((render_comps a ++ (c ++ [0x2f])).length : Int) - 1) =
        (((render_comps a ++ c).length + 0 : Nat) : Int) := by
      simp only [List.length_append, List.length_cons, List.length_nil]
      push_cast
      omega
    rw [e, e2, rd8_append_right]
    simp [rd8]

theorem pop_component_spec (buf : List UInt8) (b : Int) (hb : 1 ≤ b)
    (hsl : rd8 buf (b - 1) = 0x2f) :
    ∀ (j k : Nat), j + 1 ≤ k → (∀ i : Nat, i < j → rd8 buf (b + i) ≠ 0x2f) →
      pop_component buf k (b + j + 1) = some b := by
  intro j
  induction j with
  | zero =>
    intro k hk hn
    obtain ⟨k', rfl⟩ : ∃ k', k = k' + 1 := ⟨k - 1, by omega⟩
    rw [pop_component, if_neg (by push_cast; omega)]
    have e : b + ((0 : Nat) : Int) + 1 - 1 - 1 = b - 1 := by push_cast; omega
    rw [e, if_neg (by simp [hsl])]
    congr 1
    push_cast; omega
  | succ j ih =>
    intro k hk hn
    obtain ⟨k', rfl⟩ : ∃ k', k = k' + 1 := ⟨k - 1, by omega⟩
    rw [pop_component, if_neg (by push_cast; omega)]
    have e : b + ((j + 1 : Nat) : Int) + 1 - 1 - 1 = b + (j : Int) := by push_cast; omega
    rw [e, if_pos (hn j (by omega))]
    have e2 : b + ((j + 1 : Nat) : Int) + 1 - 1 = b + (j : Int) + 1 := by push_cast; omega
    rw [e2]
    exact ih k' (by omega) (fun i hi => hn i (by omega))

theorem pop_to_spec (buf : List UInt8) (depth : Int) :
    ∀ (k : Nat) (comps : List (List UInt8)) (junk : List UInt8),
      buf = render_comps comps ++ junk → (∀ c ∈ comps, (0x2f : UInt8) ∉ c) →
      ((comps.length : Int) ≤ depth ∨ 1 ≤ depth) → ((comps.length : Int) - depth).toNat ≤ k →
      pop_to buf depth k comps.length (render_comps comps).length =
        some (((comps.take depth.toNat).length : Int),
          ((render_comps (comps.take depth.toNat)).length : Int)) := by
  intro k
  induction k with
  | zero =>
    intro comps junk hbuf hsl hd hk
    rw [pop_to]
    have : comps.take depth.toNat = comps := by
      apply List.take_of_length_le; omega
    rw [this]
  | succ k ih =>
    intro comps junk hbuf hsl hd hk
    rw [pop_to]
    by_cases hgt : (comps.length : Int) > depth
    · rw [if_pos hgt]
      have hd1 : 1 ≤ depth := by omega
      have hne : comps ≠ [] := by
        intro h; rw [h] at hgt; simp at hgt; omega
      obtain ⟨a, c, rfl⟩ : ∃ a c, comps = a ++ [c] :=
        ⟨comps.dropLast, comps.getLast hne, (List.dropLast_append_getLast hne).symm⟩
      simp only [List.length_append, List.length_cons, List.length_nil] at hgt hk
      push_cast at hgt hk
      have hane : a ≠ [] := by
        intro h; rw [h] at hgt; simp at hgt; omega
      obtain ⟨l1, l2⟩ := render_comps_last a hane (c ++ [0x2f] ++ junk)
      have hbuf2 : buf = render_comps a ++ (c ++ [0x2f] ++ junk) := by
        rw [hbuf, render_comps_snoc]; simp
      rw [← hbuf2] at l2
      have hc : (0x2f : UInt8) ∉ c := hsl c (by simp)
      have hpop := pop_component_spec buf (render_comps a).length (by omega) l2 c.length
        ((((render_comps (a ++ [c])).length : Nat) : Int).toNat + 1)
        (by rw [render_comps_snoc]; simp; omega)
        (by
          intro i hi
          rw [hbuf2]
          have e : render_comps a ++ (c ++ [0x2f] ++ junk) =
              render_comps a ++ (c ++ ([0x2f] ++ junk)) := by simp
          have e2 : (((render_comps a).length : Int) + (i : Int)) =
              (((render_comps a).length + i : Nat) : Int) := by push_cast; rfl
          rw [e, e2, rd8_append_right, rd8_append_left _ _ _ hi]
          exact rd8_mem_ne c 0x2f hc i hi)
      have e3 : (((render_comps (a ++ [c])).length : Nat) : Int) =
          ((render_comps a).length : Int) + (c.length : Int) + 1 := by
        rw [render_comps_snoc]; simp; omega
      rw [e3] at hpop ⊢
      rw [hpop]
      simp only []
      have e4 : (((a ++ [c]).length : Nat) : Int) - 1 = (a.length : Int) := by simp
      rw [e4]
      rw [ih a (c ++ [0x2f] ++ junk) hbuf2 (fun c' hc' => hsl c' (by simp [hc'])) (Or.inr hd1)
        (by omega)]
      have : (a ++ [c]).take depth.toNat = a.take depth.toNat := by
        apply List.take_append_of_le_length; omega
      rw [this]
    · rw [if_neg hgt]
      have : comps.take depth.toNat = comps := by
        apply List.take_of_length_le; omega
      rw [this]

theorem cstr_len_le_mem (mem : List UInt8) (p : Int) : (cstr mem p).length ≤ mem.length := by
  unfold cstr
  calc _ ≤ (mem.drop p.toNat).length := (List.takeWhile_sublist _).length_le
    _ ≤ mem.length := by simp

theorem bytes_at_cstr (fdt : Blob) (q : Int) (hq : 0 ≤ q) :
    bytes_at fdt q (cstr fdt q).length = cstr fdt q := by
  obtain ⟨m1, _⟩ := cstr_spec fdt q hq
  apply list_ext_rd8
  · simp [bytes_at]
  · intro i hi
    simp only [bytes_at, List.length_map, List.length_range] at hi
    rw [← (m1 i hi).1, rd8_eq_getD, rd8_nonneg_eq _ _ (by omega)]
    have e : (q + (i : Int)).toNat = q.toNat + i := by omega
    rw [e]
    simp only [bytes_at]
    rw [List.getD_eq_getElem?_getD, List.getElem?_map, List.getElem?_range hi]
    simp [List.getD_eq_getElem?_getD]

theorem cstr_no_zero (mem : List UInt8) (p : Int) : (0 : UInt8) ∉ cstr mem p := by
  unfold cstr
  intro h
  have := List.mem_takeWhile_imp h
  simp at this

theorem cstr_of_append (s junk : List UInt8) (hs : (0 : UInt8) ∉ s) :
    cstr (s ++ 0 :: junk) 0 = s := by
  unfold cstr
  simp only [Int.toNat_zero, List.drop_zero]
  induction s with
  | nil => simp
  | cons a l ih =>
    simp only [List.mem_cons, not_or] at hs
    rw [List.cons_append, List.takeWhile_cons]
    have : a ≠ 0 := fun h => hs.1 h.symm
    have ih2 := ih hs.2
    simp only [ne_eq, decide_not] at ih2 ⊢
    simp [this, ih2]

theorem chain_step_get (ch : List (Int × Int × List (Int × Int))) (y : Int × Int)
    (post : List (Int × Int)) (m : Nat) (hm : m = (y.2 - 1).toNat) (hle : m ≤ ch.length)
    (j : Nat) :
    (chain_step ch y post)[j]? =
      if j < m then ch[j]? else if j = m then some (y.1, y.2, post) else none := by
  unfold chain_step
  rw [← hm]
  have hl : (ch.take m).length = m := by simp [hle]
  by_cases h1 : j < m
  · rw [if_pos h1, List.getElem?_append_left (by omega), List.getElem?_take_of_lt h1]
  · rw [if_neg h1, List.getElem?_append_right (by omega), hl]
    by_cases h2 : j = m
    · rw [if_pos h2, h2]; simp
    · rw [if_neg h2]
      have : j - m = (j - m - 1) + 1 := by omega
      rw [this]; simp

theorem chain_step_length (ch : List (Int × Int × List (Int × Int))) (y : Int × Int)
    (post : List (Int × Int)) (hle : (y.2 - 1).toNat ≤ ch.length) :
    (chain_step ch y post).length = (y.2 - 1).toNat + 1 := by
  unfold chain_step
  rw [List.length_append, List.length_take, min_eq_left hle]
  rfl

theorem chain_inv_step (L : List (Int × Int)) (y : Int × Int) (post : List (Int × Int))
    (ch : List (Int × Int × List (Int × Int))) (h : ChainInv L (y :: post) ch)
    (hy : 1 ≤ y.2 ∧ y.2 ≤ ch.length + 1 ∧ (y.2 = 1 → y.1 = 0)) :
    ChainInv L post (chain_step ch y post) := by
  obtain ⟨⟨pre, hpre⟩, hnil, hent, hcons⟩ := h
  obtain ⟨hy1, hy2, hy3⟩ := hy
  have hmle : (y.2 - 1).toNat ≤ ch.length := by omega
  have hget := chain_step_get ch y post (y.2 - 1).toNat rfl hmle
  have hlen := chain_step_length ch y post hmle
  have hyy : ((y.1, y.2) : Int × Int) = y := rfl
  refine ⟨⟨pre ++ [y], by rw [hpre]; simp⟩, ?_, ?_, ?_⟩
  · intro hc
    have := congrArg List.length hc
    rw [hlen] at this
    simp at this
  · intro j e he
    rw [hget j] at he
    by_cases h1 : j < (y.2 - 1).toNat
    · rw [if_pos h1] at he
      obtain ⟨a1, a2, ⟨seg, a3, a4⟩, a5, a6⟩ := hent j e he
      refine ⟨a1, a2, ⟨seg ++ [y], by rw [a3]; simp, ?_⟩, a5, ?_⟩
      · intro u hu
        rw [List.mem_append] at hu
        rcases hu with hu | hu
        · exact a4 u hu
        · simp only [List.mem_singleton] at hu
          rw [hu]; omega
      · intro hj; omega
    · rw [if_neg h1] at he
      by_cases h2 : j = (y.2 - 1).toNat
      · rw [if_pos h2] at he
        simp only [Option.some.injEq] at he
        subst he
        refine ⟨by simp only []; omega, ⟨pre, by rw [hpre]⟩, ⟨[], by simp, by simp⟩, ?_, ?_⟩
        · intro hj
          simp only []
          apply hy3
          omega
        · intro _; rfl
      · rw [if_neg h2] at he; simp at he
  · intro j e e' he he'
    rw [hget j] at he
    rw [hget (j + 1)] at he'
    by_cases h1 : j + 1 < (y.2 - 1).toNat
    · rw [if_pos h1] at he'
      rw [if_pos (by omega)] at he
      exact hcons j e e' he he'
    · rw [if_neg h1] at he'
      by_cases h2 : j + 1 = (y.2 - 1).toNat
      · rw [if_pos h2] at he'
        rw [if_pos (by omega)] at he
        simp only [Option.some.injEq] at he'
        subst he'
        obtain ⟨a1, a2, ⟨seg, a3, a4⟩, a5, a6⟩ := hent j e he
        refine ⟨seg, by rw [a3], ?_⟩
        intro u hu
        have := a4 u hu
        simp only []
        omega
      · rw [if_neg h2] at he'; simp at he'

theorem set_append_head (a : List UInt8) (x v : UInt8) (b : List UInt8) :
    (a ++ x :: b).set a.length v = a ++ v :: b := by
  induction a with
  | nil => rfl
  | cons h t ih => simp [List.set, ih]

theorem get_name_none (fdt : Blob) (o e : Int) (h : fdt_get_name fdt o = (none, e)) : e ≠ 0 := by
  unfold fdt_get_name at h
  simp only [] at h
  split_ifs at h with c1 c2 c3
  · simp only [Prod.mk.injEq, true_and] at h; rw [← h]; exact c1
  · simp only [Prod.mk.injEq, true_and] at h; rw [← h]; omega
  · cases hs : strrchr_slash fdt (fdt_offset_ptr_ fdt o + 4) with
    | none =>
      rw [hs] at h
      simp only [Prod.mk.injEq, true_and] at h
      rw [← h]; decide
    | some leaf => rw [hs] at h; simp at h
  · simp at h

theorem node_name_of_get (fdt : Blob) (o q len : Int) (h : fdt_get_name fdt o = (some q, len)) :
    node_name fdt o = cstr fdt q := by
  unfold node_name
  rw [h]

/-- The push of `fdt_get_path` on a buffer that holds the components
`comps`. -/
theorem get_path_push_spec (fdt : Blob) (ht : fdt_totalsize fdt ≤ INT_MAX) (B : Nat)
    (o A : Int) (post : List (Int × Int)) (hN : NodeAt fdt B o A post) (buflen : Int)
    (hbl : buflen + (fdt.length : Int) < INT_MAX)
    (comps : List (List UInt8)) (junk buf : List UInt8)
    (hbuf : buf = render_comps comps ++ junk) (hcl : (comps.length : Int) ≤ A - 1)
    (hpl : ((render_comps comps).length : Int) ≤ buflen) (hlen : buflen ≤ buf.length) :
    (∃ err, get_path_push fdt o (A - 1) buflen comps.length (render_comps comps).length buf =
        Sum.inl err ∧ err ≠ 0) ∨
    get_path_push fdt o (A - 1) buflen comps.length (render_comps comps).length buf =
        Sum.inr ((comps.length : Int), ((render_comps comps).length : Int), buf) ∨
    ((comps.length : Int) = A - 1 ∧ ∃ junk2,
      get_path_push fdt o (A - 1) buflen comps.length (render_comps comps).length buf =
        Sum.inr ((((comps ++ [node_name fdt o]).length : Nat) : Int),
          (((render_comps (comps ++ [node_name fdt o])).length : Nat) : Int),
          render_comps (comps ++ [node_name fdt o]) ++ junk2) ∧
      (((render_comps (comps ++ [node_name fdt o])).length : Nat) : Int) ≤ buflen ∧
      (render_comps (comps ++ [node_name fdt o]) ++ junk2).length = buf.length) := by
  obtain ⟨f, _, _, _, ho, _, hb, hn, _, hA1, hA2, _⟩ := node_at_facts fdt ht B o A post hN
  unfold get_path_push
  by_cases hge : (comps.length : Int) ≥ A - 1
  · rw [if_pos hge]
    cases hg : fdt_get_name fdt o with
    | mk nm len =>
      cases nm with
      | none =>
        left
        exact ⟨len, rfl, get_name_none fdt o len hg⟩
      | some q =>
        simp only []
        obtain ⟨hq, hl⟩ := get_name_some fdt ht o ho hb hn q len hg
        have hnn := node_name_of_get fdt o q len hg
        have hcm := cstr_len_le_mem fdt q
        have e1 : i32 (((render_comps comps).length : Int) + len + 1) =
            ((render_comps comps).length : Int) + len + 1 := by
          unfold i32; unfold INT_MAX at hbl; omega
        rw [e1]
        by_cases hfit : ((render_comps comps).length : Int) + len + 1 ≤ buflen
        · rw [if_pos hfit]
          right; right
          refine ⟨by omega, ?_⟩
          have hjl : (cstr fdt q).length + 1 ≤ junk.length := by
            have := congrArg List.length hbuf
            simp only [List.length_append] at this
            omega
          obtain ⟨j0, jr, hj⟩ : ∃ j0 jr, junk.drop (cstr fdt q).length = j0 :: jr := by
            cases hd : junk.drop (cstr fdt q).length with
            | nil =>
              have := congrArg List.length hd
              simp only [List.length_drop, List.length_nil] at this
              omega
            | cons j0 jr => exact ⟨j0, jr, rfl⟩
          refine ⟨jr, ?_, ?_, ?_⟩
          · have e2 : i32 ((comps.length : Int) + 1) = (((comps ++ [node_name fdt o]).length : Nat) : Int) := by
              simp only [List.length_append, List.length_cons, List.length_nil]
              unfold i32; unfold INT_MAX at hA2; push_cast; omega
            have e3 : i32 (((render_comps comps).length : Int) + len) =
                ((render_comps comps).length : Int) + len := by
              unfold i32; unfold INT_MAX at hbl; omega
            have e4 : i32 (((render_comps comps).length : Int) + len + 1) =
                (((render_comps (comps ++ [node_name fdt o])).length : Nat) : Int) := by
              rw [e1, render_comps_snoc, hnn, hl]
              simp only [List.length_append, List.length_cons, List.length_nil]
              push_cast; omega
            have hset : (memcpy_at buf ((render_comps comps).length : Int)
                (bytes_at fdt q len.toNat)).set
                  (((render_comps comps).length : Int) + len).toNat 0x2f =
                render_comps (comps ++ [node_name fdt o]) ++ jr := by
              rw [hl, Int.toNat_ofNat, bytes_at_cstr fdt q hq]
              unfold memcpy_at
              rw [Int.toNat_ofNat, hbuf, List.take_left, List.drop_append, hj,
                render_comps_snoc, hnn]
              have e5 : (((render_comps comps).length : Int) +
                  ((cstr fdt q).length : Int)).toNat =
                  (render_comps comps ++ cstr fdt q).length := by
                simp only [List.length_append]; omega
              rw [e5, set_append_head]
              simp
            rw [e2, e3, e4, hset]
          · rw [render_comps_snoc, hnn]
            simp only [List.length_append, List.length_cons, List.length_nil]
            push_cast; omega
          · rw [render_comps_snoc, hnn, hbuf]
            have := congrArg List.length hj
            simp only [List.length_drop, List.length_cons] at this
            simp only [List.length_append, List.length_cons, List.length_nil]
            omega
        · rw [if_neg hfit]
          right; left; rfl
  · rw [if_neg hge]
    right; left; rfl

theorem render_comps_take_le (comps : List (List UInt8)) (m : Nat) :
    ∃ r, render_comps comps = render_comps (comps.take m) ++ r := by
  refine ⟨render_comps (comps.drop m), ?_⟩
  rw [← render_comps_append, List.take_append_drop]

/-- One round of the loop of `fdt_get_path`, pops and push, on a buffer that
holds the components `comps`, a prefix of `names`. -/
theorem get_path_step_spec (fdt : Blob) (ht : fdt_totalsize fdt ≤ INT_MAX) (B : Nat)
    (o A : Int) (post : List (Int × Int)) (hN : NodeAt fdt B o A post) (buflen : Int)
    (hbl : buflen + (fdt.length : Int) < INT_MAX)
    (names comps t : List (List UInt8)) (junk buf : List UInt8)
    (hnames : names = comps ++ t) (hsl : ∀ c ∈ names, (0x2f : UInt8) ∉ c)
    (hA : (A = 1 ∧ names = []) ∨ 2 ≤ A)
    (hbuf : buf = render_comps comps ++ junk)
    (hpl : ((render_comps comps).length : Int) ≤ buflen) (hlen : buflen ≤ buf.length) :
    ∃ pd p, pop_to buf (A - 1) ((comps.length : Int) - (A - 1)).toNat comps.length
        (render_comps comps).length = some (pd, p) ∧
      ((∃ err, get_path_push fdt o (A - 1) buflen pd p buf = Sum.inl err ∧ err ≠ 0) ∨
       ∃ comps2 t2 junk2, get_path_push fdt o (A - 1) buflen pd p buf =
          Sum.inr ((comps2.length : Int), ((render_comps comps2).length : Int),
            render_comps comps2 ++ junk2) ∧
         names.take (A - 1).toNat ++ [node_name fdt o] = comps2 ++ t2 ∧
         ((render_comps comps2).length : Int) ≤ buflen ∧
         buflen ≤ (render_comps comps2 ++ junk2).length) := by
  have hpop := pop_to_spec buf (A - 1) ((comps.length : Int) - (A - 1)).toNat comps junk hbuf
    (fun c hc => hsl c (by rw [hnames]; simp [hc]))
    (by
      rcases hA with ⟨h1, h2⟩ | h2
      · left
        rw [h2] at hnames
        have := congrArg List.length hnames
        simp only [List.length_nil, List.length_append] at this
        omega
      · right; omega) (le_refl _)
  refine ⟨_, _, hpop, ?_⟩
  obtain ⟨r, hr⟩ := render_comps_take_le comps (A - 1).toNat
  have hlt : (comps.take (A - 1).toNat).length ≤ comps.length := by
    rw [List.length_take]; omega
  have hlt2 : ((comps.take (A - 1).toNat).length : Int) ≤ A - 1 := by
    rw [List.length_take]; omega
  have hA1 : 1 ≤ A := by omega
  have hrl := congrArg List.length hr
  simp only [List.length_append] at hrl
  have hpush := get_path_push_spec fdt ht B o A post hN buflen hbl (comps.take (A - 1).toNat)
    (r ++ junk) buf (by rw [hbuf, hr]; simp) hlt2 (by omega) hlen
  have htake : names.take (A - 1).toNat =
      comps.take (A - 1).toNat ++ t.take ((A - 1).toNat - comps.length) := by
    rw [hnames, List.take_append_eq_append_take]
  rcases hpush with h1 | h2 | ⟨h3, junk2, h4, h5, h6⟩
  · left; exact h1
  · right
    have hb2 : buf = render_comps (comps.take (A - 1).toNat) ++ (r ++ junk) := by
      rw [hbuf, hr]; simp
    refine ⟨comps.take (A - 1).toNat, t.take ((A - 1).toNat - comps.length) ++ [node_name fdt o],
      r ++ junk, by rw [← hb2]; exact h2, ?_, by omega, ?_⟩
    · rw [htake]; simp
    · rw [← List.append_assoc, ← hr, ← hbuf]; exact hlen
  · right
    refine ⟨comps.take (A - 1).toNat ++ [node_name fdt o], [], junk2, h4, ?_, h5, ?_⟩
    · rw [htake]
      have : (A - 1).toNat - comps.length = 0 := by
        rw [List.length_take] at h3
        omega
      rw [this]; simp
    · rw [h6]; exact hlen

theorem chain_names_step (fdt : Blob) (ch : List (Int × Int × List (Int × Int))) (y : Int × Int)
    (post : List (Int × Int)) :
    chain_names fdt (chain_step ch y post) =
      (chain_names fdt ch).take (y.2 - 1).toNat ++ [node_name fdt y.1] := by
  simp [chain_names, chain_step, List.map_take]

theorem chain_names_mem (fdt : Blob) (L cur : List (Int × Int))
    (ch : List (Int × Int × List (Int × Int))) (h : ChainInv L cur ch) :
    ∀ c ∈ chain_names fdt ch, ∃ x ∈ L, c = node_name fdt x.1 := by
  intro c hc
  unfold chain_names at hc
  rw [List.mem_map] at hc
  obtain ⟨e, he, hce⟩ := hc
  obtain ⟨j, hj, hje⟩ := List.getElem_of_mem he
  obtain ⟨_, ⟨pre, hpre⟩, _⟩ := h.2.2.1 j e (by rw [List.getElem?_eq_getElem hj, hje])
  exact ⟨(e.1, e.2.1), by rw [hpre]; simp, hce.symm⟩

theorem chain_inv_facts (fdt : Blob) (ht : fdt_totalsize fdt ≤ INT_MAX) (fuel0 : Nat)
    (rest : List (Int × Int)) (hR : Reach fdt fuel0 0 0)
    (hL : nodes_from fdt fuel0 0 0 = (0, 1) :: rest) (hdeep : ∀ x ∈ rest, 2 ≤ x.2)
    (y : Int × Int) (post : List (Int × Int)) (ch : List (Int × Int × List (Int × Int)))
    (h : ChainInv ((0, 1) :: rest) (y :: post) ch) :
    NodeAt fdt fuel0 y.1 y.2 post ∧ 1 ≤ y.2 ∧ y.2 ≤ ch.length + 1 ∧ (y.2 = 1 → y.1 = 0) ∧
      (∀ x ∈ post, 2 ≤ x.2) ∧ ((y.2 = 1 ∧ ch = []) ∨ 2 ≤ y.2) := by
  obtain ⟨⟨pre, hpre⟩, hnil, hent, hcons⟩ := h
  have hyy : ((y.1, y.2) : Int × Int) = y := rfl
  have hN : NodeAt fdt fuel0 y.1 y.2 post :=
    node_at_of_suffix fdt ht fuel0 fuel0 0 0 hR (le_refl _) pre y.1 y.2 post
      (by rw [hL, hpre])
  obtain ⟨_, _, _, _, _, _, _, _, _, hA1, _, _⟩ := node_at_facts fdt ht fuel0 y.1 y.2 post hN
  have hmem : y = (0, 1) ∨ y ∈ rest := by
    have : y ∈ (0, 1) :: rest := by rw [hpre]; simp
    simpa using this
  have hpost : ∀ x ∈ post, 2 ≤ x.2 := by
    intro x hx
    apply hdeep
    cases pre with
    | nil =>
      simp only [List.nil_append, List.cons.injEq] at hpre
      rw [hpre.2]; exact hx
    | cons a pre' =>
      simp only [List.cons_append, List.cons.injEq] at hpre
      rw [hpre.2]; simp [hx]
  have hch : ch = [] ∨ (2 ≤ y.2 ∧ y.2 ≤ ch.length + 1) := by
    cases hc : ch with
    | nil => left; rfl
    | cons a l =>
      right
      rw [← hc]
      have hpos : 0 < ch.length := by rw [hc]; simp
      obtain ⟨e, he⟩ : ∃ e, ch[ch.length - 1]? = some e :=
        ⟨ch[ch.length - 1], List.getElem?_eq_getElem (by omega)⟩
      obtain ⟨b1, ⟨pre2, hpre2⟩, _, _, b5⟩ := hent _ e he
      have b5 := b5 (by omega)
      rw [b5] at hpre2
      have hN2 : NodeAt fdt fuel0 e.1 e.2.1 ((y.1, y.2) :: post) :=
        node_at_of_suffix fdt ht fuel0 fuel0 0 0 hR (le_refl _) pre2 e.1 e.2.1 (y :: post)
          (by rw [hL, hpre2])
      obtain ⟨_, c2, _⟩ := node_at_next fdt ht fuel0 e.1 e.2.1 y.1 y.2 post hN2
      have hy2 : y ∈ rest := by
        cases pre2 with
        | nil =>
          simp only [List.nil_append, List.cons.injEq] at hpre2
          rw [hpre2.2]; simp
        | cons a2 pre2' =>
          simp only [List.cons_append, List.cons.injEq] at hpre2
          rw [hpre2.2]; simp
      refine ⟨hdeep y hy2, ?_⟩
      rw [b1] at c2
      have : ((ch.length - 1 : Nat) : Int) = (ch.length : Int) - 1 := by omega
      omega
  refine ⟨hN, hA1, ?_, ?_, hpost, ?_⟩
  · rcases hch with h1 | h2
    · have := hnil h1
      simp only [List.cons.injEq] at this
      rw [this.1]; simp
    · exact h2.2
  · intro h1
    rcases hmem with h2 | h2
    · rw [h2]
    · have := hdeep y h2; omega
  · rcases hch with h1 | h2
    · left
      have := hnil h1
      simp only [List.cons.injEq] at this
      rw [this.1]; exact ⟨rfl, h1⟩
    · right; exact h2.1

theorem chain_scan_nil (n : Int) (ch : List (Int × Int × List (Int × Int))) :
    chain_scan n [] ch = none := rfl

/-- The loop of `fdt_get_path` from a node of the list on: when it returns 0,
the buffer holds the names of the chain of the target. -/
theorem get_path_loop_spec (fdt : Blob) (ht : fdt_totalsize fdt ≤ INT_MAX) (fuel0 : Nat)
    (rest : List (Int × Int)) (hR : Reach fdt fuel0 0 0)
    (hL : nodes_from fdt fuel0 0 0 = (0, 1) :: rest) (hdeep : ∀ x ∈ rest, 2 ≤ x.2)
    (hsl : ∀ x ∈ (0, 1) :: rest, (0x2f : UInt8) ∉ node_name fdt x.1)
    (n buflen : Int) (hbl : buflen + (fdt.length : Int) < INT_MAX) (F0 : Nat)
    (hF0 : fuel0 ≤ F0) :
    ∀ (F : Nat) (y : Int × Int) (post : List (Int × Int))
      (ch chF : List (Int × Int × List (Int × Int))) (comps t : List (List UInt8))
      (junk buf buf' : List UInt8),
      ChainInv ((0, 1) :: rest) (y :: post) ch →
      chain_scan n (y :: post) ch = some chF →
      chain_names fdt ch = comps ++ t →
      buf = render_comps comps ++ junk →
      ((render_comps comps).length : Int) ≤ buflen → buflen ≤ buf.length →
      fdt_get_path_loop F0 fdt n buflen F y.1 (y.2 - 1) comps.length
        (render_comps comps).length buf = some (0, buf') →
      ∃ junk', buf' = (render_comps (chain_names fdt chF) ++ junk').set
          (if ((render_comps (chain_names fdt chF)).length : Int) > 1
            then ((render_comps (chain_names fdt chF)).length : Int) - 1
            else ((render_comps (chain_names fdt chF)).length : Int)).toNat 0 ∧
        buflen ≤ (render_comps (chain_names fdt chF) ++ junk').length ∧
        ((render_comps (chain_names fdt chF)).length : Int) ≤ buflen := by
  intro F
  induction F with
  | zero =>
    intro y post ch chF comps t junk buf buf' hinv hscan hcn hbuf hpl hlen hres
    simp [fdt_get_path_loop] at hres
  | succ F ih =>
    intro y post ch chF comps t junk buf buf' hinv hscan hcn hbuf hpl hlen hres
    obtain ⟨hN, hy1, hy2, hy3, hpost, hyc⟩ :=
      chain_inv_facts fdt ht fuel0 rest hR hL hdeep y post ch hinv
    obtain ⟨_, _, _, _, _, _, _, _, _, _, hA2, _⟩ := node_at_facts fdt ht fuel0 y.1 y.2 post hN
    have hinv2 := chain_inv_step _ y post ch hinv ⟨hy1, hy2, hy3⟩
    have hslc : ∀ c ∈ chain_names fdt ch, (0x2f : UInt8) ∉ c := by
      intro c hc
      obtain ⟨x, hx, rfl⟩ := chain_names_mem fdt _ _ ch hinv c hc
      exact hsl x hx
    obtain ⟨pd, p, hpop, hpush⟩ := get_path_step_spec fdt ht fuel0 y.1 y.2 post hN buflen hbl
      (chain_names fdt ch) comps t junk buf hcn hslc
      (by
        rcases hyc with ⟨h1, h2⟩ | h2
        · left; exact ⟨h1, by rw [h2]; rfl⟩
        · right; exact h2) hbuf hpl hlen
    rw [fdt_get_path_loop] at hres
    by_cases hc : y.1 ≥ 0 ∧ y.1 ≤ n
    · rw [if_pos hc, hpop] at hres
      simp only [] at hres
      rcases hpush with ⟨err, he, hne⟩ | ⟨comps2, t2, junk2, he, hcn2, hpl2, hlen2⟩
      · rw [he] at hres
        simp only [Option.some.injEq, Prod.mk.injEq] at hres
        exact absurd hres.1 hne
      · rw [he] at hres
        simp only [] at hres
        rw [← chain_names_step fdt ch y post] at hcn2
        have hlen_ch : (chain_step ch y post).length = (y.2 - 1).toNat + 1 :=
          chain_step_length ch y post (by omega)
        rw [chain_scan] at hscan
        by_cases ht' : y.1 = n
        · rw [if_pos ht'] at hres hscan
          simp only [Option.some.injEq] at hscan
          have e1 : i32 (y.2 - 1 + 1) = y.2 := by
            unfold i32; unfold INT_MAX at hA2; omega
          rw [e1] at hres
          by_cases hlt : (comps2.length : Int) < y.2
          · rw [if_pos hlt] at hres
            simp only [Option.some.injEq, Prod.mk.injEq] at hres
            exact absurd hres.1 (by decide)
          · rw [if_neg hlt] at hres
            simp only [Option.some.injEq, Prod.mk.injEq, true_and] at hres
            have hl := congrArg List.length hcn2
            simp only [chain_names, List.length_map, List.length_append] at hl
            have ht2 : t2 = [] := by
              apply List.length_eq_zero.mp
              omega
            rw [ht2, List.append_nil] at hcn2
            rw [← hscan, hcn2]
            exact ⟨junk2, hres.symm, hlen2, hpl2⟩
        · rw [if_neg ht'] at hres hscan
          obtain ⟨r, hr, hr1, hr2⟩ := node_at_next_node fdt ht fuel0 y.1 y.2 post hN (y.2 - 1)
            (by omega) (by omega) F0 hF0
          rw [hr] at hres
          simp only [] at hres
          cases hpo : post with
          | nil => rw [hpo, chain_scan_nil] at hscan; simp at hscan
          | cons y' post' =>
            have hy' := hpost y' (by rw [hpo]; simp)
            obtain ⟨hr3, _⟩ := hr1 y'.1 y'.2 post' hpo
            have hr4 := hr3 (by omega)
            rw [hr4] at hres
            simp only [Option.getD_some] at hres
            have e2 : y.2 - 1 + y'.2 - y.2 = y'.2 - 1 := by omega
            rw [e2] at hres
            rw [hpo] at hinv2 hscan hcn2
            exact ih y' post' _ chF comps2 t2 junk2 _ buf' hinv2 hscan hcn2 rfl hpl2 hlen2 hres
    · rw [if_neg hc] at hres
      split_ifs at hres with c1 c2
      · simp only [Option.some.injEq, Prod.mk.injEq] at hres
        exact absurd hres.1 (by decide)
      · simp only [Option.some.injEq, Prod.mk.injEq] at hres
        exact absurd hres.1 (by decide)
      · simp only [Option.some.injEq, Prod.mk.injEq] at hres
        omega

theorem chain_scan_length (n : Int) : ∀ (cur : List (Int × Int))
    (ch chF : List (Int × Int × List (Int × Int))),
    chain_scan n cur ch = some chF → chF.length ≤ ch.length + cur.length := by
  intro cur
  induction cur with
  | nil => intro ch chF h; simp [chain_scan] at h
  | cons y post ih =>
    intro ch chF h
    have hl : (chain_step ch y post).length ≤ ch.length + 1 := by
      unfold chain_step
      rw [List.length_append, List.length_take]
      simp only [List.length_cons, List.length_nil]
      omega
    rw [chain_scan] at h
    split_ifs at h with c
    · simp only [Option.some.injEq] at h
      rw [← h]
      simp only [List.length_cons]
      omega
    · have := ih _ _ h
      simp only [List.length_cons]
      omega

theorem chain_scan_some (n : Int) : ∀ (cur : List (Int × Int))
    (ch : List (Int × Int × List (Int × Int))), n ∈ cur.map (fun x => x.1) →
    ∃ chF, chain_scan n cur ch = some chF := by
  intro cur
  induction cur with
  | nil => intro ch h; simp at h
  | cons y post ih =>
    intro ch h
    rw [chain_scan]
    by_cases c : y.1 = n
    · rw [if_pos c]; exact ⟨_, rfl⟩
    · rw [if_neg c]
      apply ih
      simp only [List.map_cons, List.mem_cons] at h
      rcases h with h | h
      · exact absurd h.symm c
      · exact h

/-- The chain that the scan gives for the target is a chain of ancestors that
ends at the target. -/
theorem chain_scan_inv (fdt : Blob) (ht : fdt_totalsize fdt ≤ INT_MAX) (fuel0 : Nat)
    (rest : List (Int × Int)) (hR : Reach fdt fuel0 0 0)
    (hL : nodes_from fdt fuel0 0 0 = (0, 1) :: rest) (hdeep : ∀ x ∈ rest, 2 ≤ x.2) (n : Int) :
    ∀ (cur : List (Int × Int)) (ch chF : List (Int × Int × List (Int × Int))),
      ChainInv ((0, 1) :: rest) cur ch → chain_scan n cur ch = some chF →
      ∃ cur', ChainInv ((0, 1) :: rest) cur' chF ∧
        ∃ e, chF[chF.length - 1]? = some e ∧ e.1 = n ∧ 1 ≤ chF.length := by
  intro cur
  induction cur with
  | nil => intro ch chF _ h; simp [chain_scan] at h
  | cons y post ih =>
    intro ch chF hinv h
    obtain ⟨hN, hy1, hy2, hy3, hpost, hyc⟩ :=
      chain_inv_facts fdt ht fuel0 rest hR hL hdeep y post ch hinv
    have hinv2 := chain_inv_step _ y post ch hinv ⟨hy1, hy2, hy3⟩
    rw [chain_scan] at h
    split_ifs at h with c
    · simp only [Option.some.injEq] at h
      rw [← h]
      refine ⟨post, hinv2, (y.1, y.2, post), ?_, c, ?_⟩
      · rw [chain_step_length ch y post (by omega)]
        rw [chain_step_get ch y post (y.2 - 1).toNat rfl (by omega)]
        simp
      · rw [chain_step_length ch y post (by omega)]
        omega
    · exact ih _ _ hinv2 h

theorem find_child_skip (nameeq : Int → Bool) (level : Int) (rest : List (Int × Int)) :
    ∀ seg : List (Int × Int),
      (∀ u ∈ seg, level < u.2 ∧ ¬(u.2 = level + 1 ∧ nameeq u.1 = true)) →
      find_child nameeq level (seg ++ rest) = find_child nameeq level rest := by
  intro seg
  induction seg with
  | nil => intro _; rfl
  | cons u seg ih =>
    intro h
    obtain ⟨h1, h2⟩ := h u (by simp)
    rw [List.cons_append, find_child, if_neg (by omega), if_neg h2]
    exact ih (fun v hv => h v (by simp [hv]))

theorem node_name_get (fdt : Blob) (o : Int) (h : node_name fdt o ≠ []) :
    ∃ q len, fdt_get_name fdt o = (some q, len) := by
  unfold node_name at h
  cases hg : fdt_get_name fdt o with
  | mk nm len =>
    cases nm with
    | none => rw [hg] at h; exact absurd rfl h
    | some q => exact ⟨q, len, rfl⟩

theorem find_child_hit (nameeq : Int → Bool) (level : Int) (x : Int × Int)
    (post : List (Int × Int)) (h1 : x.2 = level + 1) (h2 : nameeq x.1 = true) :
    find_child nameeq level (x :: post) = some (x.1, post) := by
  rw [find_child, if_neg (by omega), if_pos ⟨h1, h2⟩]

/-- From an entry of the chain, the lookup of the name of the next entry among
the children finds the next entry. -/
theorem chain_child_step (fdt : Blob) (ht : fdt_totalsize fdt ≤ INT_MAX)
    (hp : fdt_ro_probe_ fdt = 0) (fuel0 : Nat)
    (rest : List (Int × Int)) (hR : Reach fdt fuel0 0 0)
    (hL : nodes_from fdt fuel0 0 0 = (0, 1) :: rest)
    (hnames : ∀ x ∈ rest, node_name fdt x.1 ≠ [])
    (hsib : ∀ pre x mid y post, rest = pre ++ x :: (mid ++ y :: post) → x.2 = y.2 →
      (∀ u ∈ mid, y.2 ≤ u.2) →
      fdt_nodename_eq_ fdt x.1 (node_name fdt y.1) (node_name fdt y.1).length = false)
    (cur : List (Int × Int)) (chF : List (Int × Int × List (Int × Int)))
    (hinv : ChainInv ((0, 1) :: rest) cur chF) (j : Nat) (e e' : Int × Int × List (Int × Int))
    (he : chF[j]? = some e) (he' : chF[j + 1]? = some e') (F : Nat) (hF : fuel0 ≤ F) :
    fdt_subnode_offset_namelen F fdt e.1 (node_name fdt e'.1) (node_name fdt e'.1).length =
      some e'.1 ∧ 0 ≤ e'.1 := by
  obtain ⟨_, _, hent, hcons⟩ := hinv
  obtain ⟨a1, ⟨pre, hpre⟩, _⟩ := hent j e he
  obtain ⟨b1, ⟨pre', hpre'⟩, _⟩ := hent (j + 1) e' he'
  obtain ⟨seg, hseg, hsegd⟩ := hcons j e e' he he'
  have hN : NodeAt fdt fuel0 e.1 e.2.1 e.2.2 :=
    node_at_of_suffix fdt ht fuel0 fuel0 0 0 hR (le_refl _) pre e.1 e.2.1 e.2.2
      (by rw [hL, hpre])
  have hN' : NodeAt fdt fuel0 e'.1 e'.2.1 e'.2.2 :=
    node_at_of_suffix fdt ht fuel0 fuel0 0 0 hR (le_refl _) pre' e'.1 e'.2.1 e'.2.2
      (by rw [hL, hpre'])
  obtain ⟨_, _, _, _, ho', _, hb', hn', _, _, _, _⟩ :=
    node_at_facts fdt ht fuel0 e'.1 e'.2.1 e'.2.2 hN'
  have hmem : (e'.1, e'.2.1) ∈ rest := by
    have : (e'.1, e'.2.1) ∈ (0, 1) :: rest := by rw [hpre']; simp
    rw [List.mem_cons] at this
    rcases this with h | h
    · simp only [Prod.mk.injEq] at h
      push_cast at b1
      omega
    · exact h
  have hne := hnames _ hmem
  simp only [] at hne
  obtain ⟨q, len, hg⟩ := node_name_get fdt e'.1 hne
  obtain ⟨hq, hl⟩ := get_name_some fdt ht e'.1 ho' hb' hn' q len hg
  have hself := nodename_eq_self fdt e'.1 q len hg hq hl
  have hnn := node_name_of_get fdt e'.1 q len hg
  rw [← hnn] at hself
  refine ⟨?_, ho'.1⟩
  have hb1 : e'.2.1 = e.2.1 + 1 := by push_cast at b1; omega
  have hskip : ∀ u ∈ seg, e.2.1 < u.2 ∧
      ¬(u.2 = e.2.1 + 1 ∧ (fun y => fdt_nodename_eq_ fdt y (node_name fdt e'.1)
        (node_name fdt e'.1).length) u.1 = true) := by
    intro u hu
    have hud := hsegd u hu
    refine ⟨by omega, ?_⟩
    rintro ⟨hu1, hu2⟩
    obtain ⟨s1, s2, hs⟩ := List.append_of_mem hu
    have hrest : ∃ pre2, rest = pre2 ++ u :: (s2 ++ (e'.1, e'.2.1) :: e'.2.2) := by
      rw [hseg, hs] at hpre
      cases pre with
      | nil =>
        simp only [List.nil_append, List.cons.injEq] at hpre
        exact ⟨s1, by rw [hpre.2]; simp⟩
      | cons a pre0 =>
        simp only [List.cons_append, List.cons.injEq] at hpre
        exact ⟨pre0 ++ (e.1, e.2.1) :: s1, by rw [hpre.2]; simp⟩
    obtain ⟨pre2, hrest⟩ := hrest
    have hf := hsib pre2 u s2 (e'.1, e'.2.1) e'.2.2 hrest (by omega)
      (fun w hw => hsegd w (by rw [hs]; simp [hw]))
    simp only [] at hf
    have hu3 : fdt_nodename_eq_ fdt u.1 (node_name fdt e'.1) (node_name fdt e'.1).length = true :=
      hu2
    rw [hf] at hu3
    exact Bool.noConfusion hu3
  have hfind := find_child_skip (fun y => fdt_nodename_eq_ fdt y (node_name fdt e'.1)
    (node_name fdt e'.1).length) e.2.1 ((e'.1, e'.2.1) :: e'.2.2) seg hskip
  have hhit := find_child_hit (fun y => fdt_nodename_eq_ fdt y (node_name fdt e'.1)
    (node_name fdt e'.1).length) e.2.1 (e'.1, e'.2.1) e'.2.2 hb1 hself
  rw [subnode_offset_find fdt ht hp fuel0 (node_name fdt e'.1) (node_name fdt e'.1).length
    e.1 e.2.1 e.2.2 hN F hF, hseg, hfind, hhit]

/-- Going down from an entry of the chain along the names of the entries that
follow it ends at the last entry. -/
theorem resolve_chain (fdt : Blob) (ht : fdt_totalsize fdt ≤ INT_MAX)
    (hp : fdt_ro_probe_ fdt = 0) (fuel0 : Nat)
    (rest : List (Int × Int)) (hR : Reach fdt fuel0 0 0)
    (hL : nodes_from fdt fuel0 0 0 = (0, 1) :: rest)
    (hnames : ∀ x ∈ rest, node_name fdt x.1 ≠ [])
    (hsib : ∀ pre x mid y post, rest = pre ++ x :: (mid ++ y :: post) → x.2 = y.2 →
      (∀ u ∈ mid, y.2 ≤ u.2) →
      fdt_nodename_eq_ fdt x.1 (node_name fdt y.1) (node_name fdt y.1).length = false)
    (cur : List (Int × Int)) (chF : List (Int × Int × List (Int × Int)))
    (hinv : ChainInv ((0, 1) :: rest) cur chF) (n : Int)
    (hlast : ∃ e, chF[chF.length - 1]? = some e ∧ e.1 = n ∧ 1 ≤ chF.length)
    (F : Nat) (hF : fuel0 ≤ F) :
    ∀ (d j : Nat) (e : Int × Int × List (Int × Int)), j + d + 1 = chF.length →
      chF[j]? = some e →
      resolve_segs F fdt e.1 ((chain_names fdt chF).drop (j + 1)) = some n := by
  have hcl : (chain_names fdt chF).length = chF.length := by simp [chain_names]
  intro d
  induction d with
  | zero =>
    intro j e hj he
    obtain ⟨e0, h0, h1, _⟩ := hlast
    have : chF.length - 1 = j := by omega
    rw [this, he] at h0
    simp only [Option.some.injEq] at h0
    rw [List.drop_of_length_le (by omega), resolve_segs, h0, h1]
  | succ d ih =>
    intro j e hj he
    have hlt : j + 1 < chF.length := by omega
    have he' : chF[j + 1]? = some chF[j + 1] := List.getElem?_eq_getElem hlt
    obtain ⟨hs, h0⟩ := chain_child_step fdt ht hp fuel0 rest hR hL hnames hsib cur chF hinv j e
      chF[j + 1] he he' F hF
    have hdrop : (chain_names fdt chF).drop (j + 1) =
        node_name fdt (chF[j + 1]).1 :: (chain_names fdt chF).drop (j + 1 + 1) := by
      rw [List.drop_eq_getElem_cons (by omega)]
      simp [chain_names]
    rw [hdrop, resolve_segs, hs]
    simp only []
    rw [if_neg (by omega)]
    exact ih (j + 1) _ (by omega) he'

theorem node_name_no_zero (fdt : Blob) (o : Int) : (0 : UInt8) ∉ node_name fdt o := by
  unfold node_name
  cases (fdt_get_name fdt o).1 with
  | none => simp
  | some p => exact cstr_no_zero fdt p

theorem render_segs_no_zero (names : List (List UInt8)) (h : ∀ c ∈ names, (0 : UInt8) ∉ c) :
    (0 : UInt8) ∉ render_segs names := by
  unfold render_segs
  intro hm
  rw [List.mem_flatMap] at hm
  obtain ⟨c, hc, hb⟩ := hm
  rw [List.mem_cons] at hb
  rcases hb with hb | hb
  · exact absurd hb (by decide)
  · exact h c hc hb

theorem chain_inv_nil (L : List (Int × Int)) : ChainInv L L [] :=
  ⟨⟨[], rfl⟩, fun _ => rfl, by intro j e h; simp at h, by intro j e e' h; simp at h⟩

theorem nodes_from_offsets (fdt : Blob) (f : Nat) (off D : Int) :
    (nodes_from fdt f off D).map (fun x => x.1) = begin_offsets fdt f off := by
  unfold nodes_from begin_offsets
  generalize tag_walk fdt f off = l
  induction l generalizing D with
  | nil => rfl
  | cons t l ih =>
    rw [depth_walk, List.filter_cons]
    by_cases h1 : t.2.1 = FDT_BEGIN_NODE
    · rw [if_pos h1, if_pos (by simpa using h1), List.map_cons, List.map_cons, ih]
    · rw [if_neg h1, if_neg (show ¬(decide (t.2.1 = FDT_BEGIN_NODE) = true) by simpa using h1)]
      split_ifs
      · exact ih _
      · exact ih _

/-- C8 (amended): for a blob that `fdt_check_full` accepts, with a single
root of empty name, whose other nodes have non-empty names without a slash,
and where no node has an earlier sibling that `fdt_nodename_eq_` matches
against its name: when `fdt_get_path` returns 0 for a node that the walk
reaches, in a buffer of at least `buflen` bytes, with `buflen` plus the size
of the blob below `INT_MAX`, `fdt_path_offset` on the buffer returns that
node, and for the root the path written is `/`. -/
theorem C8_path_roundtrip (sz : HdrSizes) (fdt : Blob) (fuel0 fuel : Nat) (bufsize : Int)
    (rest : List (Int × Int)) (n buflen : Int) (buf buf' : List UInt8)
    (hfull : fdt_check_full sz fuel0 fdt bufsize = some 0)
    (hL : nodes_from fdt fuel0 0 0 = (0, 1) :: rest)
    (hdeep : ∀ x ∈ rest, 2 ≤ x.2)
    (hroot : node_name fdt 0 = [])
    (hnames : ∀ x ∈ rest, node_name fdt x.1 ≠ [] ∧ (0x2f : UInt8) ∉ node_name fdt x.1)
    (hsib : ∀ pre x mid y post, rest = pre ++ x :: (mid ++ y :: post) → x.2 = y.2 →
      (∀ u ∈ mid, y.2 ≤ u.2) →
      fdt_nodename_eq_ fdt x.1 (node_name fdt y.1) (node_name fdt y.1).length = false)
    (hn : n ∈ begin_offsets fdt fuel0 0)
    (hbuf : buflen ≤ buf.length) (hbl : buflen + (fdt.length : Int) < INT_MAX)
    (hfuel : fuel0 < fuel)
    (hget : fdt_get_path fuel fdt n buf buflen = some (0, buf')) :
    fdt_path_offset fuel fdt buf' = some n ∧ (n = 0 → cstr buf' 0 = [0x2f]) := by
  obtain ⟨hhdr, ht, hloop⟩ := check_full_zero sz fuel0 fdt bufsize hfull
  have hp := ro_probe_of_check_header sz fdt hhdr
  have hR : Reach fdt fuel0 0 0 :=
    ⟨hloop, ⟨le_refl _, by unfold INT_MAX; omega⟩, by decide, le_refl _, by unfold INT_MAX; omega⟩
  rw [← nodes_from_offsets fdt fuel0 0 0, hL] at hn
  obtain ⟨chF, hscan⟩ := chain_scan_some n _ [] hn
  have hinv0 := chain_inv_nil ((0, 1) :: rest)
  obtain ⟨cur', hinvF, eL, heL, heLn, hlen1⟩ :=
    chain_scan_inv fdt ht fuel0 rest hR hL hdeep n _ [] chF hinv0 hscan
  have hclen := chain_scan_length n _ [] chF hscan
  have hnf := (nodes_from_facts fdt ht fuel0 0 0 hR).2.2
  rw [hL] at hnf
  simp only [List.length_cons, List.length_nil] at hclen hnf
  -- the buffer after fdt_get_path
  unfold fdt_get_path at hget
  rw [if_neg (by simp [hp])] at hget
  by_cases hb2 : buflen < 2
  · rw [if_pos hb2] at hget
    simp only [Option.some.injEq, Prod.mk.injEq] at hget
    exact absurd hget.1 (by decide)
  rw [if_neg hb2] at hget
  have hslall : ∀ x ∈ (0, 1) :: rest, (0x2f : UInt8) ∉ node_name fdt x.1 := by
    intro x hx
    rw [List.mem_cons] at hx
    rcases hx with hx | hx
    · rw [hx, hroot]; simp
    · exact (hnames x hx).2
  obtain ⟨junk', hb', hlen', hRl⟩ := get_path_loop_spec fdt ht fuel0 rest hR hL hdeep hslall n
    buflen hbl fuel (by omega) fuel (0, 1) rest [] chF [] [] buf buf buf' hinv0 hscan rfl
    (by simp [render_comps]) (by simp [render_comps]; omega) hbuf hget
  -- the chain starts at the root
  cases hch : chF with
  | nil => rw [hch] at hlen1; simp at hlen1
  | cons e0 tl =>
  have he0 : chF[0]? = some e0 := by rw [hch]; simp
  have he00 : e0.1 = 0 := (hinvF.2.2.1 0 e0 he0).2.2.2.1 rfl
  have hcn : chain_names fdt chF = [] :: chain_names fdt tl := by
    rw [hch]
    simp only [chain_names, List.map_cons]
    rw [he00, hroot]
  have hres := resolve_chain fdt ht hp fuel0 rest hR hL (fun x hx => (hnames x hx).1) hsib cur'
    chF hinvF n ⟨eL, heL, heLn, hlen1⟩ fuel (by omega) (chF.length - 1) 0 e0 (by omega) he0
  rw [he00, hcn] at hres
  simp only [Nat.zero_add, List.drop_succ_cons, List.drop_zero] at hres
  have hnm : ∀ c ∈ chain_names fdt tl, c ≠ [] ∧ (0x2f : UInt8) ∉ c ∧ (0 : UInt8) ∉ c := by
    intro c hc
    unfold chain_names at hc
    rw [List.mem_map] at hc
    obtain ⟨e, he, hce⟩ := hc
    obtain ⟨j, hj, hje⟩ := List.getElem_of_mem he
    have hj2 : chF[j + 1]? = some e := by
      rw [hch, List.getElem?_cons_succ, List.getElem?_eq_getElem hj, hje]
    obtain ⟨d1, ⟨pre, hpre⟩, _⟩ := hinvF.2.2.1 (j + 1) e hj2
    have hmem : (e.1, e.2.1) ∈ rest := by
      have : (e.1, e.2.1) ∈ (0, 1) :: rest := by rw [hpre]; simp
      rw [List.mem_cons] at this
      rcases this with h | h
      · simp only [Prod.mk.injEq] at h
        push_cast at d1
        omega
      · exact h
    have := hnames _ hmem
    simp only [] at this
    rw [← hce]
    exact ⟨this.1, this.2, node_name_no_zero fdt e.1⟩
  have hRr : render_comps (chain_names fdt chF) = render_segs (chain_names fdt tl) ++ [0x2f] := by
    rw [hcn, render_comps_cons]; simp
  rw [hRr] at hb' hlen' hRl
  obtain ⟨fuel', rfl⟩ : ∃ k, fuel = k + 1 := ⟨fuel - 1, by omega⟩
  unfold fdt_path_offset
  rw [fdt_path_offset_namelen]
  simp only []
  rw [if_neg (by simp [hp])]
  by_cases hnames2 : chain_names fdt tl = []
  · -- the root
    rw [hnames2] at hb' hlen' hRl hres
    have htl : tl = [] := by
      have := congrArg List.length hnames2
      simpa [chain_names] using this
    have hn0 : n = 0 := by
      rw [resolve_segs] at hres
      simpa using hres.symm
    simp only [render_segs, List.flatMap_nil, List.nil_append, List.length_cons,
      List.length_nil, List.cons_append] at hb' hlen'
    obtain ⟨j0, jr, rfl⟩ : ∃ j0 jr, junk' = j0 :: jr := by
      cases junk' with
      | nil => simp at hlen'; omega
      | cons j0 jr => exact ⟨j0, jr, rfl⟩
    have hbv : buf' = [0x2f] ++ 0 :: jr := by
      rw [hb']; rfl
    have hc : cstr buf' 0 = [0x2f] := by
      rw [hbv]; exact cstr_of_append [0x2f] jr (by decide)
    refine ⟨?_, fun _ => hc⟩
    have hrd : rd8 buf' 0 = 0x2f := by rw [hbv]; rfl
    have hsl : i32 (strlen buf' 0) = 1 := by
      unfold strlen; rw [hc]; decide
    rw [if_neg (by rw [hrd]; simp), hsl, fdt_path_offset_namelen_loop, if_pos (by decide)]
    have e : ((1 : Int) - 0).toNat = 1 := by decide
    rw [e, skip_slashes, if_pos hrd, if_pos (by decide), hn0]
  · obtain ⟨c, cs, hcs⟩ := List.exists_cons_of_ne_nil hnames2
    have hpos : 1 ≤ (render_segs (chain_names fdt tl)).length := by
      rw [hcs, render_segs_cons]; simp
    have hset : buf' = render_segs (chain_names fdt tl) ++ 0 :: junk' := by
      rw [hb']
      have e1 : ((render_segs (chain_names fdt tl) ++ [0x2f]).length : Int) > 1 := by
        simp only [List.length_append, List.length_cons, List.length_nil]; omega
      rw [if_pos e1]
      have e2 : (((render_segs (chain_names fdt tl) ++ [0x2f]).length : Int) - 1).toNat =
          (render_segs (chain_names fdt tl)).length := by
        simp only [List.length_append, List.length_cons, List.length_nil]; omega
      rw [e2, List.append_assoc]
      exact set_append_head _ _ _ _
    have hc : cstr buf' 0 = render_segs (chain_names fdt tl) := by
      rw [hset]
      exact cstr_of_append _ _ (render_segs_no_zero _ (fun c hc => (hnm c hc).2.2))
    have hrd : rd8 buf' 0 = 0x2f := by
      rw [hset, hcs, render_segs_cons]; rfl
    have hsl : i32 (strlen buf' 0) = ((render_segs (chain_names fdt tl)).length : Int) := by
      unfold strlen; rw [hc]
      simp only [List.length_append, List.length_cons, List.length_nil] at hRl
      unfold i32; unfold INT_MAX at hbl; omega
    rw [if_neg (by rw [hrd]; simp), hsl]
    have hloop := path_loop_segs fdt (fuel' + 1) buf' ((render_segs (chain_names fdt tl)).length)
      (chain_names fdt tl) 0 0 (0 :: junk') (fuel' + 1) (le_refl _)
      (by rw [hset]; rfl) (by simp) (fun c hc => ⟨(hnm c hc).1, (hnm c hc).2.1⟩)
      (by
        have : (chain_names fdt tl).length = tl.length := by simp [chain_names]
        rw [this]
        rw [hch] at hclen
        simp only [List.length_cons] at hclen
        omega)
    rw [hloop]
    refine ⟨hres, ?_⟩
    intro hn0
    exfalso
    rw [hn0, chain_scan, if_pos rfl] at hscan
    simp only [Option.some.injEq] at hscan
    have hl := congrArg List.length hscan
    rw [hch] at hl
    have hl2 := congrArg List.length hcs
    unfold chain_step at hl
    simp only [chain_names, List.take_nil, List.nil_append, List.length_cons, List.length_nil,
      List.length_map] at hl hl2
    omega

theorem blobTree_siblings (pre : List (Int × Int)) (x : Int × Int) (mid : List (Int × Int))
    (y : Int × Int) (post : List (Int × Int))
    (h : [((24 : Int), (2 : Int)), (52, 2)] = pre ++ x :: (mid ++ y :: post)) :
    fdt_nodename_eq_ blobTree x.1 (node_name blobTree y.1) (node_name blobTree y.1).length =
      false := by
  rcases pre with _ | ⟨a, _ | ⟨b, pre⟩⟩
  · simp only [List.nil_append, List.cons.injEq] at h
    obtain ⟨hx, h2⟩ := h
    rcases mid with _ | ⟨m, mid⟩
    · simp only [List.nil_append, List.cons.injEq] at h2
      obtain ⟨hy, _⟩ := h2
      subst hx hy
      decide
    · simp at h2
  · simp at h
  · simp at h

set_option maxRecDepth 8192

theorem C8_path_roundtrip_witness :
    fdt_check_full specSizes 9 blobTree (fdt_totalsize blobTree) = some 0 ∧
    fdt_get_path 10 blobTree 52 [1, 1, 1, 1, 1, 1, 1, 1] 8 =
      some (0, [0x2f, 0x62, 0, 1, 1, 1, 1, 1]) ∧
    fdt_get_path 10 blobTree 0 [1, 1, 1, 1, 1, 1, 1, 1] 8 =
      some (0, [0x2f, 0, 1, 1, 1, 1, 1, 1]) ∧
    (fdt_path_offset 10 blobTree [0x2f, 0x62, 0, 1, 1, 1, 1, 1] = some 52 ∧
      ((52 : Int) = 0 → cstr [0x2f, 0x62, 0, 1, 1, 1, 1, 1] 0 = [0x2f])) ∧
    (fdt_path_offset 10 blobTree [0x2f, 0, 1, 1, 1, 1, 1, 1] = some 0 ∧
      ((0 : Int) = 0 → cstr [0x2f, 0, 1, 1, 1, 1, 1, 1] 0 = [0x2f])) :=
  ⟨by decide, by decide, by decide,
    C8_path_roundtrip specSizes blobTree 9 10 (fdt_totalsize blobTree) [(24, 2), (52, 2)] 52 8
      [1, 1, 1, 1, 1, 1, 1, 1] [0x2f, 0x62, 0, 1, 1, 1, 1, 1] (by decide) (by decide)
      (by decide) (by decide) (by decide)
      (fun pre x mid y post h _ _ => blobTree_siblings pre x mid y post h)
      (by decide) (by decide) (by decide) (by decide) (by decide),
    C8_path_roundtrip specSizes blobTree 9 10 (fdt_totalsize blobTree) [(24, 2), (52, 2)] 0 8
      [1, 1, 1, 1, 1, 1, 1, 1] [0x2f, 0, 1, 1, 1, 1, 1, 1] (by decide) (by decide)
      (by decide) (by decide) (by decide)
      (fun pre x mid y post h _ _ => blobTree_siblings pre x mid y post h)
      (by decide) (by decide) (by decide) (by decide) (by decide)⟩

/-- C8, as stated, fails: `blobDup`, which `fdt_check_full` accepts, has two
children of the root that are both named `a`, at offsets 8 and 20; the walk
reaches the second, `fdt_get_path` returns 0 for it and writes `/a`, and
`fdt_path_offset` on `/a` returns 8, the first. -/
theorem C8_counterexample :
    fdt_check_full specSizes 10 blobDup (fdt_totalsize blobDup) = some 0 ∧
    fdt_next_node 10 blobDup 0 (some 0) = some (8, some 1) ∧
    fdt_next_node 10 blobDup 8 (some 1) = some (20, some 1) ∧
    fdt_get_path 10 blobDup 20 [1, 1, 1, 1, 1, 1, 1, 1] 8 =
      some (0, [0x2f, 0x61, 0, 1, 1, 1, 1, 1]) ∧
    fdt_path_offset 10 blobDup [0x2f, 0x61, 0, 1, 1, 1, 1, 1] = some 8 := by
  refine ⟨by decide, by decide, by decide, by decide, by decide⟩

theorem check_prop_offset_facts (fdt : Blob) (o : Int) (h : ¬ fdt_check_prop_offset_ fdt o < 0) :
    0 ≤ o ∧ o % 4 = 0 ∧ (fdt_next_tag fdt o).1 = FDT_PROP := by
  unfold fdt_check_prop_offset_ at h
  unfold FDT_TAGSIZE at h
  split_ifs at h with c1 c2
  · exact absurd (by decide) h
  · exact absurd (by decide) h
  · exact ⟨by omega, by omega, by simpa using c2⟩

/-- What the loop of `fdt_get_property_namelen_` returns: a property found at
a valid property offset, with the length its header gives, or null with a
negative code. -/
theorem namelen_loop_result (F : Nat) (fdt : Blob) (name : List UInt8) (namelen : Int) :
    ∀ (f : Nat) (o : Int) (q : Option (Int × Int)) (len : Int),
      fdt_get_property_namelen_loop F fdt name namelen f o = some (q, len) →
      (∀ prop po, q = some (prop, po) →
        ¬ fdt_check_prop_offset_ fdt po < 0 ∧ prop = fdt_offset_ptr_ fdt po ∧
          len = i32 (fdt32_ld fdt (prop + 4)) ∧
          fdt_string_eq_ fdt (i32 (fdt32_ld fdt (prop + 8))) name namelen = true) ∧
      (q = none → len < 0) := by
  intro f
  induction f with
  | zero => intro o q len h; simp [fdt_get_property_namelen_loop] at h
  | succ f ih =>
    intro o q len h
    rw [fdt_get_property_namelen_loop] at h
    by_cases ho : o ≥ 0
    · rw [if_pos ho] at h
      unfold fdt_get_property_by_offset_ at h
      by_cases hc : fdt_check_prop_offset_ fdt o < 0
      · rw [if_pos hc] at h
        simp only [Option.some.injEq, Prod.mk.injEq] at h
        obtain ⟨h1, h2⟩ := h
        subst h1 h2
        exact ⟨fun _ _ hq => by simp at hq, fun _ => by decide⟩
      · rw [if_neg hc] at h
        simp only [] at h
        by_cases hs : fdt_string_eq_ fdt (i32 (fdt32_ld fdt (fdt_offset_ptr_ fdt o + 8))) name namelen
            = true
        · rw [if_pos hs] at h
          simp only [Option.some.injEq, Prod.mk.injEq] at h
          obtain ⟨h1, h2⟩ := h
          subst h1 h2
          refine ⟨fun prop po hq => ?_, fun hq => by simp at hq⟩
          simp only [Option.some.injEq, Prod.mk.injEq] at hq
          obtain ⟨e1, e2⟩ := hq
          subst e1 e2
          exact ⟨hc, rfl, rfl, hs⟩
        · rw [if_neg hs] at h
          cases hn : fdt_next_property_offset F fdt o with
          | none => rw [hn] at h; simp at h
          | some o' =>
            rw [hn] at h
            exact ih o' q len h
    · rw [if_neg ho] at h
      simp only [Option.some.injEq, Prod.mk.injEq] at h
      obtain ⟨h1, h2⟩ := h
      subst h1 h2
      exact ⟨fun _ _ hq => by simp at hq, fun _ => by omega⟩

theorem getprop_namelen_result (fuel : Nat) (fdt : Blob) (n : Int) (name : List UInt8)
    (namelen : Int) (r : Option Int × Int)
    (h : fdt_getprop_namelen fuel fdt n name namelen = some r) :
    (∀ p, r.1 = some p → ∃ po, ¬ fdt_check_prop_offset_ fdt po < 0 ∧
      p = prop_data fdt (fdt_offset_ptr_ fdt po) po ∧
      r.2 = i32 (fdt32_ld fdt (fdt_offset_ptr_ fdt po + 4)) ∧
      fdt_string_eq_ fdt (i32 (fdt32_ld fdt (fdt_offset_ptr_ fdt po + 8))) name namelen = true) ∧
    (r.1 = none → r.2 < 0) := by
  unfold fdt_getprop_namelen fdt_get_property_namelen_ at h
  cases hf : fdt_first_property_offset fuel fdt n with
  | none => rw [hf] at h; simp at h
  | some o =>
    rw [hf] at h
    simp only [] at h
    cases hl : fdt_get_property_namelen_loop fuel fdt name namelen fuel o with
    | none => rw [hl] at h; simp at h
    | some x =>
      obtain ⟨q, len⟩ := x
      rw [hl] at h
      obtain ⟨k1, k2⟩ := namelen_loop_result fuel fdt name namelen fuel o q len hl
      cases q with
      | none =>
        simp only [Option.map_some', Option.some.injEq] at h
        subst h
        exact ⟨fun p hp => by simp at hp, fun _ => k2 rfl⟩
      | some pp =>
        obtain ⟨prop, po⟩ := pp
        simp only [Option.map_some', Option.some.injEq] at h
        subst h
        obtain ⟨a1, a2, a3, a4⟩ := k1 prop po rfl
        refine ⟨fun p hp => ?_, fun hq => by simp at hq⟩
        simp only [Option.some.injEq] at hp
        subst a2
        exact ⟨po, a1, hp.symm, a3, a4⟩

/-- C11: in a blob of version below 16, when `fdt_getprop_by_offset` or
`fdt_getprop_namelen` returns the value of a property whose length is at
least 8, the pointer is `data + 4` when `(property_offset + 12) mod 8 != 0`
and `data` otherwise, where `data` is 12 bytes after the property tag, and
its offset from the start of the structure block is a multiple of 8. -/
theorem C11_getprop_realigned (fdt : Blob) (hv : fdt_version fdt < 16) :
    (∀ offset wantName p nm len,
      fdt_getprop_by_offset fdt offset wantName = (some p, nm, len) → 8 ≤ len →
      p = (if (offset + 12) % 8 ≠ 0 then fdt_offset_ptr_ fdt offset + 12 + 4
            else fdt_offset_ptr_ fdt offset + 12) ∧
      (p - fdt_off_dt_struct fdt) % 8 = 0) ∧
    (∀ fuel nodeoffset name namelen p len,
      fdt_getprop_namelen fuel fdt nodeoffset name namelen = some (some p, len) → 8 ≤ len →
      ∃ poffset, (fdt_get_property_by_offset_ fdt poffset).1 =
          some (fdt_offset_ptr_ fdt poffset) ∧
        p = (if (poffset + 12) % 8 ≠ 0 then fdt_offset_ptr_ fdt poffset + 12 + 4
              else fdt_offset_ptr_ fdt poffset + 12) ∧
        (p - fdt_off_dt_struct fdt) % 8 = 0) := by
  have key : ∀ po len, ¬ fdt_check_prop_offset_ fdt po < 0 →
      len = i32 (fdt32_ld fdt (fdt_offset_ptr_ fdt po + 4)) → 8 ≤ len →
      prop_data fdt (fdt_offset_ptr_ fdt po) po =
        (if (po + 12) % 8 ≠ 0 then fdt_offset_ptr_ fdt po + 12 + 4
          else fdt_offset_ptr_ fdt po + 12) ∧
      (prop_data fdt (fdt_offset_ptr_ fdt po) po - fdt_off_dt_struct fdt) % 8 = 0 := by
    intro po len hc hl h8
    obtain ⟨h0, h4, _⟩ := check_prop_offset_facts fdt po hc
    obtain ⟨b1, b2⟩ := fdt32_ld_bounds fdt (fdt_offset_ptr_ fdt po + 4)
    have hlen : fdt32_ld fdt (fdt_offset_ptr_ fdt po + 4) ≥ 8 := by
      unfold i32 at hl; omega
    have hu : u64 (u64 po + 12) % 8 = (po + 12) % 8 := by unfold u64; omega
    unfold prop_data
    rw [hu]
    by_cases hm : (po + 12) % 8 ≠ 0
    · rw [if_pos ⟨hv, hm, hlen⟩, if_pos hm]
      refine ⟨rfl, ?_⟩
      unfold fdt_offset_ptr_; omega
    · rw [if_neg (fun h => hm h.2.1), if_neg hm]
      refine ⟨rfl, ?_⟩
      unfold fdt_offset_ptr_; omega
  constructor
  · intro offset wantName p nm len h h8
    unfold fdt_getprop_by_offset fdt_get_property_by_offset_ at h
    by_cases hc : fdt_check_prop_offset_ fdt offset < 0
    · rw [if_pos hc] at h; simp at h
    · rw [if_neg hc] at h
      simp only [] at h
      have hp : p = prop_data fdt (fdt_offset_ptr_ fdt offset) offset ∧
          len = i32 (fdt32_ld fdt (fdt_offset_ptr_ fdt offset + 4)) := by
        cases wantName with
        | false =>
          simp only [Bool.false_eq_true, if_false, Prod.mk.injEq, Option.some.injEq] at h
          exact ⟨h.1.symm, h.2.2.symm⟩
        | true =>
          simp only [if_true] at h
          cases hs : fdt_get_string fdt (i32 (fdt32_ld fdt (fdt_offset_ptr_ fdt offset + 8))) with
          | mk s sl =>
            rw [hs] at h
            cases s with
            | none => simp at h
            | some s' =>
              simp only [Prod.mk.injEq, Option.some.injEq] at h
              exact ⟨h.1.symm, h.2.2.symm⟩
      rw [hp.1]
      exact key offset len hc hp.2 h8
  · intro fuel nodeoffset name namelen p len h h8
    obtain ⟨k1, _⟩ := getprop_namelen_result fuel fdt nodeoffset name namelen _ h
    obtain ⟨po, a1, a2, a3, _⟩ := k1 p rfl
    refine ⟨po, ?_, ?_⟩
    · unfold fdt_get_property_by_offset_
      rw [if_neg a1]
    · rw [a2]
      exact key po len a1 a3 h8

theorem C11_getprop_realigned_witness :
    fdt_getprop_by_offset blobOld 8 true = (some 88, some 104, 8) ∧
    fdt_getprop_namelen 5 blobOld 0 [0x70] 1 = some (some 88, 8) ∧
    (((88 : Int) = (if ((8 : Int) + 12) % 8 ≠ 0 then fdt_offset_ptr_ blobOld 8 + 12 + 4
        else fdt_offset_ptr_ blobOld 8 + 12) ∧
      ((88 : Int) - fdt_off_dt_struct blobOld) % 8 = 0) ∧
    (∃ poffset, (fdt_get_property_by_offset_ blobOld poffset).1 =
          some (fdt_offset_ptr_ blobOld poffset) ∧
        (88 : Int) = (if (poffset + 12) % 8 ≠ 0 then fdt_offset_ptr_ blobOld poffset + 12 + 4
              else fdt_offset_ptr_ blobOld poffset + 12) ∧
        ((88 : Int) - fdt_off_dt_struct blobOld) % 8 = 0)) :=
  ⟨by decide, by decide,
    (C11_getprop_realigned blobOld (by decide)).1 8 true 88 (some 104) 8 (by decide) (by decide),
    (C11_getprop_realigned blobOld (by decide)).2 5 0 [0x70] 1 88 8 (by decide) (by decide)⟩

theorem rd8_getElem (l : List UInt8) (i : Nat) (h : i < l.length) :
    rd8 l i = ((l[i]).toNat : Int) := by
  rw [rd8_eq_getD, List.getD_eq_getElem?_getD, List.getElem?_eq_getElem h]
  rfl

theorem rd8_length (l : List UInt8) (i : Nat) (h : l.length ≤ i) : rd8 l i = 0 := by
  rw [rd8_eq_getD, List.getD_eq_getElem?_getD, List.getElem?_eq_none h]
  rfl

theorem rd8_of_prefix (s nm : List UInt8) (h : s <+: nm) (i : Nat) (hi : i < s.length) :
    rd8 nm i = rd8 s i := by
  obtain ⟨t, rfl⟩ := h
  exact rd8_append_left s t i hi

theorem prefix_of_rd8 (s nm : List UInt8) (hl : s.length ≤ nm.length)
    (h : ∀ i : Nat, i < s.length → rd8 nm i = rd8 s i) : s <+: nm := by
  have e : s = nm.take s.length := by
    apply list_ext_rd8
    · rw [List.length_take]; omega
    · intro i hi
      rw [← h i hi]
      have hnm : nm = nm.take s.length ++ nm.drop s.length := (List.take_append_drop _ _).symm
      conv => lhs; rw [hnm]
      rw [rd8_append_left _ _ _ (by rw [List.length_take]; omega)]
  rw [e]
  exact List.take_prefix _ _

theorem memchr_eq_none (rd : Int → Int) (c : Int) :
    ∀ (n : Nat) (s : Int), memchr rd c n s = none → ∀ j : Nat, j < n → rd (s + j) ≠ c := by
  intro n
  induction n with
  | zero => intro s _ j hj; omega
  | succ n ih =>
    intro s h j hj
    rw [memchr] at h
    by_cases hc : rd s = c
    · rw [if_pos hc] at h; simp at h
    · rw [if_neg hc] at h
      cases j with
      | zero => simpa using hc
      | succ j =>
        have := ih (s + 1) h j (by omega)
        have e : s + ((j + 1 : Nat) : Int) = s + 1 + (j : Int) := by push_cast; omega
        rw [e]; exact this

theorem memchr_isNone_iff (s : List UInt8) (c : UInt8) (n : Nat) (hn : n ≤ s.length) :
    (memchr (rd8 s) (c.toNat : Int) n 0).isNone = true ↔ c ∉ s.take n := by
  have hs : s = s.take n ++ s.drop n := (List.take_append_drop _ _).symm
  constructor
  · intro h hc
    cases hm : memchr (rd8 s) (c.toNat : Int) n 0 with
    | some k => rw [hm] at h; simp at h
    | none =>
      obtain ⟨i, hi, hie⟩ := List.getElem_of_mem hc
      have hi2 : i < n := by rw [List.length_take] at hi; omega
      have := memchr_eq_none _ _ n 0 hm i hi2
      apply this
      have e : (0 : Int) + (i : Int) = ((i : Nat) : Int) := by omega
      rw [e, hs, rd8_append_left _ _ _ hi, rd8_getElem _ _ hi, hie]
  · intro h
    rw [memchr_none]
    · rfl
    · intro j hj
      have e : (0 : Int) + (j : Int) = ((j : Nat) : Int) := by omega
      rw [e]
      have hj2 : j < (s.take n).length := by rw [List.length_take]; omega
      have := rd8_mem_ne (s.take n) c h j hj2
      rw [hs, rd8_append_left _ _ _ hj2]
      exact this

/-- What `fdt_nodename_eq_` computes on a name `p` of length `olen`, in terms
of the bytes of the blob. -/
theorem nodename_eq_bytes (fdt : Blob) (offset p olen : Int) (s : List UInt8) (len : Int)
    (hg : fdt_get_name fdt offset = (some p, olen)) :
    fdt_nodename_eq_ fdt offset s len = true ↔
      len ≤ olen ∧ (∀ i : Nat, i < len.toNat → rd8 fdt (p + i) = rd8 s (0 + i)) ∧
        (rd8 fdt (p + len) = 0 ∨
          ((memchr (rd8 s) 0x40 len.toNat 0).isNone = true ∧ rd8 fdt (p + len) = 0x40)) := by
  unfold fdt_nodename_eq_
  rw [hg]
  simp only []
  by_cases h1 : olen < len
  · rw [if_pos h1]
    constructor
    · intro h; exact absurd h (by decide)
    · intro h; omega
  · rw [if_neg h1]
    by_cases h2 : memeq (rd8 fdt) (rd8 s) p 0 len.toNat = true
    · have h2' := (memeq_iff _ _ _ _ _).mp h2
      rw [h2]
      simp only [Bool.not_true, Bool.false_eq_true, if_false]
      by_cases h3 : rd8 fdt (p + len) = 0
      · rw [if_pos h3]
        exact ⟨fun _ => ⟨by omega, h2', Or.inl h3⟩, fun _ => rfl⟩
      · rw [if_neg h3]
        by_cases h4 : (memchr (rd8 s) 0x40 len.toNat 0).isNone = true ∧ rd8 fdt (p + len) = 0x40
        · rw [if_pos h4]
          exact ⟨fun _ => ⟨by omega, h2', Or.inr h4⟩, fun _ => rfl⟩
        · rw [if_neg h4]
          constructor
          · intro h; exact absurd h (by decide)
          · rintro ⟨_, _, h | h⟩
            · exact absurd h h3
            · exact absurd h h4
    · have h2b : memeq (rd8 fdt) (rd8 s) p 0 len.toNat = false := by
        cases hm : memeq (rd8 fdt) (rd8 s) p 0 len.toNat with
        | true => exact absurd hm h2
        | false => rfl
      rw [h2b]
      simp only [Bool.not_false, if_true]
      constructor
      · intro h; exact absurd h (by decide)
      · rintro ⟨_, h, _⟩
        exact absurd ((memeq_iff _ _ _ _ _).mpr h) h2

theorem rd8_take (mem : List UInt8) (n i : Nat) (hi : i < n) (hn : n ≤ mem.length) :
    rd8 (mem.take n) i = rd8 mem i := by
  have hs : mem = mem.take n ++ mem.drop n := (List.take_append_drop _ _).symm
  conv => rhs; rw [hs]
  rw [rd8_append_left _ _ _ (by rw [List.length_take]; omega)]

/-- C12: for a stored node name `p` (NUL-terminated, as `fdt_get_name` returns
it) and a key made of the first `len` bytes of `mem`, `fdt_nodename_eq_`
succeeds exactly when the key is a prefix of the name and either the name ends
there (`p[len]` is its NUL) or the key has no `@` and the name goes on with
`@`; so the key `cpu` matches the names `cpu` and `cpu@0` but not `cpus`, and
the key `cpu@0` matches only the name `cpu@0`. -/
theorem C12_nodename_eq (fdt : Blob) (offset p olen : Int)
    (hg : fdt_get_name fdt offset = (some p, olen)) (hp : 0 ≤ p)
    (holen : olen = ((cstr fdt p).length : Int)) :
    (∀ (mem : List UInt8) (len : Nat), len ≤ mem.length →
      (fdt_nodename_eq_ fdt offset mem len = true ↔
        mem.take len <+: cstr fdt p ∧
          ((cstr fdt p)[len]? = none ∨
            ((0x40 : UInt8) ∉ mem.take len ∧ (cstr fdt p)[len]? = some 0x40)))) ∧
    (cstr fdt p = [0x63, 0x70, 0x75] →
      fdt_nodename_eq_ fdt offset [0x63, 0x70, 0x75] 3 = true) ∧
    (cstr fdt p = [0x63, 0x70, 0x75, 0x40, 0x30] →
      fdt_nodename_eq_ fdt offset [0x63, 0x70, 0x75] 3 = true) ∧
    (cstr fdt p = [0x63, 0x70, 0x75, 0x73] →
      fdt_nodename_eq_ fdt offset [0x63, 0x70, 0x75] 3 = false) ∧
    (fdt_nodename_eq_ fdt offset [0x63, 0x70, 0x75, 0x40, 0x30] 5 = true ↔
      cstr fdt p = [0x63, 0x70, 0x75, 0x40, 0x30]) := by
  obtain ⟨m1, m2⟩ := cstr_spec fdt p hp
  have main : ∀ (mem : List UInt8) (len : Nat), len ≤ mem.length →
      (fdt_nodename_eq_ fdt offset mem len = true ↔
        mem.take len <+: cstr fdt p ∧
          ((cstr fdt p)[len]? = none ∨
            ((0x40 : UInt8) ∉ mem.take len ∧ (cstr fdt p)[len]? = some 0x40))) := by
    intro mem len hle
    have hlt : (mem.take len).length = len := by rw [List.length_take]; omega
    have hat := memchr_isNone_iff mem 0x40 len hle
    rw [nodename_eq_bytes fdt offset p olen mem len hg, Int.toNat_ofNat]
    constructor
    · rintro ⟨h1, h2, h3⟩
      have hl : len ≤ (cstr fdt p).length := by omega
      refine ⟨prefix_of_rd8 _ _ (by omega) (fun i hi => ?_), ?_⟩
      · rw [hlt] at hi
        rw [rd8_take mem len i hi hle, ← (m1 i (by omega)).1, h2 i hi]
        simp
      · rcases h3 with h3 | ⟨h3, h4⟩
        · left
          apply List.getElem?_eq_none
          by_contra hc
          exact (m1 len (by omega)).2 h3
        · right
          have hlt2 : len < (cstr fdt p).length := by
            by_contra hc
            have : len = (cstr fdt p).length := by omega
            rw [this, m2] at h4
            exact absurd h4 (by decide)
          refine ⟨hat.mp h3, ?_⟩
          rw [List.getElem?_eq_getElem hlt2]
          congr 1
          apply UInt8_toNat_inj
          have := (m1 len hlt2).1
          rw [h4, rd8_getElem _ _ hlt2] at this
          have e : (((cstr fdt p)[len]).toNat : Int) = 64 := this.symm
          have : ((cstr fdt p)[len]).toNat = 64 := by exact_mod_cast e
          rw [this]; rfl
    · rintro ⟨hpre, h3⟩
      have hl : len ≤ (cstr fdt p).length := by
        have := hpre.length_le
        omega
      refine ⟨by omega, fun i hi => ?_, ?_⟩
      · rw [(m1 i (by omega)).1, rd8_of_prefix _ _ hpre i (by omega), rd8_take mem len i hi hle]
        simp
      · rcases h3 with h3 | ⟨h3, h4⟩
        · left
          have : (cstr fdt p).length ≤ len := by
            by_contra hc
            rw [List.getElem?_eq_getElem (by omega)] at h3
            exact absurd h3 (by simp)
          have : len = (cstr fdt p).length := by omega
          rw [this]; exact m2
        · right
          refine ⟨hat.mpr h3, ?_⟩
          have hlt2 : len < (cstr fdt p).length := by
            by_contra hc
            rw [List.getElem?_eq_none (by omega)] at h4
            exact absurd h4 (by simp)
          rw [List.getElem?_eq_getElem hlt2] at h4
          simp only [Option.some.injEq] at h4
          rw [(m1 len hlt2).1, rd8_getElem _ _ hlt2, h4]
          rfl
  refine ⟨main, fun h => ?_, fun h => ?_, fun h => ?_, ?_⟩
  · have := main [0x63, 0x70, 0x75] 3 (by decide)
    rw [h] at this
    exact this.mpr ⟨⟨[], rfl⟩, Or.inl rfl⟩
  · have := main [0x63, 0x70, 0x75] 3 (by decide)
    rw [h] at this
    exact this.mpr ⟨⟨[0x40, 0x30], rfl⟩, Or.inr ⟨by decide, rfl⟩⟩
  · have := main [0x63, 0x70, 0x75] 3 (by decide)
    rw [h] at this
    cases hb : fdt_nodename_eq_ fdt offset [0x63, 0x70, 0x75] 3 with
    | false => rfl
    | true =>
      have h2 := (this.mp hb).2
      rcases h2 with h2 | ⟨_, h2⟩
      · exact absurd h2 (by decide)
      · exact absurd h2 (by decide)
  · refine Iff.trans (main [0x63, 0x70, 0x75, 0x40, 0x30] 5 (by decide)) ?_
    constructor
    · rintro ⟨⟨t, ht⟩, h2⟩
      rcases h2 with h2 | ⟨h2, _⟩
      · have hl : (cstr fdt p).length ≤ 5 := by
          by_contra hc
          rw [List.getElem?_eq_getElem (by omega)] at h2
          exact absurd h2 (by simp)
        have hl2 := congrArg List.length ht
        simp only [List.take, List.length_append, List.length_cons, List.length_nil] at hl2
        have : t = [] := List.length_eq_zero.mp (by omega)
        rw [this] at ht
        rw [← ht]; rfl
      · exact absurd (by decide) h2
    · intro h
      rw [h]
      exact ⟨⟨[], rfl⟩, Or.inl rfl⟩

theorem C12_nodename_eq_witness :
    fdt_get_name blobTree 24 = (some 92, 1) ∧
    (fdt_nodename_eq_ blobTree 24 [0x61, 0x2f, 0x62] (1 : Nat) = true ↔
      [0x61, 0x2f, 0x62].take 1 <+: cstr blobTree 92 ∧
        ((cstr blobTree 92)[1]? = none ∨
          ((0x40 : UInt8) ∉ [0x61, 0x2f, 0x62].take 1 ∧ (cstr blobTree 92)[1]? = some 0x40))) :=
  ⟨by decide, (C12_nodename_eq blobTree 24 92 1 (by decide) (by decide) (by decide)).1
    [0x61, 0x2f, 0x62] 1 (by decide)⟩

theorem find_child_children (m : Int → Bool) (level : Int) :
    ∀ post : List (Int × Int),
      (find_child m level post).map (fun c => c.1) = (direct_children level post).find? m := by
  intro post
  induction post with
  | nil => rfl
  | cons x rest ih =>
    rw [find_child, direct_children]
    by_cases h1 : x.2 ≤ level
    · rw [if_pos h1, if_pos h1]; rfl
    · rw [if_neg h1, if_neg h1]
      by_cases h2 : x.2 = level + 1
      · rw [if_pos h2]
        by_cases h3 : m x.1 = true
        · rw [if_pos ⟨h2, h3⟩, List.find?_cons_of_pos _ h3]; rfl
        · rw [if_neg (fun h => h3 h.2), List.find?_cons_of_neg _ h3]
          exact ih
      · rw [if_neg h2, if_neg (fun h => h2 h.1)]
        exact ih

theorem direct_children_sublist (level : Int) :
    ∀ post : List (Int × Int),
      (direct_children level post).Sublist (post.map fun x => x.1) := by
  intro post
  induction post with
  | nil => exact List.Sublist.slnil
  | cons x rest ih =>
    rw [direct_children, List.map_cons]
    split_ifs
    · exact List.nil_sublist _
    · exact List.Sublist.cons₂ _ ih
    · exact List.Sublist.cons _ ih

/-- The nodes that follow a node have larger offsets, in increasing order. -/
theorem node_list_sorted (fdt : Blob) (ht : fdt_totalsize fdt ≤ INT_MAX) (B : Nat) :
    ∀ (post : List (Int × Int)) (o A : Int), NodeAt fdt B o A post →
      (∀ x ∈ post, o < x.1) ∧ (post.map fun x => x.1).Pairwise (fun a b => a < b) := by
  intro post
  induction post with
  | nil => intro o A _; exact ⟨fun x hx => by simp at hx, List.Pairwise.nil⟩
  | cons y rest ih =>
    intro o A h
    obtain ⟨h1, _, h3⟩ := node_at_next fdt ht B o A y.1 y.2 rest h
    obtain ⟨k1, k2⟩ := ih y.1 y.2 h1
    constructor
    · intro x hx
      rw [List.mem_cons] at hx
      rcases hx with hx | hx
      · rw [hx]; exact h3
      · have := k1 x hx; omega
    · rw [List.map_cons, List.pairwise_cons]
      refine ⟨fun b hb => ?_, k2⟩
      rw [List.mem_map] at hb
      obtain ⟨x, hx, rfl⟩ := hb
      exact k1 x hx

theorem find_first_least (m : Int → Bool) :
    ∀ (l : List Int), l.Pairwise (fun a b => a < b) →
      (∀ r, l.find? m = some r → r ∈ l ∧ m r = true ∧ ∀ c ∈ l, m c = true → r ≤ c) ∧
      (l.find? m = none → ∀ c ∈ l, m c = false) := by
  intro l
  induction l with
  | nil => intro _; exact ⟨fun r h => by simp at h, fun _ c hc => by simp at hc⟩
  | cons a l ih =>
    intro hp
    rw [List.pairwise_cons] at hp
    obtain ⟨k1, k2⟩ := ih hp.2
    by_cases h : m a = true
    · rw [List.find?_cons_of_pos _ h]
      refine ⟨fun r hr => ?_, fun hn => by simp at hn⟩
      simp only [Option.some.injEq] at hr
      subst hr
      refine ⟨by simp, h, fun c hc _ => ?_⟩
      rw [List.mem_cons] at hc
      rcases hc with hc | hc
      · omega
      · have := hp.1 c hc; omega
    · rw [List.find?_cons_of_neg _ h]
      refine ⟨fun r hr => ?_, fun hn c hc => ?_⟩
      · obtain ⟨a1, a2, a3⟩ := k1 r hr
        refine ⟨by simp [a1], a2, fun c hc hm => ?_⟩
        rw [List.mem_cons] at hc
        rcases hc with hc | hc
        · rw [hc] at hm; exact absurd hm h
        · exact a3 c hc hm
      · rw [List.mem_cons] at hc
        rcases hc with hc | hc
        · rw [hc]; simpa using h
        · exact k2 hn c hc

/-- C13: in a blob that `fdt_check_full` accepts, for a node `parent` and a
key, `fdt_subnode_offset_namelen` returns the smallest offset among the direct
children of `parent` that `fdt_nodename_eq_` matches against the key (a direct
child: a node one level below `parent` inside its subtree, so never a
grandchild nor a node outside `parent`), and `-NOTFOUND` when no direct child
matches. -/
theorem C13_subnode_offset (sz : HdrSizes) (fdt : Blob) (fuel0 : Nat)
    (hfull : fdt_check_full sz fuel0 fdt (fdt_totalsize fdt) = some 0)
    (pre : List (Int × Int)) (parent A : Int) (post : List (Int × Int))
    (hL : nodes_from fdt fuel0 0 0 = pre ++ (parent, A) :: post)
    (key : List UInt8) (len : Int) (F : Nat) (hF : fuel0 ≤ F) :
    (∀ c ∈ direct_children A post, parent < c) ∧
    (direct_children A post).Pairwise (fun a b => a < b) ∧
    ((∃ c ∈ direct_children A post, fdt_nodename_eq_ fdt c key len = true) →
      ∃ r, fdt_subnode_offset_namelen F fdt parent key len = some r ∧
        r ∈ direct_children A post ∧ fdt_nodename_eq_ fdt r key len = true ∧
        ∀ c ∈ direct_children A post, fdt_nodename_eq_ fdt c key len = true → r ≤ c) ∧
    ((∀ c ∈ direct_children A post, fdt_nodename_eq_ fdt c key len = false) →
      fdt_subnode_offset_namelen F fdt parent key len = some (-FDT_ERR_NOTFOUND)) := by
  obtain ⟨hhdr, ht, hloop⟩ := check_full_zero sz fuel0 fdt _ hfull
  have hp := ro_probe_of_check_header sz fdt hhdr
  have hR : Reach fdt fuel0 0 0 :=
    ⟨hloop, ⟨le_refl _, by unfold INT_MAX; omega⟩, by decide, le_refl _, by unfold INT_MAX; omega⟩
  have hN : NodeAt fdt fuel0 parent A post :=
    node_at_of_suffix fdt ht fuel0 fuel0 0 0 hR (le_refl _) pre parent A post hL
  obtain ⟨s1, s2⟩ := node_list_sorted fdt ht fuel0 post parent A hN
  have hsub := direct_children_sublist A post
  have hpw : (direct_children A post).Pairwise (fun a b => a < b) := s2.sublist hsub
  have hgt : ∀ c ∈ direct_children A post, parent < c := by
    intro c hc
    have := hsub.subset hc
    rw [List.mem_map] at this
    obtain ⟨x, hx, rfl⟩ := this
    exact s1 x hx
  have hfind := subnode_offset_find fdt ht hp fuel0 key len parent A post hN F hF
  have hch := find_child_children (fun y => fdt_nodename_eq_ fdt y key len) A post
  obtain ⟨f1, f2⟩ := find_first_least (fun y => fdt_nodename_eq_ fdt y key len) _ hpw
  refine ⟨hgt, hpw, ?_, ?_⟩
  · rintro ⟨c, hc, hm⟩
    cases hf : find_child (fun y => fdt_nodename_eq_ fdt y key len) A post with
    | none =>
      rw [hf] at hch
      have := f2 hch.symm c hc
      simp only [] at this
      rw [hm] at this
      exact absurd this (by decide)
    | some x =>
      rw [hf] at hch hfind
      exact ⟨x.1, hfind, f1 x.1 hch.symm⟩
  · intro hnone
    cases hf : find_child (fun y => fdt_nodename_eq_ fdt y key len) A post with
    | none => rw [hf] at hfind; exact hfind
    | some x =>
      rw [hf] at hch
      obtain ⟨a1, a2, _⟩ := f1 x.1 hch.symm
      have := hnone x.1 a1
      rw [this] at a2
      exact absurd a2 (by decide)

theorem C13_subnode_offset_witness :
    nodes_from blobTree 9 0 0 = [] ++ (0, 1) :: [(24, 2), (52, 2)] ∧
    direct_children 1 [(24, 2), (52, 2)] = [24, 52] ∧
    fdt_subnode_offset_namelen 9 blobTree 0 [0x62] 1 = some 52 ∧
    ((∃ c ∈ direct_children 1 [(24, 2), (52, 2)], fdt_nodename_eq_ blobTree c [0x62] 1 = true) →
      ∃ r, fdt_subnode_offset_namelen 9 blobTree 0 [0x62] 1 = some r ∧
        r ∈ direct_children 1 [(24, 2), (52, 2)] ∧ fdt_nodename_eq_ blobTree r [0x62] 1 = true ∧
        ∀ c ∈ direct_children 1 [(24, 2), (52, 2)],
          fdt_nodename_eq_ blobTree c [0x62] 1 = true → r ≤ c) :=
  ⟨by decide, by decide, by decide,
    (C13_subnode_offset specSizes blobTree 9 (by decide) [] 0 1 [(24, 2), (52, 2)] (by decide)
      [0x62] 1 9 (le_refl _)).2.2.1⟩

theorem next_node_loop_succ (fdt : Blob) (fuel : Nat) (nextoffset : Int) (depth : Option Int) :
    fdt_next_node_loop fdt (fuel + 1) nextoffset depth =
      if (fdt_next_tag fdt nextoffset).1 = FDT_PROP ∨ (fdt_next_tag fdt nextoffset).1 = FDT_NOP then
        fdt_next_node_loop fdt fuel (fdt_next_tag fdt nextoffset).2 depth
      else if (fdt_next_tag fdt nextoffset).1 = FDT_BEGIN_NODE then
        some (nextoffset, depth.map fun d => i32 (d + 1))
      else if (fdt_next_tag fdt nextoffset).1 = FDT_END_NODE then
        match depth with
        | some d =>
          if i32 (d - 1) < 0 then some ((fdt_next_tag fdt nextoffset).2, some (i32 (d - 1)))
          else fdt_next_node_loop fdt fuel (fdt_next_tag fdt nextoffset).2 (some (i32 (d - 1)))
        | none => fdt_next_node_loop fdt fuel (fdt_next_tag fdt nextoffset).2 none
      else if (fdt_next_tag fdt nextoffset).1 = FDT_END then
        if (fdt_next_tag fdt nextoffset).2 ≥ 0 ∨
            ((fdt_next_tag fdt nextoffset).2 = -FDT_ERR_TRUNCATED ∧ depth = none) then
          some (-FDT_ERR_NOTFOUND, depth)
        else some ((fdt_next_tag fdt nextoffset).2, depth)
      else fdt_next_node_loop fdt fuel (fdt_next_tag fdt nextoffset).2 depth := by
  conv => lhs; unfold fdt_next_node_loop
  try simp only []
  all_goals (split_ifs <;> rfl)

/-- A non-negative offset that the loop of `fdt_next_node` returns with a
depth of at least 1 is the offset of a `BEGIN_NODE` tag. -/
theorem next_node_loop_begin_tag (fdt : Blob) :
    ∀ (fuel : Nat) (off : Int) (depth : Option Int) (r : Int × Option Int),
      fdt_next_node_loop fdt fuel off depth = some r → 0 ≤ r.1 →
      (∃ d, r.2 = some d ∧ 1 ≤ d) → (fdt_next_tag fdt r.1).1 = FDT_BEGIN_NODE := by
  intro fuel
  induction fuel with
  | zero => intro off depth r h; simp [fdt_next_node_loop] at h
  | succ fuel ih =>
    intro off depth r h h0 hd
    rw [next_node_loop_succ] at h
    split_ifs at h with c1 c2 c3 c4 c5
    · exact ih _ _ r h h0 hd
    · simp only [Option.some.injEq] at h
      rw [← h]; exact c2
    · cases depth with
      | none => exact ih _ _ r h h0 hd
      | some d =>
        simp only [] at h
        split_ifs at h with c6
        · simp only [Option.some.injEq] at h
          obtain ⟨d', hd1, hd2⟩ := hd
          rw [← h] at hd1
          simp only [Option.some.injEq] at hd1
          omega
        · exact ih _ _ r h h0 hd
    · simp only [Option.some.injEq] at h
      rw [← h] at h0
      simp only [FDT_ERR_NOTFOUND] at h0
      omega
    · simp only [Option.some.injEq] at h
      rw [← h] at h0
      simp only [] at h0
      omega
    · exact ih _ _ r h h0 hd

theorem next_node_begin_tag (fdt : Blob) (fuel : Nat) (off : Int) (depth : Option Int)
    (r : Int × Option Int) (h : fdt_next_node fuel fdt off depth = some r) (h0 : 0 ≤ r.1)
    (hd : ∃ d, r.2 = some d ∧ 1 ≤ d) : (fdt_next_tag fdt r.1).1 = FDT_BEGIN_NODE := by
  unfold fdt_next_node at h
  split_ifs at h with c1 c2
  · simp only [Option.some.injEq] at h
    rw [← h] at h0
    simp only [] at h0
    omega
  · exact next_node_loop_begin_tag fdt fuel _ depth r h h0 hd
  · exact next_node_loop_begin_tag fdt fuel _ depth r h h0 hd

theorem next_subnode_loop_result (F : Nat) (fdt : Blob) :
    ∀ (fuel : Nat) (off depth r : Int), fdt_next_subnode_loop F fdt fuel off depth = some r →
      r = -FDT_ERR_NOTFOUND ∨ (0 ≤ r ∧ (fdt_next_tag fdt r).1 = FDT_BEGIN_NODE) := by
  intro fuel
  induction fuel with
  | zero => intro off depth r h; simp [fdt_next_subnode_loop] at h
  | succ fuel ih =>
    intro off depth r h
    rw [fdt_next_subnode_loop] at h
    cases hn : fdt_next_node F fdt off (some depth) with
    | none => rw [hn] at h; simp at h
    | some x =>
      obtain ⟨o, d⟩ := x
      rw [hn] at h
      simp only [] at h
      split_ifs at h with c1 c2
      · simp only [Option.some.injEq] at h
        left; exact h.symm
      · exact ih _ _ r h
      · simp only [Option.some.injEq] at h
        right
        rw [← h]
        have ho : 0 ≤ o := by omega
        refine ⟨ho, next_node_begin_tag fdt F off (some depth) (o, d) hn ho ?_⟩
        cases d with
        | none => simp at c1 c2
        | some d' =>
          simp only [Option.getD_some] at c1 c2
          exact ⟨d', rfl, by omega⟩

theorem leaf_body_next_node (fdt : Blob) :
    ∀ (k : Nat) (off : Int), leaf_body fdt k off = true → ∀ fuel, k < fuel →
      ∃ r, fdt_next_node_loop fdt fuel off (some 0) = some r ∧ r.2 = some (-1) := by
  obtain ⟨t1, t2, t3, t4, t5, t6, t7, t8, t9, t10⟩ := tags_distinct
  intro k
  induction k with
  | zero =>
    intro off h fuel hf
    obtain ⟨f, rfl⟩ : ∃ f, fuel = f + 1 := ⟨fuel - 1, by omega⟩
    rw [leaf_body] at h
    have h : (fdt_next_tag fdt off).1 = FDT_END_NODE := by simpa using h
    rw [next_node_loop_succ]
    rw [if_neg (by rw [h]; simp [FDT_END_NODE, FDT_PROP, FDT_NOP]),
      if_neg (by rw [h]; simp [FDT_END_NODE, FDT_BEGIN_NODE]), if_pos h]
    simp only []
    rw [if_pos (by decide)]
    exact ⟨_, rfl, rfl⟩
  | succ k ih =>
    intro off h fuel hf
    obtain ⟨f, rfl⟩ : ∃ f, fuel = f + 1 := ⟨fuel - 1, by omega⟩
    rw [leaf_body] at h
    simp only [Bool.and_eq_true, Bool.or_eq_true, decide_eq_true_eq] at h
    rw [next_node_loop_succ]
    rw [if_pos h.1]
    exact ih _ h.2 f (by omega)

/-- In a well-formed blob the loop of `fdt_next_subnode`, entered at a node
below the depth counter, returns. -/
theorem next_subnode_loop_returns (fdt : Blob) (ht : fdt_totalsize fdt ≤ INT_MAX) (B F : Nat)
    (hF : B ≤ F) :
    ∀ (post : List (Int × Int)) (o A d : Int) (fuel : Nat), NodeAt fdt B o A post →
      1 ≤ d → d < A → post.length < fuel →
      ∃ r, fdt_next_subnode_loop F fdt fuel o d = some r := by
  intro post
  induction post with
  | nil =>
    intro o A d fuel hN hd1 hdA hfu
    obtain ⟨f, rfl⟩ : ∃ f, fuel = f + 1 := ⟨fuel - 1, by omega⟩
    obtain ⟨r, hr, _, hr2⟩ := node_at_next_node fdt ht B o A [] hN d (by omega) (by omega) F hF
    have h2 := hr2 rfl hdA
    rw [fdt_next_subnode_loop, hr]
    simp only []
    rw [h2, if_pos (Or.inr (by decide))]
    exact ⟨_, rfl⟩
  | cons y rest ih =>
    intro o A d fuel hN hd1 hdA hfu
    obtain ⟨f, rfl⟩ : ∃ f, fuel = f + 1 := ⟨fuel - 1, by omega⟩
    obtain ⟨r, hr, hr1, _⟩ := node_at_next_node fdt ht B o A (y :: rest) hN d (by omega)
      (by omega) F hF
    obtain ⟨hN', hA', _⟩ := node_at_next fdt ht B o A y.1 y.2 rest hN
    obtain ⟨_, _, _, _, ho', _⟩ := node_at_facts fdt ht B y.1 y.2 rest hN'
    obtain ⟨c1, c2⟩ := hr1 y.1 y.2 rest rfl
    rw [fdt_next_subnode_loop, hr]
    simp only []
    by_cases hc : A - y.2 + 1 ≤ d
    · rw [c1 hc]
      simp only [Option.getD_some]
      rw [if_neg (by omega)]
      by_cases hg : d + y.2 - A > 1
      · rw [if_pos hg]
        simp only [List.length_cons] at hfu
        exact ih y.1 y.2 _ f hN' (by omega) (by omega) (by omega)
      · rw [if_neg hg]
        exact ⟨_, rfl⟩
    · rw [c2 (by omega)]
      simp only [Option.getD_some]
      rw [if_pos (Or.inr (by decide))]
      exact ⟨_, rfl⟩

/-- Whenever `fdt_first_subnode` or `fdt_next_subnode` returns, on any
blob and offset, the value is exactly `-NOTFOUND` or a non-negative offset at
which `fdt_next_tag` reads `BEGIN_NODE`; for a node whose body is made of
properties and NOPs followed directly by its `END_NODE`, `fdt_first_subnode`
returns `-NOTFOUND`; and in a blob that `fdt_check_full` accepts
`fdt_first_subnode` returns at every node and `fdt_next_subnode` at every node
but the root. -/
theorem subnode_results (fdt : Blob) :
    (∀ fuel offset r, fdt_first_subnode fuel fdt offset = some r →
      r = -FDT_ERR_NOTFOUND ∨ (0 ≤ r ∧ (fdt_next_tag fdt r).1 = FDT_BEGIN_NODE)) ∧
    (∀ fuel offset r, fdt_next_subnode fuel fdt offset = some r →
      r = -FDT_ERR_NOTFOUND ∨ (0 ≤ r ∧ (fdt_next_tag fdt r).1 = FDT_BEGIN_NODE)) ∧
    (∀ offset k, 0 ≤ offset → ¬ fdt_check_node_offset_ fdt offset < 0 →
      leaf_body fdt k (fdt_check_node_offset_ fdt offset) = true →
      ∀ fuel, k < fuel → fdt_first_subnode fuel fdt offset = some (-FDT_ERR_NOTFOUND)) ∧
    (∀ sz fuel0 pre o A post, fdt_check_full sz fuel0 fdt (fdt_totalsize fdt) = some 0 →
      nodes_from fdt fuel0 0 0 = pre ++ (o, A) :: post → ∀ fuel, fuel0 ≤ fuel →
      (∃ r, fdt_first_subnode fuel fdt o = some r) ∧
      (2 ≤ A → ∃ r, fdt_next_subnode fuel fdt o = some r)) := by
  refine ⟨fun fuel offset r h => ?_, fun fuel offset r h => ?_,
    fun offset k h0 hc hl fuel hf => ?_, fun sz fuel0 pre o A post hfull hL fuel hf => ?_⟩
  · unfold fdt_first_subnode at h
    cases hn : fdt_next_node fuel fdt offset (some 0) with
    | none => rw [hn] at h; simp at h
    | some x =>
      rw [hn] at h
      simp only [Option.map_some', Option.some.injEq] at h
      by_cases hc : x.1 < 0 ∨ x.2 ≠ some 1
      · rw [if_pos hc] at h
        left; exact h.symm
      · rw [if_neg hc] at h
        right
        rw [← h]
        have h0 : 0 ≤ x.1 := by omega
        have h1 : x.2 = some 1 := by
          by_contra hx; exact hc (Or.inr hx)
        exact ⟨h0, next_node_begin_tag fdt fuel offset (some 0) x hn h0 ⟨1, h1, le_refl _⟩⟩
  · exact next_subnode_loop_result fuel fdt fuel offset 1 r h
  · obtain ⟨r, hr, hr2⟩ := leaf_body_next_node fdt k _ hl fuel hf
    unfold fdt_first_subnode fdt_next_node
    rw [if_pos (by omega), if_neg hc, hr]
    simp only [Option.map_some', Option.some.injEq]
    rw [if_pos (Or.inr (by rw [hr2]; decide))]
  · obtain ⟨hhdr, ht, hloop⟩ := check_full_zero sz fuel0 fdt _ hfull
    have hR : Reach fdt fuel0 0 0 :=
      ⟨hloop, ⟨le_refl _, by unfold INT_MAX; omega⟩, by decide, le_refl _,
        by unfold INT_MAX; omega⟩
    have hN : NodeAt fdt fuel0 o A post :=
      node_at_of_suffix fdt ht fuel0 fuel0 0 0 hR (le_refl _) pre o A post hL
    obtain ⟨_, _, _, _, _, _, _, _, _, hA1, _, _⟩ := node_at_facts fdt ht fuel0 o A post hN
    constructor
    · obtain ⟨r, hr, _⟩ := node_at_next_node fdt ht fuel0 o A post hN 0 (le_refl _) (by omega)
        fuel hf
      unfold fdt_first_subnode
      rw [hr]
      exact ⟨_, rfl⟩
    · intro hA2
      have hlen := (nodes_from_facts fdt ht fuel0 0 0 hR).2.2
      rw [hL] at hlen
      simp only [List.length_append, List.length_cons] at hlen
      exact next_subnode_loop_returns fdt ht fuel0 fuel hf post o A 1 fuel hN (le_refl _)
        (by omega) (by omega)

theorem subnode_results_witness :
    fdt_first_subnode 10 blobTree 0 = some 24 ∧ fdt_next_subnode 10 blobTree 24 = some 52 ∧
    ((24 : Int) = -FDT_ERR_NOTFOUND ∨ (0 ≤ (24 : Int) ∧ (fdt_next_tag blobTree 24).1 = FDT_BEGIN_NODE)) ∧
    ((52 : Int) = -FDT_ERR_NOTFOUND ∨ (0 ≤ (52 : Int) ∧ (fdt_next_tag blobTree 52).1 = FDT_BEGIN_NODE)) ∧
    fdt_first_subnode 10 blobTree 24 = some (-FDT_ERR_NOTFOUND) :=
  ⟨by decide, by decide,
    (subnode_results blobTree).1 10 0 24 (by decide),
    (subnode_results blobTree).2.1 10 24 52 (by decide),
    (subnode_results blobTree).2.2.1 24 1 (by decide) (by decide) (by decide) 10 (by decide)⟩

theorem num_mem_rsv_loop_succ (fdt : Blob) (fuel : Nat) (i : Int) :
    fdt_num_mem_rsv_loop fdt (fuel + 1) i =
      match fdt_mem_rsv fdt i with
      | none => some (-FDT_ERR_TRUNCATED)
      | some re =>
        if fdt64_ld fdt (re + 8) = 0 then some i
        else fdt_num_mem_rsv_loop fdt fuel (i32 (i + 1)) := rfl

/-- C18, the code at the failing input: the list is the 3 bytes `abc`, without
a NUL below `listlen = 3`; `fdt_stringlist_contains` compares `len + 1 = 4`
bytes and so reads the byte after the list: it returns 1 when that byte is
NUL and 0 when it is not, for the same first `listlen` bytes.  Through
`fdt_node_check_compatible` the 3-byte property value `abc` of `blobStr`,
which `fdt_stringlist_count` rejects with `-BADVALUE`, matches `abc`. -/
theorem C18_contains_reads_past_list :
    fdt_stringlist_contains 5 [0x61, 0x62, 0x63, 0] 3 [0x61, 0x62, 0x63] = some 1 ∧
    fdt_stringlist_contains 5 [0x61, 0x62, 0x63, 1] 3 [0x61, 0x62, 0x63] = some 0 ∧
    ([0x61, 0x62, 0x63, 0] : List UInt8).take 3 = ([0x61, 0x62, 0x63, 1] : List UInt8).take 3 ∧
    fdt_check_full specSizes 10 blobStr (fdt_totalsize blobStr) = some 0 ∧
    fdt_getprop 10 blobStr 0 str_compatible = some (some 104, 3) ∧
    fdt_node_check_compatible 10 blobStr 0 [0x61, 0x62, 0x63] = some 0 ∧
    fdt_stringlist_count 10 blobStr 0 str_compatible = some (-FDT_ERR_BADVALUE) ∧
    fdt_stringlist_contains 5 [0x61, 0, 0x62, 0, 0x63, 0] 6 [0x63] = some 1 ∧
    fdt_stringlist_contains 5 [0x61, 0, 0x62, 0, 0x63, 0] 6 [0x64] = some 0 := by
  refine ⟨by decide, by decide, by decide, by decide, by decide, by decide, by decide,
    by decide, by decide⟩

theorem bytes_at_length (fdt : Blob) (s : Int) (n : Nat) : (bytes_at fdt s n).length = n := by
  simp [bytes_at]

theorem rd8_bytes_at (fdt : Blob) (s : Int) (hs : 0 ≤ s) (n i : Nat) (hi : i < n) :
    rd8 (bytes_at fdt s n) i = rd8 fdt (s + i) := by
  rw [rd8_getElem _ _ (by rw [bytes_at_length]; exact hi), rd8_nonneg_eq _ _ (by omega)]
  have e : (s + (i : Int)).toNat = s.toNat + i := by omega
  rw [e]
  simp [bytes_at]

theorem mem_zero_iff (l : List UInt8) :
    (0 : UInt8) ∈ l ↔ ∃ i : Nat, i < l.length ∧ rd8 l i = 0 := by
  constructor
  · intro h
    obtain ⟨i, hi, hie⟩ := List.getElem_of_mem h
    exact ⟨i, hi, by rw [rd8_getElem _ _ hi, hie]; rfl⟩
  · rintro ⟨i, hi, hie⟩
    by_contra hc
    exact rd8_mem_ne l 0 hc i hi hie

theorem bytes_at_split (fdt : Blob) (s : Int) (hs : 0 ≤ s) (a b : Nat) :
    bytes_at fdt s (a + b) = bytes_at fdt s a ++ bytes_at fdt (s + a) b := by
  apply list_ext_rd8
  · simp [bytes_at_length]
  · intro i hi
    rw [bytes_at_length] at hi
    rw [rd8_bytes_at fdt s hs _ i hi]
    by_cases h : i < a
    · rw [rd8_append_left _ _ _ (by rw [bytes_at_length]; exact h), rd8_bytes_at fdt s hs _ i h]
    · have e : i = (bytes_at fdt s a).length + (i - a) := by rw [bytes_at_length]; omega
      conv => rhs; rw [e]
      rw [rd8_append_right, rd8_bytes_at fdt (s + a) (by omega) _ (i - a) (by omega)]
      congr 1
      omega

theorem bytes_at_succ (fdt : Blob) (s : Int) (hs : 0 ≤ s) (n : Nat) (b : UInt8)
    (hb : rd8 fdt s = (b.toNat : Int)) :
    bytes_at fdt s (n + 1) = b :: bytes_at fdt (s + 1) n := by
  have := bytes_at_split fdt s hs 1 n
  rw [Nat.add_comm] at this
  rw [this]
  have e : bytes_at fdt s 1 = [b] := by
    apply list_ext_rd8
    · simp [bytes_at_length]
    · intro i hi
      rw [bytes_at_length] at hi
      have : i = 0 := by omega
      subst this
      rw [rd8_bytes_at fdt s hs 1 0 (by omega)]
      simp only [Nat.cast_zero, add_zero]
      rw [hb]
      rfl
  rw [e]
  rfl

/-- The call `strnlen(list, n)` on the bytes of the blob: either none of the
`n` bytes is NUL, or the first NUL is at index `k` and splits the bytes. -/
theorem strnlen_cases (fdt : Blob) (list : Int) (hl : 0 ≤ list) (n : Nat) :
    ((0 : UInt8) ∉ bytes_at fdt list n ∧ strnlen fdt list n = n) ∨
    (∃ k : Nat, k < n ∧ strnlen fdt list n = k ∧ (0 : UInt8) ∉ bytes_at fdt list k ∧
      rd8 fdt (list + k) = 0 ∧
      bytes_at fdt list n = bytes_at fdt list k ++ 0 :: bytes_at fdt (list + k + 1) (n - k - 1)) := by
  unfold strnlen
  rw [Int.toNat_ofNat]
  cases hm : memchr (rd8 fdt) 0 n list with
  | none =>
    left
    refine ⟨?_, rfl⟩
    rw [mem_zero_iff]
    rintro ⟨i, hi, hie⟩
    rw [bytes_at_length] at hi
    rw [rd8_bytes_at fdt list hl n i hi] at hie
    exact memchr_eq_none _ _ n list hm i hi hie
  | some q =>
    right
    obtain ⟨q1, q2, q3, q4⟩ := memchr_some _ _ _ _ _ hm
    refine ⟨(q - list).toNat, by omega, by simp only []; omega, ?_, ?_, ?_⟩
    · rw [mem_zero_iff]
      rintro ⟨i, hi, hie⟩
      rw [bytes_at_length] at hi
      rw [rd8_bytes_at fdt list hl _ i hi] at hie
      exact q4 (list + i) (by omega) (by omega) hie
    · have : list + ((q - list).toNat : Int) = q := by omega
      rw [this]; exact q3
    · have e : n = (q - list).toNat + ((n - (q - list).toNat - 1) + 1) := by omega
      conv => lhs; rw [e]
      rw [bytes_at_split fdt list hl, bytes_at_succ fdt _ (by omega) _ 0 (by
        have : list + ((q - list).toNat : Int) = q := by omega
        rw [this, q3]; rfl)]

theorem elems_aux_step (a r : List UInt8) (ha : (0 : UInt8) ∉ a) :
    ∀ acc, elems_aux (a ++ 0 :: r) acc = (acc ++ a) :: elems_aux r [] := by
  induction a with
  | nil => intro acc; simp [elems_aux]
  | cons b a ih =>
    intro acc
    simp only [List.mem_cons, not_or] at ha
    rw [List.cons_append, elems_aux, if_neg (fun h => ha.1 h.symm), ih ha.2]
    simp

theorem elems_aux_none (r : List UInt8) (hr : (0 : UInt8) ∉ r) :
    ∀ acc, elems_aux r acc = [] := by
  induction r with
  | nil => intro acc; rfl
  | cons b r ih =>
    intro acc
    simp only [List.mem_cons, not_or] at hr
    rw [elems_aux, if_neg (fun h => hr.1 h.symm)]
    exact ih hr.2 _

theorem elems_step (a r : List UInt8) (ha : (0 : UInt8) ∉ a) :
    stringlist_elems (a ++ 0 :: r) = a :: stringlist_elems r := by
  unfold stringlist_elems
  rw [elems_aux_step a r ha]
  rfl

theorem count_step (a r : List UInt8) (ha : (0 : UInt8) ∉ a) :
    (a ++ 0 :: r).count 0 = r.count 0 + 1 := by
  rw [List.count_append, List.count_eq_zero_of_not_mem ha, List.count_cons_self]
  omega

theorem terminated_step (a r : List UInt8) :
    stringlist_terminated (a ++ 0 :: r) ↔ stringlist_terminated r := by
  unfold stringlist_terminated
  cases r with
  | nil => simp
  | cons b r => simp [List.getLast?_append, List.getLast?_cons_cons]

theorem not_terminated_of_no_zero (r : List UInt8) (hr : (0 : UInt8) ∉ r) (hne : r ≠ []) :
    ¬ stringlist_terminated r := by
  unfold stringlist_terminated
  rintro (h | h)
  · exact hne h
  · exact hr (List.mem_of_getLast?_eq_some h)

theorem count_loop_zero (fdt : Blob) (end_ list count : Int) :
    fdt_stringlist_count_loop fdt end_ 0 list count = none := rfl

theorem count_loop_succ (fdt : Blob) (end_ : Int) (fuel : Nat) (list count : Int) :
    fdt_stringlist_count_loop fdt end_ (fuel + 1) list count =
      if list < end_ then
        if list + i32 (u64 (strnlen fdt list (u64 (end_ - list)) + 1)) > end_ then
          some (-FDT_ERR_BADVALUE)
        else fdt_stringlist_count_loop fdt end_ fuel
          (list + i32 (u64 (strnlen fdt list (u64 (end_ - list)) + 1))) (i32 (count + 1))
      else some count := rfl

theorem i32_u64_small (x : Int) (h0 : 0 ≤ x) (h1 : x ≤ INT_MAX) : i32 (u64 x) = x := by
  unfold i32 u64; unfold INT_MAX at h1; omega

theorem u64_small (x : Int) (h0 : 0 ≤ x) (h1 : x ≤ INT_MAX) : u64 x = x := by
  unfold u64; unfold INT_MAX at h1; omega

theorem i32_small (x : Int) (h0 : -2147483648 ≤ x) (h1 : x ≤ INT_MAX) : i32 x = x := by
  unfold i32; unfold INT_MAX at h1; omega

/-- The loop of `fdt_stringlist_count` on the bytes from `list` to `end_`. -/
theorem count_loop_spec (fdt : Blob) (end_ : Int) :
    ∀ (fuel : Nat) (list count : Int), 0 ≤ list → list ≤ end_ → end_ - list < INT_MAX →
      (end_ - list).toNat < fuel → 0 ≤ count → count + (end_ - list) ≤ INT_MAX →
      fdt_stringlist_count_loop fdt end_ fuel list count =
        if stringlist_terminated (bytes_at fdt list (end_ - list).toNat) then
          some (count + ((bytes_at fdt list (end_ - list).toNat).count 0 : Nat))
        else some (-FDT_ERR_BADVALUE) := by
  intro fuel
  induction fuel with
  | zero => intro list count _ _ _ hf; omega
  | succ fuel ih =>
    intro list count hl hle hmax hf hc hcm
    rw [count_loop_succ]
    by_cases hlt : list < end_
    · rw [if_pos hlt]
      have hu : u64 (end_ - list) = (((end_ - list).toNat : Nat) : Int) := by
        rw [u64_small _ (by omega) (by omega)]; omega
      rw [hu]
      rcases strnlen_cases fdt list hl (end_ - list).toNat with ⟨a1, a2⟩ | ⟨k, k1, k2, k3, k4, k5⟩
      · have hgt : list + (end_ - list + 1) > end_ := by omega
        have hne : bytes_at fdt list (end_ - list).toNat ≠ [] := by
          intro h
          have := congrArg List.length h
          rw [bytes_at_length] at this
          simp at this
          omega
        have e : i32 (u64 ((((end_ - list).toNat : Nat) : Int) + 1)) = end_ - list + 1 := by
          rw [i32_u64_small _ (by omega) (by omega)]; omega
        rw [a2, e, if_pos hgt, if_neg (not_terminated_of_no_zero _ a1 hne)]
      · have hng : ¬ (list + ((k : Int) + 1) > end_) := by omega
        have hih := ih (list + ((k : Int) + 1)) (count + 1) (by omega) (by omega) (by omega)
          (by omega) (by omega) (by omega)
        have e3 : (end_ - (list + ((k : Int) + 1))).toNat = (end_ - list).toNat - k - 1 := by
          omega
        have e4 : list + ((k : Int) + 1) = list + k + 1 := by omega
        have hcnt : ∀ c : Nat, count + 1 + (c : Int) = count + ((c + 1 : Nat) : Int) := by
          intro c; push_cast; omega
        have e2 : i32 (count + 1) = count + 1 := i32_small _ (by omega) (by omega)
        have e : i32 (u64 ((k : Int) + 1)) = k + 1 :=
          i32_u64_small _ (by omega) (by omega)
        rw [k2, e, if_neg hng, e2, hih, e3, e4, k5]
        have ht := terminated_step (bytes_at fdt list k)
          (bytes_at fdt (list + k + 1) ((end_ - list).toNat - k - 1))
        by_cases hterm : stringlist_terminated
            (bytes_at fdt (list + k + 1) ((end_ - list).toNat - k - 1))
        · rw [if_pos hterm, if_pos (ht.mpr hterm), count_step _ _ k3, hcnt]
        · rw [if_neg hterm, if_neg (fun h => hterm (ht.mp h))]
    · rw [if_neg hlt]
      have : (end_ - list).toNat = 0 := by omega
      rw [this]
      have e : bytes_at fdt list 0 = [] := rfl
      rw [e, if_pos (show stringlist_terminated [] from Or.inl rfl)]
      simp

theorem getprop_fuel_pos (fuel : Nat) (fdt : Blob) (n : Int) (name : List UInt8) (namelen : Int)
    (r : Option Int × Int) (h : fdt_getprop_namelen fuel fdt n name namelen = some r) :
    0 < fuel := by
  cases fuel with
  | zero =>
    unfold fdt_getprop_namelen fdt_get_property_namelen_ at h
    cases hf : fdt_first_property_offset 0 fdt n with
    | none => rw [hf] at h; simp at h
    | some o => rw [hf] at h; simp [fdt_get_property_namelen_loop] at h
  | succ f => omega

theorem prop_data_nonneg (fdt : Blob) (po : Int) (h : 0 ≤ po) :
    0 ≤ prop_data fdt (fdt_offset_ptr_ fdt po) po := by
  have hb : 0 ≤ fdt_off_dt_struct fdt := (fdt32_ld_bounds fdt 8).1
  unfold prop_data fdt_offset_ptr_
  split_ifs <;> omega

/-- C19: when `fdt_getprop` finds the property, with the value bytes `v` of
length `L` (below `INT_MAX`), `fdt_stringlist_count` returns the number of NUL
bytes of `v` when `v` is empty or its last byte is NUL, and `-BADVALUE` when
`v` is not empty and its last byte is not NUL; when `fdt_getprop` returns
null it returns the negative error that `fdt_getprop` reports. -/
theorem C19_stringlist_count (fuel : Nat) (fdt : Blob) (nodeoffset : Int)
    (property : List UInt8) :
    (∀ p L, fdt_getprop fuel fdt nodeoffset property = some (some p, L) →
      L < INT_MAX → L < fuel →
      ((bytes_at fdt p L.toNat = [] ∨ (bytes_at fdt p L.toNat).getLast? = some 0) →
        fdt_stringlist_count fuel fdt nodeoffset property =
          some (((bytes_at fdt p L.toNat).count 0 : Nat) : Int)) ∧
      (¬ (bytes_at fdt p L.toNat = [] ∨ (bytes_at fdt p L.toNat).getLast? = some 0) →
        fdt_stringlist_count fuel fdt nodeoffset property = some (-FDT_ERR_BADVALUE))) ∧
    (∀ e, fdt_getprop fuel fdt nodeoffset property = some (none, e) →
      fdt_stringlist_count fuel fdt nodeoffset property = some e ∧ e < 0) := by
  constructor
  · intro p L hg hL hf
    obtain ⟨k1, _⟩ := getprop_namelen_result fuel fdt nodeoffset property _ _ hg
    obtain ⟨po, a1, a2, _⟩ := k1 p rfl
    have hp : 0 ≤ p := by
      rw [a2]
      exact prop_data_nonneg fdt po (check_prop_offset_facts fdt po a1).1
    have hcount : fdt_stringlist_count fuel fdt nodeoffset property =
        fdt_stringlist_count_loop fdt (p + L) fuel p 0 := by
      unfold fdt_stringlist_count
      rw [hg]
    rw [hcount]
    by_cases hL0 : 0 ≤ L
    · have e : (p + L - p).toNat = L.toNat := by congr 1; omega
      have hspec := count_loop_spec fdt (p + L) fuel p 0 hp (by omega) (by omega) (by omega)
        (le_refl _) (by unfold INT_MAX at *; omega)
      rw [e] at hspec
      rw [hspec]
      constructor
      · intro ht
        rw [if_pos (show stringlist_terminated _ from ht)]
        simp
      · intro ht
        rw [if_neg (show ¬ stringlist_terminated _ from ht)]
    · have e : L.toNat = 0 := by omega
      have e2 : bytes_at fdt p 0 = [] := rfl
      rw [e, e2]
      have hfp := getprop_fuel_pos fuel fdt nodeoffset property _ _ hg
      obtain ⟨f, rfl⟩ : ∃ f, fuel = f + 1 := ⟨fuel - 1, by omega⟩
      rw [count_loop_succ, if_neg (by omega)]
      exact ⟨fun _ => rfl, fun h => absurd (Or.inl rfl) h⟩
  · intro e hg
    obtain ⟨_, k2⟩ := getprop_namelen_result fuel fdt nodeoffset property _ _ hg
    refine ⟨?_, k2 rfl⟩
    unfold fdt_stringlist_count
    rw [hg]

theorem C19_stringlist_count_witness :
    fdt_getprop 10 blobStr 0 [0x6c] = some (some 84, 6) ∧
    bytes_at blobStr 84 (6 : Int).toNat = [0x61, 0, 0x62, 0, 0x63, 0] ∧
    fdt_stringlist_count 10 blobStr 0 [0x6c] =
      some (((bytes_at blobStr 84 (6 : Int).toNat).count 0 : Nat) : Int) ∧
    fdt_stringlist_count 10 blobStr 0 str_compatible = some (-FDT_ERR_BADVALUE) :=
  ⟨by decide, by decide,
    ((C19_stringlist_count 10 blobStr 0 [0x6c]).1 84 6 (by decide) (by decide) (by decide)).1
      (by decide),
    ((C19_stringlist_count 10 blobStr 0 str_compatible).1 104 3 (by decide) (by decide)
      (by decide)).2 (by decide)⟩

theorem search_loop_succ (fdt : Blob) (string : List UInt8) (len end_ : Int) (fuel : Nat)
    (list idx : Int) :
    fdt_stringlist_search_loop fdt string len end_ (fuel + 1) list idx =
      if list < end_ then
        if list + i32 (u64 (strnlen fdt list (u64 (end_ - list)) + 1)) > end_ then
          some (-FDT_ERR_BADVALUE)
        else if i32 (u64 (strnlen fdt list (u64 (end_ - list)) + 1)) = len ∧
            memeq (rd8 fdt) (rd8 string) list 0
              (u64 (i32 (u64 (strnlen fdt list (u64 (end_ - list)) + 1)))).toNat then some idx
        else fdt_stringlist_search_loop fdt string len end_ fuel
          (list + i32 (u64 (strnlen fdt list (u64 (end_ - list)) + 1))) (i32 (idx + 1))
      else some (-FDT_ERR_NOTFOUND) := rfl

theorem get_loop_succ (fdt : Blob) (end_ : Int) (fuel : Nat) (list idx : Int) :
    fdt_stringlist_get_loop fdt end_ (fuel + 1) list idx =
      if list < end_ then
        if list + i32 (u64 (strnlen fdt list (u64 (end_ - list)) + 1)) > end_ then
          some (none, -FDT_ERR_BADVALUE)
        else if idx = 0 then
          some (some list, i32 (i32 (u64 (strnlen fdt list (u64 (end_ - list)) + 1)) - 1))
        else fdt_stringlist_get_loop fdt end_ fuel
          (list + i32 (u64 (strnlen fdt list (u64 (end_ - list)) + 1))) (i32 (idx - 1))
      else some (none, -FDT_ERR_NOTFOUND) := rfl

theorem cstr_of_bytes (fdt : Blob) (s : Int) (hs : 0 ≤ s) (k : Nat)
    (h0 : (0 : UInt8) ∉ bytes_at fdt s k) (hz : rd8 fdt (s + k) = 0) :
    cstr fdt s = bytes_at fdt s k := by
  have hnz : ∀ i : Nat, i < k → rd8 fdt (s + i) ≠ 0 := by
    intro i hi hc
    apply h0
    rw [mem_zero_iff]
    exact ⟨i, by rw [bytes_at_length]; exact hi, by rw [rd8_bytes_at fdt s hs k i hi]; exact hc⟩
  have hl := cstr_length_unique fdt s hs k hz hnz
  obtain ⟨m1, _⟩ := cstr_spec fdt s hs
  apply list_ext_rd8
  · rw [hl, bytes_at_length]
  · intro i hi
    rw [← (m1 i hi).1, rd8_bytes_at fdt s hs k i (by omega)]

theorem cstr_self (s : List UInt8) (hs : (0 : UInt8) ∉ s) : cstr s 0 = s := by
  unfold cstr
  simp only [Int.toNat_zero, List.drop_zero]
  induction s with
  | nil => rfl
  | cons b s ih =>
    simp only [List.mem_cons, not_or] at hs
    rw [List.takeWhile_cons_of_pos (by simpa using fun h => hs.1 h.symm), ih hs.2]

/-- The test of `fdt_stringlist_search` on the element that starts at `list`
and has `k` bytes: it holds exactly when the element equals `s`. -/
theorem search_match_iff (fdt : Blob) (s : List UInt8) (list : Int) (hl : 0 ≤ list) (k : Nat)
    (hz : rd8 fdt (list + k) = 0) :
    ((k : Int) + 1 = (s.length : Int) + 1 ∧
      memeq (rd8 fdt) (rd8 s) list 0 (k + 1) = true) ↔ bytes_at fdt list k = s := by
  constructor
  · rintro ⟨h1, h2⟩
    rw [memeq_iff] at h2
    apply list_ext_rd8
    · rw [bytes_at_length]; omega
    · intro i hi
      rw [bytes_at_length] at hi
      rw [rd8_bytes_at fdt list hl k i hi, h2 i (by omega)]
      simp
  · intro h
    have hk : k = s.length := by rw [← h, bytes_at_length]
    refine ⟨by omega, ?_⟩
    rw [memeq_iff]
    intro i hi
    by_cases hik : i < k
    · rw [← rd8_bytes_at fdt list hl k i hik, h]
      simp
    · have : i = k := by omega
      subst this
      rw [hz]
      simp only [zero_add]
      rw [rd8_length s i (by omega)]

/-- The loop of `fdt_stringlist_search` on the bytes from `list` to `end_`:
it returns, and the result is the index of the first element equal to `s`,
or `-NOTFOUND` when the bytes are a terminated list without `s`, or
`-BADVALUE` when no complete element before the unterminated tail is `s`. -/
theorem search_loop_spec (fdt : Blob) (s : List UInt8) (end_ : Int) :
    ∀ (fuel : Nat) (list idx : Int), 0 ≤ list → list ≤ end_ → end_ - list < INT_MAX →
      (end_ - list).toNat < fuel → 0 ≤ idx → idx + (end_ - list) ≤ INT_MAX →
      ∃ res, fdt_stringlist_search_loop fdt s ((s.length : Int) + 1) end_ fuel list idx = some res ∧
        ((∃ k : Nat, res = idx + k ∧
            (stringlist_elems (bytes_at fdt list (end_ - list).toNat))[k]? = some s ∧
            ∀ j : Nat, j < k →
              ∃ a, (stringlist_elems (bytes_at fdt list (end_ - list).toNat))[j]? = some a ∧
                a ≠ s) ∨
         (res = -FDT_ERR_NOTFOUND ∧
            stringlist_terminated (bytes_at fdt list (end_ - list).toNat) ∧
            s ∉ stringlist_elems (bytes_at fdt list (end_ - list).toNat)) ∨
         (res = -FDT_ERR_BADVALUE ∧
            ¬ stringlist_terminated (bytes_at fdt list (end_ - list).toNat) ∧
            s ∉ stringlist_elems (bytes_at fdt list (end_ - list).toNat))) := by
  intro fuel
  induction fuel with
  | zero => intro list idx _ _ _ hf; omega
  | succ fuel ih =>
    intro list idx hl hle hmax hf hc hcm
    rw [search_loop_succ]
    by_cases hlt : list < end_
    · rw [if_pos hlt]
      have hu : u64 (end_ - list) = (((end_ - list).toNat : Nat) : Int) := by
        rw [u64_small _ (by omega) (by omega)]; omega
      rw [hu]
      rcases strnlen_cases fdt list hl (end_ - list).toNat with ⟨a1, a2⟩ | ⟨k, k1, k2, k3, k4, k5⟩
      · have hgt : list + (end_ - list + 1) > end_ := by omega
        have hne : bytes_at fdt list (end_ - list).toNat ≠ [] := by
          intro h
          have := congrArg List.length h
          rw [bytes_at_length] at this
          simp at this
          omega
        have e : i32 (u64 ((((end_ - list).toNat : Nat) : Int) + 1)) = end_ - list + 1 := by
          rw [i32_u64_small _ (by omega) (by omega)]; omega
        rw [a2, e, if_pos hgt]
        refine ⟨_, rfl, Or.inr (Or.inr ⟨rfl, not_terminated_of_no_zero _ a1 hne, ?_⟩)⟩
        unfold stringlist_elems
        rw [elems_aux_none _ a1]
        simp
      · have hng : ¬ (list + ((k : Int) + 1) > end_) := by omega
        have e3 : (end_ - (list + ((k : Int) + 1))).toNat = (end_ - list).toNat - k - 1 := by
          omega
        have e4 : list + ((k : Int) + 1) = list + k + 1 := by omega
        have e2 : i32 (idx + 1) = idx + 1 := i32_small _ (by omega) (by omega)
        have e5 : (u64 ((k : Int) + 1)).toNat = k + 1 := by
          rw [u64_small _ (by omega) (by omega)]; omega
        have hidx : ∀ c : Nat, idx + 1 + (c : Int) = idx + ((c + 1 : Nat) : Int) := by
          intro c; push_cast; omega
        have hih := ih (list + ((k : Int) + 1)) (idx + 1) (by omega) (by omega) (by omega)
          (by omega) (by omega) (by omega)
        have e : i32 (u64 ((k : Int) + 1)) = k + 1 :=
          i32_u64_small _ (by omega) (by omega)
        rw [← e4] at k5
        rw [k2, e, if_neg hng, e2, e5, k5, elems_step _ _ k3]
        have hm := search_match_iff fdt s list hl k k4
        by_cases hmatch : bytes_at fdt list k = s
        · rw [if_pos (hm.mpr hmatch)]
          refine ⟨_, rfl, Or.inl ⟨0, by simp, by simp [hmatch], ?_⟩⟩
          intro j hj; omega
        · rw [if_neg (fun h => hmatch (hm.mp h))]
          rw [e3] at hih
          obtain ⟨res, h1, h2⟩ := hih
          refine ⟨res, h1, ?_⟩
          rcases h2 with ⟨c, c1, c2, c3⟩ | ⟨c1, c2, c3⟩ | ⟨c1, c2, c3⟩
          · refine Or.inl ⟨c + 1, by rw [c1, hidx], by simpa using c2, ?_⟩
            intro j hj
            cases j with
            | zero => exact ⟨_, by simp, hmatch⟩
            | succ j =>
              obtain ⟨a, d1, d2⟩ := c3 j (by omega)
              exact ⟨a, by simpa using d1, d2⟩
          · refine Or.inr (Or.inl ⟨c1, (terminated_step _ _).mpr c2, ?_⟩)
            simp only [List.mem_cons, not_or]
            exact ⟨fun h => hmatch h.symm, c3⟩
          · refine Or.inr (Or.inr ⟨c1, fun h => c2 ((terminated_step _ _).mp h), ?_⟩)
            simp only [List.mem_cons, not_or]
            exact ⟨fun h => hmatch h.symm, c3⟩
    · rw [if_neg hlt]
      have : (end_ - list).toNat = 0 := by omega
      rw [this]
      have e : bytes_at fdt list 0 = [] := rfl
      rw [e]
      exact ⟨_, rfl, Or.inr (Or.inl ⟨rfl, Or.inl rfl, by simp [stringlist_elems, elems_aux]⟩)⟩

/-- The loop of `fdt_stringlist_get` on the bytes from `list` to `end_`, at an
index that names an element: it returns the start of that element, whose
string is the element, and its length. -/
theorem get_loop_spec (fdt : Blob) (end_ : Int) :
    ∀ (fuel : Nat) (list idx : Int), 0 ≤ list → list ≤ end_ → end_ - list < INT_MAX →
      (end_ - list).toNat < fuel → 0 ≤ idx → idx ≤ INT_MAX →
      ∀ a, (stringlist_elems (bytes_at fdt list (end_ - list).toNat))[idx.toNat]? = some a →
        ∃ q, fdt_stringlist_get_loop fdt end_ fuel list idx = some (some q, (a.length : Int)) ∧
          cstr fdt q = a := by
  intro fuel
  induction fuel with
  | zero => intro list idx _ _ _ hf; omega
  | succ fuel ih =>
    intro list idx hl hle hmax hf hc hcm a ha
    rw [get_loop_succ]
    by_cases hlt : list < end_
    · rw [if_pos hlt]
      have hu : u64 (end_ - list) = (((end_ - list).toNat : Nat) : Int) := by
        rw [u64_small _ (by omega) (by omega)]; omega
      rw [hu]
      rcases strnlen_cases fdt list hl (end_ - list).toNat with ⟨a1, a2⟩ | ⟨k, k1, k2, k3, k4, k5⟩
      · unfold stringlist_elems at ha
        rw [elems_aux_none _ a1] at ha
        simp at ha
      · have hng : ¬ (list + ((k : Int) + 1) > end_) := by omega
        have e3 : (end_ - (list + ((k : Int) + 1))).toNat = (end_ - list).toNat - k - 1 := by
          omega
        have e4 : list + ((k : Int) + 1) = list + k + 1 := by omega
        have e6 : i32 ((k : Int) + 1 - 1) = k := by
          rw [i32_small _ (by omega) (by omega)]; omega
        rw [← e4] at k5
        rw [k5, elems_step _ _ k3] at ha
        by_cases h0 : idx = 0
        · subst h0
          have e : i32 (u64 ((k : Int) + 1)) = k + 1 :=
            i32_u64_small _ (by omega) (by omega)
          rw [k2, e, if_neg hng, if_pos rfl, e6]
          simp only [Int.toNat_zero, List.length_cons, Nat.zero_lt_succ, List.getElem?_eq_getElem,
            List.getElem_cons_zero, Option.some.injEq] at ha
          refine ⟨list, ?_, ?_⟩
          · rw [← ha, bytes_at_length]
          · rw [← ha]
            exact cstr_of_bytes fdt list hl k k3 k4
        · have e2 : i32 (idx - 1) = idx - 1 := i32_small _ (by omega) (by omega)
          have e7 : idx.toNat = (idx - 1).toNat + 1 := by omega
          have hih := ih (list + ((k : Int) + 1)) (idx - 1) (by omega) (by omega) (by omega)
            (by omega) (by omega) (by omega) a
          have e : i32 (u64 ((k : Int) + 1)) = k + 1 :=
            i32_u64_small _ (by omega) (by omega)
          rw [k2, e, if_neg hng, if_neg h0, e2]
          rw [e7, List.getElem?_cons_succ] at ha
          rw [e3] at hih
          exact hih ha
    · have : (end_ - list).toNat = 0 := by omega
      rw [this] at ha
      simp [bytes_at, stringlist_elems, elems_aux] at ha

/-- The loop of `fdt_stringlist_get` at a negative index, or an index above
the number of bytes left: it returns null. -/
theorem get_loop_null (fdt : Blob) (end_ : Int) :
    ∀ (fuel : Nat) (list idx : Int), 0 ≤ list → list ≤ end_ → end_ - list < INT_MAX →
      (end_ - list).toNat < fuel → -INT_MAX - 1 ≤ idx → idx ≤ INT_MAX →
      (idx < 0 ∨ end_ - list < idx) →
      ∃ e, fdt_stringlist_get_loop fdt end_ fuel list idx = some (none, e) := by
  intro fuel
  induction fuel with
  | zero => intro list idx _ _ _ hf; omega
  | succ fuel ih =>
    intro list idx hl hle hmax hf hc hcm hidx
    rw [get_loop_succ]
    by_cases hlt : list < end_
    · rw [if_pos hlt]
      have hu : u64 (end_ - list) = (((end_ - list).toNat : Nat) : Int) := by
        rw [u64_small _ (by omega) (by omega)]; omega
      rw [hu]
      rcases strnlen_cases fdt list hl (end_ - list).toNat with ⟨a1, a2⟩ | ⟨k, k1, k2, k3, k4, k5⟩
      · have hgt : list + (end_ - list + 1) > end_ := by omega
        have e : i32 (u64 ((((end_ - list).toNat : Nat) : Int) + 1)) = end_ - list + 1 := by
          rw [i32_u64_small _ (by omega) (by omega)]; omega
        rw [a2, e, if_pos hgt]
        exact ⟨_, rfl⟩
      · have hng : ¬ (list + ((k : Int) + 1) > end_) := by omega
        have h0 : idx ≠ 0 := by omega
        have hi1 : -INT_MAX - 1 ≤ i32 (idx - 1) ∧ i32 (idx - 1) ≤ INT_MAX := by
          unfold i32 INT_MAX; omega
        have hi2 : i32 (idx - 1) < 0 ∨ end_ - (list + ((k : Int) + 1)) < i32 (idx - 1) := by
          unfold i32; unfold INT_MAX at hc hcm hmax; omega
        have hih := ih (list + ((k : Int) + 1)) (i32 (idx - 1)) (by omega) (by omega) (by omega)
          (by omega) hi1.1 hi1.2 hi2
        have e : i32 (u64 ((k : Int) + 1)) = k + 1 :=
          i32_u64_small _ (by omega) (by omega)
        rw [k2, e, if_neg hng, if_neg h0]
        exact hih
    · rw [if_neg hlt]
      exact ⟨_, rfl⟩

theorem elems_aux_length_le (v : List UInt8) :
    ∀ acc, (elems_aux v acc).length ≤ v.length := by
  induction v with
  | nil => intro acc; simp [elems_aux]
  | cons b v ih =>
    intro acc
    rw [elems_aux]
    split_ifs
    · have := ih []
      simp only [List.length_cons]
      omega
    · have := ih (acc ++ [b])
      simp only [List.length_cons]
      omega

theorem elems_length_le (v : List UInt8) : (stringlist_elems v).length ≤ v.length :=
  elems_aux_length_le v []

/-- C20, as stated, fails: the root of `blobStr` has no property `x`, so there
is no property value at all, and `fdt_stringlist_search` returns the
`-NOTFOUND` that `fdt_getprop` reports. -/
theorem C20_counterexample :
    fdt_stringlist_search 10 blobStr 0 [0x78] [0x61] = some (-FDT_ERR_NOTFOUND) ∧
    ¬ ∃ p L, fdt_getprop 10 blobStr 0 [0x78] = some (some p, L) := by
  refine ⟨by decide, ?_⟩
  rintro ⟨p, L, h⟩
  have hg : fdt_getprop 10 blobStr 0 [0x78] = some (none, -FDT_ERR_NOTFOUND) := by decide
  rw [hg] at h
  simp at h

/-- C20, amended: for a NUL-free string `s`, when `fdt_getprop` finds the
property, with value bytes `v` of a length below `INT_MAX`, then
`fdt_stringlist_search` returns; if it returns an index `idx >= 0` then
`fdt_stringlist_get` at `idx` returns a non-null string equal to `s` with
reported length `strlen(s)`, and at no `j < idx` does it return a string equal
to `s`; if it returns `-NOTFOUND` then `v` is a properly terminated list none
of whose elements equals `s`.  When `fdt_getprop` returns null, the search
returns the negative error that `fdt_getprop` reports, which is `-NOTFOUND`
for a node without the property. -/
theorem C20_stringlist_search (fuel : Nat) (fdt : Blob) (nodeoffset : Int)
    (property s : List UInt8) (hs : (0 : UInt8) ∉ s) (hsl : (s.length : Int) < INT_MAX) :
    (∀ p L, fdt_getprop fuel fdt nodeoffset property = some (some p, L) →
      L < INT_MAX → L < fuel →
      (∃ r, fdt_stringlist_search fuel fdt nodeoffset property s = some r) ∧
      (∀ idx, fdt_stringlist_search fuel fdt nodeoffset property s = some idx → 0 ≤ idx →
        (∃ q, fdt_stringlist_get fuel fdt nodeoffset property idx = some (some q, strlen s 0) ∧
          cstr fdt q = s) ∧
        (∀ j, -INT_MAX - 1 ≤ j → j < idx → ∀ q len,
          fdt_stringlist_get fuel fdt nodeoffset property j = some (some q, len) →
            cstr fdt q ≠ s)) ∧
      (fdt_stringlist_search fuel fdt nodeoffset property s = some (-FDT_ERR_NOTFOUND) →
        stringlist_terminated (bytes_at fdt p L.toNat) ∧
          s ∉ stringlist_elems (bytes_at fdt p L.toNat))) ∧
    (∀ e, fdt_getprop fuel fdt nodeoffset property = some (none, e) →
      fdt_stringlist_search fuel fdt nodeoffset property s = some e ∧ e < 0) := by
  have hstr : strlen s 0 = (s.length : Int) := by
    unfold strlen
    rw [cstr_self s hs]
  constructor
  · intro p L hg hL hf
    obtain ⟨k1, _⟩ := getprop_namelen_result fuel fdt nodeoffset property _ _ hg
    obtain ⟨po, a1, a2, _⟩ := k1 p rfl
    have hp : 0 ≤ p := by
      rw [a2]
      exact prop_data_nonneg fdt po (check_prop_offset_facts fdt po a1).1
    have hlen : i32 (u64 (strlen s 0 + 1)) = (s.length : Int) + 1 := by
      rw [hstr]
      exact i32_u64_small _ (by omega) (by omega)
    have hsearch : fdt_stringlist_search fuel fdt nodeoffset property s =
        fdt_stringlist_search_loop fdt s ((s.length : Int) + 1) (p + L) fuel p 0 := by
      unfold fdt_stringlist_search
      rw [hg, hlen]
    have hget : ∀ j, fdt_stringlist_get fuel fdt nodeoffset property j =
        fdt_stringlist_get_loop fdt (p + L) fuel p j := by
      intro j
      unfold fdt_stringlist_get
      rw [hg]
    rw [hsearch, hstr]
    by_cases hL0 : 0 ≤ L
    · have e : (p + L - p).toNat = L.toNat := by
        rw [show p + L - p = L from by omega]
      have hmax : (0 : Int) + (p + L - p) ≤ INT_MAX := by omega
      obtain ⟨res, h1, h2⟩ := search_loop_spec fdt s (p + L) fuel p 0 hp (by omega)
        (by omega) (by omega) (le_refl _) hmax
      rw [e] at h2
      rw [h1]
      refine ⟨⟨res, rfl⟩, ?_, ?_⟩
      · intro idx hidx hidx0
        simp only [Option.some.injEq] at hidx
        subst hidx
        rcases h2 with ⟨k, c1, c2, c3⟩ | ⟨c1, _⟩ | ⟨c1, _⟩
        · have hk : (k : Int) ≤ L := by
            have := (List.getElem?_eq_some.mp c2).1
            have h3 := elems_length_le (bytes_at fdt p L.toNat)
            rw [bytes_at_length] at h3
            omega
          have hres : res.toNat = k := by omega
          constructor
          · have hgl := get_loop_spec fdt (p + L) fuel p res hp (by omega) (by omega) (by omega)
              hidx0 (by omega) s (by rw [e, hres]; exact c2)
            rw [hget]
            exact hgl
          · intro j hj1 hj2 q len hq
            rw [hget] at hq
            by_cases hj0 : 0 ≤ j
            · obtain ⟨a, d1, d2⟩ := c3 j.toNat (by omega)
              obtain ⟨q2, g1, g2⟩ := get_loop_spec fdt (p + L) fuel p j hp (by omega) (by omega)
                (by omega) hj0 (by omega) a (by rw [e]; exact d1)
              rw [g1] at hq
              simp only [Option.some.injEq, Prod.mk.injEq] at hq
              rw [← hq.1, g2]
              exact d2
            · obtain ⟨e2, g1⟩ := get_loop_null fdt (p + L) fuel p j hp (by omega) (by omega)
                (by omega) hj1 (by omega) (Or.inl (by omega))
              rw [g1] at hq
              simp at hq
        · rw [c1] at hidx0
          exact absurd hidx0 (by decide)
        · rw [c1] at hidx0
          exact absurd hidx0 (by decide)
      · intro hnf
        simp only [Option.some.injEq] at hnf
        rcases h2 with ⟨k, c1, _⟩ | ⟨_, c2, c3⟩ | ⟨c1, _⟩
        · rw [hnf] at c1
          have : (0 : Int) ≤ (k : Int) := Int.ofNat_nonneg k
          unfold FDT_ERR_NOTFOUND at c1
          omega
        · exact ⟨c2, c3⟩
        · rw [hnf] at c1
          exact absurd c1 (by decide)
    · have e : L.toNat = 0 := by omega
      have e2 : bytes_at fdt p 0 = [] := rfl
      rw [e, e2]
      have hfp := getprop_fuel_pos fuel fdt nodeoffset property _ _ hg
      obtain ⟨f, rfl⟩ : ∃ f, fuel = f + 1 := ⟨fuel - 1, by omega⟩
      rw [search_loop_succ, if_neg (by omega)]
      refine ⟨⟨_, rfl⟩, ?_, ?_⟩
      · intro idx hidx hidx0
        simp only [Option.some.injEq] at hidx
        rw [← hidx] at hidx0
        exact absurd hidx0 (by decide)
      · intro _
        exact ⟨Or.inl rfl, by simp [stringlist_elems, elems_aux]⟩
  · intro e hg
    obtain ⟨_, k2⟩ := getprop_namelen_result fuel fdt nodeoffset property _ _ hg
    refine ⟨?_, k2 rfl⟩
    unfold fdt_stringlist_search
    rw [hg]

theorem C20_stringlist_search_witness :
    fdt_getprop 10 blobStr 0 [0x6c] = some (some 84, 6) ∧
    fdt_stringlist_search 10 blobStr 0 [0x6c] [0x63] = some 2 ∧
    (∃ q, fdt_stringlist_get 10 blobStr 0 [0x6c] 2 = some (some q, strlen [0x63] 0) ∧
      cstr blobStr q = [0x63]) :=
  ⟨by decide, by decide,
    (((C20_stringlist_search 10 blobStr 0 [0x6c] [0x63] (by decide) (by decide)).1 84 6
      (by decide) (by decide) (by decide)).2.1 2 (by decide) (by decide)).1⟩

theorem segs_aux_word (c : List UInt8) (hc : (0x2f : UInt8) ∉ c) :
    ∀ (R acc : List UInt8), segs_aux (c ++ R) acc = segs_aux R (acc ++ c) := by
  induction c with
  | nil => intro R acc; simp
  | cons b c ih =>
    intro R acc
    simp only [List.mem_cons, not_or] at hc
    rw [List.cons_append, segs_aux, if_neg (fun h => hc.1 h.symm), ih hc.2]
    simp

theorem segs_aux_slash (R acc : List UInt8) (hacc : acc ≠ []) (hR : R = [] ∨ R.head? = some 0x2f) :
    segs_aux R acc = acc :: segs_aux R [] := by
  rcases hR with rfl | hR
  · simp [segs_aux, hacc]
  · cases R with
    | nil => simp at hR
    | cons b R =>
      simp only [List.head?_cons, Option.some.injEq] at hR
      subst hR
      simp [segs_aux, hacc]

theorem path_segs_word (c R : List UInt8) (hne : c ≠ []) (hc : (0x2f : UInt8) ∉ c)
    (hR : R = [] ∨ R.head? = some 0x2f) : path_segs (c ++ R) = c :: path_segs R := by
  unfold path_segs
  rw [segs_aux_word c hc, List.nil_append, segs_aux_slash R c hne hR]

theorem path_segs_slashes (m : Nat) (R : List UInt8) :
    path_segs (List.replicate m 0x2f ++ R) = path_segs R := by
  unfold path_segs
  induction m with
  | zero => simp
  | succ m ih =>
    rw [List.replicate_succ, List.cons_append, segs_aux]
    simpa using ih

theorem slashes_decomp (P : List UInt8) :
    ∃ (m : Nat) (R : List UInt8), P = List.replicate m 0x2f ++ R ∧
      (R = [] ∨ ∃ b R1, R = b :: R1 ∧ b ≠ 0x2f) := by
  induction P with
  | nil => exact ⟨0, [], rfl, Or.inl rfl⟩
  | cons b P ih =>
    by_cases hb : b = 0x2f
    · obtain ⟨m, R, h1, h2⟩ := ih
      refine ⟨m + 1, R, ?_, h2⟩
      rw [List.replicate_succ, List.cons_append, ← h1, hb]
    · exact ⟨0, b :: P, rfl, Or.inr ⟨b, P, rfl, hb⟩⟩

theorem word_decomp (R : List UInt8) :
    ∃ c R2, R = c ++ R2 ∧ (0x2f : UInt8) ∉ c ∧ (R2 = [] ∨ R2.head? = some 0x2f) := by
  induction R with
  | nil => exact ⟨[], [], rfl, by simp, Or.inl rfl⟩
  | cons b R ih =>
    by_cases hb : b = 0x2f
    · exact ⟨[], b :: R, rfl, by simp, Or.inr (by simp [hb])⟩
    · obtain ⟨c, R2, h1, h2, h3⟩ := ih
      refine ⟨b :: c, R2, by rw [h1]; rfl, ?_, h3⟩
      simp only [List.mem_cons, not_or]
      exact ⟨fun h => hb h.symm, h2⟩

theorem path_decomp (P : List UInt8) (h : P.head? = some 0x2f) :
    ∃ (m : Nat) (R : List UInt8), P = List.replicate (m + 1) 0x2f ++ R ∧
      (R = [] ∨ ∃ c R2, R = c ++ R2 ∧ c ≠ [] ∧ (0x2f : UInt8) ∉ c ∧
        (R2 = [] ∨ R2.head? = some 0x2f)) := by
  obtain ⟨m, R, h1, h2⟩ := slashes_decomp P
  cases m with
  | zero =>
    exfalso
    rcases h2 with rfl | ⟨b, R1, rfl, hb⟩
    · rw [h1] at h; simp at h
    · rw [h1] at h
      simp only [List.replicate_zero, List.nil_append, List.head?_cons, Option.some.injEq] at h
      exact hb h
  | succ m =>
    refine ⟨m, R, h1, ?_⟩
    rcases h2 with rfl | ⟨b, R1, hR, hb⟩
    · exact Or.inl rfl
    · right
      obtain ⟨c, R2, g1, g2, g3⟩ := word_decomp R
      refine ⟨c, R2, g1, ?_, g2, g3⟩
      rintro rfl
      rw [List.nil_append] at g1
      rw [← g1, hR] at g3
      rcases g3 with g3 | g3
      · simp at g3
      · simp only [List.head?_cons, Option.some.injEq] at g3
        exact hb g3

theorem skip_slashes_end (path : List UInt8) (end_ : Int) :
    ∀ (m n : Nat) (p : Int), (∀ j : Nat, j < m → rd8 path (p + j) = 0x2f) →
      p + m = end_ → 1 ≤ m → m ≤ n → skip_slashes path end_ n p = none := by
  intro m
  induction m with
  | zero => intro n p _ _ h; omega
  | succ m ih =>
    intro n p hs he _ hn
    obtain ⟨n', rfl⟩ : ∃ k, n = k + 1 := ⟨n - 1, by omega⟩
    have h0 := hs 0 (by omega)
    simp only [Nat.cast_zero, add_zero] at h0
    rw [skip_slashes, if_pos h0]
    by_cases hm : m = 0
    · subst hm
      rw [if_pos (by push_cast at he; omega)]
    · rw [if_neg (by push_cast at he; omega)]
      apply ih n' (p + 1) _ (by push_cast at he; omega) (by omega) (by omega)
      intro j hj
      have := hs (j + 1) (by omega)
      push_cast at this
      rw [← this]
      congr 1; omega

theorem skip_slashes_stop (path : List UInt8) (end_ : Int) :
    ∀ (m n : Nat) (p : Int), (∀ j : Nat, j < m → rd8 path (p + j) = 0x2f) →
      p + m < end_ → rd8 path (p + m) ≠ 0x2f → m + 1 ≤ n →
      skip_slashes path end_ n p = some (p + m) := by
  intro m
  induction m with
  | zero =>
    intro n p _ _ hne hn
    obtain ⟨n', rfl⟩ : ∃ k, n = k + 1 := ⟨n - 1, by omega⟩
    simp only [Nat.cast_zero, add_zero] at hne ⊢
    rw [skip_slashes, if_neg hne]
  | succ m ih =>
    intro n p hs he hne hn
    obtain ⟨n', rfl⟩ : ∃ k, n = k + 1 := ⟨n - 1, by omega⟩
    have h0 := hs 0 (by omega)
    simp only [Nat.cast_zero, add_zero] at h0
    rw [skip_slashes, if_pos h0, if_neg (by push_cast at he; omega)]
    have e : p + ((m + 1 : Nat) : Int) = p + 1 + m := by push_cast; omega
    rw [e] at hne ⊢
    apply ih n' (p + 1) _ (by push_cast at he; omega) hne (by omega)
    intro j hj
    have := hs (j + 1) (by omega)
    push_cast at this
    rw [← this]
    congr 1; omega

theorem rd8_replicate (m : Nat) (b : UInt8) (R : List UInt8) (j : Nat) (hj : j < m) :
    rd8 (List.replicate m b ++ R) j = (b.toNat : Int) := by
  rw [rd8_append_left _ _ _ (by simpa using hj), rd8_nonneg_eq _ _ (by omega)]
  simp [List.getD_eq_getElem?_getD, hj]

/-- The loop of `fdt_path_offset_namelen` on the bytes `P` of a path, empty or
beginning with `/`: one lookup among the children for each name of `P`. -/
theorem path_loop_spec (fdt : Blob) (F0 : Nat) (path : List UInt8) (end_ : Int) :
    ∀ (F : Nat) (P : List UInt8) (p offset : Int) (tail : List UInt8),
      0 ≤ p → path.drop p.toNat = P ++ tail → end_ = p + P.length →
      (P = [] ∨ P.head? = some 0x2f) → (path_segs P).length + 1 ≤ F →
      fdt_path_offset_namelen_loop F0 fdt path end_ F p offset =
        resolve_segs F0 fdt offset (path_segs P) := by
  intro F
  induction F with
  | zero => intro P p offset tail _ _ _ _ hF; omega
  | succ F ih =>
    intro P p offset tail hp hd he hP hF
    rcases hP with rfl | hP
    · rw [fdt_path_offset_namelen_loop, if_neg (by simp at he; omega)]
      rfl
    · obtain ⟨m, R, hPe, hR⟩ := path_decomp P hP
      have hrd : ∀ i : Int, 0 ≤ i → rd8 path (p + i) = rd8 (P ++ tail) i := by
        intro i hi
        rw [← rd8_drop path p hp i hi, hd]
      have hlenP : P.length = m + 1 + R.length := by
        rw [hPe]; simp
      have hsl : ∀ j : Nat, j < m + 1 → rd8 path (p + j) = 0x2f := by
        intro j hj
        rw [hrd j (by omega), hPe, List.append_assoc, rd8_replicate _ _ _ j hj]
        rfl
      rw [fdt_path_offset_namelen_loop, if_pos (by omega)]
      rcases hR with rfl | ⟨c, R2, hRe, hcne, hcs, hR2⟩
      · rw [skip_slashes_end path end_ (m + 1) _ p hsl (by simp at hlenP; omega) (by omega)
          (by simp at hlenP; omega)]
        rw [hPe, path_segs_slashes]
        rfl
      · have hclen : 1 ≤ c.length := by
          cases c with
          | nil => exact absurd rfl hcne
          | cons a l => simp
        have hlenR : R.length = c.length + R2.length := by rw [hRe]; simp
        have hbc : ∀ j : Nat, j < c.length → rd8 path (p + (m + 1 : Nat) + j) = rd8 c j := by
          intro j hj
          have e : p + ((m + 1 : Nat) : Int) + (j : Int) = p + ((m + 1 + j : Nat) : Int) := by
            push_cast; omega
          rw [e, hrd _ (by omega), hPe, hRe, List.append_assoc]
          have := rd8_append_right (List.replicate (m + 1) (0x2f : UInt8)) (c ++ R2 ++ tail) j
          simp only [List.length_replicate] at this
          rw [this, List.append_assoc, rd8_append_left _ _ _ hj]
        have hbn : ∀ j : Nat, j < c.length → rd8 path (p + (m + 1 : Nat) + j) ≠ 0x2f := by
          intro j hj
          rw [hbc j hj]
          exact rd8_mem_ne c 0x2f hcs j hj
        have hb0 := hbn 0 (by omega)
        simp only [Nat.cast_zero, add_zero] at hb0
        rw [skip_slashes_stop path end_ (m + 1) _ p hsl (by omega) hb0 (by omega)]
        simp only []
        have hq : (memchr (rd8 path) 0x2f (end_ - (p + (m + 1 : Nat))).toNat
            (p + (m + 1 : Nat))).getD end_ = p + (m + 1 : Nat) + c.length := by
          rcases hR2 with rfl | hR2
          · rw [memchr_none _ _ _ _ (fun j hj => hbn j (by simp at hlenR; omega))]
            simp only [Option.getD_none]
            simp at hlenR
            omega
          · have hsl2 : rd8 path (p + (m + 1 : Nat) + c.length) = 0x2f := by
              have e : p + ((m + 1 : Nat) : Int) + (c.length : Int) =
                  p + ((m + 1 + c.length : Nat) : Int) := by push_cast; omega
              rw [e, hrd _ (by omega), hPe, hRe, List.append_assoc]
              have := rd8_append_right (List.replicate (m + 1) (0x2f : UInt8))
                (c ++ R2 ++ tail) c.length
              simp only [List.length_replicate] at this
              rw [this, List.append_assoc]
              have := rd8_append_right c (R2 ++ tail) 0
              simp only [Nat.add_zero, Nat.cast_zero] at this
              rw [this]
              cases R2 with
              | nil => simp at hR2
              | cons b R2 =>
                simp only [List.head?_cons, Option.some.injEq] at hR2
                subst hR2
                simp [rd8]
            have hR2len : 1 ≤ R2.length := by
              cases R2 with
              | nil => simp at hR2
              | cons b R2 => simp
            rw [memchr_first _ _ _ _ c.length (by omega) hsl2 hbn]
            rfl
        rw [hq]
        have hkey : fdt_subnode_offset_namelen F0 fdt offset
            (path.drop (p + (m + 1 : Nat)).toNat)
            (p + (m + 1 : Nat) + c.length - (p + (m + 1 : Nat))) =
            fdt_subnode_offset_namelen F0 fdt offset c c.length := by
          have e : p + ((m + 1 : Nat) : Int) + (c.length : Int) - (p + ((m + 1 : Nat) : Int)) =
              c.length := by omega
          rw [e]
          apply subnode_offset_congr
          intro i hi
          rw [rd8_drop path _ (by omega) i (by omega)]
          exact hbc i (by simpa using hi)
        have hsegs : path_segs P = c :: path_segs R2 := by
          rw [hPe, path_segs_slashes, hRe, path_segs_word c R2 hcne hcs hR2]
        rw [hkey, hsegs, resolve_segs]
        cases fdt_subnode_offset_namelen F0 fdt offset c c.length with
        | none => rfl
        | some o =>
          simp only []
          split_ifs with ho
          · rfl
          · apply ih R2 (p + (m + 1 : Nat) + c.length) o tail (by omega)
            · have e : (p + ((m + 1 : Nat) : Int) + (c.length : Int)).toNat =
                  p.toNat + (m + 1 + c.length) := by omega
              rw [e]
              apply drop_of_drop path p.toNat (m + 1 + c.length)
                (List.replicate (m + 1) 0x2f ++ c) (R2 ++ tail)
              · rw [hd, hPe, hRe]; simp
              · simp
            · omega
            · exact hR2
            · rw [hsegs] at hF
              simp only [List.length_cons] at hF
              omega

/-- On a blob that `fdt_ro_probe_` accepts, `fdt_path_offset_namelen` on a
path beginning with `/` looks up the names of the path one after the other,
starting from the root. -/
theorem path_offset_segs (fuel : Nat) (fdt : Blob) (hp : fdt_ro_probe_ fdt = 0)
    (P tail : List UInt8) (hP : P.head? = some 0x2f) (hF : (path_segs P).length ≤ fuel) :
    fdt_path_offset_namelen (fuel + 1) fdt (P ++ tail) P.length =
      resolve_segs (fuel + 1) fdt 0 (path_segs P) := by
  have h0 : rd8 (P ++ tail) 0 = 0x2f := by
    cases P with
    | nil => simp at hP
    | cons b P =>
      simp only [List.head?_cons, Option.some.injEq] at hP
      subst hP
      simp [rd8]
  rw [fdt_path_offset_namelen]
  simp only []
  rw [if_neg (by rw [hp]; simp), if_neg (by rw [h0]; simp)]
  exact path_loop_spec fdt (fuel + 1) (P ++ tail) P.length (fuel + 1) P 0 0 tail (le_refl _)
    (by simp) (by simp) (Or.inr hP) (by omega)

theorem segs_aux_run (k : Nat) (post : List UInt8) :
    ∀ (pre acc : List UInt8), segs_aux (pre ++ List.replicate (k + 1) 0x2f ++ post) acc =
      segs_aux (pre ++ 0x2f :: post) acc := by
  intro pre
  induction pre with
  | nil =>
    intro acc
    have h := path_segs_slashes k post
    unfold path_segs at h
    simp only [List.nil_append, List.replicate_succ, List.cons_append]
    rw [segs_aux, segs_aux, h]
    simp
  | cons b pre ih =>
    intro acc
    simp only [List.cons_append]
    rw [segs_aux, segs_aux, ih, ih]

theorem segs_aux_trail (k : Nat) :
    ∀ (path acc : List UInt8), segs_aux (path ++ List.replicate k 0x2f) acc =
      segs_aux path acc := by
  intro path
  induction path with
  | nil =>
    intro acc
    cases k with
    | zero => rfl
    | succ k =>
      have h := path_segs_slashes k []
      unfold path_segs at h
      simp only [List.append_nil] at h
      simp only [List.nil_append, List.replicate_succ]
      simp only [segs_aux, h, if_true]
  | cons b path ih =>
    intro acc
    simp only [List.cons_append]
    rw [segs_aux, segs_aux, ih, ih]

/-- C14: on a blob that `fdt_ro_probe_` accepts, for a path beginning with `/`
(given with its length, and with enough fuel for its names),
`fdt_path_offset_namelen` returns the same result when one `/` of the path is
replaced by a run of several `/`, and when `/` characters are appended at the
end; the paths `/`, `//` and so on resolve to offset 0. -/
theorem C14_slash_runs (fuel : Nat) (fdt : Blob) (hp : fdt_ro_probe_ fdt = 0) :
    (∀ (pre post tail tail2 : List UInt8) (k : Nat),
      (pre ++ 0x2f :: post).head? = some 0x2f →
      (path_segs (pre ++ 0x2f :: post)).length ≤ fuel →
      fdt_path_offset_namelen (fuel + 1) fdt
          (pre ++ List.replicate (k + 1) 0x2f ++ post ++ tail2)
          (pre ++ List.replicate (k + 1) 0x2f ++ post).length =
        fdt_path_offset_namelen (fuel + 1) fdt (pre ++ 0x2f :: post ++ tail)
          (pre ++ 0x2f :: post).length) ∧
    (∀ (path tail tail2 : List UInt8) (k : Nat),
      path.head? = some 0x2f → (path_segs path).length ≤ fuel →
      fdt_path_offset_namelen (fuel + 1) fdt (path ++ List.replicate k 0x2f ++ tail2)
          (path ++ List.replicate k 0x2f).length =
        fdt_path_offset_namelen (fuel + 1) fdt (path ++ tail) path.length) ∧
    (∀ (k : Nat) (tail : List UInt8),
      fdt_path_offset_namelen (fuel + 1) fdt (List.replicate (k + 1) 0x2f ++ tail)
        (List.replicate (k + 1) (0x2f : UInt8)).length = some 0) := by
  refine ⟨?_, ?_, ?_⟩
  · intro pre post tail tail2 k hh hF
    have hs : path_segs (pre ++ List.replicate (k + 1) 0x2f ++ post) =
        path_segs (pre ++ 0x2f :: post) := segs_aux_run k post pre []
    have hh2 : (pre ++ List.replicate (k + 1) 0x2f ++ post).head? = some 0x2f := by
      cases pre with
      | nil => simp [List.replicate_succ]
      | cons b pre => simpa using hh
    have e : pre ++ 0x2f :: post ++ tail = (pre ++ 0x2f :: post) ++ tail := by simp
    rw [path_offset_segs fuel fdt hp _ tail2 hh2 (by rw [hs]; exact hF), e,
      path_offset_segs fuel fdt hp _ tail hh hF, hs]
  · intro path tail tail2 k hh hF
    have hs : path_segs (path ++ List.replicate k 0x2f) = path_segs path :=
      segs_aux_trail k path []
    have hh2 : (path ++ List.replicate k 0x2f).head? = some 0x2f := by
      cases path with
      | nil => simp at hh
      | cons b path => simpa using hh
    rw [path_offset_segs fuel fdt hp _ tail2 hh2 (by rw [hs]; exact hF),
      path_offset_segs fuel fdt hp _ tail hh hF, hs]
  · intro k tail
    have hs : path_segs (List.replicate (k + 1) 0x2f) = [] := by
      have := path_segs_slashes (k + 1) []
      simpa using this
    have hh : (List.replicate (k + 1) (0x2f : UInt8)).head? = some 0x2f := by
      rw [List.replicate_succ]
      rfl
    rw [path_offset_segs fuel fdt hp (List.replicate (k + 1) 0x2f) tail hh
      (by rw [hs]; exact Nat.zero_le _), hs]
    rfl

theorem C14_slash_runs_witness :
    fdt_ro_probe_ blobTree = 0 ∧
    fdt_path_offset_namelen 10 blobTree [0x2f, 0x62] 2 = some 52 ∧
    fdt_path_offset_namelen 10 blobTree
        ([] ++ List.replicate (2 + 1) 0x2f ++ [0x62] ++ [])
        ([] ++ List.replicate (2 + 1) 0x2f ++ [0x62]).length =
      fdt_path_offset_namelen 10 blobTree ([] ++ 0x2f :: [0x62] ++ [])
        ([] ++ 0x2f :: [0x62]).length :=
  ⟨by decide, by decide,
    (C14_slash_runs 9 blobTree (by decide)).1 [] [0x62] [] [] 2 (by decide) (by decide)⟩

theorem next_node_loop_mono (fdt : Blob) :
    ∀ (f : Nat) (off : Int) (d : Option Int) (x : Int × Option Int),
      fdt_next_node_loop fdt f off d = some x →
      ∀ g, f ≤ g → fdt_next_node_loop fdt g off d = some x := by
  intro f
  induction f with
  | zero => intro off d x h; simp [fdt_next_node_loop] at h
  | succ f ih =>
    intro off d x h g hg
    obtain ⟨g', rfl⟩ : ∃ k, g = k + 1 := ⟨g - 1, by omega⟩
    rw [next_node_loop_succ] at h ⊢
    split_ifs at h ⊢ with h1 h2 h3 h4 h5
    · exact ih _ _ _ h g' (by omega)
    · exact h
    · cases d with
      | none => exact ih _ _ _ h g' (by omega)
      | some dd =>
        simp only [] at h ⊢
        split_ifs at h ⊢ with h6
        · exact h
        · exact ih _ _ _ h g' (by omega)
    · exact h
    · exact h
    · exact ih _ _ _ h g' (by omega)

theorem next_node_mono (fdt : Blob) (f g : Nat) (hfg : f ≤ g) (off : Int) (d : Option Int)
    (x : Int × Option Int) (h : fdt_next_node f fdt off d = some x) :
    fdt_next_node g fdt off d = some x := by
  unfold fdt_next_node at h ⊢
  split_ifs at h ⊢
  · exact h
  · exact next_node_loop_mono fdt f _ _ _ h g hfg
  · exact next_node_loop_mono fdt f _ _ _ h g hfg

theorem subnode_loop_mono (fdt : Blob) (name : List UInt8) (namelen : Int) (F0 G0 : Nat)
    (h0 : F0 ≤ G0) :
    ∀ (F : Nat) (o d r : Int),
      fdt_subnode_offset_namelen_loop F0 fdt name namelen F o d = some r →
      ∀ G, F ≤ G → fdt_subnode_offset_namelen_loop G0 fdt name namelen G o d = some r := by
  intro F
  induction F with
  | zero => intro o d r h; simp [fdt_subnode_offset_namelen_loop] at h
  | succ F ih =>
    intro o d r h G hG
    obtain ⟨G', rfl⟩ : ∃ k, G = k + 1 := ⟨G - 1, by omega⟩
    rw [fdt_subnode_offset_namelen_loop] at h ⊢
    split_ifs at h ⊢ with h1 h2 h3
    · exact h
    · cases hn : fdt_next_node F0 fdt o (some d) with
      | none => rw [hn] at h; simp at h
      | some x =>
        rw [hn] at h
        rw [next_node_mono fdt F0 G0 h0 o (some d) x hn]
        simp only [] at h ⊢
        exact ih _ _ _ h G' (by omega)
    · exact h
    · exact h

theorem subnode_offset_mono (fdt : Blob) (name : List UInt8) (namelen : Int) (F G : Nat)
    (hFG : F ≤ G) (o r : Int) (h : fdt_subnode_offset_namelen F fdt o name namelen = some r) :
    fdt_subnode_offset_namelen G fdt o name namelen = some r := by
  unfold fdt_subnode_offset_namelen at h ⊢
  split_ifs at h ⊢
  · exact h
  · exact subnode_loop_mono fdt name namelen F G hFG F o 0 r h G hFG

theorem resolve_segs_mono (fdt : Blob) (F G : Nat) (hFG : F ≤ G) :
    ∀ (segs : List (List UInt8)) (o r : Int), resolve_segs F fdt o segs = some r →
      resolve_segs G fdt o segs = some r := by
  intro segs
  induction segs with
  | nil => intro o r h; exact h
  | cons c cs ih =>
    intro o r h
    rw [resolve_segs] at h ⊢
    cases hs : fdt_subnode_offset_namelen F fdt o c c.length with
    | none => rw [hs] at h; simp at h
    | some o2 =>
      rw [hs] at h
      rw [subnode_offset_mono fdt c c.length F G hFG o o2 hs]
      simp only [] at h ⊢
      split_ifs at h ⊢
      · exact h
      · exact ih _ _ h

theorem subnode_offset_neg (fdt : Blob) (hp : fdt_ro_probe_ fdt = 0) (F : Nat) (hF : 1 ≤ F)
    (o : Int) (ho : o < 0) (name : List UInt8) (namelen : Int) :
    fdt_subnode_offset_namelen F fdt o name namelen = some o := by
  obtain ⟨F', rfl⟩ : ∃ k, F = k + 1 := ⟨F - 1, by omega⟩
  unfold fdt_subnode_offset_namelen
  rw [if_neg (by rw [hp]; simp), fdt_subnode_offset_namelen_loop, if_neg (by omega),
    if_neg (by omega)]

theorem resolve_segs_neg (fdt : Blob) (hp : fdt_ro_probe_ fdt = 0) (F : Nat) (hF : 1 ≤ F)
    (o : Int) (ho : o < 0) (segs : List (List UInt8)) : resolve_segs F fdt o segs = some o := by
  cases segs with
  | nil => rfl
  | cons c cs =>
    rw [resolve_segs, subnode_offset_neg fdt hp F hF o ho]
    simp only []
    rw [if_pos ho]

theorem resolve_segs_append (fdt : Blob) (hp : fdt_ro_probe_ fdt = 0) (F : Nat) (hF : 1 ≤ F) :
    ∀ (s1 s2 : List (List UInt8)) (o : Int),
      resolve_segs F fdt o (s1 ++ s2) =
        (resolve_segs F fdt o s1).bind fun o2 => resolve_segs F fdt o2 s2 := by
  intro s1
  induction s1 with
  | nil => intro s2 o; rfl
  | cons c cs ih =>
    intro s2 o
    rw [List.cons_append, resolve_segs, resolve_segs]
    cases hs : fdt_subnode_offset_namelen F fdt o c c.length with
    | none => rfl
    | some o2 =>
      simp only []
      split_ifs with h
      · exact (resolve_segs_neg fdt hp F hF o2 h s2).symm
      · exact ih s2 o2

theorem segs_aux_append (rest : List UInt8) (hr : rest = [] ∨ rest.head? = some 0x2f) :
    ∀ (v acc : List UInt8), segs_aux (v ++ rest) acc = segs_aux v acc ++ segs_aux rest [] := by
  intro v
  induction v with
  | nil =>
    intro acc
    rcases hr with rfl | hr
    · simp [segs_aux]
    · cases rest with
      | nil => simp at hr
      | cons b R =>
        simp only [List.head?_cons, Option.some.injEq] at hr
        subst hr
        simp only [List.nil_append, segs_aux, if_true]
        split_ifs <;> simp
  | cons b v ih =>
    intro acc
    rw [List.cons_append, segs_aux, segs_aux, ih, ih]
    split_ifs <;> simp

theorem path_segs_append (v rest : List UInt8) (hr : rest = [] ∨ rest.head? = some 0x2f) :
    path_segs (v ++ rest) = path_segs v ++ path_segs rest :=
  segs_aux_append rest hr v []

theorem string_eq_congr (fdt : Blob) (so : Int) (s s2 : List UInt8) (len : Int)
    (h : ∀ i : Nat, i < len.toNat → rd8 s i = rd8 s2 i) :
    fdt_string_eq_ fdt so s len = fdt_string_eq_ fdt so s2 len := by
  unfold fdt_string_eq_
  rcases fdt_get_string fdt so with ⟨_ | p, slen⟩
  · rfl
  · simp only []
    rw [memeq_congr (rd8 fdt) (rd8 s) (rd8 s2) p 0 len.toNat (by simpa using h)]

theorem get_property_loop_congr (F0 : Nat) (fdt : Blob) (s s2 : List UInt8) (len : Int)
    (h : ∀ i : Nat, i < len.toNat → rd8 s i = rd8 s2 i) :
    ∀ (F : Nat) (o : Int), fdt_get_property_namelen_loop F0 fdt s len F o =
      fdt_get_property_namelen_loop F0 fdt s2 len F o := by
  intro F
  induction F with
  | zero => intro o; rfl
  | succ F ih =>
    intro o
    rw [fdt_get_property_namelen_loop, fdt_get_property_namelen_loop]
    split_ifs
    · rcases fdt_get_property_by_offset_ fdt o with ⟨_ | prop, l⟩
      · rfl
      · simp only []
        rw [string_eq_congr fdt _ s s2 len h]
        split_ifs
        · rfl
        · cases fdt_next_property_offset F0 fdt o with
          | none => rfl
          | some o2 => exact ih o2
    · rfl

/-- The property lookup reads only the first `namelen` bytes of the name. -/
theorem getprop_namelen_congr (F : Nat) (fdt : Blob) (n : Int) (s s2 : List UInt8) (len : Int)
    (h : ∀ i : Nat, i < len.toNat → rd8 s i = rd8 s2 i) :
    fdt_getprop_namelen F fdt n s len = fdt_getprop_namelen F fdt n s2 len := by
  unfold fdt_getprop_namelen fdt_get_property_namelen_
  cases fdt_first_property_offset F fdt n with
  | none => rfl
  | some o => simp only []; rw [get_property_loop_congr F fdt s s2 len h F o]

/-- The alias branch of `fdt_path_offset_namelen` on the path `a ++ rest`,
whose first name is `a`. -/
theorem alias_path_unfold (G : Nat) (fdt : Blob) (hp : fdt_ro_probe_ fdt = 0)
    (a rest : List UInt8) (hne : a ≠ [] ∨ rest = []) (ha : (0x2f : UInt8) ∉ a)
    (hr : rest = [] ∨ rest.head? = some 0x2f) :
    fdt_path_offset_namelen (G + 1) fdt (a ++ rest) (a ++ rest).length =
      match fdt_path_offset_namelen G fdt str_aliases (i32 (strlen str_aliases 0)) with
      | none => none
      | some aliasoffset =>
        if aliasoffset < 0 then some (-FDT_ERR_BADPATH)
        else
          match fdt_getprop_namelen (G + 1) fdt aliasoffset a a.length with
          | none => none
          | some (none, _) => some (-FDT_ERR_BADPATH)
          | some (some p, _) =>
            match fdt_path_offset_namelen G fdt (fdt.drop p.toNat)
                (i32 (strlen (fdt.drop p.toNat) 0)) with
            | none => none
            | some offset =>
              fdt_path_offset_namelen_loop (G + 1) fdt (a ++ rest) (a ++ rest).length
                (G + 1) a.length offset := by
  have hbn : ∀ j : Nat, j < a.length → rd8 (a ++ rest) ((0 : Int) + j) ≠ 0x2f := by
    intro j hj
    rw [zero_add, rd8_append_left _ _ _ hj]
    exact rd8_mem_ne a 0x2f ha j hj
  have h0 : rd8 (a ++ rest) 0 ≠ 0x2f := by
    rcases hne with hne | rfl
    · have hl : 0 < a.length := List.length_pos.mpr hne
      have := hbn 0 hl
      simpa using this
    · by_cases hl : 0 < a.length
      · have := hbn 0 hl
        simpa using this
      · have : a = [] := List.length_eq_zero.mp (by omega)
        subst this
        simp [rd8]
  have hq : (memchr (rd8 (a ++ rest)) 0x2f (((a ++ rest).length : Int)).toNat 0).getD
      ((a ++ rest).length : Int) = a.length := by
    rw [Int.toNat_ofNat]
    rcases hr with rfl | hr
    · rw [memchr_none _ _ _ _ (fun j hj => hbn j (by simpa using hj))]
      simp
    · cases rest with
      | nil => simp at hr
      | cons b R =>
        simp only [List.head?_cons, Option.some.injEq] at hr
        subst hr
        have hsl : rd8 (a ++ 0x2f :: R) ((0 : Int) + a.length) = 0x2f := by
          rw [zero_add]
          have := rd8_append_right a (0x2f :: R) 0
          simp only [Nat.add_zero, Nat.cast_zero] at this
          rw [this]
          simp [rd8]
        rw [memchr_first _ _ _ _ a.length (by simp) hsl hbn]
        simp
  have hc : ∀ ao, fdt_getprop_namelen (G + 1) fdt ao (a ++ rest) a.length =
      fdt_getprop_namelen (G + 1) fdt ao a a.length := by
    intro ao
    apply getprop_namelen_congr
    intro i hi
    exact rd8_append_left _ _ _ (by simpa using hi)
  rw [fdt_path_offset_namelen]
  simp only []
  rw [if_neg (by rw [hp]; simp), if_pos h0, hq]
  cases fdt_path_offset_namelen G fdt str_aliases (i32 (strlen str_aliases 0)) with
  | none => rfl
  | some ao =>
    simp only [hc ao]

theorem cstr_drop_zero (fdt : Blob) (p : Int) : cstr (fdt.drop p.toNat) 0 = cstr fdt p := by
  unfold cstr
  simp

theorem cstr_prefix (fdt : Blob) (p : Int) : cstr fdt p <+: fdt.drop p.toNat := by
  unfold cstr
  exact List.takeWhile_prefix _

/-- A property value `v ++ [0]` with `v` NUL-free holds the C string `v`. -/
theorem cstr_of_value (fdt : Blob) (p : Int) (hp : 0 ≤ p) (n : Nat) (v : List UInt8)
    (hv : bytes_at fdt p n = v ++ [0]) (hv0 : (0 : UInt8) ∉ v) : cstr fdt p = v := by
  have hn : n = v.length + 1 := by
    have := congrArg List.length hv
    rw [bytes_at_length] at this
    simpa using this
  subst hn
  rw [bytes_at_split fdt p hp v.length 1] at hv
  have h1 := List.append_inj hv (by rw [bytes_at_length])
  have hz : rd8 fdt (p + v.length) = 0 := by
    have := rd8_bytes_at fdt (p + v.length) (by omega) 1 0 (by omega)
    rw [h1.2] at this
    simp only [Nat.cast_zero, add_zero] at this
    rw [← this]
    simp [rd8]
  rw [← h1.1] at hv0
  rw [cstr_of_bytes fdt p hp v.length hv0 hz, h1.1]

theorem path_offset_cstr (G : Nat) (fdt : Blob) (path : List UInt8) (h0 : (0 : UInt8) ∉ path)
    (hl : (path.length : Int) < INT_MAX) :
    fdt_path_offset G fdt path = fdt_path_offset_namelen G fdt path path.length := by
  unfold fdt_path_offset strlen
  rw [cstr_self path h0, i32_small _ (by omega) (by omega)]

/-- C15, as stated, fails for a property whose name is empty or contains `/`:
in `blobAlias` the node `/aliases` has the properties `""` and `"n/m"`, both
with the value `"/x"`, but `"" ++ "/y"` is the path `/y`, which names no node
while `/x/y` does, and the path `n/m` goes through the alias `n` to the
missing node `/x/m` while `/x` exists. -/
theorem C15_counterexample :
    fdt_check_full specSizes 20 blobAlias (fdt_totalsize blobAlias) = some 0 ∧
    fdt_ro_probe_ blobAlias = 0 ∧ fdt_path_offset 10 blobAlias str_aliases = some 8 ∧
    (fdt_getprop 10 blobAlias 8 [] = some (some 112, 3) ∧
      bytes_at blobAlias 112 3 = [0x2f, 0x78] ++ [0] ∧
      fdt_path_offset 10 blobAlias ([] ++ [0x2f, 0x79]) = some (-FDT_ERR_NOTFOUND) ∧
      fdt_path_offset 10 blobAlias ([0x2f, 0x78] ++ [0x2f, 0x79]) = some 80) ∧
    (fdt_getprop 10 blobAlias 8 [0x6e, 0x2f, 0x6d] = some (some 128, 3) ∧
      bytes_at blobAlias 128 3 = [0x2f, 0x78] ++ [0] ∧
      fdt_path_offset 10 blobAlias ([0x6e, 0x2f, 0x6d] ++ []) = some (-FDT_ERR_NOTFOUND) ∧
      fdt_path_offset 10 blobAlias ([0x2f, 0x78] ++ []) = some 72) := by
  refine ⟨by decide, by decide, by decide, ⟨by decide, by decide, by decide, by decide⟩,
    by decide, by decide, by decide, by decide⟩

/-- C15, amended: on a blob that `fdt_ro_probe_` accepts, let the lookup of
`/aliases` return `ao`, let `a` be a NUL-free name without `/` and `rest` a
NUL-free string that is empty or begins with `/`, and let `a` be non-empty or
`rest` empty.  If `ao` is a node and `fdt_getprop` finds the property `a`
there with the value `v` followed by NUL, `v` a NUL-free path beginning with
`/`, then `fdt_path_offset (a ++ rest)` and `fdt_path_offset (v ++ rest)` give
the same result: what the second returns with the fuel `G` the first returns
with `G + 1`, and what the first returns with `G + 1` the second returns with
`G + 1`.  The result of `a ++ rest` is `-BADPATH` when `ao` is negative (no
node `/aliases`) and when `fdt_getprop` finds no property `a` at `ao`. -/
theorem C15_alias_path (G : Nat) (fdt : Blob) (hp : fdt_ro_probe_ fdt = 0)
    (a rest : List UInt8) (ha : (0x2f : UInt8) ∉ a) (ha0 : (0 : UInt8) ∉ a)
    (hr0 : (0 : UInt8) ∉ rest) (hr : rest = [] ∨ rest.head? = some 0x2f)
    (hlen : ((a ++ rest).length : Int) < INT_MAX)
    (ao : Int) (hal : fdt_path_offset G fdt str_aliases = some ao) :
    (∀ (v : List UInt8) (p L : Int), (a ≠ [] ∨ rest = []) → 0 ≤ ao →
      fdt_getprop (G + 1) fdt ao a = some (some p, L) →
      bytes_at fdt p L.toNat = v ++ [0] → (0 : UInt8) ∉ v → v.head? = some 0x2f →
      ((v ++ rest).length : Int) < INT_MAX → (path_segs (v ++ rest)).length < G →
      ∀ r, (fdt_path_offset G fdt (v ++ rest) = some r →
          fdt_path_offset (G + 1) fdt (a ++ rest) = some r) ∧
        (fdt_path_offset (G + 1) fdt (a ++ rest) = some r →
          fdt_path_offset (G + 1) fdt (v ++ rest) = some r)) ∧
    ((a ≠ [] ∨ rest = []) →
      (ao < 0 → fdt_path_offset (G + 1) fdt (a ++ rest) = some (-FDT_ERR_BADPATH)) ∧
      (∀ e, fdt_getprop (G + 1) fdt ao a = some (none, e) →
        fdt_path_offset (G + 1) fdt (a ++ rest) = some (-FDT_ERR_BADPATH))) := by
  have hpath0 : (0 : UInt8) ∉ a ++ rest := by
    simp only [List.mem_append, not_or]
    exact ⟨ha0, hr0⟩
  have halen : (a.length : Int) < INT_MAX := by
    simp only [List.length_append] at hlen
    push_cast at hlen
    omega
  have hgp : fdt_getprop (G + 1) fdt ao a = fdt_getprop_namelen (G + 1) fdt ao a a.length := by
    unfold fdt_getprop strlen
    rw [cstr_self a ha0, i32_small _ (by omega) (by omega)]
  have hal2 : fdt_path_offset_namelen G fdt str_aliases (i32 (strlen str_aliases 0)) =
      some ao := hal
  constructor
  · intro v p L hne hao hg hval hv0 hvh hvlen hsegs r
    rw [hgp] at hg
    obtain ⟨k1, _⟩ := getprop_namelen_result (G + 1) fdt ao a _ _ hg
    obtain ⟨po, a1, a2, _⟩ := k1 p rfl
    have hp0 : 0 ≤ p := by
      rw [a2]
      exact prop_data_nonneg fdt po (check_prop_offset_facts fdt po a1).1
    have hcs : cstr fdt p = v := cstr_of_value fdt p hp0 _ v hval hv0
    obtain ⟨tail, ht⟩ : v <+: fdt.drop p.toNat := by
      rw [← hcs]
      exact cstr_prefix fdt p
    have hvl : (v.length : Int) < INT_MAX := by
      simp only [List.length_append] at hvlen
      push_cast at hvlen
      omega
    have hsl : i32 (strlen (fdt.drop p.toNat) 0) = v.length := by
      unfold strlen
      rw [cstr_drop_zero, hcs, i32_small _ (by omega) (by omega)]
    have hps : path_segs (v ++ rest) = path_segs v ++ path_segs rest :=
      path_segs_append v rest hr
    rw [hps, List.length_append] at hsegs
    obtain ⟨G1, rfl⟩ : ∃ k, G = k + 1 := ⟨G - 1, by omega⟩
    have hvh2 : (v ++ rest).head? = some 0x2f := by
      cases v with
      | nil => simp at hvh
      | cons b v => simpa using hvh
    -- the alias path
    have hL : fdt_path_offset (G1 + 1 + 1) fdt (a ++ rest) =
        (resolve_segs (G1 + 1) fdt 0 (path_segs v)).bind fun o =>
          resolve_segs (G1 + 1 + 1) fdt o (path_segs rest) := by
      rw [path_offset_cstr _ fdt _ hpath0 hlen,
        alias_path_unfold (G1 + 1) fdt hp a rest hne ha hr, hal2]
      simp only []
      rw [if_neg (by omega), hg]
      simp only []
      rw [hsl, ← ht, path_offset_segs G1 fdt hp v tail hvh (by omega)]
      cases resolve_segs (G1 + 1) fdt 0 (path_segs v) with
      | none => rfl
      | some o =>
        simp only [Option.some_bind]
        have e : (a ++ rest).drop ((a.length : Int)).toNat = rest ++ [] := by simp
        exact path_loop_spec fdt (G1 + 1 + 1) (a ++ rest) _ (G1 + 1 + 1) rest a.length o []
          (by omega) e (by simp) hr (by omega)
    -- the expanded path
    have hR : ∀ H, G1 ≤ H → fdt_path_offset (H + 1) fdt (v ++ rest) =
        (resolve_segs (H + 1) fdt 0 (path_segs v)).bind fun o =>
          resolve_segs (H + 1) fdt o (path_segs rest) := by
      intro H hH
      have := path_offset_segs H fdt hp (v ++ rest) [] hvh2
        (by rw [hps, List.length_append]; omega)
      rw [List.append_nil] at this
      rw [path_offset_cstr _ fdt _ (by
        simp only [List.mem_append, not_or]; exact ⟨hv0, hr0⟩) hvlen, this, hps,
        resolve_segs_append fdt hp (H + 1) (by omega)]
    rw [hL, hR G1 (le_refl _), hR (G1 + 1) (by omega)]
    constructor
    · intro h
      cases h1 : resolve_segs (G1 + 1) fdt 0 (path_segs v) with
      | none => rw [h1] at h; simp at h
      | some o =>
        rw [h1] at h
        simp only [Option.some_bind] at h ⊢
        exact resolve_segs_mono fdt (G1 + 1) (G1 + 1 + 1) (by omega) _ _ _ h
    · intro h
      cases h1 : resolve_segs (G1 + 1) fdt 0 (path_segs v) with
      | none => rw [h1] at h; simp at h
      | some o =>
        rw [h1] at h
        rw [resolve_segs_mono fdt (G1 + 1) (G1 + 1 + 1) (by omega) _ _ _ h1]
        exact h
  · intro hne
    have hu := alias_path_unfold G fdt hp a rest hne ha hr
    rw [hal2] at hu
    simp only [] at hu
    rw [path_offset_cstr _ fdt _ hpath0 hlen, hu]
    constructor
    · intro hao
      rw [if_pos hao]
    · intro e hg
      rw [hgp] at hg
      rw [hg]
      simp only []
      split_ifs <;> rfl

theorem C15_alias_path_witness :
    fdt_path_offset 9 blobAlias str_aliases = some 8 ∧
    fdt_getprop 10 blobAlias 8 [0x6e] = some (some 96, 3) ∧
    fdt_path_offset 9 blobAlias ([0x2f, 0x78] ++ [0x2f, 0x79]) = some 80 ∧
    fdt_path_offset 10 blobAlias ([0x6e] ++ [0x2f, 0x79]) = some 80 ∧
    fdt_getprop 10 blobAlias 8 [] = some (some 112, 3) ∧
    fdt_path_offset 9 blobAlias ([0x2f, 0x78] ++ []) = some 72 ∧
    fdt_path_offset 10 blobAlias ([] ++ []) = some 72 :=
  ⟨by decide, by decide, by decide,
    (((C15_alias_path 9 blobAlias (by decide) [0x6e] [0x2f, 0x79] (by decide) (by decide)
      (by decide) (by decide) (by decide) 8 (by decide)).1 [0x2f, 0x78] 96 3
      (Or.inl (by decide))
      (by decide) (by decide) (by decide) (by decide) (by decide) (by decide) (by decide)
      80).1 (by decide)),
    by decide, by decide,
    (((C15_alias_path 9 blobAlias (by decide) [] [] (by decide) (by decide)
      (by decide) (by decide) (by decide) 8 (by decide)).1 [0x2f, 0x78] 112 3
      (Or.inr rfl)
      (by decide) (by decide) (by decide) (by decide) (by decide) (by decide) (by decide)
      72).1 (by decide))⟩

/-- C30: a header accepted by `fdt_check_header` has `totalsize <= INT_MAX`;
with `totalsize <= INT_MAX`, `fdt_offset_ptr` returns null for every negative
`int` offset and every `unsigned` length, and every pointer it returns for an
`int` offset is at or after the start of the structure block. -/
theorem C30_offset_ptr_negative (fdt : Blob) :
    (∀ sz, fdt_check_header sz fdt = 0 → fdt_totalsize fdt ≤ INT_MAX) ∧
    (fdt_totalsize fdt ≤ INT_MAX →
      (∀ offset len, -2147483648 ≤ offset → offset < 0 → 0 ≤ len → len < 4294967296 →
        fdt_offset_ptr fdt offset len = none) ∧
      (∀ offset len p, -2147483648 ≤ offset → offset ≤ INT_MAX → 0 ≤ len → len < 4294967296 →
        fdt_offset_ptr fdt offset len = some p → fdt_off_dt_struct fdt ≤ p)) := by
  obtain ⟨b1, b2, b3⟩ := hdr_bounds fdt
  constructor
  · intro sz hh
    unfold fdt_check_header at hh
    simp only [] at hh
    split_ifs at hh with c1 c2 c3 c4
    all_goals first
      | exact absurd hh (by decide)
      | omega
  · intro ht
    unfold INT_MAX at ht
    constructor
    · intro offset len h1 h2 h3 h4
      unfold fdt_offset_ptr u32
      simp only []
      rw [if_pos (by omega)]
    · intro offset len p h1 h2 h3 h4 h
      unfold INT_MAX at h2
      unfold fdt_offset_ptr fdt_offset_ptr_ u32 at h
      simp only [] at h
      split_ifs at h with ha hb
      simp only [Option.some.injEq] at h
      omega

theorem C30_offset_ptr_negative_witness :
    fdt_check_header specSizes blobMin = 0 ∧ fdt_totalsize blobMin ≤ INT_MAX ∧
    fdt_offset_ptr blobMin (-4) 4 = none :=
  ⟨by decide, (C30_offset_ptr_negative blobMin).1 specSizes (by decide),
    ((C30_offset_ptr_negative blobMin).2 (by decide)).1 (-4) 4 (by decide) (by decide)
      (by decide) (by decide)⟩

/-- C21, the code at the failing input: `blobMin` (80 bytes) is accepted by
`fdt_ro_probe_`, and with `bufsize = -1` the comparison
`fdt_totalsize(fdt) > bufsize` is made in `unsigned`, where `-1` is
`0xffffffff`: `fdt_move` returns 0 and writes the 80 bytes of the blob over a
4-byte destination.  With `bufsize = 79` it returns `-NOSPACE` and leaves the
destination as it is, with `bufsize = 80` it copies; `fdt_get_path` answers a
negative `buflen` with `-NOSPACE`. -/
theorem C21_move_negative_bufsize :
    fdt_ro_probe_ blobMin = 0 ∧ fdt_totalsize blobMin = 80 ∧
    fdt_move blobMin [1, 2, 3, 4] (-1) = (0, blobMin) ∧
    fdt_move blobMin [1, 2, 3, 4] 79 = (-FDT_ERR_NOSPACE, [1, 2, 3, 4]) ∧
    fdt_move blobMin (List.replicate 82 7) 80 = (0, blobMin ++ [7, 7]) ∧
    fdt_get_path 10 blobMin 0 [1, 2, 3, 4] (-1) = some (-FDT_ERR_NOSPACE, [1, 2, 3, 4]) := by
  refine ⟨by decide, by decide, by decide, by decide, by decide, by decide⟩

/-- C22, the code at the failing input: `blobSW` has the sequential-write
magic, is accepted by `fdt_ro_probe_` and has `size_dt_strings = 0`, so no
`stroff` satisfies `-size_dt_strings <= stroff < 0`; but the test
`stroffset < -fdt_size_dt_strings(fdt)` is made in `unsigned`, where
`-0 = 0`, and never fails: for `stroff = -2` and `stroff = -16`
`fdt_get_string` returns a string outside the strings block (the second one
at the start of the structure block). -/
theorem C22_sw_string_outside_block :
    fdt_magic blobSW = FDT_SW_MAGIC ∧ fdt_ro_probe_ blobSW = 0 ∧
    fdt_size_dt_strings blobSW = 0 ∧ fdt_off_dt_strings blobSW = 80 ∧
    fdt_get_string blobSW (-2) = (some 78, 0) ∧
    fdt_get_string blobSW (-16) = (some 64, 0) ∧ fdt_off_dt_struct blobSW = 64 := by
  refine ⟨by decide, by decide, by decide, by decide, by decide, by decide, by decide⟩

theorem i32_succ (x : Int) : i32 (i32 x + 1) = i32 (x + 1) := by
  unfold i32; omega

/-- The name loop of `fdt_next_tag` ends with a null pointer when the name
bytes inside the structure block are all non-NUL. -/
theorem skip_name_none (fdt : Blob) (o : Int) (k : Nat)
    (hname : ∀ i : Nat, i < k → (fdt_offset_ptr fdt (i32 (o + i)) 1).isSome ∧
      rd8 fdt (fdt_offset_ptr_ fdt (i32 (o + i))) ≠ 0)
    (hend : fdt_offset_ptr fdt (i32 (o + k)) 1 = none) :
    ∀ (fuel j : Nat), j ≤ k → skip_name fdt fuel (i32 (o + j)) = none := by
  intro fuel
  induction fuel with
  | zero => intro j _; rfl
  | succ fuel ih =>
    intro j hj
    rw [skip_name]
    by_cases hjk : j = k
    · rw [hjk, hend]
    · obtain ⟨h1, h2⟩ := hname j (by omega)
      cases hp : fdt_offset_ptr fdt (i32 (o + j)) 1 with
      | none => rfl
      | some p =>
        have hpe : p = fdt_offset_ptr_ fdt (i32 (o + j)) := by
          unfold fdt_offset_ptr at hp
          simp only [] at hp
          split_ifs at hp
          simp only [Option.some.injEq] at hp
          exact hp.symm
        simp only []
        rw [hpe, if_pos h2, i32_succ]
        have e : o + (j : Int) + 1 = o + ((j + 1 : Nat) : Int) := by push_cast; omega
        rw [e]
        exact ih (j + 1) (by omega)

/-- C23, as stated, fails: in `blobCut` the tag at offset 0 is `BEGIN_NODE`
and the structure block ends after the four name bytes `abcd`, none of them
NUL; `fdt_next_tag` returns `END` with the next offset `-BADSTRUCTURE`, not
`-TRUNCATED`. -/
theorem C23_counterexample :
    fdt_offset_ptr blobCut 0 FDT_TAGSIZE = some 64 ∧ fdt32_ld blobCut 64 = FDT_BEGIN_NODE ∧
    bytes_at blobCut 68 4 = [0x61, 0x62, 0x63, 0x64] ∧ fdt_size_dt_struct blobCut = 8 ∧
    fdt_offset_ptr blobCut 8 1 = none ∧
    fdt_next_tag blobCut 0 = (FDT_END, -FDT_ERR_BADSTRUCTURE) ∧
    fdt_next_tag blobCut 0 ≠ (FDT_END, -FDT_ERR_TRUNCATED) := by
  refine ⟨by decide, by decide, by decide, by decide, by decide, by decide, by decide⟩

/-- C23, amended: when the tag word at `s` is inside the structure block and
holds `BEGIN_NODE`, the first `k` name bytes (at the offsets `s + 4 + i`) are
inside the structure block and not NUL, and the byte after them is outside
(`fdt_offset_ptr` returns null for it), `fdt_next_tag` returns the tag `END`
and sets the next offset to `-BADSTRUCTURE`. -/
theorem C23_begin_node_name_cut (fdt : Blob) (s tagp : Int) (k : Nat)
    (htag : fdt_offset_ptr fdt s FDT_TAGSIZE = some tagp)
    (hbeg : fdt32_ld fdt tagp = FDT_BEGIN_NODE)
    (hname : ∀ i : Nat, i < k → (fdt_offset_ptr fdt (i32 (s + 4 + i)) 1).isSome ∧
      rd8 fdt (fdt_offset_ptr_ fdt (i32 (s + 4 + i))) ≠ 0)
    (hend : fdt_offset_ptr fdt (i32 (s + 4 + k)) 1 = none) :
    fdt_next_tag fdt s = (FDT_END, -FDT_ERR_BADSTRUCTURE) := by
  have e4 : ∀ i : Nat, i32 (i32 (s + FDT_TAGSIZE) + i) = i32 (s + 4 + i) := by
    intro i
    unfold i32 FDT_TAGSIZE
    omega
  have hskip := skip_name_none fdt (i32 (s + FDT_TAGSIZE)) k
    (fun i hi => by rw [e4]; exact hname i hi) (by rw [e4]; exact hend)
    ((fdt_totalsize fdt).toNat + 1) 0 (Nat.zero_le _)
  have e0 : i32 (i32 (s + FDT_TAGSIZE) + ((0 : Nat) : Int)) = i32 (s + FDT_TAGSIZE) := by
    unfold i32
    omega
  rw [e0] at hskip
  unfold fdt_next_tag
  rw [htag]
  simp only []
  unfold next_tag_payload
  rw [hbeg, if_pos rfl, hskip]

theorem C23_begin_node_name_cut_witness :
    fdt_next_tag blobCut 0 = (FDT_END, -FDT_ERR_BADSTRUCTURE) :=
  C23_begin_node_name_cut blobCut 0 64 4 (by decide) (by decide) (by decide) (by decide)

/-- C24, the code at the failing input: in `blobLoop`, accepted by
`fdt_check_header`, the property at offset 8 has the length field
`0xfffffff4`.  The claim's exact value for the next offset is
`8 + 4 + 8 + 0xfffffff4 = 0x100000008`; `fdt_next_tag` adds
`sizeof(struct fdt_property) - FDT_TAGSIZE + len` to the `int` offset, which
wraps to 8, and returns the tag `PROP` with the next offset 8. -/
theorem C24_prop_length_wraps :
    fdt_check_header specSizes blobLoop = 0 ∧ fdt_version blobLoop = 17 ∧
    fdt32_ld blobLoop (fdt_offset_ptr_ blobLoop 8 + 4) = 0xfffffff4 ∧
    fdt_next_tag blobLoop 8 = (FDT_PROP, 8) ∧
    (8 : Int) + 4 + 8 + fdt32_ld blobLoop (fdt_offset_ptr_ blobLoop 8 + 4) + 0 = 4294967304 ∧
    (fdt_next_tag blobLoop 8).2 ≠ 4294967304 := by
  refine ⟨by decide, by decide, by decide, by decide, by decide, by decide⟩

/-- C29, the code at the failing input: for the property at offset 8 of
`blobLoop`, accepted by `fdt_check_header`, `fdt_getprop_by_offset` returns a
non-null value pointer (with or without the name) and writes the length
`-12`, the stored `0xfffffff4` read as an `int`. -/
theorem C29_negative_length :
    fdt_check_header specSizes blobLoop = 0 ∧
    fdt_getprop_by_offset blobLoop 8 true = (some 84, some 92, -12) ∧
    fdt_getprop_by_offset blobLoop 8 false = (some 84, none, -12) ∧
    fdt_check_prop_offset_ blobLoop 8 = 8 := by
  refine ⟨by decide, by decide, by decide, by decide⟩

theorem check_full_loop_succ (fdt : Blob) (fuel : Nat) (nextoffset depth : Int) :
    fdt_check_full_loop fdt (fuel + 1) nextoffset depth =
      if (fdt_next_tag fdt nextoffset).2 < 0 then some (fdt_next_tag fdt nextoffset).2
      else if (fdt_next_tag fdt nextoffset).1 = FDT_NOP then
        fdt_check_full_loop fdt fuel (fdt_next_tag fdt nextoffset).2 depth
      else if (fdt_next_tag fdt nextoffset).1 = FDT_END then
        if depth ≠ 0 then some (-FDT_ERR_BADSTRUCTURE) else some 0
      else if (fdt_next_tag fdt nextoffset).1 = FDT_BEGIN_NODE then
        if u32 (depth + 1) > INT_MAX then some (-FDT_ERR_BADSTRUCTURE)
        else fdt_check_full_loop fdt fuel (fdt_next_tag fdt nextoffset).2 (u32 (depth + 1))
      else if (fdt_next_tag fdt nextoffset).1 = FDT_END_NODE then
        if depth = 0 then some (-FDT_ERR_BADSTRUCTURE)
        else fdt_check_full_loop fdt fuel (fdt_next_tag fdt nextoffset).2 (u32 (depth - 1))
      else if (fdt_next_tag fdt nextoffset).1 = FDT_PROP then
        match fdt_getprop_by_offset fdt nextoffset true with
        | (none, _, err) => some err
        | (some _, _, _) => fdt_check_full_loop fdt fuel (fdt_next_tag fdt nextoffset).2 depth
      else some (-FDT_ERR_INTERNAL) := rfl

/-- C28, the code at the failing input: `blobLoop` is accepted by
`fdt_check_header`; at the property at offset 8 `fdt_next_tag` reports the
next offset 8, which is not greater than the start offset, and
`fdt_next_property_offset` answers 8 with 8.  The loops that walk the tags
never leave this offset: for every amount of fuel `fdt_next_node` from the
root, `fdt_check_full` and the lookup of a property other than `p` run out
of it. -/
theorem C28_walk_stalls :
    fdt_check_header specSizes blobLoop = 0 ∧ fdt_next_tag blobLoop 8 = (FDT_PROP, 8) ∧
    fdt_next_property_offset 5 blobLoop 8 = some 8 ∧
    (∀ fuel depth, fdt_next_node fuel blobLoop 0 depth = none) ∧
    (∀ fuel, fdt_check_full specSizes fuel blobLoop (fdt_totalsize blobLoop) = none) ∧
    (∀ fuel, fdt_getprop fuel blobLoop 0 [0x78] = none) := by
  have ht : fdt_next_tag blobLoop 8 = (FDT_PROP, 8) := by decide
  have ht0 : fdt_next_tag blobLoop 0 = (FDT_BEGIN_NODE, 8) := by decide
  refine ⟨by decide, ht, by decide, ?_, ?_, ?_⟩
  · intro fuel depth
    have hloop : ∀ f : Nat, fdt_next_node_loop blobLoop f 8 depth = none := by
      intro f
      induction f with
      | zero => rfl
      | succ f ih =>
        rw [next_node_loop_succ, ht]
        simp only []
        rw [if_pos (Or.inl trivial)]
        exact ih
    have hc : fdt_check_node_offset_ blobLoop 0 = 8 := by decide
    unfold fdt_next_node
    rw [if_pos (le_refl _), hc, if_neg (by decide)]
    exact hloop fuel
  · intro fuel
    have hloop : ∀ f : Nat, fdt_check_full_loop blobLoop f 8 1 = none := by
      intro f
      induction f with
      | zero => rfl
      | succ f ih =>
        have hg : fdt_getprop_by_offset blobLoop 8 true = (some 84, some 92, -12) := by decide
        rw [check_full_loop_succ, ht, hg]
        simp only []
        rw [if_pos trivial]
        exact ih
    cases fuel with
    | zero => rfl
    | succ f =>
      have hh : fdt_check_header specSizes blobLoop = 0 := by decide
      have hn : fdt_num_mem_rsv (f + 1) blobLoop = some 0 := by
        have hm : fdt_mem_rsv blobLoop 0 = some 48 := by decide
        unfold fdt_num_mem_rsv
        rw [num_mem_rsv_loop_succ, hm]
        simp only []
        rw [if_pos (by decide)]
      unfold fdt_check_full
      rw [if_neg (by decide), hh, if_neg (by decide), if_neg (by decide), hn]
      simp only []
      rw [if_neg (by decide), check_full_loop_succ, ht0]
      simp only []
      have hu : u32 (0 + 1) = 1 := by decide
      rw [if_pos trivial, if_neg (by decide), hu]
      exact hloop f
  · intro fuel
    cases fuel with
    | zero => rfl
    | succ F =>
      have hnp : fdt_next_property_offset (F + 1) blobLoop 8 = some 8 := by
        have hc : fdt_check_prop_offset_ blobLoop 8 = 8 := by decide
        unfold fdt_next_property_offset
        rw [hc, if_neg (by decide), nextprop_, ht]
        simp only []
        rw [if_neg (by decide), if_pos trivial]
      have hfp : fdt_first_property_offset (F + 1) blobLoop 0 = some 8 := by
        have hc : fdt_check_node_offset_ blobLoop 0 = 8 := by decide
        unfold fdt_first_property_offset
        rw [hc, if_neg (by decide), nextprop_, ht]
        simp only []
        rw [if_neg (by decide), if_pos trivial]
      have hloop : ∀ f : Nat,
          fdt_get_property_namelen_loop (F + 1) blobLoop [0x78] 1 f 8 = none := by
        intro f
        induction f with
        | zero => rfl
        | succ f ih =>
          have hg : fdt_get_property_by_offset_ blobLoop 8 = (some 72, -12) := by decide
          have hs : fdt_string_eq_ blobLoop (i32 (fdt32_ld blobLoop (72 + 8))) [0x78] 1 = false := by
            decide
          rw [fdt_get_property_namelen_loop, if_pos (by decide), hg]
          simp only []
          rw [hs, hnp]
          simpa using ih
      have hl : i32 (strlen [0x78] 0) = 1 := by decide
      unfold fdt_getprop fdt_getprop_namelen fdt_get_property_namelen_
      rw [hl, hfp]
      simp only []
      rw [hloop (F + 1)]
      rfl

theorem next_node_at_succ (fdt : Blob) (n : Nat) (nextoffset : Int) (depth : Option Int) :
    next_node_at fdt (n + 1) nextoffset depth =
      if (fdt_next_tag fdt nextoffset).1 = FDT_PROP ∨ (fdt_next_tag fdt nextoffset).1 = FDT_NOP then
        next_node_at fdt n (fdt_next_tag fdt nextoffset).2 depth
      else if (fdt_next_tag fdt nextoffset).1 = FDT_BEGIN_NODE then none
      else if (fdt_next_tag fdt nextoffset).1 = FDT_END_NODE then
        match depth with
        | some d =>
          if i32 (d - 1) < 0 then none
          else next_node_at fdt n (fdt_next_tag fdt nextoffset).2 (some (i32 (d - 1)))
        | none => next_node_at fdt n (fdt_next_tag fdt nextoffset).2 none
      else if (fdt_next_tag fdt nextoffset).1 = FDT_END then none
      else next_node_at fdt n (fdt_next_tag fdt nextoffset).2 depth := rfl

/-- After `n` iterations that did not return, the loop of `fdt_next_node`
goes on from the state `next_node_at` gives. -/
theorem next_node_loop_at (fdt : Blob) :
    ∀ (n : Nat) (off : Int) (d : Option Int) (e : Int) (dd : Option Int),
      next_node_at fdt n off d = some (e, dd) →
      ∀ k, fdt_next_node_loop fdt (n + k) off d = fdt_next_node_loop fdt k e dd := by
  intro n
  induction n with
  | zero =>
    intro off d e dd h k
    simp only [next_node_at, Option.some.injEq, Prod.mk.injEq] at h
    rw [h.1, h.2, Nat.zero_add]
  | succ n ih =>
    intro off d e dd h k
    have e1 : n + 1 + k = (n + k) + 1 := by omega
    rw [e1, next_node_loop_succ]
    rw [next_node_at_succ] at h
    split_ifs at h ⊢ with h1 h2 h3 h4
    · exact ih _ _ _ _ h k
    · cases d with
      | none => exact ih _ _ _ _ h k
      | some x =>
        simp only [] at h ⊢
        split_ifs at h ⊢ with h5
        exact ih _ _ _ _ h k
    · exact ih _ _ _ _ h k

theorem next_node_unfold (fuel : Nat) (fdt : Blob) (offset : Int) (depth : Option Int) :
    fdt_next_node fuel fdt offset depth =
      if 0 ≤ offset ∧ next_node_start fdt offset < 0 then some (next_node_start fdt offset, depth)
      else fdt_next_node_loop fdt fuel (next_node_start fdt offset) depth := by
  unfold fdt_next_node next_node_start
  by_cases h : offset ≥ 0
  · rw [if_pos h, if_pos h]
    by_cases h2 : fdt_check_node_offset_ fdt offset < 0
    · rw [if_pos h2, if_pos ⟨h, h2⟩]
    · rw [if_neg h2, if_neg (fun c => h2 c.2)]
  · rw [if_neg h, if_neg h, if_neg (fun c => h c.1)]

theorem tagalign_mod (x : Int) : FDT_TAGALIGN x % 4 = 0 := by
  unfold FDT_TAGALIGN
  omega

/-- What `fdt_next_tag` reports: the tag `END` with `-TRUNCATED` or
`-BADSTRUCTURE`, or a next offset that is a multiple of 4. -/
theorem next_tag_cases (fdt : Blob) (off : Int) :
    fdt_next_tag fdt off = (FDT_END, -FDT_ERR_TRUNCATED) ∨
    fdt_next_tag fdt off = (FDT_END, -FDT_ERR_BADSTRUCTURE) ∨
    (fdt_next_tag fdt off).2 % 4 = 0 := by
  unfold fdt_next_tag
  cases fdt_offset_ptr fdt off FDT_TAGSIZE with
  | none => exact Or.inl rfl
  | some tagp =>
    simp only []
    cases next_tag_payload fdt (fdt32_ld fdt tagp) (i32 (off + FDT_TAGSIZE)) with
    | none => exact Or.inr (Or.inl rfl)
    | some o =>
      simp only []
      cases fdt_offset_ptr fdt off (u32 (o - off)) with
      | none => exact Or.inr (Or.inl rfl)
      | some q => exact Or.inr (Or.inr (tagalign_mod o))

theorem next_tag_ne_notfound (fdt : Blob) (off : Int) :
    (fdt_next_tag fdt off).2 ≠ -FDT_ERR_NOTFOUND := by
  rcases next_tag_cases fdt off with h | h | h
  · rw [h]; decide
  · rw [h]; decide
  · intro c
    rw [c] at h
    exact absurd h (by decide)

theorem next_tag_neg_one (fdt : Blob) : fdt_next_tag fdt (-1) = (FDT_END, -FDT_ERR_TRUNCATED) := by
  obtain ⟨b1, b2, b3⟩ := hdr_bounds fdt
  have : fdt_offset_ptr fdt (-1) FDT_TAGSIZE = none := by
    unfold fdt_offset_ptr u32 FDT_TAGSIZE
    simp only []
    rw [if_pos (by omega)]
  unfold fdt_next_tag
  rw [this]

/-- The loop of `fdt_next_node` returns `-NOTFOUND` only from the `FDT_END`
case, with a non-negative next offset or, without a depth counter, with
`-TRUNCATED`. -/
theorem next_node_loop_notfound (fdt : Blob) :
    ∀ (fuel : Nat) (off : Int) (depth : Option Int) (dep : Option Int),
      fdt_next_node_loop fdt fuel off depth = some (-FDT_ERR_NOTFOUND, dep) →
      ∃ n e dd, n < fuel ∧ next_node_at fdt n off depth = some (e, dd) ∧
        (fdt_next_tag fdt e).1 = FDT_END ∧
        (0 ≤ (fdt_next_tag fdt e).2 ∨
          ((fdt_next_tag fdt e).2 = -FDT_ERR_TRUNCATED ∧ depth = none)) := by
  intro fuel
  induction fuel with
  | zero => intro off depth dep h; simp [fdt_next_node_loop] at h
  | succ fuel ih =>
    intro off depth dep h
    rw [next_node_loop_succ] at h
    have step : ∀ depth2 : Option Int, (depth2 = none ↔ depth = none) →
        next_node_at fdt 1 off depth = some ((fdt_next_tag fdt off).2, depth2) →
        fdt_next_node_loop fdt fuel (fdt_next_tag fdt off).2 depth2 =
          some (-FDT_ERR_NOTFOUND, dep) →
        ∃ n e dd, n < fuel + 1 ∧ next_node_at fdt n off depth = some (e, dd) ∧
          (fdt_next_tag fdt e).1 = FDT_END ∧
          (0 ≤ (fdt_next_tag fdt e).2 ∨
            ((fdt_next_tag fdt e).2 = -FDT_ERR_TRUNCATED ∧ depth = none)) := by
      intro depth2 hd h1 h2
      obtain ⟨n, e, dd, a1, a2, a3, a4⟩ := ih _ _ _ h2
      refine ⟨n + 1, e, dd, by omega, ?_, a3, ?_⟩
      · rw [next_node_at_succ] at h1 ⊢
        split_ifs at h1 ⊢ with c1 c2 c3 c4
        · simp only [next_node_at, Option.some.injEq, Prod.mk.injEq, true_and] at h1
          rw [h1]; exact a2
        · cases depth with
          | none =>
            simp only [next_node_at, Option.some.injEq, Prod.mk.injEq, true_and] at h1 ⊢
            rw [h1]; exact a2
          | some x =>
            simp only [] at h1 ⊢
            split_ifs at h1 ⊢ with c5
            simp only [next_node_at, Option.some.injEq, Prod.mk.injEq, true_and] at h1
            rw [h1]; exact a2
        · simp only [next_node_at, Option.some.injEq, Prod.mk.injEq, true_and] at h1
          rw [h1]; exact a2
      · rcases a4 with a4 | ⟨a4, a5⟩
        · exact Or.inl a4
        · exact Or.inr ⟨a4, hd.mp a5⟩
    split_ifs at h with c1 c2 c3 c4 c5
    · exact step depth Iff.rfl (by rw [next_node_at_succ, if_pos c1]; rfl) h
    · simp only [Option.some.injEq, Prod.mk.injEq] at h
      exfalso
      have := next_tag_neg_one fdt
      rw [h.1] at c2
      rw [show (-FDT_ERR_NOTFOUND : Int) = -1 from rfl, this] at c2
      exact absurd c2 (by decide)
    · cases depth with
      | none =>
        simp only [] at h
        exact step none Iff.rfl (by rw [next_node_at_succ, if_neg c1, if_neg c2, if_pos c3]; rfl) h
      | some x =>
        simp only [] at h
        split_ifs at h with c6
        · simp only [Option.some.injEq, Prod.mk.injEq] at h
          exact absurd h.1 (next_tag_ne_notfound fdt off)
        · exact step (some (i32 (x - 1))) (by simp)
            (by rw [next_node_at_succ, if_neg c1, if_neg c2, if_pos c3]; simp only []
                rw [if_neg c6]; rfl) h
    · exact ⟨0, off, depth, by omega, rfl, c4, c5⟩
    · simp only [Option.some.injEq, Prod.mk.injEq] at h
      exact absurd h.1 (next_tag_ne_notfound fdt off)
    · exact step depth Iff.rfl
        (by rw [next_node_at_succ, if_neg c1, if_neg c2, if_neg c3, if_neg c4]; rfl) h

theorem tagalign_range (x : Int) :
    FDT_TAGALIGN x % 4 = 0 ∧ -2147483648 ≤ FDT_TAGALIGN x ∧ FDT_TAGALIGN x ≤ INT_MAX := by
  unfold FDT_TAGALIGN i32 INT_MAX
  omega

/-- When `fdt_next_tag` reports a tag other than `END`, the next offset is a
multiple of 4 in the range of `int`. -/
theorem next_tag_aligned (fdt : Blob) (off : Int) (h : (fdt_next_tag fdt off).1 ≠ FDT_END) :
    (fdt_next_tag fdt off).2 % 4 = 0 ∧ -2147483648 ≤ (fdt_next_tag fdt off).2 ∧
      (fdt_next_tag fdt off).2 ≤ INT_MAX := by
  unfold fdt_next_tag at h ⊢
  cases hp : fdt_offset_ptr fdt off FDT_TAGSIZE with
  | none => rw [hp] at h; exact absurd rfl h
  | some tagp =>
    rw [hp] at h
    simp only [] at h ⊢
    cases hq : next_tag_payload fdt (fdt32_ld fdt tagp) (i32 (off + FDT_TAGSIZE)) with
    | none => rw [hq] at h; exact absurd rfl h
    | some o =>
      rw [hq] at h
      simp only [] at h ⊢
      cases hr : fdt_offset_ptr fdt off (u32 (o - off)) with
      | none => rw [hr] at h; exact absurd rfl h
      | some q => exact tagalign_range o

theorem next_node_start_aligned (fdt : Blob) (offset : Int)
    (h : 0 ≤ next_node_start fdt offset) :
    next_node_start fdt offset % 4 = 0 ∧ -2147483648 ≤ next_node_start fdt offset ∧
      next_node_start fdt offset ≤ INT_MAX := by
  obtain ⟨t1, t2, t3, t4, _⟩ := tags_distinct
  unfold next_node_start at h ⊢
  split_ifs at h ⊢ with c
  · unfold fdt_check_node_offset_ at h ⊢
    split_ifs at h ⊢ with c1 c2
    · exact absurd h (by decide)
    · exact absurd h (by decide)
    · have hb : (fdt_next_tag fdt offset).1 = FDT_BEGIN_NODE := by
        by_contra hc; exact c2 hc
      exact next_tag_aligned fdt offset (by rw [hb]; exact t4)
  · decide

theorem next_node_at_aligned (fdt : Blob) :
    ∀ (n : Nat) (off : Int) (d : Option Int) (e : Int) (dd : Option Int),
      (off % 4 = 0 ∧ -2147483648 ≤ off ∧ off ≤ INT_MAX) →
      next_node_at fdt n off d = some (e, dd) →
      (e % 4 = 0 ∧ -2147483648 ≤ e ∧ e ≤ INT_MAX) ∧ (dd = none ↔ d = none) := by
  obtain ⟨t1, t2, t3, t4, t5, t6, t7, t8, t9, t10⟩ := tags_distinct
  intro n
  induction n with
  | zero =>
    intro off d e dd ho h
    simp only [next_node_at, Option.some.injEq, Prod.mk.injEq] at h
    rw [← h.1, ← h.2]
    exact ⟨ho, Iff.rfl⟩
  | succ n ih =>
    intro off d e dd ho h
    rw [next_node_at_succ] at h
    split_ifs at h with c1 c2 c3 c4
    · exact ih _ _ _ _ (next_tag_aligned fdt off (by
        rcases c1 with c | c <;> rw [c]
        · exact t9
        · exact t10)) h
    · cases d with
      | none => exact ih _ _ _ _ (next_tag_aligned fdt off (by rw [c3]; exact t7)) h
      | some x =>
        simp only [] at h
        split_ifs at h with c5
        have := ih _ _ _ _ (next_tag_aligned fdt off (by rw [c3]; exact t7)) h
        exact ⟨this.1, by simp [this.2]⟩
    · exact ih _ _ _ _ (next_tag_aligned fdt off c4) h

/-- An `END_NODE` tag read at an aligned offset of a blob with
`totalsize <= INT_MAX`: the offset is not negative and the next offset is 4
bytes further. -/
theorem end_node_next (fdt : Blob) (ht : fdt_totalsize fdt ≤ INT_MAX) (e : Int)
    (he : e % 4 = 0 ∧ -2147483648 ≤ e ∧ e ≤ INT_MAX)
    (htag : (fdt_next_tag fdt e).1 = FDT_END_NODE) :
    0 ≤ e ∧ (fdt_next_tag fdt e).2 = e + 4 := by
  obtain ⟨t1, t2, t3, t4, t5, t6, t7, t8, t9, t10⟩ := tags_distinct
  obtain ⟨b1, b2, b3⟩ := hdr_bounds fdt
  unfold fdt_next_tag at htag ⊢
  cases hp : fdt_offset_ptr fdt e FDT_TAGSIZE with
  | none => rw [hp] at htag; exact absurd htag (Ne.symm t7)
  | some tagp =>
    rw [hp] at htag
    simp only [] at htag ⊢
    have hs := offset_ptr_some fdt e FDT_TAGSIZE tagp ht ⟨he.2.1, he.2.2⟩ (by decide) hp
    unfold FDT_TAGSIZE at hs
    cases hq : next_tag_payload fdt (fdt32_ld fdt tagp) (i32 (e + FDT_TAGSIZE)) with
    | none => rw [hq] at htag; exact absurd htag (Ne.symm t7)
    | some o =>
      rw [hq] at htag
      simp only [] at htag ⊢
      cases hr : fdt_offset_ptr fdt e (u32 (o - e)) with
      | none => rw [hr] at htag; exact absurd htag (Ne.symm t7)
      | some q =>
        rw [hr] at htag
        simp only [] at htag ⊢
        refine ⟨hs.1, ?_⟩
        unfold next_tag_payload at hq
        rw [htag, if_neg (Ne.symm t1), if_neg t5, if_pos (Or.inr (Or.inl rfl))] at hq
        simp only [Option.some.injEq] at hq
        rw [← hq]
        unfold FDT_TAGALIGN i32 FDT_TAGSIZE
        unfold INT_MAX at ht
        omega

/-- C25, the code at the failing input: from the root of `blobMin` with the
depth counter 0, `fdt_next_node` meets the `END_NODE` of the root at offset 8,
whose decrement takes the counter to -1, and returns 12, the offset after
that tag, which is not a negative error code. -/
theorem C25_end_node_returns_offset :
    next_node_start blobMin 0 = 8 ∧ next_node_at blobMin 0 8 (some 0) = some (8, some 0) ∧
    (fdt_next_tag blobMin 8).1 = FDT_END_NODE ∧ i32 (0 - 1) < 0 ∧
    fdt_next_node 10 blobMin 0 (some 0) = some (12, some (-1)) ∧ ¬ ((12 : Int) < 0) := by
  refine ⟨by decide, by decide, by decide, by decide, by decide, by decide⟩

/-- The `END_NODE` case of `fdt_next_node`: when the walk, entered at a
non-negative offset with the depth counter `d`, stands after `n` iterations at
an `END_NODE` tag (offset `e`, counter `x`) whose decrement takes the counter
below zero, `fdt_next_node` returns the next offset that `fdt_next_tag`
reports for this tag and leaves the counter negative; in a blob with
`totalsize <= INT_MAX` this value is `e + 4` with `e >= 0`. -/
theorem end_node_below_zero (fdt : Blob) (offset d : Int) (n : Nat) (e x : Int)
    (hstart : 0 ≤ next_node_start fdt offset)
    (hat : next_node_at fdt n (next_node_start fdt offset) (some d) = some (e, some x))
    (htag : (fdt_next_tag fdt e).1 = FDT_END_NODE) (hneg : i32 (x - 1) < 0) :
    (∀ fuel, n < fuel → fdt_next_node fuel fdt offset (some d) =
      some ((fdt_next_tag fdt e).2, some (i32 (x - 1)))) ∧
    (fdt_totalsize fdt ≤ INT_MAX → 0 ≤ e ∧ (fdt_next_tag fdt e).2 = e + 4) := by
  obtain ⟨t1, t2, t3, t4, t5, t6, t7, t8, t9, t10⟩ := tags_distinct
  constructor
  · intro fuel hf
    obtain ⟨k, rfl⟩ : ∃ k, fuel = n + (k + 1) := ⟨fuel - n - 1, by omega⟩
    rw [next_node_unfold, if_neg (fun c => by omega),
      next_node_loop_at fdt n _ _ e (some x) hat (k + 1), next_node_loop_succ, htag,
      if_neg (by
        rintro (c | c)
        · exact t5 c
        · exact t6 c),
      if_neg (Ne.symm t1), if_pos rfl]
    simp only []
    rw [if_pos hneg]
  · intro ht
    have ha := (next_node_at_aligned fdt n _ _ e _ (next_node_start_aligned fdt offset hstart)
      hat).1
    exact end_node_next fdt ht e ha htag

theorem end_node_below_zero_witness :
    fdt_next_node 10 blobMin 0 (some 0) =
      some ((fdt_next_tag blobMin 8).2, some (i32 (0 - 1))) ∧
    (fdt_next_tag blobMin 8).2 = 8 + 4 :=
  ⟨(end_node_below_zero blobMin 0 0 0 8 0 (by decide) (by decide) (by decide)
      (by decide)).1 10 (by decide),
    ((end_node_below_zero blobMin 0 0 0 8 0 (by decide) (by decide) (by decide)
      (by decide)).2 (by decide)).2⟩

/-- C26, as stated, fails without a depth counter: `blobNoEnd`, accepted by
`fdt_check_header`, has no `END` tag; the walk from the root runs past the end
of the structure block at offset 12, where `fdt_next_tag` reports `END` with
`-TRUNCATED`, and with the depth argument null `fdt_next_node` returns
`-NOTFOUND`. -/
theorem C26_counterexample :
    fdt_check_header specSizes blobNoEnd = 0 ∧ next_node_start blobNoEnd 0 = 8 ∧
    next_node_at blobNoEnd 1 8 none = some (12, none) ∧
    fdt_next_tag blobNoEnd 12 = (FDT_END, -FDT_ERR_TRUNCATED) ∧
    fdt_next_node 10 blobNoEnd 0 none = some (-FDT_ERR_NOTFOUND, none) := by
  refine ⟨by decide, by decide, by decide, by decide, by decide⟩

/-- C26, amended: `fdt_next_node` returns `-NOTFOUND` only when its walk
reaches a tag for which `fdt_next_tag` reports `END` with a non-negative next
offset (a genuine `END` tag) or, the depth argument being null, `END` with
`-TRUNCATED`; when the walk reaches a genuine `END` tag it returns
`-NOTFOUND`; and when it runs past the end of the structure block (`END`
with `-TRUNCATED`) it returns `-TRUNCATED` with a depth counter and
`-NOTFOUND` with a null depth argument. -/
theorem C26_next_node_end (fdt : Blob) (offset : Int) (depth : Option Int) :
    (∀ fuel dep, fdt_next_node fuel fdt offset depth = some (-FDT_ERR_NOTFOUND, dep) →
      ∃ n e dd, n < fuel ∧
        next_node_at fdt n (next_node_start fdt offset) depth = some (e, dd) ∧
        (fdt_next_tag fdt e).1 = FDT_END ∧
        (0 ≤ (fdt_next_tag fdt e).2 ∨
          ((fdt_next_tag fdt e).2 = -FDT_ERR_TRUNCATED ∧ depth = none))) ∧
    (0 ≤ next_node_start fdt offset →
      ∀ n e dd, next_node_at fdt n (next_node_start fdt offset) depth = some (e, dd) →
        (fdt_next_tag fdt e).1 = FDT_END →
        (0 ≤ (fdt_next_tag fdt e).2 → ∀ fuel, n < fuel →
          fdt_next_node fuel fdt offset depth = some (-FDT_ERR_NOTFOUND, dd)) ∧
        ((fdt_next_tag fdt e).2 = -FDT_ERR_TRUNCATED → ∀ fuel, n < fuel →
          fdt_next_node fuel fdt offset depth =
            some (if depth = none then -FDT_ERR_NOTFOUND else -FDT_ERR_TRUNCATED, dd))) := by
  obtain ⟨t1, t2, t3, t4, t5, t6, t7, t8, t9, t10⟩ := tags_distinct
  constructor
  · intro fuel dep h
    rw [next_node_unfold] at h
    split_ifs at h with c
    · exfalso
      simp only [Option.some.injEq, Prod.mk.injEq] at h
      have h1 := h.1
      unfold next_node_start at h1
      rw [if_pos c.1] at h1
      unfold fdt_check_node_offset_ at h1
      split_ifs at h1 with c1 c2
      · exact absurd h1 (by decide)
      · exact absurd h1 (by decide)
      · exact next_tag_ne_notfound fdt offset h1
    · exact next_node_loop_notfound fdt fuel _ depth dep h
  · intro hstart n e dd hat htag
    have hdd := (next_node_at_aligned fdt n _ _ e dd
      (next_node_start_aligned fdt offset hstart) hat).2
    have hstep : ∀ k, fdt_next_node (n + (k + 1)) fdt offset depth =
        if (fdt_next_tag fdt e).2 ≥ 0 ∨ ((fdt_next_tag fdt e).2 = -FDT_ERR_TRUNCATED ∧ dd = none)
        then some (-FDT_ERR_NOTFOUND, dd) else some ((fdt_next_tag fdt e).2, dd) := by
      intro k
      rw [next_node_unfold, if_neg (fun c => by omega),
        next_node_loop_at fdt n _ _ e dd hat (k + 1), next_node_loop_succ, htag,
        if_neg (by
          rintro (c | c)
          · exact t9 c.symm
          · exact t10 c.symm),
        if_neg (Ne.symm t4), if_neg (Ne.symm t7), if_pos rfl]
    constructor
    · intro hn fuel hf
      obtain ⟨k, rfl⟩ : ∃ k, fuel = n + (k + 1) := ⟨fuel - n - 1, by omega⟩
      rw [hstep k, if_pos (Or.inl hn)]
    · intro hn fuel hf
      obtain ⟨k, rfl⟩ : ∃ k, fuel = n + (k + 1) := ⟨fuel - n - 1, by omega⟩
      rw [hstep k, hn]
      by_cases hd : depth = none
      · rw [if_pos (Or.inr ⟨rfl, hdd.mpr hd⟩), if_pos hd]
      · rw [if_neg (by
          rintro (c | c)
          · exact absurd c (by decide)
          · exact hd (hdd.mp c.2)), if_neg hd]

theorem C26_next_node_end_witness :
    fdt_next_tag blobNoEnd 12 = (FDT_END, -FDT_ERR_TRUNCATED) ∧
    fdt_next_node 10 blobNoEnd 0 (some 1) =
      some (if (some 1 : Option Int) = none then -FDT_ERR_NOTFOUND else -FDT_ERR_TRUNCATED,
        some 0) :=
  ⟨by decide,
    (((C26_next_node_end blobNoEnd 0 (some 1)).2 (by decide) 1 12 (some 0) (by decide)
      (by decide)).2 (by decide)) 10 (by decide)⟩

theorem tag_depth_nil : tag_depth [] = 0 := rfl

theorem tag_depth_cons (t : Int) (l : List Int) :
    tag_depth (t :: l) =
      (if t = FDT_BEGIN_NODE then 1 else 0) - (if t = FDT_END_NODE then 1 else 0) +
        tag_depth l := by
  unfold tag_depth
  rw [List.count_cons, List.count_cons]
  by_cases h1 : t = FDT_BEGIN_NODE <;> by_cases h2 : t = FDT_END_NODE <;>
    simp [h1, h2] <;> omega

/-- A property that `fdt_getprop_by_offset` returns with its name has a name
offset that resolves through `fdt_get_string`. -/
theorem getprop_by_offset_name (fdt : Blob) (off : Int)
    (h : (fdt_getprop_by_offset fdt off true).1.isSome) :
    (fdt_get_string fdt (i32 (fdt32_ld fdt (fdt_offset_ptr_ fdt off + 8)))).1.isSome := by
  unfold fdt_getprop_by_offset at h
  by_cases c : fdt_check_prop_offset_ fdt off < 0
  · have e : fdt_get_property_by_offset_ fdt off = (none, fdt_check_prop_offset_ fdt off) := by
      unfold fdt_get_property_by_offset_
      rw [if_pos c]
    rw [e] at h
    simp at h
  · have e : fdt_get_property_by_offset_ fdt off =
        (some (fdt_offset_ptr_ fdt off), i32 (fdt32_ld fdt (fdt_offset_ptr_ fdt off + 4))) := by
      unfold fdt_get_property_by_offset_
      rw [if_neg c]
    rw [e] at h
    simp only [if_true] at h
    rcases hs : fdt_get_string fdt (i32 (fdt32_ld fdt (fdt_offset_ptr_ fdt off + 8))) with ⟨_ | nm, l⟩
    · rw [hs] at h; simp at h
    · rfl

/-- When the loop of `fdt_check_full`, entered at `off` with `d` open nodes,
returns 0, the tags read from `off` up to the first `END` close exactly these
`d` nodes and never more than are open, and the name offset of every property
among them resolves. -/
theorem check_full_loop_balanced (fdt : Blob) :
    ∀ (f : Nat) (off d : Int), 0 ≤ d → d ≤ INT_MAX →
      fdt_check_full_loop fdt f off d = some 0 →
      (∀ k : Nat, 0 ≤ d + tag_depth (((tag_walk fdt f off).map fun t => t.2.1).take k)) ∧
      d + tag_depth ((tag_walk fdt f off).map fun t => t.2.1) = 0 ∧
      (∀ t ∈ tag_walk fdt f off, t.2.1 = FDT_PROP →
        (fdt_get_string fdt (i32 (fdt32_ld fdt (fdt_offset_ptr_ fdt t.1 + 8)))).1.isSome) ∧
      (∀ t ∈ tag_walk fdt f off, 0 ≤ t.2.2) := by
  obtain ⟨t1, t2, t3, t4, t5, t6, t7, t8, t9, t10⟩ := tags_distinct
  intro f
  induction f with
  | zero => intro off d _ _ h; simp [fdt_check_full_loop] at h
  | succ f ih =>
    intro off d hd0 hd1 h
    obtain ⟨hn, hcase⟩ := check_full_loop_step fdt f off d h
    rw [tag_walk_succ]
    have cont : ∀ d2 : Int, 0 ≤ d2 → d2 ≤ INT_MAX →
        (fdt_next_tag fdt off).1 ≠ FDT_END →
        d2 = d + ((if (fdt_next_tag fdt off).1 = FDT_BEGIN_NODE then 1 else 0) -
          (if (fdt_next_tag fdt off).1 = FDT_END_NODE then 1 else 0)) →
        ((fdt_next_tag fdt off).1 = FDT_PROP →
          (fdt_get_string fdt (i32 (fdt32_ld fdt (fdt_offset_ptr_ fdt off + 8)))).1.isSome) →
        fdt_check_full_loop fdt f (fdt_next_tag fdt off).2 d2 = some 0 →
        (∀ k : Nat, 0 ≤ d + tag_depth ((((off, (fdt_next_tag fdt off).1,
            (fdt_next_tag fdt off).2) ::
          (if (fdt_next_tag fdt off).1 = FDT_END then []
            else tag_walk fdt f (fdt_next_tag fdt off).2)).map fun t => t.2.1).take k)) ∧
        d + tag_depth (((off, (fdt_next_tag fdt off).1, (fdt_next_tag fdt off).2) ::
          (if (fdt_next_tag fdt off).1 = FDT_END then []
            else tag_walk fdt f (fdt_next_tag fdt off).2)).map fun t => t.2.1) = 0 ∧
        (∀ t ∈ ((off, (fdt_next_tag fdt off).1, (fdt_next_tag fdt off).2) ::
          (if (fdt_next_tag fdt off).1 = FDT_END then []
            else tag_walk fdt f (fdt_next_tag fdt off).2)), t.2.1 = FDT_PROP →
          (fdt_get_string fdt (i32 (fdt32_ld fdt (fdt_offset_ptr_ fdt t.1 + 8)))).1.isSome) ∧
        (∀ t ∈ ((off, (fdt_next_tag fdt off).1, (fdt_next_tag fdt off).2) ::
          (if (fdt_next_tag fdt off).1 = FDT_END then []
            else tag_walk fdt f (fdt_next_tag fdt off).2)), 0 ≤ t.2.2) := by
      intro d2 h0 h1 hne hd2 hprop hl
      obtain ⟨a1, a2, a3, a4⟩ := ih _ d2 h0 h1 hl
      rw [if_neg hne]
      simp only [List.map_cons]
      refine ⟨?_, ?_, ?_, ?_⟩
      · intro k
        cases k with
        | zero => simpa [tag_depth_nil] using hd0
        | succ k =>
          rw [List.take_succ_cons, tag_depth_cons]
          have := a1 k
          rw [hd2] at this
          omega
      · rw [tag_depth_cons]
        rw [hd2] at a2
        omega
      · intro t ht
        rcases List.mem_cons.mp ht with rfl | ht
        · exact hprop
        · exact a3 t ht
      · intro t ht
        rcases List.mem_cons.mp ht with rfl | ht
        · exact hn
        · exact a4 t ht
    rcases hcase with ⟨c, hl⟩ | ⟨c, hd⟩ | ⟨c, hu, hl⟩ | ⟨c, hd, hl⟩ | ⟨c, hg, hl⟩
    · exact cont d hd0 hd1 (by rw [c]; exact t10)
        (by rw [c, if_neg (Ne.symm t3), if_neg (Ne.symm t6)]; omega)
        (fun hc => by rw [c] at hc; exact absurd hc (Ne.symm t8)) hl
    · rw [if_pos c, c]
      simp only [List.map_cons, List.map_nil]
      have hE : tag_depth [FDT_END] = 0 := by decide
      refine ⟨?_, by rw [hE]; omega, ?_, ?_⟩
      · intro k
        cases k with
        | zero => simpa [tag_depth_nil] using hd0
        | succ k =>
          rw [List.take_succ_cons, List.take_nil, hE]
          omega
      · intro t ht hp
        simp only [List.mem_singleton] at ht
        rw [ht] at hp
        exact absurd hp (Ne.symm t9)
      · intro t ht
        simp only [List.mem_singleton] at ht
        rw [ht]
        exact hn
    · have hu1 : u32 (d + 1) = d + 1 := by
        unfold u32; unfold INT_MAX at hd1; omega
      rw [hu1] at hl hu
      exact cont (d + 1) (by omega) hu (by rw [c]; exact t4)
        (by rw [c, if_pos rfl, if_neg t1]; omega)
        (fun hc => by rw [c] at hc; exact absurd hc t2) hl
    · have hu1 : u32 (d - 1) = d - 1 := by
        unfold u32; unfold INT_MAX at hd1; omega
      rw [hu1] at hl
      exact cont (d - 1) (by omega) (by omega) (by rw [c]; exact t7)
        (by rw [c, if_neg (Ne.symm t1), if_pos rfl]; omega)
        (fun hc => by rw [c] at hc; exact absurd hc t5) hl
    · exact cont d hd0 hd1 (by rw [c]; exact t9)
        (by rw [c, if_neg (Ne.symm t2), if_neg (Ne.symm t5)]; omega)
        (fun _ => getprop_by_offset_name fdt off hg) hl

/-- A tag that `fdt_next_tag` reports with a non-negative next offset is one
of the five tags of the format. -/
theorem next_tag_known (fdt : Blob) (off : Int) (h : 0 ≤ (fdt_next_tag fdt off).2) :
    (fdt_next_tag fdt off).1 = FDT_NOP ∨ (fdt_next_tag fdt off).1 = FDT_END ∨
    (fdt_next_tag fdt off).1 = FDT_BEGIN_NODE ∨ (fdt_next_tag fdt off).1 = FDT_END_NODE ∨
    (fdt_next_tag fdt off).1 = FDT_PROP := by
  unfold fdt_next_tag at h ⊢
  cases hp : fdt_offset_ptr fdt off FDT_TAGSIZE with
  | none => rw [hp] at h; simp only [] at h; exact absurd h (by decide)
  | some tagp =>
    rw [hp] at h
    simp only [] at h ⊢
    cases hq : next_tag_payload fdt (fdt32_ld fdt tagp) (i32 (off + FDT_TAGSIZE)) with
    | none => rw [hq] at h; simp only [] at h; exact absurd h (by decide)
    | some o =>
      rw [hq] at h
      simp only [] at h ⊢
      cases hr : fdt_offset_ptr fdt off (u32 (o - off)) with
      | none => rw [hr] at h; simp only [] at h; exact absurd h (by decide)
      | some q =>
        simp only []
        unfold next_tag_payload at hq
        split_ifs at hq with c1 c2 c3
        · exact Or.inr (Or.inr (Or.inl c1))
        · exact Or.inr (Or.inr (Or.inr (Or.inr c2)))
        · rcases c3 with c | c | c
          · exact Or.inr (Or.inl c)
          · exact Or.inr (Or.inr (Or.inr (Or.inl c)))
          · exact Or.inl c

/-- The loop of `fdt_check_full`, entered at `off` with `d` open nodes, when
the tags before the record `(e, t, nx)` all parse: an `END_NODE` that finds no
node open, or an `END` that finds one open, gives `-BADSTRUCTURE`. -/
theorem check_full_loop_unbalanced (fdt : Blob) :
    ∀ (pre : List (Int × Int × Int)) (f : Nat) (off d e t nx : Int)
      (post : List (Int × Int × Int)), 0 ≤ d → d ≤ INT_MAX →
      tag_walk fdt f off = pre ++ (e, t, nx) :: post →
      (∀ x ∈ pre, 0 ≤ x.2.2) → 0 ≤ nx →
      (∀ x ∈ pre, x.2.1 = FDT_PROP → (fdt_getprop_by_offset fdt x.1 true).1.isSome) →
      ((t = FDT_END_NODE ∧ d + tag_depth (pre.map fun x => x.2.1) = 0) ∨
        (t = FDT_END ∧ d + tag_depth (pre.map fun x => x.2.1) ≠ 0)) →
      fdt_check_full_loop fdt f off d = some (-FDT_ERR_BADSTRUCTURE) := by
  obtain ⟨t1, t2, t3, t4, t5, t6, t7, t8, t9, t10⟩ := tags_distinct
  intro pre
  induction pre with
  | nil =>
    intro f off d e t nx post hd0 hd1 hw _ hnx _ hcase
    cases f with
    | zero => simp [tag_walk] at hw
    | succ f =>
      rw [tag_walk_succ] at hw
      simp only [List.nil_append, List.cons.injEq, Prod.mk.injEq] at hw
      obtain ⟨⟨h1, h2, h3⟩, _⟩ := hw
      simp only [List.map_nil, tag_depth_nil, add_zero] at hcase
      rw [check_full_loop_succ, h2, h3, if_neg (by omega)]
      rcases hcase with ⟨c, hd⟩ | ⟨c, hd⟩
      · rw [c, if_neg t6, if_neg t7, if_neg (Ne.symm t1), if_pos rfl, if_pos hd]
      · rw [c, if_neg (Ne.symm t10), if_pos rfl, if_pos hd]
  | cons x pre ih =>
    intro f off d e t nx post hd0 hd1 hw hpre hnx hprop hcase
    cases f with
    | zero => simp [tag_walk] at hw
    | succ f =>
      rw [tag_walk_succ] at hw
      simp only [List.cons_append, List.cons.injEq] at hw
      obtain ⟨hx, hrest⟩ := hw
      have hne : (fdt_next_tag fdt off).1 ≠ FDT_END := by
        intro c
        rw [if_pos c] at hrest
        exact absurd hrest (by simp)
      rw [if_neg hne] at hrest
      have hxn : 0 ≤ (fdt_next_tag fdt off).2 := by
        have := hpre x (List.mem_cons_self _ _)
        rw [← hx] at this
        exact this
      have hxp : (fdt_next_tag fdt off).1 = FDT_PROP →
          (fdt_getprop_by_offset fdt off true).1.isSome := by
        intro c
        have := hprop x (List.mem_cons_self _ _)
        rw [← hx] at this
        exact this c
      have hxt : x.2.1 = (fdt_next_tag fdt off).1 := by rw [← hx]
      simp only [List.map_cons] at hcase
      rw [tag_depth_cons, hxt] at hcase
      have rec_ : ∀ d2 : Int, 0 ≤ d2 → d2 ≤ INT_MAX →
          d2 = d + ((if (fdt_next_tag fdt off).1 = FDT_BEGIN_NODE then 1 else 0) -
            (if (fdt_next_tag fdt off).1 = FDT_END_NODE then 1 else 0)) →
          fdt_check_full_loop fdt f (fdt_next_tag fdt off).2 d2 =
            some (-FDT_ERR_BADSTRUCTURE) := by
        intro d2 h0 h1 hd2
        apply ih f _ d2 e t nx post h0 h1 hrest
          (fun y hy => hpre y (List.mem_cons_of_mem _ hy)) hnx
          (fun y hy => hprop y (List.mem_cons_of_mem _ hy))
        rcases hcase with ⟨c, hd⟩ | ⟨c, hd⟩
        · exact Or.inl ⟨c, by rw [hd2]; omega⟩
        · exact Or.inr ⟨c, by rw [hd2]; omega⟩
      rw [check_full_loop_succ, if_neg (by omega)]
      rcases next_tag_known fdt off hxn with c | c | c | c | c
      · rw [if_pos c]
        exact rec_ d hd0 hd1 (by rw [c, if_neg (Ne.symm t3), if_neg (Ne.symm t6)]; omega)
      · exact absurd c hne
      · rw [c, if_neg t3, if_neg t4, if_pos rfl]
        by_cases ho : u32 (d + 1) > INT_MAX
        · rw [if_pos ho]
        · have hu1 : u32 (d + 1) = d + 1 := by
            unfold u32; unfold INT_MAX at hd1; omega
          rw [if_neg ho, hu1]
          rw [hu1] at ho
          have := rec_ (d + 1) (by omega) (by omega) (by rw [c, if_pos rfl, if_neg t1]; omega)
          exact this
      · rw [c, if_neg t6, if_neg t7, if_neg (Ne.symm t1), if_pos rfl]
        by_cases hz : d = 0
        · rw [if_pos hz]
        · have hu1 : u32 (d - 1) = d - 1 := by
            unfold u32; unfold INT_MAX at hd1; omega
          rw [if_neg hz, hu1]
          have := rec_ (d - 1) (by omega) (by omega)
            (by rw [c, if_neg (Ne.symm t1), if_pos rfl]; omega)
          exact this
      · have hg := hxp c
        rw [c, if_neg t8, if_neg t9, if_neg (Ne.symm t2), if_neg (Ne.symm t5), if_pos rfl]
        rcases hgp : fdt_getprop_by_offset fdt off true with ⟨_ | p, nm, l⟩
        · rw [hgp] at hg; simp at hg
        · simp only []
          have := rec_ d hd0 hd1 (by rw [c, if_neg (Ne.symm t2), if_neg (Ne.symm t5)]; omega)
          exact this

/-- C27: `fdt_check_full` returns 0 only if the tags that `fdt_next_tag` reads
from structure offset 0 up to the first `END` are balanced (no prefix has more
`END_NODE` than `BEGIN_NODE` tags, the whole sequence has equally many) and
the name offset of every `PROP` among them resolves through `fdt_get_string`;
and when the header, size and reservation-map checks pass and the tags before
it parse, an `END_NODE` that finds no node open, or an `END` that finds a node
open, makes it return `-BADSTRUCTURE`. -/
theorem C27_check_full_balanced (sz : HdrSizes) (fuel : Nat) (fdt : Blob) (bufsize : Int) :
    (fdt_check_full sz fuel fdt bufsize = some 0 →
      tags_balanced ((tag_walk fdt fuel 0).map fun t => t.2.1) ∧
      (∃ t, (tag_walk fdt fuel 0).getLast? = some t ∧ t.2.1 = FDT_END) ∧
      (∀ t ∈ tag_walk fdt fuel 0, t.2.1 = FDT_PROP →
        (fdt_get_string fdt (i32 (fdt32_ld fdt (fdt_offset_ptr_ fdt t.1 + 8)))).1.isSome)) ∧
    (¬ bufsize < sz.v1 → fdt_check_header sz fdt = 0 → ¬ bufsize < fdt_totalsize fdt →
      (∃ m, fdt_num_mem_rsv fuel fdt = some m ∧ 0 ≤ m) →
      ∀ pre e t nx post, tag_walk fdt fuel 0 = pre ++ (e, t, nx) :: post →
        (∀ x ∈ pre, 0 ≤ x.2.2) → 0 ≤ nx →
        (∀ x ∈ pre, x.2.1 = FDT_PROP → (fdt_getprop_by_offset fdt x.1 true).1.isSome) →
        ((t = FDT_END_NODE ∧ tag_depth (pre.map fun x => x.2.1) = 0) ∨
          (t = FDT_END ∧ tag_depth (pre.map fun x => x.2.1) ≠ 0)) →
        fdt_check_full sz fuel fdt bufsize = some (-FDT_ERR_BADSTRUCTURE)) := by
  constructor
  · intro h
    obtain ⟨_, _, hloop⟩ := check_full_zero sz fuel fdt bufsize h
    obtain ⟨a1, a2, a3, _⟩ := check_full_loop_balanced fdt fuel 0 0 (le_refl _) (by decide) hloop
    refine ⟨⟨?_, ?_⟩, tag_walk_complete fdt fuel 0 0 hloop, a3⟩
    · intro k _
      have := a1 k
      omega
    · omega
  · intro h1 h2 h3 ⟨m, hm, hm0⟩ pre e t nx post hw hpre hnx hprop hcase
    have hl := check_full_loop_unbalanced fdt pre fuel 0 0 e t nx post (le_refl _) (by decide)
      hw hpre hnx hprop (by
        rcases hcase with ⟨c, hd⟩ | ⟨c, hd⟩
        · exact Or.inl ⟨c, by omega⟩
        · exact Or.inr ⟨c, by omega⟩)
    unfold fdt_check_full
    rw [if_neg h1, if_neg (by rw [h2]; simp), if_neg h3, hm]
    simp only []
    rw [if_neg (by omega), hl]

theorem C27_check_full_balanced_witness :
    fdt_check_full specSizes 9 blobTree (fdt_totalsize blobTree) = some 0 ∧
    tags_balanced ((tag_walk blobTree 9 0).map fun t => t.2.1) ∧
    tag_walk blobOpen 10 0 = [(0, FDT_BEGIN_NODE, 8)] ++ (8, FDT_END, 12) :: [] ∧
    fdt_check_full specSizes 10 blobOpen 80 = some (-FDT_ERR_BADSTRUCTURE) :=
  ⟨by decide,
    ((C27_check_full_balanced specSizes 9 blobTree (fdt_totalsize blobTree)).1 (by decide)).1,
    by decide,
    (C27_check_full_balanced specSizes 10 blobOpen 80).2 (by decide) (by decide) (by decide)
      ⟨0, by decide, by decide⟩ [(0, FDT_BEGIN_NODE, 8)] 8 FDT_END 12 [] (by decide)
      (by decide) (by decide) (by decide) (Or.inr ⟨rfl, by decide⟩)⟩

/-- C31, the code at the failing input: the buffer is the first 28 bytes of
`blobMin` (a version-17 header with `totalsize = 80`) and `bufsize = 28`,
which passes the test `bufsize < FDT_V1_SIZE`.  `fdt_check_full` then calls
`fdt_check_header`, whose value depends on the fields `size_dt_strings`
(bytes 32..35) and `size_dt_struct` (bytes 36..39), which lie after the
buffer: for two memory contents with the same first 28 bytes it returns 0 and
`-TRUNCATED`.  Only afterwards does `fdt_check_full` compare `bufsize` with
`totalsize`; it returns `-TRUNCATED` in each case. -/
theorem C31_header_read_past_bufsize :
    ¬ ((28 : Int) < specSizes.v1) ∧ fdt_version blobMin = 17 ∧
    blobMin.take 28 = (blobMin.set 35 1).take 28 ∧
    blobMin.take 28 = (blobMin.set 39 0x11).take 28 ∧
    (fdt_size_dt_strings blobMin = 0 ∧ fdt_size_dt_strings (blobMin.set 35 1) = 1) ∧
    (fdt_size_dt_struct blobMin = 16 ∧ fdt_size_dt_struct (blobMin.set 39 0x11) = 17) ∧
    fdt_check_header specSizes blobMin = 0 ∧
    fdt_check_header specSizes (blobMin.set 35 1) = -FDT_ERR_TRUNCATED ∧
    fdt_check_header specSizes (blobMin.set 39 0x11) = -FDT_ERR_TRUNCATED ∧
    fdt_check_full specSizes 5 blobMin 28 = some (-FDT_ERR_TRUNCATED) ∧
    fdt_check_full specSizes 5 (blobMin.set 35 1) 28 = some (-FDT_ERR_TRUNCATED) ∧
    fdt_check_full specSizes 5 (blobMin.take 28) 28 = some (-FDT_ERR_TRUNCATED) := by
  refine ⟨by decide, by decide, by decide, by decide, ⟨by decide, by decide⟩,
    ⟨by decide, by decide⟩, by decide, by decide, by decide, by decide, by decide, by decide⟩

/-- A stored property name offset of `0x80000000` or more is a negative
`int stroffset`: in `blobNeg` the name offset `0xfffffffe` of the property at
offset 8 reaches `fdt_get_string` as -2, which is refused with `-BADOFFSET`,
although byte `off_dt_strings - 2` of the blob holds a NUL; `fdt_check_full`
reports the same code and the lookup of the empty name finds no property. -/
theorem name_offset_negative :
    fdt_check_header specSizes blobNeg = 0 ∧
    fdt32_ld blobNeg (fdt_offset_ptr_ blobNeg 8 + 8) = 0xfffffffe ∧
    fdt_get_string blobNeg (i32 (fdt32_ld blobNeg (fdt_offset_ptr_ blobNeg 8 + 8))) =
      (none, -FDT_ERR_BADOFFSET) ∧
    fdt_getprop_by_offset blobNeg 8 true = (none, none, -FDT_ERR_BADOFFSET) ∧
    fdt_check_full specSizes 10 blobNeg (fdt_totalsize blobNeg) = some (-FDT_ERR_BADOFFSET) ∧
    fdt_getprop 10 blobNeg 0 [] = some (none, -FDT_ERR_NOTFOUND) := by
  refine ⟨by decide, by decide, by decide, by decide, by decide, by decide⟩

theorem blobLoop_next_node_none (fuel : Nat) (depth : Option Int) :
    fdt_next_node fuel blobLoop 0 depth = none := by
  have ht : fdt_next_tag blobLoop 8 = (FDT_PROP, 8) := by decide
  have hloop : ∀ f : Nat, fdt_next_node_loop blobLoop f 8 depth = none := by
    intro f
    induction f with
    | zero => rfl
    | succ f ih =>
      rw [next_node_loop_succ, ht]
      simp only []
      rw [if_pos (Or.inl trivial)]
      exact ih
  have hc : fdt_check_node_offset_ blobLoop 0 = 8 := by decide
  unfold fdt_next_node
  rw [if_pos (le_refl _), hc, if_neg (by decide)]
  exact hloop fuel

/-- C16, the code at the failing input: `blobLoop` is accepted by
`fdt_check_header` and offset 0 is its root node, but neither
`fdt_first_subnode` nor `fdt_next_subnode` returns a value there: the walk of
`fdt_next_node` never leaves the property at offset 8, whose next offset
`fdt_next_tag` reports as 8, so both run out of every amount of fuel. -/
theorem C16_subnode_never_returns :
    fdt_check_header specSizes blobLoop = 0 ∧ fdt_check_node_offset_ blobLoop 0 = 8 ∧
    fdt_next_tag blobLoop 8 = (FDT_PROP, 8) ∧
    (∀ fuel, fdt_first_subnode fuel blobLoop 0 = none) ∧
    (∀ fuel, fdt_next_subnode fuel blobLoop 0 = none) := by
  refine ⟨by decide, by decide, by decide, fun fuel => ?_, fun fuel => ?_⟩
  · unfold fdt_first_subnode
    rw [blobLoop_next_node_none]
    rfl
  · unfold fdt_next_subnode
    cases fuel with
    | zero => rfl
    | succ f =>
      unfold fdt_next_subnode_loop
      rw [blobLoop_next_node_none]

end Libfdt
